import Mathlib

/-!
# ASRO container file: keys, directory, free-space table

A shallow embedding of `TFAsroFile.cxx` / `TFAsroFile.h` (classes `TFAsroKey`,
`TFAsroValue`, `TFAsroFile`) and of the registry of open files of `TFAsroIO.cxx` /
`TFAsroIO.h` (classes `TFAsroFileItem`, `TFAsroFiles`), and of the name selection of
`TFNameSelect.cxx` (class `TFToken`), together with theorems about them.

Conventions of the embedding

* `UInt_t` values are natural numbers below `2^32`; arithmetic that can leave that
  range in the source is written with an explicit `% 2^32`.
* `Int_t` values are integers in `[-2^31, 2^31)`; `cycle + 1` is written with
  `wrapInt32`.
* `TString` is `String`; its `operator<` (ROOT library code) is the lexicographic
  order on strings, for which the empty string is the least element.
* `std::map<TFAsroKey, TFAsroValue>` is a list of pairs kept in ascending key order;
  an iterator is the suffix of the list that starts at the element it points to
  (`end()` is the empty suffix).
* The array `fFree` is a list of slots, one slot per `(position, length)` pair of
  words.  A slot is `none` when the memory was allocated but never written.  A read
  of such a slot, or any access outside the allocated array, has no defined result
  and makes the operation return `none`.
* The file is the list of its bytes; `lseek` + `read` / `write` are `pread` / `pwrite`.
  Words are stored most significant byte first, as in the builds without
  `R__BYTESWAP` and with `USE_BSWAPCPY`.
* The file was opened with `O_RDWR`, and every `write` call transfers all its bytes: the
  comparisons `write(...) == n`, which are all that `InitWrite`, `Write`, `FinishWrite`
  and `Delete` return on an open file, are true.  A result `true` of these functions
  stands for "every `write` call of the function was carried out in full"; the state after
  a short or failed `write` is not modelled.
* The ROOT streamer of the descriptor, the LZMA functions and the streamed objects are
  external code: they are the parameters `DirStreamer`, `Codec` and `TObject`.
* A pointer to a `TFAsroFile` is `none` (`NULL`) or the address of the object; the
  objects made with `new` and not yet deleted are a list of pairs (address, object).
  The calls `gSystem->GetPathInfo` and the constructor `TFAsroFile(fileName, &readOnly)`
  are external to the registry: they are the parameter `SystemView` of `OpenFile`.
* A C string is the list of its characters without the final `NUL`; a pointer into a
  string is the rest of the string from that position on, and the library functions
  `strtok` and `strstr` are written out as `strtok` and `strstr`.
* The object `TFAsroIO` of a table is the pointer to its file, its cycle and the name of
  its element; the calls of `TFError::SetError` are the entries (function name, index of
  the message in `errMsg`) that a function appends to an error log.
-/

namespace TFAsro

/-! ## Machine integers -/

/-- Number of values of a 32 bit word. -/
def two32 : Nat := 4294967296

/-- Reduction of an integer to the range of `Int_t`. -/
def wrapInt32 (x : Int) : Int := (x + 2147483648) % 4294967296 - 2147483648

/-- Conversion of an `Int_t` to `UInt_t`. -/
def toUInt32 (x : Int) : Nat := (x % 4294967296).toNat

/-! ## TFAsroKey and TFAsroValue -/

/-- The class `TFAsroKey`: element name index, column name, cycle. -/
structure TFAsroKey where
  fElName : Nat
  fSubName : String
  fCycle : Int
  deriving DecidableEq, Repr

/-- The class `TFAsroValue`: position, length in file, length of data, class name index. -/
structure TFAsroValue where
  fPos : Nat
  fFileLength : Nat
  fDataLength : Nat
  fClassName : Nat
  deriving DecidableEq, Repr

/-- The default constructor `TFAsroValue::TFAsroValue()`. -/
def TFAsroValue.default : TFAsroValue := ⟨0, 0, 0, 0⟩

/-- The comparison `TFAsroKey::operator<`.  The sub-names are compared character by
character (the lexicographic order of strings). -/
def TFAsroKey.lt (a key : TFAsroKey) : Bool :=
  if a.fElName ≠ key.fElName then decide (a.fElName < key.fElName)
  else if a.fCycle ≠ key.fCycle then decide (a.fCycle < key.fCycle)
  else decide (a.fSubName.toList < key.fSubName.toList)

/-- The values of a key fit their machine types. -/
def TFAsroKey.WellTyped (k : TFAsroKey) : Prop :=
  k.fElName < 4294967296 ∧ -2147483648 ≤ k.fCycle ∧ k.fCycle < 2147483648

/-! ## The ordered map `fEntries` -/

/-- Contents of a `std::map<TFAsroKey, TFAsroValue>`, in ascending key order. -/
abbrev Entries := List (TFAsroKey × TFAsroValue)

/-- Iterator returned by `std::map::lower_bound`: the first element not less than `key`. -/
def lower_bound (m : Entries) (key : TFAsroKey) : Entries :=
  m.dropWhile (fun e => e.1.lt key)

/-- Iterator returned by `std::map::upper_bound`: the first element greater than `key`. -/
def upper_bound (m : Entries) (key : TFAsroKey) : Entries :=
  m.dropWhile (fun e => !(key.lt e.1))

/-- Result of `std::map::find`: the element equivalent to `key`, if there is one. -/
def mapFind (m : Entries) (key : TFAsroKey) : Option (TFAsroKey × TFAsroValue) :=
  match lower_bound m key with
  | [] => none
  | e :: _ => if key.lt e.1 then none else some e

/-- Effect of `m[key] = v`: the element equivalent to `key` is replaced, or a new
element is inserted at its place in the order. -/
def mapSet (m : Entries) (key : TFAsroKey) (v : TFAsroValue) : Entries :=
  m.takeWhile (fun e => e.1.lt key) ++
    (match lower_bound m key with
     | [] => [(key, v)]
     | e :: tl => if key.lt e.1 then (key, v) :: e :: tl else (key, v) :: tl)

/-- Effect of `std::map::erase(find(key))` when the key is present. -/
def mapErase (m : Entries) (key : TFAsroKey) : Entries :=
  m.takeWhile (fun e => e.1.lt key) ++
    (match lower_bound m key with
     | [] => []
     | e :: tl => if key.lt e.1 then e :: tl else tl)

/-- The entries are in strictly ascending key order (the invariant of `std::map`). -/
def EntriesSorted (m : Entries) : Prop :=
  m.Pairwise (fun a b => a.1.lt b.1 = true)

/-- Search of a name in a name table: the loop
`for (nameIndex = 0; nameIndex < numNames; nameIndex++) if (names[nameIndex] == name) break;`.
The result is the number of names when the name is absent. -/
def findName : List String → String → Nat
  | [], _ => 0
  | n :: rest, name => if n = name then 0 else findName rest name + 1

/-! ## TFAsroFile -/

/-- One slot of the array `fFree`: a `(position, length)` pair, or `none` for memory
that was allocated and never written. -/
abbrev Slot := Option (Nat × Nat)

/-- The data members of `TFAsroFile`.  `fDes0 .. fDes3` are `fDes[0] .. fDes[3]`;
`disk` is the contents of the file behind the descriptor `fFile`. -/
structure TFAsroFile where
  fEntries : Entries
  fClassNames : List String
  fNames : List String
  fDes0 : Nat
  fDes1 : Nat
  fDes2 : Nat
  fDes3 : Nat
  fFreeReserve : Nat
  fFree : List Slot
  fFile : Int
  disk : List Nat
  deriving DecidableEq, Repr

/-- Read of the pair `fFree[2*i], fFree[2*i+1]`. -/
def rdSlot (a : List Slot) (i : Nat) : Slot := a.getD i none

/-- The call `memmove(fFree + 2*dst, fFree + 2*src, 8*cnt)` on the array of slots. -/
def memmoveSlots (a : List Slot) (dst src cnt : Nat) : Option (List Slot) :=
  if src + cnt ≤ a.length ∧ dst + cnt ≤ a.length then
    some (a.take dst ++ (a.drop src).take cnt ++ a.drop (dst + cnt))
  else none

/-- Number of entries of the free table, `fDes[2] / (2 * sizeof(UInt_t))`. -/
def TFAsroFile.numFree (s : TFAsroFile) : Nat := s.fDes2 / 8

/-- The loop of `GetFree` that looks for the smallest hole of at least `size` bytes.
`k` is the number of iterations left, the pair is `(bestFit, bestSize)`. -/
def getFreeScan (a : List Slot) (size : Nat) : Nat → Nat → Nat × Nat → Option (Nat × Nat)
  | 0, _, best => some best
  | k + 1, index, best =>
    match rdSlot a index with
    | none => none
    | some (_, len) =>
      if size ≤ len ∧ best.2 > len then getFreeScan a size k (index + 1) (index, len)
      else getFreeScan a size k (index + 1) best

/-- The member function `TFAsroFile::GetFree`: returns the position and the new state. -/
def GetFree (size : Nat) (s : TFAsroFile) : Option (Nat × TFAsroFile) :=
  match getFreeScan s.fFree size s.numFree 0 (0, 4294967295) with
  | none => none
  | some (bestFit, _) =>
    match rdSlot s.fFree bestFit with
    | none => none
    | some (pos, len) =>
      if size = len then
        -- the new fits perfect in this free space: remove the hole
        if s.fDes2 < (bestFit + 1) * 8 then none
        else
          match memmoveSlots s.fFree bestFit (bestFit + 1) ((s.fDes2 - (bestFit + 1) * 8) / 8) with
          | none => none
          | some a =>
            some (pos, { s with fFree := a,
                                fDes2 := (s.fDes2 + 4294967296 - 8) % 4294967296,
                                fDes3 := (s.fDes3 + 8) % 4294967296 })
      else
        -- resize the hole
        some (pos, { s with fFree := s.fFree.set bestFit
                                (some ((pos + size) % 4294967296,
                                       (len + 4294967296 - size) % 4294967296)) })

/-- The loop of `MakeFree` that finds the first free entry behind `pos`.
`k` is the number of entries not yet looked at. -/
def makeFreeIndex (a : List Slot) (pos : Nat) : Nat → Nat → Option Nat
  | 0, index => some index
  | k + 1, index =>
    match rdSlot a index with
    | none => none
    | some (p, _) => if pos > p then makeFreeIndex a pos k (index + 1) else some index

/-- The insertion of a new entry `(pos, size)` at `index` in `MakeFree`, with the
enlargement of the array by `100 * sizeof(UInt_t)` bytes when it is full. -/
def insertFree (index pos size : Nat) (s : TFAsroFile) : Option TFAsroFile :=
  if s.fDes2 < index * 8 then none
  else
    let moved : Option (Nat × List Slot) :=
      if s.fDes2 = s.fFreeReserve then
        -- increase allocated memory for 100 entries
        let reserve := (s.fFreeReserve + 400) % 4294967296
        let cap := reserve / 8
        let cnt := (s.fDes2 - index * 8) / 8
        if index ≤ s.fFree.length ∧ index + cnt ≤ s.fFree.length ∧ index + 1 + cnt ≤ cap then
          some (reserve,
                s.fFree.take index ++ [none] ++ (s.fFree.drop index).take cnt ++
                  List.replicate (cap - (index + 1 + cnt)) none)
        else none
      else
        -- make space for the new entry
        (memmoveSlots s.fFree (index + 1) index ((s.fDes2 - index * 8) / 8)).map
          (fun a => (s.fFreeReserve, a))
    match moved with
    | none => none
    | some (reserve, a) =>
      if index < a.length then
        some { s with fFreeReserve := reserve,
                      fFree := a.set index (some (pos, size)),
                      fDes2 := (s.fDes2 + 8) % 4294967296,
                      fDes3 := (s.fDes3 + 4294967296 - 8) % 4294967296 }
      else none

/-- The member function `TFAsroFile::MakeFree`. -/
def MakeFree (pos size : Nat) (s : TFAsroFile) : Option TFAsroFile :=
  match makeFreeIndex s.fFree pos s.numFree 0 with
  | none => none
  | some 0 =>
    -- new free space before the first
    match rdSlot s.fFree 0 with
    | none => none
    | some (p0, l0) =>
      if (pos + size) % 4294967296 = p0 then
        some { s with fFree := s.fFree.set 0 (some (pos, (l0 + size) % 4294967296)) }
      else insertFree 0 pos size s
  | some (i + 1) =>
    match rdSlot s.fFree i, rdSlot s.fFree (i + 1) with
    | some (pp, pl), some (np, nl) =>
      let before : Bool := decide ((pp + pl) % 4294967296 = pos)
      let after : Bool := decide ((pos + size) % 4294967296 = np)
      if before && !after then
        some { s with fFree := s.fFree.set i (some (pp, (pl + size) % 4294967296)) }
      else if !before && after then
        some { s with fFree := s.fFree.set (i + 1)
                        (some ((np + 4294967296 - size) % 4294967296, (nl + size) % 4294967296)) }
      else if before && after then
        if s.fDes2 < (i + 2) * 8 then none
        else
          let a1 := s.fFree.set i (some (pp, (pl + (size + nl) % 4294967296) % 4294967296))
          match memmoveSlots a1 (i + 1) (i + 2) ((s.fDes2 - (i + 2) * 8) / 8) with
          | none => none
          | some a =>
            some { s with fFree := a,
                          fDes2 := (s.fDes2 + 4294967296 - 8) % 4294967296,
                          fDes3 := (s.fDes3 + 8) % 4294967296 }
      else insertFree (i + 1) pos size s
    | _, _ => none

/-- The free list of a state: the first `fDes[2] / 8` entries of `fFree`. -/
def freeList (s : TFAsroFile) : List (Nat × Nat) :=
  (s.fFree.take s.numFree).filterMap id

/-! ## Specification-level definitions -/

/-- The state `s` holds the free list `fl`: the first `fDes[2] / 8` slots of `fFree` are
the ranges of `fl`, and `fFreeReserve` is the size in bytes of the allocated array. -/
def TableRep (s : TFAsroFile) (fl : List (Nat × Nat)) : Prop :=
  s.fDes2 = 8 * fl.length ∧ s.fFreeReserve = 8 * s.fFree.length ∧
    s.fFreeReserve < 4294967296 ∧ ∃ rest, s.fFree = fl.map some ++ rest

/-- The members that `GetFree` and `MakeFree` never touch are equal in both states. -/
def SameButTable (s t : TFAsroFile) : Prop :=
  t.fEntries = s.fEntries ∧ t.fClassNames = s.fClassNames ∧ t.fNames = s.fNames ∧
    t.fDes0 = s.fDes0 ∧ t.fDes1 = s.fDes1 ∧ t.fFile = s.fFile ∧ t.disk = s.disk

/-- The scan of `GetFree` on a list of ranges. -/
def scanL (size : Nat) : List (Nat × Nat) → Nat → Nat × Nat → Nat × Nat
  | [], _, best => best
  | r :: rest, index, best =>
    if size ≤ r.2 ∧ best.2 > r.2 then scanL size rest (index + 1) (index, r.2)
    else scanL size rest (index + 1) best

/-- The range `r` between `p1` and `p2` is a best fit for `size`: it is large enough, every
large enough range before it is strictly longer, every large enough range behind it is
at least as long. -/
def BestFit (size : Nat) (p1 : List (Nat × Nat)) (r : Nat × Nat) (p2 : List (Nat × Nat)) : Prop :=
  size ≤ r.2 ∧ (∀ x ∈ p1, size ≤ x.2 → r.2 < x.2) ∧ (∀ x ∈ p2, size ≤ x.2 → r.2 ≤ x.2)

/-- Loop invariant of the scan: nothing large enough was seen, or the best so far is a
best fit among the ranges seen. -/
def ScanInv (size : Nat) (pre : List (Nat × Nat)) (best : Nat × Nat) : Prop :=
  (best = (0, 4294967295) ∧ ∀ x ∈ pre, ¬ size ≤ x.2) ∨
  (∃ p1 r p2, pre = p1 ++ r :: p2 ∧ best = (p1.length, r.2) ∧ BestFit size p1 r p2)

/-- Address `a` lies in the span `r = (position, length)`. -/
def inSpan (a : Nat) (r : Nat × Nat) : Bool := decide (r.1 ≤ a) && decide (a < r.1 + r.2)

/-- Number of spans of the list that contain the address `a`. -/
def occ (a : Nat) (l : List (Nat × Nat)) : Nat := l.countP (inSpan a)

/-- A well-formed free list: every range ends strictly before each later range starts
(sorted by offset, non-overlapping, not touching), every range has a positive length and
ends at or before `0xFFFFFFFF`. -/
def FreeWF (fl : List (Nat × Nat)) : Prop :=
  fl.Pairwise (fun a b => a.1 + a.2 < b.1) ∧ ∀ r ∈ fl, 0 < r.2 ∧ r.1 + r.2 ≤ 4294967295

/-- The ranges that replace the neighbours of a released span `(pos, size)`: `pv` is the
free range before the span (if there is one), `nx` the free range behind it. -/
def releaseMid (pos size : Nat) (pv : Option (Nat × Nat)) (nx : Nat × Nat) : List (Nat × Nat) :=
  match pv with
  | none => if pos + size = nx.1 then [(pos, nx.2 + size)] else [(pos, size), nx]
  | some pv =>
    if pv.1 + pv.2 = pos then
      if pos + size = nx.1 then [(pv.1, pv.2 + size + nx.2)] else [(pv.1, pv.2 + size), nx]
    else
      if pos + size = nx.1 then [pv, (pos, nx.2 + size)] else [pv, (pos, size), nx]

/-- The neighbours of a released span before the release. -/
def oldMid (pv : Option (Nat × Nat)) (nx : Nat × Nat) : List (Nat × Nat) :=
  match pv with
  | none => [nx]
  | some pv => [pv, nx]

/-- A state whose free table holds three ranges of lengths 10, 50 and 7. -/
def exampleTable : TFAsroFile :=
  { fEntries := [], fClassNames := [], fNames := [], fDes0 := 24, fDes1 := 0, fDes2 := 24,
    fDes3 := 8, fFreeReserve := 32,
    fFree := [some (100, 10), some (200, 50), some (300, 7), none], fFile := 3, disk := [] }

/-- A state whose free table holds the ranges `(24, 10)` and `(100, 50)`. -/
def twoRangeTable : TFAsroFile :=
  { fEntries := [], fClassNames := [], fNames := [], fDes0 := 24, fDes1 := 0, fDes2 := 16,
    fDes3 := 8, fFreeReserve := 16,
    fFree := [some (24, 10), some (100, 50)], fFile := 3, disk := [] }

/-- The state that `GetFree(50)` leaves behind in `twoRangeTable`: one free range
`(24, 10)`; the array slot behind the table still holds the removed range `(100, 50)`. -/
def staleTable : TFAsroFile :=
  { fEntries := [], fClassNames := [], fNames := [], fDes0 := 24, fDes1 := 0, fDes2 := 8,
    fDes3 := 16, fFreeReserve := 16,
    fFree := [some (24, 10), some (100, 50)], fFile := 3, disk := [] }

/-- One call of the allocator. -/
inductive AllocCall where
  | getFree (size : Nat)
  | makeFree (pos size : Nat)

/-- The state after one call of the allocator (`none` when the call has no defined
result). -/
def AllocCall.run : AllocCall → TFAsroFile → Option TFAsroFile
  | .getFree size, s => (GetFree size s).map Prod.snd
  | .makeFree pos size, s => MakeFree pos size s

/-- The call is admissible in state `s`: a `GetFree` can be satisfied by some free range;
a `MakeFree` releases a non-empty span that is allocated (disjoint from all free ranges)
and lies below some free range, and the table memory stays below the `UInt_t` limit. -/
def AllocCall.Admissible (s : TFAsroFile) : AllocCall → Prop
  | .getFree size => ∃ r ∈ freeList s, size ≤ r.2
  | .makeFree pos size =>
    0 < size ∧ (∀ a, pos ≤ a → a < pos + size → occ a (freeList s) = 0) ∧
      (∃ r ∈ freeList s, pos ≤ r.1) ∧ s.fFreeReserve + 400 < 4294967296

/-- Every call of the sequence is admissible in the state in which it is made. -/
def AdmissibleSeq : TFAsroFile → List AllocCall → Prop
  | _, [] => True
  | s, c :: cs => c.Admissible s ∧ ∀ s', c.run s = some s' → AdmissibleSeq s' cs

/-- The table of `s` holds a well-formed free list. -/
def TableInv (s : TFAsroFile) : Prop :=
  TableRep s (freeList s) ∧ FreeWF (freeList s)

/-- Every call of the sequence returns and leaves a well-formed free list. -/
def AllWellFormed : TFAsroFile → List AllocCall → Prop
  | _, [] => True
  | s, c :: cs => ∃ s', c.run s = some s' ∧ TableInv s' ∧ AllWellFormed s' cs

/-- A state whose free table holds a range of length 0 and a range of length 5. -/
def emptyRangeTable : TFAsroFile :=
  { fEntries := [], fClassNames := [], fNames := [], fDes0 := 24, fDes1 := 0, fDes2 := 16,
    fDes3 := 8, fFreeReserve := 24,
    fFree := [some (10, 0), some (20, 5), none], fFile := 3, disk := [] }

/-- The state that `GetFree(8)` leaves behind in `exampleTable`. -/
def exampleTable1 : TFAsroFile :=
  { exampleTable with fFree := [some (108, 2), some (200, 50), some (300, 7), none] }

/-! ## The file behind the descriptor -/

/-- The call `lseek(fFile, pos, SEEK_SET); read(fFile, buf, n)`: the bytes read, or `none`
when fewer than `n` bytes are available (the comparison with `n` fails). -/
def pread (disk : List Nat) (pos n : Nat) : Option (List Nat) :=
  if n = 0 then some []
  else if pos + n ≤ disk.length then some ((disk.drop pos).take n) else none

/-- The call `lseek(fFile, pos, SEEK_SET); write(fFile, bytes, n)` on an ideal disk: all
`n` bytes are transferred, and a gap between the end of the file and `pos` is filled with
zero bytes. -/
def pwrite (disk : List Nat) (pos : Nat) (bytes : List Nat) : List Nat :=
  if bytes.length = 0 then disk
  else (disk ++ List.replicate (pos - disk.length) 0).take pos ++ bytes ++
    disk.drop (pos + bytes.length)

/-- The four bytes of a `UInt_t` in the file (most significant byte first). -/
def encodeU32 (x : Nat) : List Nat :=
  [x / 16777216 % 256, x / 65536 % 256, x / 256 % 256, x % 256]

/-- The `UInt_t` stored in four bytes of the file. -/
def decodeU32 (b : List Nat) : Nat :=
  b.getD 0 0 * 16777216 + b.getD 1 0 * 65536 + b.getD 2 0 * 256 + b.getD 3 0

/-- The bytes of an array of `UInt_t` in the file. -/
def encodeWords : List Nat → List Nat
  | [] => []
  | w :: ws => encodeU32 w ++ encodeWords ws

/-- The array of `n` values of type `UInt_t` stored in the bytes `b`. -/
def decodeWords : Nat → List Nat → List Nat
  | 0, _ => []
  | n + 1, b => decodeU32 (b.take 4) :: decodeWords n (b.drop 4)

/-- The file identification `"ASRO0001"`. -/
def magic : List Nat := [65, 83, 82, 79, 48, 48, 48, 49]

/-- The words `fFree[0 .. 2*n)` of the free table, `none` when one of them lies outside
the array or was never written. -/
def tableWords : List Slot → Nat → Option (List Nat)
  | _, 0 => some []
  | [], _ + 1 => none
  | none :: _, _ + 1 => none
  | some (p, l) :: rest, n + 1 => (tableWords rest n).map (fun ws => p :: l :: ws)

/-- The slots of a free table read from `n` pairs of words. -/
def slotsOfWords : List Nat → List Slot
  | p :: l :: rest => some (p, l) :: slotsOfWords rest
  | _ => []

/-! ## External code: the streamer of the descriptor, the codec, streamed objects -/

/-- The ROOT streamer of `TFAsroFile` (generated code): `write` serialises the persistent
members `fEntries`, `fClassNames`, `fNames`, `read` restores them from a buffer. -/
structure DirStreamer where
  write : Entries → List String → List String → List Nat
  read : List Nat → Entries × List String × List String

/-- The external functions `R__zipLZMA` and `R__unzipLZMA`.  `zip level src tgtsize` is
the output written for the input `src` (`nout` is its length, the empty list stands for
`nout = 0`); `unzip src tgtsize` is the output written for the `nin` input bytes `src`
(the empty list stands for `read = 0`). -/
structure Codec where
  zip : Int → List Nat → Nat → List Nat
  unzip : List Nat → Nat → List Nat

/-- A `TObject` as the container sees it: the name of its class and the bytes that its
`Streamer` writes into a buffer (and from which `Streamer` rebuilds it). -/
structure TObject where
  className : String
  data : List Nat
  deriving DecidableEq, Repr

/-- The constant `MAX_CUT_LENGTH`. -/
def MAX_CUT_LENGTH : Nat := 16777215

/-- The loop of the static function `Compress`.  `fuel` bounds the number of iterations,
`inp` is the rest of the input, `out` the output so far.  The result is `(kTRUE, output)`
or `(kFALSE, _)`; it is `none` when the fuel runs out or when the codec writes more than
`length` bytes (the output buffer has the size of the input). -/
def compressLoop (c : Codec) (compLevel : Int) : Nat → List Nat → List Nat →
    Option (Bool × List Nat)
  | 0, _, _ => none
  | fuel + 1, inp, out =>
    if inp.length > 0 then
      let length :=
        if inp.length ≤ MAX_CUT_LENGTH then inp.length
        else if inp.length < MAX_CUT_LENGTH * 2 then inp.length / 2
        else MAX_CUT_LENGTH
      let res := c.zip compLevel (inp.take length) length
      if res.length > length then none
      else if res.length = 0 then some (false, out)
      else compressLoop c compLevel fuel (inp.drop length) (out ++ res)
    else some (true, out)

/-- The static function `Compress`. -/
def Compress (c : Codec) (compLevel : Int) (inp : List Nat) : Option (Bool × List Nat) :=
  compressLoop c compLevel (inp.length + 1) inp []

/-- The loop of the static function `Uncompress`.  `fuel` bounds the number of iterations.
The result is the return value and the bytes written to `out`; it is `none` when the fuel
runs out or the 9 byte header of a chunk lies outside the input buffer. -/
def uncompressLoop (c : Codec) (outLength : Nat) : Nat → List Nat → List Nat → Nat →
    Option (Bool × List Nat)
  | 0, _, _, _ => none
  | fuel + 1, inp, out, readTotal =>
    if inp.length < 9 then none
    else
      let nin := 9 + (inp.getD 3 0 + inp.getD 4 0 * 256 + inp.getD 5 0 * 65536)
      let nout := inp.getD 6 0 + inp.getD 7 0 * 256 + inp.getD 8 0 * 65536
      let res := c.unzip (inp.take nin) nout
      if res.length = 0 then some (false, out)
      else if readTotal + res.length ≥ outLength then some (true, out ++ res)
      else uncompressLoop c outLength fuel (inp.drop nin) (out ++ res) (readTotal + res.length)

/-- The static function `Uncompress`. -/
def Uncompress (c : Codec) (inp : List Nat) (outLength : Nat) : Option (Bool × List Nat) :=
  uncompressLoop c outLength (outLength + 1) inp [] 0

/-! ## Opening, reading, writing, deleting -/

/-- A `TFAsroFile` whose file could not be used: `fFile` is the negative code. -/
def closedFile (code : Int) (disk : List Nat) : TFAsroFile :=
  { fEntries := [], fClassNames := [], fNames := [], fDes0 := 0, fDes1 := 0, fDes2 := 0,
    fDes3 := 0, fFreeReserve := 0, fFree := [], fFile := code, disk := disk }

/-- The constructor `TFAsroFile::TFAsroFile(fileName, readOnly)` for a file that `open`
could open for reading and writing; `disk` is the contents of that file. -/
def openFile (st : DirStreamer) (disk : List Nat) : TFAsroFile :=
  if disk.length > 0 then
    -- the file exist already
    match pread disk 0 8 with
    | none => closedFile (-2) disk
    | some id =>
      if id ≠ magic then closedFile (-2) disk
      else
        match pread disk 8 16 with
        | none => closedFile (-3) disk
        | some hdr =>
          let des := decodeWords 4 hdr
          let fDes0 := des.getD 0 0
          let fDes1 := des.getD 1 0
          let fDes2 := des.getD 2 0
          let fDes3 := des.getD 3 0
          match (if fDes1 > 0 then pread disk fDes0 fDes1 else some []),
                pread disk (fDes0 + fDes1) fDes2 with
          | some buffer, some free =>
            let dir := if fDes1 > 0 then st.read buffer else ([], [], [])
            { fEntries := dir.1, fClassNames := dir.2.1, fNames := dir.2.2,
              fDes0 := fDes0, fDes1 := fDes1, fDes2 := fDes2, fDes3 := fDes3,
              fFreeReserve := fDes2,
              fFree := slotsOfWords (decodeWords (fDes2 / 4) free),
              fFile := 3, disk := disk }
          | _, _ => closedFile (-3) disk
  else
    -- we create a new ASRO - file
    { fEntries := [], fClassNames := [], fNames := [],
      fDes0 := 24, fDes1 := 0, fDes2 := 8, fDes3 := 0, fFreeReserve := 8,
      fFree := [some (32, 4294967295 - 32)], fFile := 3,
      disk := magic ++ encodeWords [24, 0, 8, 0] ++ encodeWords [32, 4294967295 - 32] }

/-- The member function `TFAsroFile::Read(const TFAsroKey&)`.  The outer `none` stands for
a call without defined result, `some none` for the return value `NULL`.  Bytes of the buffer
that `Uncompress` did not fill are shown as 0. -/
def ReadKey (c : Codec) (key : TFAsroKey) (s : TFAsroFile) : Option (Option TObject) :=
  if s.fFile < 0 then some none
  else
    match mapFind s.fEntries key with
    | none => some none
    | some (_, v) =>
      let buffer : Option (Option (List Nat)) :=
        if v.fDataLength = v.fFileLength then some (pread s.disk v.fPos v.fDataLength)
        else
          match pread s.disk v.fPos v.fFileLength with
          | none => some none
          | some fileBuffer =>
            match Uncompress c fileBuffer v.fDataLength with
            | none => none
            | some (_, out) =>
              some (some ((out ++ List.replicate (v.fDataLength - out.length) 0).take
                v.fDataLength))
      match buffer with
      | none => none
      | some none => some none
      | some (some buf) =>
        if v.fClassName < s.fClassNames.length then
          some (some { className := s.fClassNames.getD v.fClassName "", data := buf })
        else none

/-- The member function `TFAsroFile::Read(name, subName, cycle)`. -/
def Read (c : Codec) (name subName : String) (cycle : Int) (s : TFAsroFile) :
    Option (Option TObject) :=
  if s.fFile < 0 then some none
  else if s.fNames.length = 0 then some none
  else if findName s.fNames name = s.fNames.length then some none
  else ReadKey c ⟨findName s.fNames name, subName, cycle⟩ s

/-- The member function `TFAsroFile::InitWrite`: the return value and the new state.  The
return value is the comparison `write(fFile, &zero, 4) == 4`, which is true for a `write`
that transfers all its bytes. -/
def InitWrite (s : TFAsroFile) : Option (Bool × TFAsroFile) :=
  if s.fFile < 0 then some (false, s)
  else
    -- free space for old description
    match MakeFree s.fDes0 ((s.fDes1 + s.fDes2 + s.fDes3) % 4294967296) s with
    | none => none
    | some s1 =>
      -- write 0 to first byte
      some (true, { s1 with disk := pwrite s1.disk 8 (encodeU32 0) })

/-- The member function `TFAsroFile::Write`: the return value and the new state.  The
return value `ok` is the comparison of the result of `write` with the length of the data,
which is true for a `write` that transfers all its bytes. -/
def Write (c : Codec) (obj : TObject) (compLevel : Int) (name subName : String) (cycle : Int)
    (s : TFAsroFile) : Option (Bool × TFAsroFile) :=
  if s.fFile < 0 then some (false, s)
  else
    -- find the nameIndex in names or add it to names
    let nameIndex := findName s.fNames name
    let names := if nameIndex = s.fNames.length then s.fNames ++ [name] else s.fNames
    let key : TFAsroKey := ⟨nameIndex, subName, cycle⟩
    -- find obj in descriptor
    let asroValue : TFAsroValue :=
      match mapFind s.fEntries key with
      | none => TFAsroValue.default
      | some (_, v) => v
    -- free space for object to be deleted
    match (if asroValue.fPos > 0 then MakeFree asroValue.fPos asroValue.fFileLength s
           else some s) with
    | none => none
    | some s1 =>
      -- write obj into a buffer
      let dataLength := obj.data.length
      let packed : Option (List Nat) :=
        if compLevel ≤ 0 ∨ dataLength < 256 then some obj.data
        else
          match Compress c compLevel obj.data with
          | none => none
          | some (true, out) => some out
          | some (false, _) => some obj.data
      match packed with
      | none => none
      | some dataBuffer =>
        let fileLength := dataBuffer.length
        -- find the classNameIndex in ClassNames or add it to names
        let classNameIndex := findName s.fClassNames obj.className
        let classNames :=
          if classNameIndex = s.fClassNames.length then s.fClassNames ++ [obj.className]
          else s.fClassNames
        -- find position in file for obj and store the className
        match GetFree fileLength { s1 with fDes3 := 8 } with
        | none => none
        | some (pos, s2) =>
          -- save new obj to file
          some (true, { s2 with
            fEntries := mapSet s.fEntries key ⟨pos, fileLength, dataLength, classNameIndex⟩,
            fNames := names, fClassNames := classNames,
            disk := pwrite s2.disk pos dataBuffer })

/-- The common end of `FinishWrite` and `Delete`: the descriptor is streamed, space for
descriptor, free table and `pad` spare bytes is requested, descriptor, free table and the
four words `fDes` are written to the file.  The return value `ok` collects the comparisons
of the results of the three `write` calls with their lengths, which are true for `write`
calls that transfer all their bytes. -/
def commit (st : DirStreamer) (pad : Nat) (s : TFAsroFile) : Option (Bool × TFAsroFile) :=
  -- create and fill buffer for the descriptor
  let desBuffer := st.write s.fEntries s.fClassNames s.fNames
  let s1 := { s with fDes1 := desBuffer.length, fDes3 := pad }
  -- get new position for descriptor
  match GetFree ((s1.fDes1 + s1.fDes2 + s1.fDes3) % 4294967296) s1 with
  | none => none
  | some (pos, s2) =>
    -- save descriptor, free space and first bytes to file
    match tableWords s2.fFree (s2.fDes2 / 8) with
    | none => none
    | some ws =>
      let d1 := pwrite s2.disk pos desBuffer
      let d2 := pwrite d1 (pos + desBuffer.length) (encodeWords ws)
      let d3 := pwrite d2 8 (encodeWords [pos, s2.fDes1, s2.fDes2, s2.fDes3])
      some (true, { s2 with fDes0 := pos, disk := d3 })

/-- The member function `TFAsroFile::FinishWrite`. -/
def FinishWrite (st : DirStreamer) (s : TFAsroFile) : Option (Bool × TFAsroFile) :=
  if s.fFile < 0 then some (false, s) else commit st 8 s

/-- The entries between the iterators `b` and `e` (the elements that `while (i != e) i++`
visits when it starts at `b`); `none` when `e` is not reached from `b`. -/
def rangeBetween (b e : Entries) : Option Entries :=
  if e.length ≤ b.length then some (b.take (b.length - e.length)) else none

/-- The loop of `Delete` that frees the space of all columns. -/
def freeAll : Entries → TFAsroFile → Option TFAsroFile
  | [], s => some s
  | e :: rest, s =>
    match MakeFree e.2.fPos e.2.fFileLength s with
    | none => none
    | some s1 => freeAll rest s1

/-- The member function `TFAsroFile::Delete`: the return value and the new state. -/
def Delete (st : DirStreamer) (name subName : String) (cycle : Int) (s : TFAsroFile) :
    Option (Bool × TFAsroFile) :=
  if s.fFile < 0 then some (false, s)
  else if s.fNames.length = 0 then some (false, s)
  else if findName s.fNames name = s.fNames.length then some (false, s)
  else
    let nameIndex := findName s.fNames name
    let key : TFAsroKey := ⟨nameIndex, subName, cycle⟩
    -- find entry in descriptor
    match mapFind s.fEntries key with
    | none => some (false, s)
    | some (_, v) =>
      -- free space for old description
      match MakeFree s.fDes0 ((s.fDes1 + s.fDes2 + s.fDes3) % 4294967296) s with
      | none => none
      | some s1 =>
        -- free space for object to be deleted
        match MakeFree v.fPos v.fFileLength s1 with
        | none => none
        | some s2 =>
          -- delete entry in descriptor
          let entries1 := mapErase s.fEntries key
          if subName = "" then
            -- delete also all columns of this table
            let i_begin := upper_bound entries1 ⟨nameIndex, "", cycle⟩
            let i_end := lower_bound entries1 ⟨nameIndex, "", wrapInt32 (cycle + 1)⟩
            match rangeBetween i_begin i_end with
            | none => none
            | some cols =>
              match freeAll cols s2 with
              | none => none
              | some s3 =>
                commit st 16 { s3 with
                  fEntries := entries1.take (entries1.length - i_begin.length) ++ i_end }
          else commit st 16 { s2 with fEntries := entries1 }

/-- The member function `TFAsroFile::GetFreeCycle`, the loop over the entries of one name:
`prevCycle` is the cycle of the previous entry. -/
def freeCycleLoop (nameIndex : Nat) : Entries → Nat → Nat
  | [], prevCycle => if prevCycle < 4294967295 then (prevCycle + 1) % 4294967296 else 0
  | e :: rest, prevCycle =>
    if nameIndex = e.1.fElName then
      if (toUInt32 e.1.fCycle + 4294967296 - prevCycle) % 4294967296 > 1 then
        (prevCycle + 1) % 4294967296
      else freeCycleLoop nameIndex rest (toUInt32 e.1.fCycle)
    else if prevCycle < 4294967295 then (prevCycle + 1) % 4294967296 else 0

/-- The member function `TFAsroFile::GetFreeCycle`: the return value and the new state. -/
def GetFreeCycle (name : String) (s : TFAsroFile) : Nat × TFAsroFile :=
  let nameIndex := findName s.fNames name
  let names := if nameIndex = s.fNames.length then s.fNames ++ [name] else s.fNames
  (freeCycleLoop nameIndex (upper_bound s.fEntries ⟨nameIndex, "", 0⟩) 0,
   { s with fNames := names })

/-- The class `TFAsroColIter`. -/
structure TFAsroColIter where
  mi_entry : Entries
  mi_end : Entries
  m_colName : Option String
  m_classNames : List String
  m_classNameIndex : Nat

/-- The member function `TFAsroFile::MakeColIter`. -/
def MakeColIter (name : String) (cycle : Int) (s : TFAsroFile) : TFAsroColIter :=
  let nameIndex := findName s.fNames name
  { mi_entry := upper_bound s.fEntries ⟨nameIndex, "", cycle⟩,
    mi_end := lower_bound s.fEntries ⟨nameIndex, "", wrapInt32 (cycle + 1)⟩,
    m_colName := none, m_classNames := s.fClassNames, m_classNameIndex := 0 }

/-- The member function `TFAsroColIter::Next`: the return value and the new iterator;
`none` when the iterator is dereferenced at `end()`. -/
def TFAsroColIter.Next (it : TFAsroColIter) : Option (Bool × TFAsroColIter) :=
  if it.mi_entry.length = it.mi_end.length then some (false, it)
  else
    match it.mi_entry with
    | [] => none
    | e :: rest =>
      some (true, { it with m_colName := some e.1.fSubName,
                            m_classNameIndex := e.2.fClassName, mi_entry := rest })

/-- The column names that the calls of `Next` return until `Next` returns false; `fuel`
bounds the number of calls. -/
def colNames : Nat → TFAsroColIter → Option (List String)
  | 0, _ => none
  | fuel + 1, it =>
    match it.Next with
    | none => none
    | some (false, _) => some []
    | some (true, it1) =>
      match it1.m_colName, colNames fuel it1 with
      | some n, some ns => some (n :: ns)
      | _, _ => none

/-! ## Specifications of `GetFreeCycle` and of the column range -/

/-- Specification of the result `r` of the loop of `GetFreeCycle` on the entries `L` with
previous cycle `p`: `r` is above `p`, no entry of `L` with the name uses `r`, every version
between `p` and `r` is used by an entry of `L` with the name. -/
def FirstGap (N : Nat) (L : Entries) (p r : Nat) : Prop :=
  p + 1 ≤ r ∧ (∀ e ∈ L, e.1.fElName = N → e.1.fCycle ≠ (r : Int)) ∧
    (∀ u : Nat, p < u → u < r → ∃ e ∈ L, e.1.fElName = N ∧ e.1.fCycle = (u : Int))

/-- The smallest version `v >= 1` that no entry with name index `N` uses. -/
def SmallestFree (N : Nat) (m : Entries) (v : Nat) : Prop :=
  1 ≤ v ∧ (∀ e ∈ m, e.1.fElName = N → e.1.fCycle ≠ (v : Int)) ∧
    (∀ u : Nat, 1 ≤ u → u < v → ∃ e ∈ m, e.1.fElName = N ∧ e.1.fCycle = (u : Int))

/-- The versions handed out by `n` rounds of: ask `GetFreeCycle(name)`, then enter the
returned version into the directory under the key `(name, "", version)`, as `Write` does;
`val` is the record of the new entries. -/
def allocVersions (name : String) (val : TFAsroValue) : Nat → TFAsroFile → List Nat
  | 0, _ => []
  | n + 1, s =>
    (GetFreeCycle name s).1 :: allocVersions name val n
      { (GetFreeCycle name s).2 with
        fEntries := mapSet (GetFreeCycle name s).2.fEntries
          ⟨findName (GetFreeCycle name s).2.fNames name, "", ((GetFreeCycle name s).1 : Int)⟩ val }

/-- A directory with the versions 1 and 3 of the name `"img"`. -/
def gapDirectory : TFAsroFile :=
  { fEntries := [(⟨0, "", 1⟩, ⟨24, 10, 10, 0⟩), (⟨0, "", 3⟩, ⟨34, 10, 10, 0⟩)],
    fClassNames := ["TFImage"], fNames := ["img"], fDes0 := 44, fDes1 := 5, fDes2 := 8,
    fDes3 := 8, fFreeReserve := 8, fFree := [some (65, 4294967230)], fFile := 3, disk := [] }

/-- A directory with a table entry `("tab", "", 1)` and one column `("tab", "a", 1)`. -/
def tableDirectory : TFAsroFile :=
  { fEntries := [(⟨0, "", 1⟩, ⟨24, 10, 10, 0⟩), (⟨0, "a", 1⟩, ⟨34, 10, 10, 1⟩)],
    fClassNames := ["TFTable", "TFColumn"], fNames := ["tab"], fDes0 := 44, fDes1 := 5,
    fDes2 := 8, fDes3 := 8, fFreeReserve := 8, fFree := [some (65, 4294967230)], fFile := 3,
    disk := [] }

/-! ## Accounting of the addresses of the file -/

/-- The address `a` lies between the end of the fixed header (offset 24) and
`0xFFFFFFFF`: 1 if it does, 0 otherwise. -/
def inFile (a : Nat) : Nat := if 24 ≤ a ∧ a < 4294967295 then 1 else 0

/-- The last free range ends at `0xFFFFFFFF` and is at least `L` bytes long. -/
def TopRange (fl : List (Nat × Nat)) (L : Nat) : Prop :=
  ∃ t, fl.getLast? = some t ∧ t.1 + t.2 = 4294967295 ∧ L ≤ t.2

/-- The spans `(position, length in file)` of the records of a directory. -/
def recordSpans (m : Entries) : List (Nat × Nat) :=
  m.map (fun e => (e.2.fPos, e.2.fFileLength))

/-- The span of the committed descriptor: `fDes[0]` and `fDes[1] + fDes[2] + fDes[3]`. -/
def desSpan (s : TFAsroFile) : Nat × Nat := (s.fDes0, s.fDes1 + s.fDes2 + s.fDes3)

/-- No byte lost or used twice: every address from 24 up to `0xFFFFFFFF` lies in exactly
one of the payload spans of the records, the span of the committed descriptor and the free
ranges, and no other address lies in any of them. -/
def NoByteLostOrTwice (s : TFAsroFile) : Prop :=
  ∀ a, occ a (recordSpans s.fEntries) + occ a [desSpan s] + occ a (freeList s) = inFile a

/-- The invariant of an open file in both phases: the descriptor is valid, the free table
is well-formed and its last range ends at `0xFFFFFFFF`, the directory is in key order and
no record is empty. -/
def EngineBase (s : TFAsroFile) : Prop :=
  0 ≤ s.fFile ∧ TableInv s ∧ TopRange (freeList s) 0 ∧ EntriesSorted s.fEntries ∧
    ∀ e ∈ s.fEntries, 0 < e.2.fFileLength

/-- The invariant of a committed state. -/
def CommittedInv (s : TFAsroFile) : Prop :=
  EngineBase s ∧ NoByteLostOrTwice s ∧ 0 < s.fDes1 + s.fDes2 + s.fDes3 ∧
    s.fDes1 + s.fDes2 + s.fDes3 < 4294967296

/-- The invariant between `InitWrite` and `FinishWrite`: the span of the old descriptor
has been released. -/
def WritingInv (s : TFAsroFile) : Prop :=
  EngineBase s ∧ ∀ a, occ a (recordSpans s.fEntries) + occ a (freeList s) = inFile a

/-- The states of a file that was created empty and then used by transactions
`InitWrite`, `Write`, ..., `Write`, `FinishWrite` and by calls of `Delete` between the
transactions.  The index is true inside a transaction.  Every call returned `true`; the
free table never asked for more than `0xFFFFFFFF` bytes of memory; every `Write` stored a
non-empty buffer shorter than the last free range, with a codec that does not write more
than the size of its target; every committed descriptor was shorter than the last free
range before the call; `Delete` was called with a version below `2^31 - 1`. -/
inductive Reach (st : DirStreamer) (c : Codec) : Bool → TFAsroFile → Prop
  | create : Reach st c false (openFile st [])
  | initWrite {s s' : TFAsroFile} : Reach st c false s →
      s.fFreeReserve + 400 < 4294967296 →
      InitWrite s = some (true, s') → Reach st c true s'
  | write {s s' : TFAsroFile} (obj : TObject) (compLevel : Int) (name subName : String)
      (cycle : Int) : Reach st c true s →
      obj.data ≠ [] → (∀ src n, (c.zip compLevel src n).length ≤ n) →
      s.fFreeReserve + 400 < 4294967296 →
      TopRange (freeList s) (obj.data.length + 1) →
      Write c obj compLevel name subName cycle s = some (true, s') → Reach st c true s'
  | finishWrite {s s' : TFAsroFile} : Reach st c true s →
      TopRange (freeList s) (s'.fDes1 + s'.fDes2 + s'.fDes3 + 1) →
      FinishWrite st s = some (true, s') → Reach st c false s'
  | delete {s s' : TFAsroFile} (name subName : String) (cycle : Int) : Reach st c false s →
      -2147483648 ≤ cycle → cycle < 2147483647 →
      s.fFreeReserve + 400 * (s.fEntries.length + 2) < 4294967296 →
      TopRange (freeList s) (s'.fDes1 + s'.fDes2 + s'.fDes3 + 1) →
      Delete st name subName cycle s = some (true, s') → Reach st c false s'

/-! ## Example files, streamers and codecs -/

/-- A streamer for the examples that knows one directory `dir`: every descriptor is the
byte 7, and reading that byte gives `dir`; any other buffer reads as the empty directory. -/
def memoStreamer (dir : Entries × List String × List String) : DirStreamer :=
  { write := fun _ _ _ => [7],
    read := fun b => if b = [7] then dir else ([], [], []) }

/-- The streamer whose directory holds the sample object under the key `("a", "", 1)`. -/
def sampleStreamer : DirStreamer :=
  memoStreamer ([(⟨0, "", 1⟩, ⟨24, 3, 3, 0⟩)], ["TNamed"], ["a"])

/-- A codec for the examples that never compresses (`nout = 0`). -/
def sampleCodec : Codec := { zip := fun _ _ _ => [], unzip := fun _ _ => [] }

/-- An object of three bytes. -/
def sampleObject : TObject := ⟨"TNamed", [1, 2, 3]⟩

/-- The new file after `InitWrite`. -/
def sampleFile1 : TFAsroFile :=
  { fEntries := [], fClassNames := [], fNames := [],
    fDes0 := 24, fDes1 := 0, fDes2 := 8, fDes3 := 0, fFreeReserve := 8,
    fFree := [some (24, 4294967271)], fFile := 3,
    disk := [65, 83, 82, 79, 48, 48, 48, 49, 0, 0, 0, 0, 0, 0, 0, 0, 0, 0, 0, 8, 0, 0, 0, 0,
      0, 0, 0, 32, 255, 255, 255, 223] }

/-- The file after `Write(sampleObject, 0, "a", "", 1)`. -/
def sampleFile2 : TFAsroFile :=
  { fEntries := [(⟨0, "", 1⟩, ⟨24, 3, 3, 0⟩)], fClassNames := ["TNamed"], fNames := ["a"],
    fDes0 := 24, fDes1 := 0, fDes2 := 8, fDes3 := 8, fFreeReserve := 8,
    fFree := [some (27, 4294967268)], fFile := 3,
    disk := [65, 83, 82, 79, 48, 48, 48, 49, 0, 0, 0, 0, 0, 0, 0, 0, 0, 0, 0, 8, 0, 0, 0, 0,
      1, 2, 3, 32, 255, 255, 255, 223] }

/-- The file after `FinishWrite`. -/
def sampleFile3 : TFAsroFile :=
  { fEntries := [(⟨0, "", 1⟩, ⟨24, 3, 3, 0⟩)], fClassNames := ["TNamed"], fNames := ["a"],
    fDes0 := 27, fDes1 := 1, fDes2 := 8, fDes3 := 8, fFreeReserve := 8,
    fFree := [some (44, 4294967251)], fFile := 3,
    disk := [65, 83, 82, 79, 48, 48, 48, 49, 0, 0, 0, 27, 0, 0, 0, 1, 0, 0, 0, 8, 0, 0, 0, 8,
      1, 2, 3, 7, 0, 0, 0, 44, 255, 255, 255, 211] }

/-- The file after `Delete("a", "", 1)`. -/
def sampleFile4 : TFAsroFile :=
  { fEntries := [], fClassNames := ["TNamed"], fNames := ["a"],
    fDes0 := 24, fDes1 := 1, fDes2 := 8, fDes3 := 16, fFreeReserve := 8,
    fFree := [some (49, 4294967246)], fFile := 3,
    disk := [65, 83, 82, 79, 48, 48, 48, 49, 0, 0, 0, 24, 0, 0, 0, 1, 0, 0, 0, 8, 0, 0, 0, 16,
      7, 0, 0, 0, 49, 255, 255, 255, 206, 255, 255, 211] }

/-- An object of `0x7FFFFFFE` bytes. -/
def bigObject : TObject := ⟨"TNamed", List.replicate 2147483646 0⟩

/-- The directory after two objects of `0x7FFFFFFE` bytes were written to a new file under
the names `"a"` and `"b"`. -/
def bigDirectory : Entries × List String × List String :=
  ([(⟨0, "", 1⟩, ⟨24, 2147483646, 2147483646, 0⟩),
    (⟨1, "", 1⟩, ⟨2147483670, 2147483646, 2147483646, 0⟩)], ["TNamed"], ["a", "b"])

/-- A buffer of 256 bytes. -/
def echoData : List Nat := List.replicate 256 1

/-- A compressed chunk of 256 bytes: the header says 247 bytes follow and 256 bytes come
out. -/
def echoPacked : List Nat := [0, 0, 0, 247, 0, 0, 0, 1, 0] ++ List.replicate 247 2

/-- A codec that compresses `echoData` to `echoPacked` when the target has room for it and
nothing else (`nout = 0`), and expands `echoPacked` to `echoData`. -/
def echoCodec : Codec :=
  { zip := fun _ src n => if src = echoData ∧ 256 ≤ n then echoPacked else [],
    unzip := fun z _ => if z = echoPacked then echoData else [] }

/-- The object with the bytes `echoData`. -/
def echoObject : TObject := ⟨"TNamed", echoData⟩

/-- The streamer whose directory holds `echoObject` under the key `("a", "", 1)`. -/
def echoStreamer : DirStreamer :=
  memoStreamer ([(⟨0, "", 1⟩, ⟨24, 256, 256, 0⟩)], ["TNamed"], ["a"])

/-- The file after `InitWrite` and `Write(echoObject, 1, "a", "", 1)`. -/
def echoFile2 : TFAsroFile :=
  { fEntries := [(⟨0, "", 1⟩, ⟨24, 256, 256, 0⟩)], fClassNames := ["TNamed"], fNames := ["a"],
    fDes0 := 24, fDes1 := 0, fDes2 := 8, fDes3 := 8, fFreeReserve := 8,
    fFree := [some (280, 4294967015)], fFile := 3,
    disk := pwrite sampleFile1.disk 24 echoPacked }

/-- The file after `FinishWrite`. -/
def echoFile3 : TFAsroFile :=
  { fEntries := [(⟨0, "", 1⟩, ⟨24, 256, 256, 0⟩)], fClassNames := ["TNamed"], fNames := ["a"],
    fDes0 := 280, fDes1 := 1, fDes2 := 8, fDes3 := 8, fFreeReserve := 8,
    fFree := [some (297, 4294966998)], fFile := 3,
    disk := pwrite (pwrite (pwrite (pwrite sampleFile1.disk 24 echoPacked) 280 [7]) 281
      (encodeWords [297, 4294966998])) 8 (encodeWords [280, 1, 8, 8]) }

/-- A compressed chunk of 255 bytes: the header says 246 bytes follow and 256 bytes come
out. -/
def shortPacked : List Nat := [0, 0, 0, 246, 0, 0, 0, 1, 0] ++ List.replicate 246 2

/-- A codec that compresses `echoData` to `shortPacked` when the target has room for it
and nothing else (`nout = 0`), and expands `shortPacked` to `echoData`. -/
def shrinkCodec : Codec :=
  { zip := fun _ src n => if src = echoData ∧ 255 ≤ n then shortPacked else [],
    unzip := fun z _ => if z = shortPacked then echoData else [] }

/-- The streamer whose directory holds the compressed `echoObject` under the key
`("a", "", 1)`. -/
def shrinkStreamer : DirStreamer :=
  memoStreamer ([(⟨0, "", 1⟩, ⟨24, 255, 256, 0⟩)], ["TNamed"], ["a"])

/-- The file after `InitWrite` and `Write(echoObject, 1, "a", "", 1)` with `shrinkCodec`. -/
def shrinkFile2 : TFAsroFile :=
  { fEntries := [(⟨0, "", 1⟩, ⟨24, 255, 256, 0⟩)], fClassNames := ["TNamed"], fNames := ["a"],
    fDes0 := 24, fDes1 := 0, fDes2 := 8, fDes3 := 8, fFreeReserve := 8,
    fFree := [some (279, 4294967016)], fFile := 3,
    disk := pwrite sampleFile1.disk 24 shortPacked }

/-- The file after `FinishWrite`. -/
def shrinkFile3 : TFAsroFile :=
  { fEntries := [(⟨0, "", 1⟩, ⟨24, 255, 256, 0⟩)], fClassNames := ["TNamed"], fNames := ["a"],
    fDes0 := 279, fDes1 := 1, fDes2 := 8, fDes3 := 8, fFreeReserve := 8,
    fFree := [some (296, 4294966999)], fFile := 3,
    disk := pwrite (pwrite (pwrite (pwrite sampleFile1.disk 24 shortPacked) 279 [7]) 280
      (encodeWords [296, 4294966999])) 8 (encodeWords [279, 1, 8, 8]) }

/-- The member function `TFAsroFile::GetNextCycle`. -/
def GetNextCycle (name : String) (cycle : Int) (s : TFAsroFile) : Nat :=
  -- find the nameIndex in names
  if s.fNames.length = 0 then 1
  else if findName s.fNames name = s.fNames.length then 1
  else
    match lower_bound s.fEntries ⟨findName s.fNames name, "", wrapInt32 (cycle + 1)⟩ with
    | [] => 0
    | e :: _ => if findName s.fNames name ≠ e.1.fElName then 0 else toUInt32 e.1.fCycle

/-- A file whose only entry is `("img", "", 1)`. -/
def imgDirectory : TFAsroFile :=
  { fEntries := [(⟨0, "", 1⟩, ⟨24, 300, 300, 0⟩)], fClassNames := ["TFImage"],
    fNames := ["img"], fDes0 := 324, fDes1 := 1, fDes2 := 8, fDes3 := 8, fFreeReserve := 8,
    fFree := [some (341, 4294966954)], fFile := 3, disk := [] }

/-- The record of a key before `Write`: `fEntries[key]` creates a record of zeros when the
key is new. -/
def oldRecord (m : Entries) (key : TFAsroKey) : TFAsroValue :=
  ((mapFind m key).map Prod.snd).getD TFAsroValue.default

/-- The two name tables of `s` are still there in `s'`, with the same indices. -/
def NamesKept (s s' : TFAsroFile) : Prop :=
  s.fNames <+: s'.fNames ∧ s.fClassNames <+: s'.fClassNames

/-- The entries that `Delete(N, sub, cycle)` is to remove: the entry of the key, and for the
empty sub-name every entry with the name-id `N` and the version `cycle`. -/
def removedByDelete (N : Nat) (sub : String) (cycle : Int) (e : TFAsroKey × TFAsroValue) :
    Bool :=
  decide (e.1 = ⟨N, sub, cycle⟩) ||
    (decide (sub = "") && decide (e.1.fElName = N) && decide (e.1.fCycle = cycle))

/-- A committed file with the table `("a", "", 1)`, its column `("a", "x", 1)`, the later
version `("a", "", 2)` and the element `("b", "", 1)`. -/
def tableFile : TFAsroFile :=
  { fEntries := [(⟨0, "", 1⟩, ⟨24, 3, 3, 0⟩), (⟨0, "x", 1⟩, ⟨27, 2, 2, 0⟩),
      (⟨0, "", 2⟩, ⟨29, 1, 1, 0⟩), (⟨1, "", 1⟩, ⟨30, 4, 4, 0⟩)],
    fClassNames := ["TNamed"], fNames := ["a", "b"],
    fDes0 := 34, fDes1 := 1, fDes2 := 8, fDes3 := 16, fFreeReserve := 8,
    fFree := [some (59, 4294967236)], fFile := 3,
    disk := [65, 83, 82, 79, 48, 48, 48, 49, 0, 0, 0, 34, 0, 0, 0, 1, 0, 0, 0, 8, 0, 0, 0, 16,
      1, 2, 3, 4, 5, 6, 1, 2, 3, 4, 7, 0, 0, 0, 59, 255, 255, 255, 196] }

/-- The file `tableFile` after `Delete("a", "", 1)`. -/
def tableFile2 : TFAsroFile :=
  { fEntries := [(⟨0, "", 2⟩, ⟨29, 1, 1, 0⟩), (⟨1, "", 1⟩, ⟨30, 4, 4, 0⟩)],
    fClassNames := ["TNamed"], fNames := ["a", "b"],
    fDes0 := 34, fDes1 := 1, fDes2 := 16, fDes3 := 16, fFreeReserve := 408,
    fFree := [some (24, 5), some (67, 4294967228)] ++ List.replicate 49 none, fFile := 3,
    disk := [65, 83, 82, 79, 48, 48, 48, 49, 0, 0, 0, 34, 0, 0, 0, 1, 0, 0, 0, 16, 0, 0, 0, 16,
      1, 2, 3, 4, 5, 6, 1, 2, 3, 4, 7, 0, 0, 0, 24, 0, 0, 0, 5, 0, 0, 0, 67, 255, 255, 255, 188] }

/-- The total free space: the sum of the lengths of the ranges of a free list. -/
def totalFree (fl : List (Nat × Nat)) : Nat := (fl.map Prod.snd).sum

/-- An object of five bytes. -/
def fiveObject : TObject := ⟨"TNamed", [9, 8, 7, 6, 5]⟩

/-- The file `sampleFile2` after `Write(fiveObject, 0, "a", "", 1)`, which overwrites the
record of three bytes. -/
def sampleFile5 : TFAsroFile :=
  { fEntries := [(⟨0, "", 1⟩, ⟨24, 5, 5, 0⟩)], fClassNames := ["TNamed"], fNames := ["a"],
    fDes0 := 24, fDes1 := 0, fDes2 := 8, fDes3 := 8, fFreeReserve := 8,
    fFree := [some (29, 4294967266)], fFile := 3,
    disk := [65, 83, 82, 79, 48, 48, 48, 49, 0, 0, 0, 0, 0, 0, 0, 0, 0, 0, 0, 8, 0, 0, 0, 0,
      9, 8, 7, 6, 5, 255, 255, 223] }

/-- The committed file `sampleFile3` after `InitWrite`. -/
def sampleFile3w : TFAsroFile :=
  { fEntries := [(⟨0, "", 1⟩, ⟨24, 3, 3, 0⟩)], fClassNames := ["TNamed"], fNames := ["a"],
    fDes0 := 27, fDes1 := 1, fDes2 := 8, fDes3 := 8, fFreeReserve := 8,
    fFree := [some (27, 4294967268)], fFile := 3,
    disk := [65, 83, 82, 79, 48, 48, 48, 49, 0, 0, 0, 0, 0, 0, 0, 1, 0, 0, 0, 8, 0, 0, 0, 8,
      1, 2, 3, 7, 0, 0, 0, 44, 255, 255, 255, 211] }

/-! ## The registry of open files (`TFAsroFiles` in `TFAsroIO.cxx`) -/

/-- The class `TFAsroFileItem`.  `fasroFile` is the address of the `TFAsroFile` object
(`none` for `NULL`); `fReadOnly` is `none` as long as the member was not assigned (the
default constructor does not initialise it). -/
structure TFAsroFileItem where
  fasroFile : Option Nat
  fNumOpen : Int
  fReadOnly : Option Bool
  deriving DecidableEq, Repr

/-- The default constructor `TFAsroFileItem()`. -/
def TFAsroFileItem.default : TFAsroFileItem := ⟨none, 0, none⟩

/-- The static member `TFAsroFiles::fFiles`, a `std::map` kept as the list of its pairs in
the order of the ids, together with the `TFAsroFile` objects that were created with `new`
and not yet deleted, each with its address. -/
structure TFAsroFiles where
  fFiles : List (Int × TFAsroFileItem)
  heap : List (Nat × TFAsroFile)
  deriving DecidableEq, Repr

/-- What the system does during one call of `OpenFile`.  `pathInfo` is the result of the
first `gSystem->GetPathInfo`: `none` when it returns 1 (no such file), the id of the file
otherwise.  `construct readOnly` is `new TFAsroFile(fileName, &readOnly)`: the new object
and the value of `readOnly` after the constructor.  `addr` is the address of the new
object.  `pathInfoAfter` is the id that `GetPathInfo` stores for the file that the
constructor created. -/
structure SystemView where
  pathInfo : Option Int
  construct : Bool → TFAsroFile × Bool
  addr : Nat
  pathInfoAfter : Int

/-- The item that `fFiles[id]` refers to; `operator[]` makes a default item for a new
id. -/
def itemAt (m : List (Int × TFAsroFileItem)) (id : Int) : TFAsroFileItem :=
  match m.find? (fun e => decide (e.1 = id)) with
  | none => TFAsroFileItem.default
  | some e => e.2

/-- Assignment to the item `fFiles[id]`. -/
def setItem : List (Int × TFAsroFileItem) → Int → TFAsroFileItem →
    List (Int × TFAsroFileItem)
  | [], id, item => [(id, item)]
  | (k, v) :: m, id, item =>
    if id < k then (id, item) :: (k, v) :: m
    else if id = k then (id, item) :: m
    else (k, v) :: setItem m id item

/-- The call `fFiles.erase(i_f)` for the iterator at the id. -/
def eraseItem (m : List (Int × TFAsroFileItem)) (id : Int) : List (Int × TFAsroFileItem) :=
  m.filter (fun e => !decide (e.1 = id))

/-- The static function `TFAsroFiles::CloseFile`.  The result is `none` when the behaviour
is undefined: `fNumOpen -= 1` on the smallest `Int_t`, or `delete` of an address that holds
no object.  When no item has the address, the source reports an error and changes
nothing. -/
def CloseFile (asroFile : Option Nat) (r : TFAsroFiles) : Option TFAsroFiles :=
  match asroFile with
  | none => some r
  | some p =>
    match r.fFiles.find? (fun e => decide (e.2.fasroFile = some p)) with
    | some (id, item) =>
      if item.fNumOpen = -2147483648 then none
      else if item.fNumOpen - 1 = 0 then
        if r.heap.any (fun h => decide (h.1 = p)) then
          some { fFiles := eraseItem r.fFiles id,
                 heap := r.heap.filter (fun h => !decide (h.1 = p)) }
        else none
      else
        some { r with fFiles := setItem r.fFiles id { item with fNumOpen := item.fNumOpen - 1 } }
    | none =>
      -- this line should never be executed
      some r

/-- The static function `TFAsroFiles::OpenFile`: the returned pointer (`none` for `NULL`)
and the registry afterwards.  The result is `none` when the behaviour is undefined:
`fNumOpen++` on the largest `Int_t`, a read of `fReadOnly` before it was assigned, or an
undefined call of `CloseFile`. -/
def OpenFile (sys : SystemView) (readOnly : Bool) (r : TFAsroFiles) :
    Option (Option Nat × TFAsroFiles) :=
  match sys.pathInfo with
  | none =>
    -- file properly does not exist yet
    if readOnly then some (none, r)
    else
      let asroFile := sys.construct readOnly
      if 0 ≤ asroFile.1.fFile then
        some (some sys.addr,
          { fFiles := setItem r.fFiles sys.pathInfoAfter ⟨some sys.addr, 1, some asroFile.2⟩,
            heap := (sys.addr, asroFile.1) :: r.heap })
      else some (none, r)
  | some id =>
    let fItem := itemAt r.fFiles id
    if fItem.fNumOpen = 2147483647 then none
    else
      let fItem : TFAsroFileItem := { fItem with fNumOpen := fItem.fNumOpen + 1 }
      match fItem.fasroFile with
      | none =>
        let asroFile := sys.construct readOnly
        let fItem : TFAsroFileItem := { fItem with fasroFile := some sys.addr }
        if 0 ≤ asroFile.1.fFile then
          -- the file is successful open
          some (some sys.addr,
            { fFiles := setItem r.fFiles id { fItem with fReadOnly := some asroFile.2 },
              heap := (sys.addr, asroFile.1) :: r.heap })
        else
          -- we are not able to open the file as needed
          (CloseFile (some sys.addr)
            { fFiles := setItem r.fFiles id fItem,
              heap := (sys.addr, asroFile.1) :: r.heap }).map (fun r2 => (none, r2))
      | some p =>
        if readOnly then some (some p, { r with fFiles := setItem r.fFiles id fItem })
        else
          match fItem.fReadOnly with
          | none => none
          | some true =>
            -- the file is already as read only open, but this time we
            -- need read and write permission
            (CloseFile (some p) { r with fFiles := setItem r.fFiles id fItem }).map
              (fun r2 => (none, r2))
          | some false =>
            -- it is already open
            some (some p, { r with fFiles := setItem r.fFiles id fItem })

/-- The ids of the map `fFiles` are in strictly increasing order. -/
def KeysSorted (m : List (Int × TFAsroFileItem)) : Prop :=
  m.Pairwise (fun a b => a.1 < b.1)

/-- A well-formed registry: the ids are in order and every address held by an item is
the address of an object that was not deleted. -/
def RegistryWF (r : TFAsroFiles) : Prop :=
  KeysSorted r.fFiles ∧
    ∀ e ∈ r.fFiles, ∀ p, e.2.fasroFile = some p → ∃ eng, (p, eng) ∈ r.heap

/-- The file `id` is open `n` times through the object `eng` at the address `p`: the
item of `id` holds `p` and the count `n`, no other item holds `p`, and `eng` is the object
at `p`. -/
def Shares (r : TFAsroFiles) (id : Int) (p : Nat) (n : Int) (eng : TFAsroFile) : Prop :=
  KeysSorted r.fFiles ∧
    (∃ ro, (id, (⟨some p, n, ro⟩ : TFAsroFileItem)) ∈ r.fFiles) ∧
    (∀ e ∈ r.fFiles, e.2.fasroFile = some p → e.1 = id) ∧ (p, eng) ∈ r.heap

/-- The work of a caller through the handle `p`: the object at the address `p` is changed
by `f` (for instance by calls of `InitWrite` and `Write`). -/
def useHandle (p : Nat) (f : TFAsroFile → TFAsroFile) (r : TFAsroFiles) : TFAsroFiles :=
  { r with heap := r.heap.map (fun h => if h.1 = p then (h.1, f h.2) else h) }

/-- A sequence of calls of `OpenFile`, each with its view of the system, its argument
`readOnly` and the work that the caller does through the returned handle before the next
call: the returned pointers and the registry at the end.  -/
def openAll : List (SystemView × Bool × (TFAsroFile → TFAsroFile)) → TFAsroFiles →
    Option (List (Option Nat) × TFAsroFiles)
  | [], r => some ([], r)
  | c :: cs, r =>
    match OpenFile c.1 c.2.1 r with
    | none => none
    | some (h, r1) =>
      match openAll cs (match h with
        | none => r1
        | some p => useHandle p c.2.2 r1) with
      | none => none
      | some (hs, r2) => some (h :: hs, r2)

/-- The call `CloseFile(asroFile)` made `n` times. -/
def closeTimes (asroFile : Option Nat) : Nat → TFAsroFiles → Option TFAsroFiles
  | 0, r => some r
  | n + 1, r =>
    match CloseFile asroFile r with
    | none => none
    | some r1 => closeTimes asroFile n r1

/-- The system during the `OpenFile` that creates the file with the id 7: no such file
before the call, the constructor makes the engine of a new file at the address 1. -/
def createView : SystemView :=
  { pathInfo := none, construct := fun _ => (openFile sampleStreamer [], false), addr := 1,
    pathInfoAfter := 7 }

/-- The system during a later `OpenFile` of the file with the id 7. -/
def againView : SystemView :=
  { pathInfo := some 7, construct := fun ro => (openFile sampleStreamer [], ro), addr := 2,
    pathInfoAfter := 7 }

/-- The first call: `OpenFile(fileName, kFALSE)` creates the file; the caller then writes
an object in a transaction that it leaves open. -/
def createCall : SystemView × Bool × (TFAsroFile → TFAsroFile) :=
  (createView, false, fun _ => sampleFile2)

/-- The later calls: one `OpenFile(fileName, kTRUE)`, after which the caller only reads. -/
def laterCalls : List (SystemView × Bool × (TFAsroFile → TFAsroFile)) :=
  [(againView, true, fun e => e)]

/-- The registry after the file with the id 7 was opened twice and the first caller wrote
an object in a transaction that is not committed. -/
def registry2 : TFAsroFiles :=
  { fFiles := [(7, ⟨some 1, 2, some false⟩)], heap := [(1, sampleFile2)] }

/-- A registry in which the file with the id 7 is open once, read-only. -/
def readOnlyRegistry : TFAsroFiles :=
  { fFiles := [(7, ⟨some 1, 1, some true⟩)], heap := [(1, sampleFile3)] }

/-- The entries `(0, "", v)` for every version `v` from 1 to `2^31 - 1`. -/
@[irreducible]
def fullEntries : Entries :=
  (List.range 2147483647).map
    (fun (i : Nat) => ((⟨0, "", (i : Int) + 1⟩ : TFAsroKey), (⟨24 + i, 1, 1, 0⟩ : TFAsroValue)))

/-- A directory in which the name `"a"` has an entry for every version from 1 to
`2^31 - 1`. -/
def fullVersions : TFAsroFile :=
  { fEntries := fullEntries,
    fClassNames := ["TNamed"], fNames := ["a"],
    fDes0 := 0, fDes1 := 0, fDes2 := 0, fDes3 := 0, fFreeReserve := 0, fFree := [],
    fFile := 3, disk := [] }

/-! ## The other enumerations: `GetNumSubs` and the element iterator -/

/-- The loop of `GetNumSubs`: `numSub` counts the entries seen so far. -/
def numSubsLoop (nameIndex : Nat) (cycle : Int) : Entries → Nat → Nat
  | [], numSub => numSub
  | e :: rest, numSub =>
    if e.1.fCycle = cycle ∧ nameIndex = e.1.fElName then
      numSubsLoop nameIndex cycle rest ((numSub + 1) % 4294967296)
    else numSub

/-- The member function `TFAsroFile::GetNumSubs`. -/
def GetNumSubs (name : String) (cycle : Int) (s : TFAsroFile) : Nat :=
  -- find the nameIndex in names
  if s.fNames.length = 0 then 0
  else if findName s.fNames name = s.fNames.length then 0
  else
    numSubsLoop (findName s.fNames name) cycle
      (upper_bound s.fEntries ⟨findName s.fNames name, "", cycle⟩) 0

/-- The class `TFAsroElementIter`; the member `fEntries`, a pointer to the map of the
file, is the argument `fEntries` of `Next`. -/
structure TFAsroElementIter where
  fKey : TFAsroKey

/-- The member function `TFAsroElementIter::Reset`: `fKey = TFAsroKey()`.  The constructor
of the iterator leaves the same key. -/
def TFAsroElementIter.Reset (_ : TFAsroElementIter) : TFAsroElementIter :=
  { fKey := ⟨0, "", 0⟩ }

/-- The member function `TFAsroElementIter::Next`: the return value and the new
iterator. -/
def TFAsroElementIter.Next (fEntries : Entries) (it : TFAsroElementIter) :
    Bool × TFAsroElementIter :=
  let fKey : TFAsroKey := { it.fKey with fCycle := wrapInt32 (it.fKey.fCycle + 1) }
  match lower_bound fEntries fKey with
  | [] => (false, { fKey := fKey })
  | e :: _ => (true, { fKey := e.1 })

/-- The keys that `GetKey` shows after the calls of `Next` that return true, until `Next`
returns false; `fuel` bounds the number of calls. -/
def elementKeys (fEntries : Entries) : Nat → TFAsroElementIter → Option (List TFAsroKey)
  | 0, _ => none
  | fuel + 1, it =>
    match it.Next fEntries with
    | (false, _) => some []
    | (true, it1) =>
      match elementKeys fEntries fuel it1 with
      | none => none
      | some ks => some (it1.fKey :: ks)

/-- The calls that enumerate the directory. -/
inductive Enumeration where
  | getFreeCycle (name : String)
  | getNumSubs (name : String) (cycle : Int)
  | getNextCycle (name : String) (cycle : Int)
  | makeColIter (name : String) (cycle : Int)
  | colNext (it : TFAsroColIter)
  | elementReset (it : TFAsroElementIter)
  | elementNext (it : TFAsroElementIter)

/-- The state of the `TFAsroFile` after one of the enumerating calls.  Only `GetFreeCycle`
assigns to a member of the file (`fNames.push_back`); the bodies of the other functions
assign to local variables and to members of the iterators only. -/
def Enumeration.after : Enumeration → TFAsroFile → TFAsroFile
  | .getFreeCycle name, s => (GetFreeCycle name s).2
  | .getNumSubs _ _, s => s
  | .getNextCycle _ _, s => s
  | .makeColIter _ _, s => s
  | .colNext _, s => s
  | .elementReset _, s => s
  | .elementNext _, s => s

/-- A directory with the table `("tab", "", 2^31 - 1)` and its column `"a"`. -/
def lastVersionTable : TFAsroFile :=
  { fEntries := [(⟨0, "", 2147483647⟩, ⟨24, 10, 10, 0⟩), (⟨0, "a", 2147483647⟩, ⟨34, 10, 10, 1⟩)],
    fClassNames := ["TFTable", "TFColumn"], fNames := ["tab"], fDes0 := 44, fDes1 := 5,
    fDes2 := 8, fDes3 := 8, fFreeReserve := 8, fFree := [some (65, 4294967230)], fFile := 3,
    disk := [] }

/-- A state of a new file whose only free range is `(2147483670, 2147483625)`, as after
the `Write` of an object of `0x7FFFFFFE` bytes. -/
def nearlyFull : TFAsroFile :=
  { sampleFile1 with fFree := [some (2147483670, 2147483625)], fDes3 := 8 }

/-! ## Selection of names with wildcards (`TFToken` in `TFNameSelect.cxx`) -/

/-- The class `TFToken` after `SetName`.  A C string is the list of its characters (without
the final `NUL`); `fToken` is the list of the strings that the array `fToken` points to,
and `fNumToken` is its length. -/
structure TFToken where
  fToken : List (List Char)
  fLead : Bool
  fTrail : Bool
  deriving DecidableEq, Repr

/-- The library function `strtok` with the delimiter `"*"`, called on the rest `buf` of the
buffer: `none` for `NULL`, else the token and the rest of the buffer behind the delimiter
that ended the token. -/
def strtok (buf : List Char) : Option (List Char × List Char) :=
  if buf.dropWhile (fun c => c = '*') = [] then none
  else
    some ((buf.dropWhile (fun c => c = '*')).takeWhile (fun c => c ≠ '*'),
      (((buf.dropWhile (fun c => c = '*')).dropWhile (fun c => c ≠ '*')).drop 1))

/-- The loop `for (fNumToken = 0; ; fNumToken++) if ((fToken[fNumToken] = strtok(..)) ==
NULL) break;` of `SetName`; `fuel` bounds the number of calls of `strtok`. -/
def tokenLoop : Nat → List Char → List (List Char)
  | 0, _ => []
  | fuel + 1, buf =>
    match strtok buf with
    | none => []
    | some (tok, rest) => tok :: tokenLoop fuel rest

/-- The member function `TFToken::SetName` on a new `TFToken`. -/
def TFToken.SetName (name : List Char) : TFToken :=
  { fLead := decide (name.head? = some '*'),
    fTrail := decide (name.length > 0 ∧ name.getLast? = some '*'),
    fToken := tokenLoop (name.length + 1) name }

/-- The library function `strstr`: the offset of the first occurrence of `needle` in
`hay`, `none` for `NULL`. -/
def strstr : List Char → List Char → Option Nat
  | [], needle => if needle <+: [] then some 0 else none
  | c :: hay, needle =>
    if needle <+: c :: hay then some 0 else (strstr hay needle).map (fun i => i + 1)

/-- The loop of `TFToken::Select`: `num` is the index of the first of the tokens `toks`
still to be looked for, `pos1` is the rest of `testName` from the pointer `pos1` on. -/
def selectLoop (testName : List Char) (fLead fTrail : Bool) (fNumToken : Nat) :
    Nat → List (List Char) → List Char → Bool
  | _, [], _ => true
  | num, tok :: toks, pos1 =>
    if (!fTrail && decide (num = fNumToken - 1)) && decide (tok.length > pos1.length) then false
    else
      match strstr (if !fTrail && decide (num = fNumToken - 1)
          then testName.drop (testName.length - tok.length) else pos1) tok with
      | none => false
      | some off =>
        -- 1.  token must start at 1. char
        if !fLead && decide (num = 0) && decide (off ≠ 0) then false
        else
          selectLoop testName fLead fTrail fNumToken (num + 1) toks
            ((if !fTrail && decide (num = fNumToken - 1)
              then testName.drop (testName.length - tok.length) else pos1).drop
                (off + tok.length))

/-- The member function `TFToken::Select`. -/
def TFToken.Select (t : TFToken) (testName : List Char) : Bool :=
  if t.fToken.length = 0 then
    if t.fLead || t.fTrail then true   -- ie, only '*'
    else false                          -- empty test tring
  else selectLoop testName t.fLead t.fTrail t.fToken.length 0 t.fToken testName

/-- The name `testName` matches `pattern`: every `'*'` of the pattern stands for a
sub-string `g`, which may be empty, and every other character stands for itself. -/
inductive WildMatch : List Char → List Char → Prop
  | nil : WildMatch [] []
  | star (g : List Char) {p t : List Char} : WildMatch p t → WildMatch ('*' :: p) (g ++ t)
  | char (c : Char) {p t : List Char} : c ≠ '*' → WildMatch p t →
      WildMatch (c :: p) (c :: t)

/-- The names that a list of tokens selects behind a `'*'`: each token is found behind a
gap `g`, and behind the last token the name ends unless the pattern ends with `'*'`. -/
def GapMatch (trail : Bool) : List (List Char) → List Char → Prop
  | [], t => trail = true ∨ t = []
  | k :: ks, t => ∃ g r, t = g ++ k ++ r ∧ GapMatch trail ks r

/-- The pattern ends with `'*'`. -/
def lastStar (p : List Char) : Bool := decide (p.getLast? = some '*')

/-! ## The table interface of `TFAsroIO` (`TFAsroIO.cxx`) -/

/-- The members of `TFAsroIO` that `DeleteColumn` uses: the engine behind the pointer
`fFile` (`none` for `NULL`), the version `fCycle`, and the name of the element,
`fElement->GetName()`. -/
structure TFAsroIO where
  fFile : Option TFAsroFile
  fCycle : Int
  fElementName : String
  deriving DecidableEq, Repr

/-- The calls of `TFError::SetError` (external code) made so far: the name of the
function and the index of the message in the array `errMsg`. -/
abbrev ErrorLog := List (String × Nat)

/-- The member function `TFAsroIO::DeleteColumn`: the return value, the object and the
errors afterwards. -/
def TFAsroIO.DeleteColumn (st : DirStreamer) (name : String) (io : TFAsroIO)
    (errors : ErrorLog) : Option (Int × TFAsroIO × ErrorLog) :=
  match io.fFile with
  | none => some (0, io, errors)
  | some f =>
    match Delete st io.fElementName name io.fCycle f with
    | none => none
    | some (ok, f1) =>
      if ok = false then some (0, { io with fFile := some f1 }, errors)
      else
        some (-1, { io with fFile := some f1 }, errors ++ [("TFAsroIO::DeleteColumn", 10)])

/-- The interface object of the table `("a", "", 1)` of `tableFile`. -/
def tableIO : TFAsroIO := { fFile := some tableFile, fCycle := 1, fElementName := "a" }

/-- The ids of a state are valid: both name tables are free of duplicates, the name-id of
every key of the directory is an index of the name table, and the class-id of every
record is an index of the table of class names. -/
def IdsValid (s : TFAsroFile) : Prop :=
  s.fNames.Nodup ∧ s.fClassNames.Nodup ∧
    (∀ e ∈ s.fEntries, e.1.fElName < s.fNames.length) ∧
    (∀ e ∈ s.fEntries, e.2.fClassName < s.fClassNames.length)

/-- The value of `length` that one iteration of the loop of `Compress` chooses for the
`inLength` bytes that are left. -/
def cutLength (inLength : Nat) : Nat :=
  if inLength ≤ MAX_CUT_LENGTH then inLength
  else if inLength < MAX_CUT_LENGTH * 2 then inLength / 2
  else MAX_CUT_LENGTH

/-- The values of `length` in the successive iterations of the loop of `Compress` for an
input of `inLength` bytes, as long as no iteration returns; `fuel` bounds the number of
iterations. -/
def chunkLengths : Nat → Nat → List Nat
  | 0, _ => []
  | fuel + 1, inLength =>
    if inLength > 0 then cutLength inLength :: chunkLengths fuel (inLength - cutLength inLength)
    else []

/-- The consecutive pieces of `inp` with the lengths of the list. -/
def chunksOf : List Nat → List Nat → List (List Nat)
  | [], _ => []
  | n :: ns, inp => inp.take n :: chunksOf ns (inp.drop n)

/-- A codec whose output is one byte for every input. -/
def oneByteCodec : Codec := { zip := fun _ _ _ => [5], unzip := fun _ _ => [] }

/-- A state whose free table holds the single range `(10, 0)`, a range without a byte. -/
def emptyLastTable : TFAsroFile :=
  { fEntries := [], fClassNames := [], fNames := [], fDes0 := 24, fDes1 := 0, fDes2 := 8,
    fDes3 := 8, fFreeReserve := 8, fFree := [some (10, 0)], fFile := 3, disk := [] }

/-- The words of a free list in the order of the array `fFree`: offset and length of each
range. -/
def rangeWords : List (Nat × Nat) → List Nat
  | [] => []
  | r :: rest => r.1 :: r.2 :: rangeWords rest

/-- A state whose free table holds the ranges `(4294967280, 5)` and `(4294967290, 5)`, the
last bytes of the address space. -/
def lastBytesFile : TFAsroFile :=
  { fEntries := [], fClassNames := [], fNames := [], fDes0 := 24, fDes1 := 0, fDes2 := 16,
    fDes3 := 8, fFreeReserve := 16,
    fFree := [some (4294967280, 5), some (4294967290, 5)], fFile := 3, disk := [] }

/-- A state in a transaction whose free table holds the ranges `(30, 25)` and
`(100, 4294967195)`; the descriptor of the sample streamer (1 byte), the table (16 bytes)
and the 8 spare bytes fit the first range exactly. -/
def exactFitFile : TFAsroFile :=
  { fEntries := [], fClassNames := [], fNames := [], fDes0 := 24, fDes1 := 0, fDes2 := 16,
    fDes3 := 8, fFreeReserve := 16,
    fFree := [some (30, 25), some (100, 4294967195)], fFile := 3, disk := magic }

/-- A state whose free table holds the ranges `(24, 10)` and `(100, 4294967195)`, the last
one ending at `0xFFFFFFFF`, in an array of three slots, the last of them never written. -/
def topTable : TFAsroFile :=
  { fEntries := [], fClassNames := [], fNames := [], fDes0 := 24, fDes1 := 0, fDes2 := 16,
    fDes3 := 8, fFreeReserve := 24,
    fFree := [some (24, 10), some (100, 4294967195), none], fFile := 3, disk := [] }

/-- A state whose free table holds the empty range `(30, 0)` and the range
`(40, 4294967255)`, which ends at `0xFFFFFFFF`. -/
def emptyTopTable : TFAsroFile :=
  { fEntries := [], fClassNames := [], fNames := [], fDes0 := 24, fDes1 := 0, fDes2 := 16,
    fDes3 := 8, fFreeReserve := 24,
    fFree := [some (30, 0), some (40, 4294967255), none], fFile := 3, disk := [] }

/-- A state whose free table holds the single range `(0, 0xFFFFFFFF)`: the whole address
space is free. -/
def wholeSpaceTable : TFAsroFile :=
  { fEntries := [], fClassNames := [], fNames := [], fDes0 := 24, fDes1 := 0, fDes2 := 8,
    fDes3 := 8, fFreeReserve := 8,
    fFree := [some (0, 4294967295)], fFile := 3, disk := [] }

/-- An object of `0x60000000` bytes (1.5 GiB). -/
def gigObject : TObject := ⟨"TNamed", List.replicate 1610612736 0⟩

/-- An object of 1073741820 bytes: 21 bytes more than a new file has left after two
objects of `0x60000000` bytes. -/
def restObject : TObject := ⟨"TNamed", List.replicate 1073741820 0⟩

/-- An object of 1073741789 bytes: 10 bytes less than a new file has left after two
objects of `0x60000000` bytes. -/
def fitObject : TObject := ⟨"TNamed", List.replicate 1073741789 0⟩

/-- A streamer for the examples whose descriptor grows with the directory: one byte and
one more for every entry and every name of the two tables.  Reading a descriptor of the
length that belongs to `dir` gives `dir`; any other buffer reads as the empty directory. -/
def growStreamer (dir : Entries × List String × List String) : DirStreamer :=
  { write := fun m cn nm => List.replicate (1 + m.length + cn.length + nm.length) 7,
    read := fun b =>
      if b = List.replicate (1 + dir.1.length + dir.2.1.length + dir.2.2.length) 7 then dir
      else ([], [], []) }

/-- The growing streamer whose directory holds the compressed `echoObject` under the key
`("a", "", 1)`. -/
def growShrinkStreamer : DirStreamer :=
  growStreamer ([(⟨0, "", 1⟩, ⟨24, 255, 256, 0⟩)], ["TNamed"], ["a"])

/-- The file after `FinishWrite` with the growing streamer: the descriptor has 4 bytes. -/
def growFile3 : TFAsroFile :=
  { fEntries := [(⟨0, "", 1⟩, ⟨24, 255, 256, 0⟩)], fClassNames := ["TNamed"], fNames := ["a"],
    fDes0 := 279, fDes1 := 4, fDes2 := 8, fDes3 := 8, fFreeReserve := 8,
    fFree := [some (299, 4294966996)], fFile := 3,
    disk := pwrite (pwrite (pwrite (pwrite sampleFile1.disk 24 shortPacked) 279 [7, 7, 7, 7])
      283 (encodeWords [299, 4294966996])) 8 (encodeWords [279, 4, 8, 8]) }

/-- The directory after two objects of `0x60000000` bytes and one of 1073741820 bytes were
written to a new file under the names `"a"`, `"b"` and `"c"`. -/
def threeDirectory : Entries × List String × List String :=
  ([(⟨0, "", 1⟩, ⟨24, 1610612736, 1610612736, 0⟩),
    (⟨1, "", 1⟩, ⟨1610612760, 1610612736, 1610612736, 0⟩),
    (⟨2, "", 1⟩, ⟨3221225496, 1073741820, 1073741820, 0⟩)], ["TNamed"], ["a", "b", "c"])

/-! # Properties -/

/-! ## The free table: the array and the list it holds -/

theorem drop_eq_cons {α : Type} {a : List α} {i : Nat} {x : α} {t : List α} (d : α)
    (h : a.drop i = x :: t) : a.getD i d = x ∧ a.drop (i + 1) = t ∧ i < a.length := by
  induction a generalizing i with
  | nil => simp at h
  | cons y a ih =>
    cases i with
    | zero => simp at h; simp [h.1, h.2]
    | succ i =>
      simp only [List.drop_succ_cons] at h
      obtain ⟨h1, h2, h3⟩ := ih h
      refine ⟨?_, ?_, ?_⟩
      · rw [List.getD_cons_succ]; exact h1
      · rw [List.drop_succ_cons]; exact h2
      · simp only [List.length_cons]; omega

theorem rdSlot_of_drop {a : List Slot} {i : Nat} {r : Nat × Nat} {t : List Slot}
    (h : a.drop i = some r :: t) : rdSlot a i = some r := by
  unfold rdSlot
  exact (drop_eq_cons none h).1

theorem getFreeScan_eq (size : Nat) (rest : List Slot) (fl : List (Nat × Nat)) :
    ∀ (a : List Slot) (index : Nat) (best : Nat × Nat),
      a.drop index = fl.map some ++ rest →
      getFreeScan a size fl.length index best = some (scanL size fl index best) := by
  induction fl with
  | nil => intro a index best _; simp [getFreeScan, scanL]
  | cons r fl ih =>
    intro a index best h
    simp only [List.map_cons, List.cons_append] at h
    have h1 := rdSlot_of_drop h
    have h2 := (drop_eq_cons none h).2.1
    simp only [List.length_cons, getFreeScan, h1, scanL]
    split
    · exact ih a (index + 1) _ h2
    · exact ih a (index + 1) _ h2

theorem scanL_lt (size : Nat) (fl : List (Nat × Nat)) :
    ∀ (index : Nat) (best : Nat × Nat), best.1 < index + fl.length →
      (scanL size fl index best).1 < index + fl.length := by
  induction fl with
  | nil => intro index best h; simpa [scanL] using h
  | cons r fl ih =>
    intro index best h
    simp only [scanL, List.length_cons]
    split
    · have := ih (index + 1) (index, r.2) (by simp; omega)
      omega
    · have := ih (index + 1) best (by simp at h; omega)
      omega

theorem scanL_inv (size : Nat) (fl : List (Nat × Nat)) :
    ∀ (pre : List (Nat × Nat)) (best : Nat × Nat), (∀ x ∈ fl, x.2 < 4294967295) →
      ScanInv size pre best → ScanInv size (pre ++ fl) (scanL size fl pre.length best) := by
  induction fl with
  | nil => intro pre best _ h; simpa [scanL] using h
  | cons x fl ih =>
    intro pre best hlen h
    have hx : x.2 < 4294967295 := hlen x (by simp)
    have hfl : ∀ y ∈ fl, y.2 < 4294967295 := fun y hy => hlen y (by simp [hy])
    have happ : pre ++ x :: fl = (pre ++ [x]) ++ fl := by simp
    have hlen1 : pre.length + 1 = (pre ++ [x]).length := by simp
    simp only [scanL]
    rw [happ, hlen1]
    split
    · rename_i hc
      apply ih _ _ hfl
      right
      refine ⟨pre, x, [], by simp, by simp, hc.1, ?_, by simp⟩
      intro y hy hsy
      rcases h with ⟨_, hno⟩ | ⟨p1, r, p2, hpre, hbest, hb1, hb2, hb3⟩
      · exact absurd hsy (hno y hy)
      · have hc2 : r.2 > x.2 := by simpa [hbest] using hc.2
        rw [hpre] at hy
        simp only [List.mem_append, List.mem_cons] at hy
        rcases hy with hy | hy | hy
        · have := hb2 y hy hsy; omega
        · rw [hy]; exact hc2
        · have := hb3 y hy hsy; omega
    · rename_i hc
      apply ih _ _ hfl
      rcases h with ⟨hb, hno⟩ | ⟨p1, r, p2, hpre, hbest, hb1, hb2, hb3⟩
      · left
        refine ⟨hb, ?_⟩
        intro y hy
        simp only [List.mem_append, List.mem_singleton] at hy
        rcases hy with hy | hy
        · exact hno y hy
        · rw [hy]
          intro hs
          apply hc
          rw [hb]
          exact ⟨hs, hx⟩
      · right
        refine ⟨p1, r, p2 ++ [x], by simp [hpre], hbest, hb1, hb2, ?_⟩
        intro y hy hsy
        simp only [List.mem_append, List.mem_singleton] at hy
        rcases hy with hy | hy
        · exact hb3 y hy hsy
        · rw [hy] at hsy ⊢
          by_contra hlt
          apply hc
          rw [hbest]
          exact ⟨hsy, by simp; omega⟩

theorem scanL_bestFit (size : Nat) (fl : List (Nat × Nat)) (hlen : ∀ x ∈ fl, x.2 < 4294967295)
    (hsat : ∃ x ∈ fl, size ≤ x.2) :
    ∃ p1 r p2, fl = p1 ++ r :: p2 ∧ (scanL size fl 0 (0, 4294967295)).1 = p1.length ∧
      BestFit size p1 r p2 := by
  have h := scanL_inv size fl [] (0, 4294967295) hlen (Or.inl ⟨rfl, by simp⟩)
  simp only [List.nil_append, List.length_nil] at h
  rcases h with ⟨_, hno⟩ | ⟨p1, r, p2, hpre, hbest, hb⟩
  · obtain ⟨x, hx, hs⟩ := hsat
    exact absurd hs (hno x hx)
  · exact ⟨p1, r, p2, hpre, by rw [hbest], hb⟩

theorem memmove_down (A B rest : List Slot) (x : Slot) :
    ∃ rest', memmoveSlots (A ++ x :: (B ++ rest)) A.length (A.length + 1) B.length
        = some (A ++ (B ++ rest')) ∧ rest'.length = rest.length + 1 := by
  refine ⟨(x :: (B ++ rest)).drop B.length, ?_, ?_⟩
  · unfold memmoveSlots
    have hc : A.length + 1 + B.length ≤ (A ++ x :: (B ++ rest)).length ∧
        A.length + B.length ≤ (A ++ x :: (B ++ rest)).length := by
      simp only [List.length_append, List.length_cons]; omega
    rw [if_pos hc]
    have h1 : (A ++ x :: (B ++ rest)).take A.length = A := List.take_left _ _
    have h2 : (A ++ x :: (B ++ rest)).drop (A.length + 1) = B ++ rest := by
      rw [List.drop_append]; rfl
    have h3 : (A ++ x :: (B ++ rest)).drop (A.length + B.length)
        = (x :: (B ++ rest)).drop B.length := List.drop_append _
    rw [h1, h2, h3, List.take_left, List.append_assoc]
  · simp only [List.length_drop, List.length_cons, List.length_append]; omega

theorem memmove_up (A B rest : List Slot) (y : Slot) :
    ∃ z, memmoveSlots (A ++ (B ++ y :: rest)) (A.length + 1) A.length B.length
        = some (A ++ z :: (B ++ rest)) := by
  have hc : A.length + B.length ≤ (A ++ (B ++ y :: rest)).length ∧
      A.length + 1 + B.length ≤ (A ++ (B ++ y :: rest)).length := by
    simp only [List.length_append, List.length_cons]; omega
  unfold memmoveSlots
  rw [if_pos hc]
  have h2 : (A ++ (B ++ y :: rest)).drop A.length = B ++ y :: rest := List.drop_left _ _
  have h3 : (A ++ (B ++ y :: rest)).drop (A.length + 1 + B.length) = rest := by
    have e1 : A ++ (B ++ y :: rest) = (A ++ B ++ [y]) ++ rest := by simp
    have e2 : A.length + 1 + B.length = (A ++ B ++ [y]).length := by
      simp only [List.length_append, List.length_cons, List.length_nil]; omega
    rw [e1, e2]
    exact List.drop_left _ _
  rw [h2, h3, List.take_left]
  cases B with
  | nil =>
    refine ⟨y, ?_⟩
    have : (A ++ ([] ++ y :: rest)).take (A.length + 1) = A ++ [y] := by
      rw [List.take_append]; rfl
    rw [this]; simp
  | cons b B =>
    refine ⟨b, ?_⟩
    have : (A ++ (b :: B ++ y :: rest)).take (A.length + 1) = A ++ [b] := by
      rw [List.take_append]; rfl
    rw [this]; simp

theorem numFree_of_rep {s : TFAsroFile} {fl : List (Nat × Nat)} (h : TableRep s fl) :
    s.numFree = fl.length := by
  unfold TFAsroFile.numFree
  rw [h.1]
  omega

theorem freeList_of_rep {s : TFAsroFile} {fl : List (Nat × Nat)} (h : TableRep s fl) :
    freeList s = fl := by
  have hn := numFree_of_rep h
  obtain ⟨_, _, _, rest, hf⟩ := h
  unfold freeList
  rw [hn, hf]
  have : (List.map some fl ++ rest).take fl.length = List.map some fl := by
    have := List.take_left (List.map some fl) rest
    simp
  rw [this]
  simp

theorem getFree_step (size : Nat) (s : TFAsroFile) (p1 : List (Nat × Nat)) (r : Nat × Nat)
    (p2 : List (Nat × Nat)) (hrep : TableRep s (p1 ++ r :: p2))
    (hb : (scanL size (p1 ++ r :: p2) 0 (0, 4294967295)).1 = p1.length) :
    ∃ s', GetFree size s = some (r.1, s') ∧ SameButTable s s' ∧
      s'.fFreeReserve = s.fFreeReserve ∧
      (size = r.2 → TableRep s' (p1 ++ p2) ∧ s'.fDes3 = (s.fDes3 + 8) % 4294967296) ∧
      (size ≠ r.2 →
        TableRep s' (p1 ++ ((r.1 + size) % 4294967296,
                            (r.2 + 4294967296 - size) % 4294967296) :: p2) ∧
        s'.fDes3 = s.fDes3) := by
  have hnum := numFree_of_rep hrep
  obtain ⟨hd2, hres, hlt, rest, hfree⟩ := hrep
  have hscan := getFreeScan_eq size rest (p1 ++ r :: p2) s.fFree 0 (0, 4294967295)
    (by simpa using hfree)
  have hdrop : s.fFree.drop p1.length = some r :: (p2.map some ++ rest) := by
    rw [hfree]
    simp only [List.map_append, List.map_cons, List.append_assoc, List.cons_append]
    have := List.drop_left (List.map some p1) (some r :: (List.map some p2 ++ rest))
    simp
  have hrd : rdSlot s.fFree p1.length = some r := rdSlot_of_drop hdrop
  have hfree' : s.fFree = p1.map some ++ some r :: (p2.map some ++ rest) := by
    rw [hfree]; simp
  have hlen : s.fFree.length = p1.length + 1 + p2.length + rest.length := by
    rw [hfree']; simp only [List.length_append, List.length_cons, List.length_map]; omega
  have hn : (p1 ++ r :: p2).length = p1.length + 1 + p2.length := by
    simp only [List.length_append, List.length_cons]; omega
  unfold GetFree
  rw [hnum, hscan]
  generalize scanL size (p1 ++ r :: p2) 0 (0, 4294967295) = best at hb
  obtain ⟨b, bs⟩ := best
  simp only at hb
  subst hb
  simp only [hrd]
  by_cases hsz : size = r.2
  · rw [if_pos hsz]
    have hnlt : ¬ s.fDes2 < (p1.length + 1) * 8 := by rw [hd2, hn]; omega
    rw [if_neg hnlt]
    have hcnt : (s.fDes2 - (p1.length + 1) * 8) / 8 = (p2.map some).length := by
      rw [hd2, hn, List.length_map]; omega
    obtain ⟨rest', hmm, hrl⟩ := memmove_down (p1.map some) (p2.map some) rest (some r)
    rw [List.length_map] at hmm
    rw [hcnt, hfree', hmm]
    refine ⟨_, rfl, ⟨rfl, rfl, rfl, rfl, rfl, rfl, rfl⟩, rfl, ?_, fun h => absurd hsz h⟩
    intro _
    refine ⟨⟨?_, ?_, hlt, rest', ?_⟩, rfl⟩
    · show (s.fDes2 + 4294967296 - 8) % 4294967296 = 8 * (p1 ++ p2).length
      rw [hd2, hn, List.length_append]; omega
    · show s.fFreeReserve = 8 * (p1.map some ++ (p2.map some ++ rest')).length
      rw [hres, hlen]
      simp only [List.length_append, List.length_map]; omega
    · show p1.map some ++ (p2.map some ++ rest') = _
      simp
  · rw [if_neg hsz]
    refine ⟨_, rfl, ⟨rfl, rfl, rfl, rfl, rfl, rfl, rfl⟩, rfl, fun h => absurd h hsz, ?_⟩
    intro _
    refine ⟨⟨hd2.trans (by simp), ?_, hlt, rest, ?_⟩, rfl⟩
    · show s.fFreeReserve = 8 * (s.fFree.set _ _).length
      rw [List.length_set]; exact hres
    · show s.fFree.set _ _ = _
      rw [hfree']
      have : (List.map some p1 ++ some r :: (List.map some p2 ++ rest)).set p1.length
          (some ((r.1 + size) % 4294967296, (r.2 + 4294967296 - size) % 4294967296))
          = List.map some p1 ++ some ((r.1 + size) % 4294967296,
              (r.2 + 4294967296 - size) % 4294967296) :: (List.map some p2 ++ rest) := by
        rw [List.set_append]
        simp
      rw [this]; simp

theorem set_mid {α : Type} (A B : List α) (x v : α) :
    (A ++ x :: B).set A.length v = A ++ v :: B := by
  rw [List.set_append]
  simp

theorem rdSlot_mid (A B : List Slot) (r : Nat × Nat) :
    rdSlot (A ++ some r :: B) A.length = some r :=
  rdSlot_of_drop (List.drop_left A (some r :: B))

theorem makeFreeIndex_eq (pos : Nat) (nx : Nat × Nat) (t : List Slot) (l1 : List (Nat × Nat)) :
    ∀ (a : List Slot) (index k : Nat), a.drop index = l1.map some ++ some nx :: t →
      (∀ x ∈ l1, x.1 < pos) → pos ≤ nx.1 → l1.length < k →
      makeFreeIndex a pos k index = some (index + l1.length) := by
  induction l1 with
  | nil =>
    intro a index k h _ hnx hk
    obtain ⟨k, rfl⟩ : ∃ k', k = k' + 1 := ⟨k - 1, by simp at hk; omega⟩
    simp only [List.map_nil, List.nil_append] at h
    simp only [makeFreeIndex, rdSlot_of_drop h]
    rw [if_neg (by omega)]
    simp
  | cons x l1 ih =>
    intro a index k h hl hnx hk
    obtain ⟨k, rfl⟩ : ∃ k', k = k' + 1 := ⟨k - 1, by simp at hk; omega⟩
    simp only [List.map_cons, List.cons_append] at h
    simp only [makeFreeIndex, rdSlot_of_drop h]
    rw [if_pos (hl x (by simp))]
    rw [ih a (index + 1) k (drop_eq_cons none h).2.1 (fun y hy => hl y (by simp [hy])) hnx
      (by simp at hk; omega)]
    simp only [List.length_cons]
    congr 1
    omega

theorem insertFree_step (pos size : Nat) (s : TFAsroFile) (A B : List (Nat × Nat))
    (hrep : TableRep s (A ++ B)) (hroom : s.fFreeReserve + 400 < 4294967296) :
    ∃ s', insertFree A.length pos size s = some s' ∧ SameButTable s s' ∧
      TableRep s' (A ++ (pos, size) :: B) ∧
      s'.fDes3 = (s.fDes3 + 4294967296 - 8) % 4294967296 ∧
      s.fFreeReserve ≤ s'.fFreeReserve ∧ s'.fFreeReserve ≤ s.fFreeReserve + 400 := by
  obtain ⟨hd2, hres, hlt, rest, hfree⟩ := hrep
  have hfree' : s.fFree = A.map some ++ (B.map some ++ rest) := by rw [hfree]; simp
  have hlen : s.fFree.length = A.length + B.length + rest.length := by
    rw [hfree']; simp only [List.length_append, List.length_map]; omega
  have hn : (A ++ B).length = A.length + B.length := List.length_append _ _
  have hcnt : (s.fDes2 - A.length * 8) / 8 = B.length := by rw [hd2, hn]; omega
  have hd2' : (s.fDes2 + 8) % 4294967296 = 8 * (A ++ (pos, size) :: B).length := by
    have hL : (A ++ (pos, size) :: B).length = A.length + B.length + 1 := by
      simp only [List.length_append, List.length_cons]; omega
    rw [hL]
    omega
  unfold insertFree
  rw [if_neg (by rw [hd2, hn]; omega), hcnt]
  by_cases hfull : s.fDes2 = s.fFreeReserve
  · have hrest : rest = [] := by
      have : rest.length = 0 := by rw [hd2, hn, hres, hlen] at hfull; omega
      exact List.length_eq_zero.mp this
    subst hrest
    simp only [List.length_nil] at hlen
    have hcap : (s.fFreeReserve + 400) % 4294967296 / 8 = A.length + B.length + 50 := by
      omega
    have hcond : A.length ≤ s.fFree.length ∧ A.length + B.length ≤ s.fFree.length ∧
        A.length + 1 + B.length ≤ (s.fFreeReserve + 400) % 4294967296 / 8 := by
      rw [hcap, hlen]; omega
    have ht : s.fFree.take A.length = A.map some := by
      rw [hfree']
      have := List.take_left (A.map some) (B.map some ++ [])
      simp
    have hdr : (s.fFree.drop A.length).take B.length = B.map some := by
      rw [hfree']
      have := List.drop_left (A.map some) (B.map some ++ [])
      simp only [List.length_map] at this
      rw [this]; simp
    simp only [if_pos hfull, if_pos hcond, ht, hdr]
    have hidx : A.length < (List.map some A ++ [none] ++ List.map some B ++
        List.replicate ((s.fFreeReserve + 400) % 4294967296 / 8 - (A.length + 1 + B.length))
          (none : Slot)).length := by
      simp only [List.length_append, List.length_map, List.length_cons, List.length_nil,
        List.length_replicate]; omega
    rw [if_pos hidx]
    refine ⟨_, rfl, ⟨rfl, rfl, rfl, rfl, rfl, rfl, rfl⟩, ⟨hd2', ?_, ?_, ?_⟩, rfl, ?_, ?_⟩
    rotate_left 3
    · show s.fFreeReserve ≤ (s.fFreeReserve + 400) % 4294967296
      omega
    · show (s.fFreeReserve + 400) % 4294967296 ≤ s.fFreeReserve + 400
      omega
    · show (s.fFreeReserve + 400) % 4294967296 = 8 * (List.set _ _ _).length
      simp only [List.length_set, List.length_append, List.length_map, List.length_cons,
        List.length_nil, List.length_replicate]
      omega
    · show (s.fFreeReserve + 400) % 4294967296 < 4294967296
      omega
    · refine ⟨List.replicate ((s.fFreeReserve + 400) % 4294967296 / 8
        - (A.length + 1 + B.length)) none, ?_⟩
      show List.set _ _ _ = _
      have e : List.map some A ++ [none] ++ List.map some B ++
          List.replicate ((s.fFreeReserve + 400) % 4294967296 / 8 - (A.length + 1 + B.length))
            (none : Slot)
          = List.map some A ++ none :: (List.map some B ++
          List.replicate ((s.fFreeReserve + 400) % 4294967296 / 8 - (A.length + 1 + B.length))
            (none : Slot)) := by simp
      rw [e]
      have := set_mid (List.map some A) (List.map some B ++
          List.replicate ((s.fFreeReserve + 400) % 4294967296 / 8 - (A.length + 1 + B.length))
            (none : Slot)) none (some (pos, size))
      rw [List.length_map] at this
      rw [this]; simp
  · have hrest : ∃ y rest', rest = y :: rest' := by
      cases rest with
      | nil => exfalso; apply hfull; rw [hd2, hn, hres, hlen]; simp
      | cons y r => exact ⟨y, r, rfl⟩
    obtain ⟨y, rest', rfl⟩ := hrest
    obtain ⟨z, hmm⟩ := memmove_up (A.map some) (B.map some) rest' y
    simp only [List.length_map] at hmm
    simp only [if_neg hfull, hfree', hmm, Option.map_some']
    have hidx : A.length < (List.map some A ++ z :: (List.map some B ++ rest')).length := by
      simp only [List.length_append, List.length_map, List.length_cons]; omega
    rw [if_pos hidx]
    have hset := set_mid (List.map some A) (List.map some B ++ rest') z (some (pos, size))
    rw [List.length_map] at hset
    refine ⟨_, rfl, ⟨rfl, rfl, rfl, rfl, rfl, rfl, rfl⟩, ⟨hd2', ?_, hlt, rest', ?_⟩, rfl,
      le_refl _, Nat.le_add_right _ _⟩
    · show s.fFreeReserve = 8 * (List.set _ _ _).length
      rw [hset, hres, hlen]
      simp only [List.length_append, List.length_map, List.length_cons]
      omega
    · show List.set _ _ _ = _
      rw [hset]; simp

theorem makeFree_step_nil (pos size : Nat) (s : TFAsroFile) (nx : Nat × Nat)
    (l2 : List (Nat × Nat)) (hrep : TableRep s (nx :: l2)) (hnx : pos + size ≤ nx.1)
    (hnxw : nx.1 + nx.2 < 4294967296)
    (hroom : pos + size ≠ nx.1 → s.fFreeReserve + 400 < 4294967296) :
    ∃ s', MakeFree pos size s = some s' ∧ SameButTable s s' ∧
      (s.fFreeReserve ≤ s'.fFreeReserve ∧ s'.fFreeReserve ≤ s.fFreeReserve + 400) ∧
      (pos + size = nx.1 → TableRep s' ((pos, nx.2 + size) :: l2)) ∧
      (pos + size ≠ nx.1 → TableRep s' ((pos, size) :: nx :: l2)) := by
  have hnum := numFree_of_rep hrep
  have hrep0 := hrep
  obtain ⟨hd2, hres, hlt, rest, hfree⟩ := hrep
  simp only [List.map_cons, List.cons_append] at hfree
  have hidx := makeFreeIndex_eq pos nx (l2.map some ++ rest) [] s.fFree 0 s.numFree
    (by simpa using hfree) (by simp) (by omega) (by rw [hnum]; simp)
  have hrd : rdSlot s.fFree 0 = some nx := by rw [hfree]; rfl
  unfold MakeFree
  simp only [hidx, List.length_nil, Nat.add_zero, hrd]
  have hmod : (pos + size) % 4294967296 = pos + size := Nat.mod_eq_of_lt (by omega)
  rw [hmod]
  by_cases ha : pos + size = nx.1
  · rw [if_pos ha]
    refine ⟨_, rfl, ⟨rfl, rfl, rfl, rfl, rfl, rfl, rfl⟩, ⟨le_refl _, Nat.le_add_right _ _⟩, ?_,
      fun h => absurd ha h⟩
    intro _
    refine ⟨hd2.trans (by simp), ?_, hlt, rest, ?_⟩
    · show s.fFreeReserve = 8 * (s.fFree.set _ _).length
      rw [List.length_set]; exact hres
    · show s.fFree.set _ _ = _
      rw [hfree, Nat.mod_eq_of_lt (by omega)]
      rfl
  · rw [if_neg ha]
    obtain ⟨s', h1, h2, h3, _, h5⟩ := insertFree_step pos size s [] (nx :: l2) hrep0 (hroom ha)
    exact ⟨s', h1, h2, h5, fun h => absurd h ha, fun _ => h3⟩

theorem makeFree_step_snoc (pos size : Nat) (s : TFAsroFile) (l1 : List (Nat × Nat))
    (pv nx : Nat × Nat) (l2 : List (Nat × Nat))
    (hrep : TableRep s (l1 ++ pv :: nx :: l2))
    (hl1 : ∀ x ∈ l1, x.1 < pos) (hpv1 : pv.1 < pos) (hpv : pv.1 + pv.2 ≤ pos)
    (hnx : pos + size ≤ nx.1) (hnxw : nx.1 + nx.2 < 4294967296)
    (hroom : pv.1 + pv.2 ≠ pos → pos + size ≠ nx.1 → s.fFreeReserve + 400 < 4294967296) :
    ∃ s', MakeFree pos size s = some s' ∧ SameButTable s s' ∧
      (s.fFreeReserve ≤ s'.fFreeReserve ∧ s'.fFreeReserve ≤ s.fFreeReserve + 400) ∧
      (pv.1 + pv.2 = pos → pos + size ≠ nx.1 →
        TableRep s' (l1 ++ (pv.1, pv.2 + size) :: nx :: l2)) ∧
      (pv.1 + pv.2 ≠ pos → pos + size = nx.1 →
        TableRep s' (l1 ++ pv :: (pos, nx.2 + size) :: l2)) ∧
      (pv.1 + pv.2 = pos → pos + size = nx.1 →
        TableRep s' (l1 ++ (pv.1, pv.2 + size + nx.2) :: l2)) ∧
      (pv.1 + pv.2 ≠ pos → pos + size ≠ nx.1 →
        TableRep s' (l1 ++ pv :: (pos, size) :: nx :: l2)) := by
  have hnum := numFree_of_rep hrep
  have hrep0 := hrep
  obtain ⟨hd2, hres, hlt, rest, hfree⟩ := hrep
  have hfree' : s.fFree = l1.map some ++ some pv :: (some nx :: (l2.map some ++ rest)) := by
    rw [hfree]; simp
  have hfree2 : s.fFree = (l1.map some ++ [some pv]) ++ some nx :: (l2.map some ++ rest) := by
    rw [hfree]; simp
  have hn : (l1 ++ pv :: nx :: l2).length = l1.length + 2 + l2.length := by
    simp only [List.length_append, List.length_cons]; omega
  have hidx := makeFreeIndex_eq pos nx (l2.map some ++ rest) (l1 ++ [pv]) s.fFree 0 s.numFree
    (by rw [hfree]; simp)
    (by
      intro x hx
      simp only [List.mem_append, List.mem_singleton] at hx
      rcases hx with hx | hx
      · exact hl1 x hx
      · rw [hx]; exact hpv1)
    (by omega)
    (by rw [hnum, hn]; simp only [List.length_append, List.length_singleton]; omega)
  have hlen : s.fFree.length = l1.length + 2 + l2.length + rest.length := by
    rw [hfree]; simp only [List.length_append, List.length_map, List.length_cons]; omega
  have hrd1 : rdSlot s.fFree l1.length = some pv := by
    rw [hfree']
    have := rdSlot_mid (l1.map some) (some nx :: (l2.map some ++ rest)) pv
    rw [List.length_map] at this
    exact this
  have hrd2 : rdSlot s.fFree (l1.length + 1) = some nx := by
    rw [hfree2]
    have := rdSlot_mid (l1.map some ++ [some pv]) (l2.map some ++ rest) nx
    rw [List.length_append, List.length_map, List.length_singleton] at this
    exact this
  unfold MakeFree
  simp only [hidx, List.length_append, List.length_singleton, Nat.zero_add, hrd1, hrd2]
  have hm1 : (pv.1 + pv.2) % 4294967296 = pv.1 + pv.2 := Nat.mod_eq_of_lt (by omega)
  have hm2 : (pos + size) % 4294967296 = pos + size := Nat.mod_eq_of_lt (by omega)
  rw [hm1, hm2]
  have hset1 : ∀ v, s.fFree.set l1.length v
      = l1.map some ++ v :: (some nx :: (l2.map some ++ rest)) := by
    intro v
    rw [hfree']
    have := set_mid (l1.map some) (some nx :: (l2.map some ++ rest)) (some pv) v
    rw [List.length_map] at this
    exact this
  have hset2 : ∀ v, s.fFree.set (l1.length + 1) v
      = (l1.map some ++ [some pv]) ++ v :: (l2.map some ++ rest) := by
    intro v
    rw [hfree2]
    have := set_mid (l1.map some ++ [some pv]) (l2.map some ++ rest) (some nx) v
    rw [List.length_append, List.length_map, List.length_singleton] at this
    exact this
  by_cases hb : pv.1 + pv.2 = pos <;> by_cases ha : pos + size = nx.1
  · -- both
    have hbd := decide_eq_true hb
    have had := decide_eq_true ha
    simp only [hbd, had, Bool.not_true, Bool.and_false, Bool.false_and,
      Bool.and_self, if_true, Bool.false_eq_true, if_false]
    rw [if_neg (by rw [hd2, hn]; omega)]
    have hcnt : (s.fDes2 - (l1.length + 2) * 8) / 8 = (l2.map some).length := by
      rw [hd2, hn, List.length_map]; omega
    obtain ⟨rest', hmm, hrl⟩ := memmove_down
      (l1.map some ++ [some (pv.1, (pv.2 + (size + nx.2) % 4294967296) % 4294967296)])
      (l2.map some) rest (some nx)
    simp only [List.length_append, List.length_map, List.length_singleton,
      List.append_assoc, List.singleton_append] at hmm
    rw [hcnt, hset1, List.length_map, hmm]
    refine ⟨_, rfl, ⟨rfl, rfl, rfl, rfl, rfl, rfl, rfl⟩, ⟨le_refl _, Nat.le_add_right _ _⟩,
      fun _ h => absurd ha h, fun h => absurd hb h, ?_, fun h => absurd hb h⟩
    intro _ _
    refine ⟨?_, ?_, hlt, rest', ?_⟩
    · show (s.fDes2 + 4294967296 - 8) % 4294967296 = 8 * (l1 ++ _ :: l2).length
      rw [hd2, hn]
      simp only [List.length_append, List.length_cons]; omega
    · show s.fFreeReserve = 8 * (l1.map some ++ _ :: (l2.map some ++ rest')).length
      rw [hres, hfree]
      simp only [List.length_append, List.length_map, List.length_cons]; omega
    · show l1.map some ++ _ :: (l2.map some ++ rest') = _
      have e1 : (size + nx.2) % 4294967296 = size + nx.2 := Nat.mod_eq_of_lt (by omega)
      have e2 : (pv.2 + (size + nx.2)) % 4294967296 = pv.2 + size + nx.2 := by
        rw [Nat.mod_eq_of_lt (by omega)]; omega
      rw [e1, e2]; simp
  · -- before only
    have hbd := decide_eq_true hb
    have had := decide_eq_false ha
    simp only [hbd, had, Bool.not_false, Bool.and_self, if_true]
    refine ⟨_, rfl, ⟨rfl, rfl, rfl, rfl, rfl, rfl, rfl⟩, ⟨le_refl _, Nat.le_add_right _ _⟩, ?_,
      fun h => absurd hb h, fun _ h => absurd h ha, fun h => absurd hb h⟩
    intro _ _
    refine ⟨hd2.trans (by simp), ?_, hlt, rest, ?_⟩
    · show s.fFreeReserve = 8 * (s.fFree.set _ _).length
      rw [List.length_set]; exact hres
    · show s.fFree.set _ _ = _
      rw [hset1, Nat.mod_eq_of_lt (by omega)]; simp
  · -- after only
    have hbd := decide_eq_false hb
    have had := decide_eq_true ha
    simp only [hbd, had, Bool.not_false, Bool.not_true, Bool.and_self,
      Bool.and_false, Bool.false_and, if_true, Bool.false_eq_true, if_false, Bool.true_and]
    refine ⟨_, rfl, ⟨rfl, rfl, rfl, rfl, rfl, rfl, rfl⟩, ⟨le_refl _, Nat.le_add_right _ _⟩,
      fun h => absurd h hb, ?_, fun h => absurd h hb, fun _ h => absurd ha h⟩
    intro _ _
    refine ⟨hd2.trans (by simp), ?_, hlt, rest, ?_⟩
    · show s.fFreeReserve = 8 * (s.fFree.set _ _).length
      rw [List.length_set]; exact hres
    · show s.fFree.set _ _ = _
      have e1 : (nx.1 + 4294967296 - size) % 4294967296 = pos := by omega
      rw [hset2, Nat.mod_eq_of_lt (by omega : nx.2 + size < 4294967296), e1]; simp
  · -- neither
    have hbd := decide_eq_false hb
    have had := decide_eq_false ha
    simp only [hbd, had, Bool.not_false, Bool.and_self, Bool.false_and,
      Bool.and_false, Bool.false_eq_true, if_false]
    obtain ⟨s', h1, h2, h3, _, h5⟩ := insertFree_step pos size s (l1 ++ [pv]) (nx :: l2)
      (by simpa using hrep0) (hroom hb ha)
    simp only [List.length_append, List.length_singleton] at h1
    refine ⟨s', h1, h2, h5, fun h => absurd h hb, fun _ h => absurd h ha, fun h => absurd h hb,
      ?_⟩
    intro _ _
    simpa using h3

theorem occ_append (a : Nat) (l1 l2 : List (Nat × Nat)) :
    occ a (l1 ++ l2) = occ a l1 + occ a l2 := List.countP_append _ _ _

theorem occ_cons (a : Nat) (r : Nat × Nat) (l : List (Nat × Nat)) :
    occ a (r :: l) = occ a l + (if r.1 ≤ a ∧ a < r.1 + r.2 then 1 else 0) := by
  unfold occ
  rw [List.countP_cons]
  congr 1
  unfold inSpan
  by_cases h1 : r.1 ≤ a <;> by_cases h2 : a < r.1 + r.2 <;> simp [h1, h2]

theorem occ_nil (a : Nat) : occ a [] = 0 := rfl

theorem occ_eq_zero {a : Nat} {l : List (Nat × Nat)} :
    occ a l = 0 ↔ ∀ r ∈ l, ¬ (r.1 ≤ a ∧ a < r.1 + r.2) := by
  induction l with
  | nil => simp [occ_nil]
  | cons r l ih =>
    rw [occ_cons]
    by_cases h : r.1 ≤ a ∧ a < r.1 + r.2
    · simp [h]
    · simp only [h, if_false, Nat.add_zero, ih, List.mem_cons, forall_eq_or_imp, not_false_eq_true,
        true_and]

theorem FreeWF_middle {l1 l2 : List (Nat × Nat)} (mid : List (Nat × Nat)) (lo hi : Nat)
    (h1 : FreeWF l1) (h2 : FreeWF l2) (hm : FreeWF mid)
    (h12 : ∀ a ∈ l1, ∀ b ∈ l2, a.1 + a.2 < b.1)
    (hlo : ∀ a ∈ l1, a.1 + a.2 < lo) (hhi : ∀ b ∈ l2, hi < b.1)
    (hmid : ∀ m ∈ mid, lo ≤ m.1 ∧ m.1 + m.2 ≤ hi) :
    FreeWF (l1 ++ (mid ++ l2)) := by
  refine ⟨?_, ?_⟩
  · rw [List.pairwise_append, List.pairwise_append]
    refine ⟨h1.1, ⟨hm.1, h2.1, ?_⟩, ?_⟩
    · intro m hm' b hb
      have := hmid m hm'
      have := hhi b hb
      omega
    · intro a ha b hb
      rw [List.mem_append] at hb
      rcases hb with hb | hb
      · have := hmid b hb
        have := hlo a ha
        omega
      · exact h12 a ha b hb
  · intro r hr
    simp only [List.mem_append] at hr
    rcases hr with hr | hr | hr
    · exact h1.2 r hr
    · exact hm.2 r hr
    · exact h2.2 r hr

theorem FreeWF_split {l1 l2 : List (Nat × Nat)} (mid : List (Nat × Nat))
    (h : FreeWF (l1 ++ (mid ++ l2))) :
    FreeWF l1 ∧ FreeWF mid ∧ FreeWF l2 ∧ (∀ a ∈ l1, ∀ b ∈ l2, a.1 + a.2 < b.1) ∧
      (∀ a ∈ l1, ∀ m ∈ mid, a.1 + a.2 < m.1) ∧ (∀ m ∈ mid, ∀ b ∈ l2, m.1 + m.2 < b.1) := by
  obtain ⟨hp, hv⟩ := h
  rw [List.pairwise_append, List.pairwise_append] at hp
  obtain ⟨hp1, ⟨hpm, hp2, hm2⟩, h1m⟩ := hp
  refine ⟨⟨hp1, fun r hr => hv r (by simp [hr])⟩, ⟨hpm, fun r hr => hv r (by simp [hr])⟩,
    ⟨hp2, fun r hr => hv r (by simp [hr])⟩, ?_, ?_, hm2⟩
  · intro a ha b hb
    exact h1m a ha b (by simp [hb])
  · intro a ha m hm
    exact h1m a ha m (by simp [hm])

theorem FreeWF_single {r : Nat × Nat} (h1 : 0 < r.2) (h2 : r.1 + r.2 ≤ 4294967295) :
    FreeWF [r] := by
  refine ⟨List.pairwise_singleton _ _, ?_⟩
  intro x hx
  rw [List.mem_singleton] at hx
  subst hx
  exact ⟨h1, h2⟩

theorem FreeWF_pair {r t : Nat × Nat} (h1 : 0 < r.2) (h2 : r.1 + r.2 < t.1) (h3 : 0 < t.2)
    (h4 : t.1 + t.2 ≤ 4294967295) : FreeWF [r, t] := by
  refine ⟨?_, ?_⟩
  · simp [h2]
  · intro x hx
    simp only [List.mem_cons, List.mem_singleton, List.not_mem_nil, or_false] at hx
    rcases hx with hx | hx <;> subst hx
    · exact ⟨h1, by omega⟩
    · exact ⟨h3, h4⟩

theorem FreeWF_triple {r t u : Nat × Nat} (h1 : 0 < r.2) (h2 : r.1 + r.2 < t.1) (h3 : 0 < t.2)
    (h4 : t.1 + t.2 < u.1) (h5 : 0 < u.2) (h6 : u.1 + u.2 ≤ 4294967295) : FreeWF [r, t, u] := by
  refine ⟨?_, ?_⟩
  · simp only [List.pairwise_cons, List.mem_cons, List.mem_singleton, forall_eq_or_imp,
      forall_eq, List.not_mem_nil, false_implies, implies_true, List.Pairwise.nil, and_true]
    omega
  · intro x hx
    simp only [List.mem_cons, List.mem_singleton, List.not_mem_nil, or_false] at hx
    rcases hx with hx | hx | hx <;> subst hx
    · exact ⟨h1, by omega⟩
    · exact ⟨h3, by omega⟩
    · exact ⟨h5, h6⟩

theorem FreeWF_nil : FreeWF [] := ⟨List.Pairwise.nil, by simp⟩

theorem makeFree_rep (pos size : Nat) (s : TFAsroFile) (l1 : List (Nat × Nat))
    (pv : Option (Nat × Nat)) (nx : Nat × Nat) (l2 : List (Nat × Nat))
    (hrep : TableRep s (l1 ++ (oldMid pv nx ++ l2)))
    (hl1 : ∀ x ∈ l1, x.1 < pos) (hnone : pv = none → l1 = [])
    (hpv : ∀ p, pv = some p → p.1 < pos ∧ p.1 + p.2 ≤ pos)
    (hnx : pos + size ≤ nx.1) (hnxw : nx.1 + nx.2 < 4294967296)
    (hroom : (releaseMid pos size pv nx).length = (oldMid pv nx).length + 1 →
      s.fFreeReserve + 400 < 4294967296) :
    ∃ s', MakeFree pos size s = some s' ∧ SameButTable s s' ∧
      (s.fFreeReserve ≤ s'.fFreeReserve ∧ s'.fFreeReserve ≤ s.fFreeReserve + 400) ∧
      TableRep s' (l1 ++ (releaseMid pos size pv nx ++ l2)) := by
  cases pv with
  | none =>
    have hl : l1 = [] := hnone rfl
    subst hl
    simp only [oldMid, List.nil_append, List.singleton_append] at hrep
    obtain ⟨s', h1, h2, hr, h3, h4⟩ := makeFree_step_nil pos size s nx l2 hrep hnx hnxw
      (by
        intro hne
        apply hroom
        simp [releaseMid, oldMid, hne])
    refine ⟨s', h1, h2, hr, ?_⟩
    by_cases ha : pos + size = nx.1
    · simpa [releaseMid, ha] using h3 ha
    · simpa [releaseMid, ha] using h4 ha
  | some p =>
    obtain ⟨hp1, hp2⟩ := hpv p rfl
    simp only [oldMid, List.cons_append, List.nil_append] at hrep
    obtain ⟨s', h1, h2, hr, h3, h4, h5, h6⟩ := makeFree_step_snoc pos size s l1 p nx l2 hrep hl1
      hp1 hp2 hnx hnxw
      (by
        intro hb ha
        apply hroom
        simp [releaseMid, oldMid, hb, ha])
    refine ⟨s', h1, h2, hr, ?_⟩
    by_cases hb : p.1 + p.2 = pos <;> by_cases ha : pos + size = nx.1
    · simpa [releaseMid, hb, ha] using h5 hb ha
    · simpa [releaseMid, hb, ha] using h3 hb ha
    · simpa [releaseMid, hb, ha] using h4 hb ha
    · simpa [releaseMid, hb, ha] using h6 hb ha

theorem releaseMid_occ (a pos size : Nat) (pv : Option (Nat × Nat)) (nx : Nat × Nat)
    (hpv : ∀ p, pv = some p → p.1 + p.2 ≤ pos) :
    occ a (releaseMid pos size pv nx) = occ a (oldMid pv nx) + occ a [(pos, size)] := by
  cases pv with
  | none =>
    simp only [releaseMid, oldMid]
    split <;> simp only [occ_cons, occ_nil] <;> split_ifs <;> omega
  | some p =>
    have := hpv p rfl
    simp only [releaseMid, oldMid]
    split <;> split <;> simp only [occ_cons, occ_nil] <;> split_ifs <;> omega

theorem releaseMid_wf (pos size : Nat) (pv : Option (Nat × Nat)) (nx : Nat × Nat)
    (hwf : FreeWF (oldMid pv nx)) (hsize : 0 < size)
    (hpv : ∀ p, pv = some p → p.1 + p.2 ≤ pos) (hnx : pos + size ≤ nx.1) :
    FreeWF (releaseMid pos size pv nx) ∧
      (∀ m ∈ releaseMid pos size pv nx,
        (pv.map Prod.fst).getD pos ≤ m.1 ∧ m.1 + m.2 ≤ nx.1 + nx.2) := by
  cases pv with
  | none =>
    have hn := hwf.2 nx (by simp [oldMid])
    simp only [releaseMid]
    split
    · refine ⟨FreeWF_single (by simp; omega) (by simp; omega), ?_⟩
      intro m hm
      simp only [List.mem_singleton] at hm
      subst hm
      simp; omega
    · refine ⟨FreeWF_pair hsize (by simp; omega) hn.1 hn.2, ?_⟩
      intro m hm
      simp only [List.mem_cons, List.mem_singleton, List.not_mem_nil, or_false] at hm
      rcases hm with hm | hm <;> subst hm <;> simp <;> omega
  | some p =>
    have hp := hwf.2 p (by simp [oldMid])
    have hn := hwf.2 nx (by simp [oldMid])
    have hle := hpv p rfl
    simp only [releaseMid]
    split <;> split
    · refine ⟨FreeWF_single (by simp; omega) (by simp; omega), ?_⟩
      intro m hm
      simp only [List.mem_singleton] at hm
      subst hm
      simp; omega
    · refine ⟨FreeWF_pair (by simp; omega) (by simp; omega) hn.1 hn.2, ?_⟩
      intro m hm
      simp only [List.mem_cons, List.mem_singleton, List.not_mem_nil, or_false] at hm
      rcases hm with hm | hm <;> subst hm <;> simp <;> omega
    · refine ⟨FreeWF_pair hp.1 (by simp; omega) (by simp; omega) (by simp; omega), ?_⟩
      intro m hm
      simp only [List.mem_cons, List.mem_singleton, List.not_mem_nil, or_false] at hm
      rcases hm with hm | hm <;> subst hm <;> simp <;> omega
    · refine ⟨FreeWF_triple hp.1 (by simp; omega) hsize (by simp; omega) hn.1 hn.2, ?_⟩
      intro m hm
      simp only [List.mem_cons, List.mem_singleton, List.not_mem_nil, or_false] at hm
      rcases hm with hm | hm | hm <;> subst hm <;> simp <;> omega

theorem getLast?_append_ne {α : Type} (l1 : List α) {l2 : List α} (h : l2 ≠ []) :
    (l1 ++ l2).getLast? = l2.getLast? := by
  rw [List.getLast?_append]
  cases l2 with
  | nil => exact absurd rfl h
  | cons x t =>
    obtain ⟨y, hy⟩ : ∃ y, (x :: t).getLast? = some y :=
      ⟨(x :: t).getLast (by simp), List.getLast?_eq_getLast _ _⟩
    rw [hy]; rfl

theorem releaseMid_last (pos size : Nat) (pv : Option (Nat × Nat)) (nx : Nat × Nat) :
    ∃ t, (releaseMid pos size pv nx).getLast? = some t ∧ t.1 + t.2 = nx.1 + nx.2 ∧
      nx.2 ≤ t.2 := by
  cases pv with
  | none =>
    simp only [releaseMid]
    split
    · exact ⟨_, rfl, by simp; omega, by simp⟩
    · exact ⟨nx, rfl, rfl, le_refl _⟩
  | some p =>
    simp only [releaseMid]
    split <;> split
    · exact ⟨_, rfl, by simp; omega, by simp⟩
    · exact ⟨nx, rfl, rfl, le_refl _⟩
    · exact ⟨_, rfl, by simp; omega, by simp⟩
    · exact ⟨nx, rfl, rfl, le_refl _⟩

theorem releaseMid_ne_nil (pos size : Nat) (pv : Option (Nat × Nat)) (nx : Nat × Nat) :
    releaseMid pos size pv nx ≠ [] := by
  cases pv with
  | none => simp only [releaseMid]; split <;> simp
  | some p => simp only [releaseMid]; split <;> split <;> simp

theorem releaseMid_length (pos size : Nat) (pv : Option (Nat × Nat)) (nx : Nat × Nat) :
    (releaseMid pos size pv nx).length ≤ (oldMid pv nx).length + 1 := by
  cases pv with
  | none => simp only [releaseMid, oldMid]; split <;> simp
  | some p => simp only [releaseMid, oldMid]; split <;> split <;> simp

theorem oldMid_last (pv : Option (Nat × Nat)) (nx : Nat × Nat) :
    (oldMid pv nx).getLast? = some nx := by
  cases pv <;> rfl

theorem oldMid_ne_nil (pv : Option (Nat × Nat)) (nx : Nat × Nat) : oldMid pv nx ≠ [] := by
  cases pv <;> simp [oldMid]

theorem split_at_pos (pos : Nat) (fl : List (Nat × Nat)) (h : ∃ r ∈ fl, pos ≤ r.1) :
    ∃ l1 pv nx l2, fl = l1 ++ (oldMid pv nx ++ l2) ∧ (∀ x ∈ l1, x.1 < pos) ∧
      (pv = none → l1 = []) ∧ (∀ p, pv = some p → p.1 < pos) ∧ pos ≤ nx.1 := by
  induction fl with
  | nil => obtain ⟨r, hr, _⟩ := h; simp at hr
  | cons x fl ih =>
    by_cases hx : pos ≤ x.1
    · exact ⟨[], none, x, fl, rfl, by simp, fun _ => rfl, by simp, hx⟩
    · have h' : ∃ r ∈ fl, pos ≤ r.1 := by
        obtain ⟨r, hr, hp⟩ := h
        simp only [List.mem_cons] at hr
        rcases hr with hr | hr
        · subst hr; exact absurd hp hx
        · exact ⟨r, hr, hp⟩
      obtain ⟨l1, pv, nx, l2, hfl, hl1, hnone, hsome, hnx⟩ := ih h'
      cases pv with
      | none =>
        have : l1 = [] := hnone rfl
        subst this
        refine ⟨[], some x, nx, l2, ?_, by simp, by simp, ?_, hnx⟩
        · rw [hfl]; rfl
        · intro p hp
          simp only [Option.some.injEq] at hp
          subst hp
          omega
      | some p =>
        refine ⟨x :: l1, some p, nx, l2, ?_, ?_, by simp, hsome, hnx⟩
        · rw [hfl]; rfl
        · intro y hy
          simp only [List.mem_cons] at hy
          rcases hy with hy | hy
          · subst hy; omega
          · exact hl1 y hy

/-- Effect of `MakeFree` on a well-formed free list, for a non-empty span that is disjoint
from the free ranges and lies below some free range. -/
theorem makeFree_effect (pos size : Nat) (s : TFAsroFile) (fl : List (Nat × Nat))
    (hrep : TableRep s fl) (hwf : FreeWF fl) (hsize : 0 < size)
    (hdis : ∀ a, pos ≤ a → a < pos + size → occ a fl = 0)
    (habove : ∃ r ∈ fl, pos ≤ r.1)
    (hroom : s.fFreeReserve + 400 < 4294967296) :
    ∃ s' fl', MakeFree pos size s = some s' ∧ SameButTable s s' ∧ TableRep s' fl' ∧
      FreeWF fl' ∧ (∀ a, occ a fl' = occ a fl + occ a [(pos, size)]) ∧
      (∀ t, fl.getLast? = some t →
        ∃ t', fl'.getLast? = some t' ∧ t'.1 + t'.2 = t.1 + t.2 ∧ t.2 ≤ t'.2) ∧
      fl'.length ≤ fl.length + 1 ∧ s'.fFreeReserve ≤ s.fFreeReserve + 400 := by
  obtain ⟨l1, pv, nx, l2, hfl, hl1, hnone, hsome, hnx⟩ := split_at_pos pos fl habove
  subst hfl
  obtain ⟨w1, wm, w2, w12, w1m, wm2⟩ := FreeWF_split _ hwf
  have hnxm : nx ∈ l1 ++ (oldMid pv nx ++ l2) := by
    cases pv <;> simp [oldMid]
  have hnxv := hwf.2 nx hnxm
  have hz := fun a h1 h2 => occ_eq_zero.mp (hdis a h1 h2)
  have hnx' : pos + size ≤ nx.1 := by
    by_contra hc
    exact hz nx.1 hnx (by omega) nx hnxm ⟨le_refl _, by omega⟩
  have hpv : ∀ p, pv = some p → p.1 < pos ∧ p.1 + p.2 ≤ pos := by
    intro p hp
    refine ⟨hsome p hp, ?_⟩
    by_contra hc
    have hpm : p ∈ l1 ++ (oldMid pv nx ++ l2) := by subst hp; simp [oldMid]
    exact hz pos (le_refl _) (by omega) p hpm ⟨le_of_lt (hsome p hp), by omega⟩
  obtain ⟨s', h1, h2, hr, h3⟩ := makeFree_rep pos size s l1 pv nx l2 hrep hl1 hnone hpv hnx'
    (by omega) (fun _ => hroom)
  obtain ⟨hmwf, hmb⟩ := releaseMid_wf pos size pv nx wm hsize (fun p hp => (hpv p hp).2) hnx'
  refine ⟨s', _, h1, h2, h3, ?_, ?_, ?_, ?_, ?_⟩
  · apply FreeWF_middle _ ((pv.map Prod.fst).getD pos) (nx.1 + nx.2) w1 w2
      hmwf w12 _ _ hmb
    · intro a ha
      cases pv with
      | none => have := hnone rfl; subst this; simp at ha
      | some p => exact w1m a ha p (by simp [oldMid])
    · intro b hb
      exact wm2 nx (by cases pv <;> simp [oldMid]) b hb
  · intro a
    simp only [occ_append]
    rw [releaseMid_occ a pos size pv nx (fun p hp => (hpv p hp).2)]
    omega
  · intro t ht
    by_cases hl2 : l2 = []
    · subst hl2
      simp only [List.append_nil] at ht ⊢
      rw [getLast?_append_ne _ (oldMid_ne_nil pv nx), oldMid_last] at ht
      simp only [Option.some.injEq] at ht
      subst ht
      rw [getLast?_append_ne _ (releaseMid_ne_nil pos size pv nx)]
      exact releaseMid_last pos size pv nx
    · have e1 : (l1 ++ (oldMid pv nx ++ l2)).getLast? = l2.getLast? := by
        rw [← List.append_assoc]; exact getLast?_append_ne _ hl2
      have e2 : (l1 ++ (releaseMid pos size pv nx ++ l2)).getLast? = l2.getLast? := by
        rw [← List.append_assoc]; exact getLast?_append_ne _ hl2
      rw [e1] at ht
      rw [e2]
      exact ⟨t, ht, rfl, le_refl _⟩
  · have := releaseMid_length pos size pv nx
    simp only [List.length_append]
    omega
  · exact hr.2

theorem bestFit_of_wf (size : Nat) (fl : List (Nat × Nat)) (hwf : FreeWF fl)
    (hsat : ∃ x ∈ fl, size ≤ x.2) :
    ∃ p1 r p2, fl = p1 ++ r :: p2 ∧ (scanL size fl 0 (0, 4294967295)).1 = p1.length ∧
      BestFit size p1 r p2 := by
  by_cases hall : ∀ x ∈ fl, x.2 < 4294967295
  · exact scanL_bestFit size fl hall hsat
  · push_neg at hall
    obtain ⟨x, hx, hbig⟩ := hall
    obtain ⟨p1, p2, hfl⟩ := List.append_of_mem hx
    subst hfl
    have hxv := hwf.2 x hx
    obtain ⟨w1, wm, w2, _, w1m, wm2⟩ := FreeWF_split [x] (by simpa using hwf)
    have hp1 : p1 = [] := by
      apply List.eq_nil_iff_forall_not_mem.mpr
      intro y hy
      have := w1m y hy x (by simp)
      omega
    have hp2 : p2 = [] := by
      apply List.eq_nil_iff_forall_not_mem.mpr
      intro y hy
      have := wm2 x (by simp) y hy
      have := w2.2 y hy
      omega
    subst hp1 hp2
    obtain ⟨y, hy, hsy⟩ := hsat
    simp only [List.nil_append, List.mem_singleton] at hy
    subst hy
    refine ⟨[], y, [], rfl, ?_, hsy, by simp, by simp⟩
    simp only [List.nil_append, scanL]
    split <;> rfl

theorem getLast?_middle {α : Type} (l1 mid l2 : List α) (h : l2 ≠ []) :
    (l1 ++ (mid ++ l2)).getLast? = l2.getLast? := by
  rw [← List.append_assoc]
  exact getLast?_append_ne _ h

/-- Effect of `GetFree` on a well-formed free list when some range is large enough. -/
theorem getFree_effect (size : Nat) (s : TFAsroFile) (fl : List (Nat × Nat))
    (hrep : TableRep s fl) (hwf : FreeWF fl) (hsat : ∃ x ∈ fl, size ≤ x.2) :
    ∃ p1 r p2 s' fl', fl = p1 ++ r :: p2 ∧ BestFit size p1 r p2 ∧
      GetFree size s = some (r.1, s') ∧ SameButTable s s' ∧
      s'.fFreeReserve = s.fFreeReserve ∧ TableRep s' fl' ∧
      fl' = (if size = r.2 then p1 ++ p2 else p1 ++ (r.1 + size, r.2 - size) :: p2) ∧
      s'.fDes3 = (if size = r.2 then (s.fDes3 + 8) % 4294967296 else s.fDes3) ∧
      FreeWF fl' ∧ (∀ a, occ a fl = occ a fl' + occ a [(r.1, size)]) ∧
      (∀ t, fl.getLast? = some t → size ≠ t.2 →
        ∃ t', fl'.getLast? = some t' ∧ t'.1 + t'.2 = t.1 + t.2 ∧ t.2 ≤ t'.2 + size) ∧
      fl'.length ≤ fl.length := by
  obtain ⟨p1, r, p2, hfl, hidx, hbf⟩ := bestFit_of_wf size fl hwf hsat
  subst hfl
  obtain ⟨s', h1, h2, h3, h4, h5⟩ := getFree_step size s p1 r p2 hrep hidx
  have hrv := hwf.2 r (by simp)
  obtain ⟨w1, wm, w2, w12, w1m, wm2⟩ := FreeWF_split [r] (by simpa using hwf)
  have hle := hbf.1
  have hlo : ∀ a ∈ p1, a.1 + a.2 < r.1 := fun a ha => w1m a ha r (by simp)
  have hhi : ∀ b ∈ p2, r.1 + r.2 < b.1 := fun b hb => wm2 r (by simp) b hb
  have htop : ∀ (mid' : List (Nat × Nat)),
      (p2 = [] → ∃ t', mid'.getLast? = some t' ∧ t'.1 + t'.2 = r.1 + r.2 ∧ r.2 ≤ t'.2 + size) →
      ∀ t, (p1 ++ r :: p2).getLast? = some t → size ≠ t.2 →
        ∃ t', (p1 ++ (mid' ++ p2)).getLast? = some t' ∧ t'.1 + t'.2 = t.1 + t.2 ∧
          t.2 ≤ t'.2 + size := by
    intro mid' hmid t ht _
    by_cases hp2 : p2 = []
    · subst hp2
      rw [getLast?_append_ne _ (by simp)] at ht
      simp only [List.getLast?_singleton, Option.some.injEq] at ht
      subst ht
      obtain ⟨t', ht', e1, e2⟩ := hmid rfl
      have hne : mid' ≠ [] := by intro h; subst h; simp at ht'
      rw [List.append_nil, getLast?_append_ne _ hne]
      exact ⟨t', ht', e1, e2⟩
    · have e1 := getLast?_middle p1 [r] p2 hp2
      simp only [List.singleton_append] at e1
      rw [e1] at ht
      rw [getLast?_middle p1 mid' p2 hp2]
      exact ⟨t, ht, rfl, Nat.le_add_right _ _⟩
  by_cases hsz : size = r.2
  · obtain ⟨h41, h42⟩ := h4 hsz
    refine ⟨p1, r, p2, s', p1 ++ p2, rfl, hbf, h1, h2, h3, h41, by rw [if_pos hsz],
      by rw [if_pos hsz]; exact h42, ?_, ?_, ?_, ?_⟩
    · have := FreeWF_middle [] r.1 (r.1 + r.2) w1 w2 FreeWF_nil w12 hlo hhi (by simp)
      simpa using this
    · intro a
      simp only [occ_append, occ_cons, occ_nil, hsz]
      omega
    · intro t ht hne
      have := htop [] (by
        intro hp2
        exfalso
        subst hp2
        rw [getLast?_append_ne _ (by simp)] at ht
        simp only [List.getLast?_singleton, Option.some.injEq] at ht
        subst ht
        exact hne hsz) t ht hne
      simpa using this
    · simp only [List.length_append, List.length_cons]; omega
  · obtain ⟨h51, h52⟩ := h5 hsz
    have e1 : (r.1 + size) % 4294967296 = r.1 + size := Nat.mod_eq_of_lt (by omega)
    have e2 : (r.2 + 4294967296 - size) % 4294967296 = r.2 - size := by omega
    rw [e1, e2] at h51
    refine ⟨p1, r, p2, s', p1 ++ (r.1 + size, r.2 - size) :: p2, rfl, hbf, h1, h2, h3, h51,
      by rw [if_neg hsz], by rw [if_neg hsz]; exact h52, ?_, ?_, ?_, ?_⟩
    · have := FreeWF_middle [(r.1 + size, r.2 - size)] r.1 (r.1 + r.2) w1 w2
        (FreeWF_single (by simp; omega) (by simp; omega)) w12 hlo hhi
        (by
          intro m hm
          simp only [List.mem_singleton] at hm
          subst hm
          simp; omega)
      simpa using this
    · intro a
      simp only [occ_append, occ_cons, occ_nil]
      split_ifs <;> omega
    · intro t ht hne
      have := htop [(r.1 + size, r.2 - size)]
        (fun _ => ⟨_, rfl, by simp; omega, by simp; omega⟩) t ht hne
      simpa using this
    · simp only [List.length_append, List.length_cons]; omega

theorem split_at_index {α : Type} (fl : List α) (b : Nat) (h : b < fl.length) :
    ∃ p1 r p2, fl = p1 ++ r :: p2 ∧ p1.length = b := by
  refine ⟨fl.take b, fl[b], fl.drop (b + 1), ?_, ?_⟩
  · rw [← List.drop_eq_getElem_cons h, List.take_append_drop]
  · rw [List.length_take]; omega

theorem exampleTable_rep : TableRep exampleTable [(100, 10), (200, 50), (300, 7)] :=
  ⟨rfl, rfl, by decide, [none], rfl⟩

/-- C5: `GetFree(size)` on a non-empty free table returns the offset that the chosen range
`r` had before the call.  If the length of `r` equals `size` the range is removed: the
table is one entry shorter and all other ranges are unchanged and in the same order.
Otherwise `r` is replaced by the range whose offset is increased by `size` and whose
length is decreased by `size` (in `UInt_t` arithmetic; these are the exact sum and
difference when `r` is large enough and ends inside the 32 bit address space), and every
other range is unchanged.  The chosen range is a best fit whenever some range is large
enough and all ranges are shorter than `0xFFFFFFFF`. -/
theorem C5_getFree_effect (size : Nat) (s : TFAsroFile) (fl : List (Nat × Nat))
    (hrep : TableRep s fl) (hne : fl ≠ []) :
    ∃ p1 r p2 s', fl = p1 ++ r :: p2 ∧ GetFree size s = some (r.1, s') ∧
      (size = r.2 → freeList s' = p1 ++ p2 ∧ (freeList s').length + 1 = fl.length) ∧
      (size ≠ r.2 → freeList s' =
        p1 ++ ((r.1 + size) % 4294967296, (r.2 + 4294967296 - size) % 4294967296) :: p2) ∧
      (size < r.2 → r.1 + r.2 < 4294967296 →
        freeList s' = p1 ++ (r.1 + size, r.2 - size) :: p2) ∧
      ((∀ x ∈ fl, x.2 < 4294967295) → (∃ x ∈ fl, size ≤ x.2) → BestFit size p1 r p2) := by
  have hpos : 0 < fl.length := List.length_pos.mpr hne
  have hb := scanL_lt size fl 0 (0, 4294967295) (by simpa using hpos)
  rw [Nat.zero_add] at hb
  obtain ⟨p1, r, p2, hfl, hlen⟩ := split_at_index fl _ hb
  have hidx : (scanL size (p1 ++ r :: p2) 0 (0, 4294967295)).1 = p1.length := by
    rw [← hfl]; exact hlen.symm
  obtain ⟨s', h1, _, _, h4, h5⟩ := getFree_step size s p1 r p2 (hfl ▸ hrep) hidx
  refine ⟨p1, r, p2, s', hfl, h1, ?_, ?_, ?_, ?_⟩
  · intro hsz
    rw [freeList_of_rep (h4 hsz).1, hfl]
    exact ⟨rfl, by simp only [List.length_append, List.length_cons]; omega⟩
  · intro hsz
    exact freeList_of_rep (h5 hsz).1
  · intro hlt hw
    rw [freeList_of_rep (h5 (by omega)).1]
    have e1 : (r.1 + size) % 4294967296 = r.1 + size := Nat.mod_eq_of_lt (by omega)
    have e2 : (r.2 + 4294967296 - size) % 4294967296 = r.2 - size := by omega
    rw [e1, e2]
  · intro hall hsat
    obtain ⟨q1, t, q2, hq, hqi, hbf⟩ := scanL_bestFit size fl hall hsat
    have hl : q1.length = p1.length := by rw [← hqi, ← hlen]
    have he : q1 ++ t :: q2 = p1 ++ r :: p2 := by rw [← hq, ← hfl]
    obtain ⟨e1, e2⟩ := List.append_inj he hl
    simp only [List.cons.injEq] at e2
    rw [← e1, ← e2.1, ← e2.2]
    exact hbf

theorem twoRangeTable_rep : TableRep twoRangeTable [(24, 10), (100, 50)] :=
  ⟨rfl, rfl, by decide, [], rfl⟩

theorem staleTable_rep : TableRep staleTable [(24, 10)] :=
  ⟨rfl, rfl, by decide, [some (100, 50)], rfl⟩

/-- Witness of C5: the table `[(24, 10), (100, 50)]` is not empty. -/
theorem C5_getFree_effect_witness :
    TableRep twoRangeTable [(24, 10), (100, 50)] ∧
    [((24 : Nat), (10 : Nat)), (100, 50)] ≠ [] ∧
    ∃ p1 r p2 s', [((24 : Nat), (10 : Nat)), (100, 50)] = p1 ++ r :: p2 ∧
      GetFree 4 twoRangeTable = some (r.1, s') ∧
      (4 = r.2 → freeList s' = p1 ++ p2 ∧
        (freeList s').length + 1 = [((24 : Nat), (10 : Nat)), (100, 50)].length) ∧
      (4 ≠ r.2 → freeList s' =
        p1 ++ ((r.1 + 4) % 4294967296, (r.2 + 4294967296 - 4) % 4294967296) :: p2) ∧
      (4 < r.2 → r.1 + r.2 < 4294967296 →
        freeList s' = p1 ++ (r.1 + 4, r.2 - 4) :: p2) ∧
      ((∀ x ∈ [((24 : Nat), (10 : Nat)), (100, 50)], x.2 < 4294967295) →
        (∃ x ∈ [((24 : Nat), (10 : Nat)), (100, 50)], 4 ≤ x.2) → BestFit 4 p1 r p2) :=
  ⟨twoRangeTable_rep, by decide,
    C5_getFree_effect 4 twoRangeTable [(24, 10), (100, 50)] twoRangeTable_rep (by decide)⟩

/-- C7: when the free range `pv` ends exactly at `p` and the next free range `nx` starts
exactly at `p + sz`, `MakeFree(p, sz)` leaves a free list with exactly one range fewer, in
which the two neighbours are replaced by the single range that starts at the offset of
`pv` and has the length of `pv` plus `sz` plus the length of `nx`; all other ranges are
unchanged. -/
theorem C7_coalesce (p sz : Nat) (s : TFAsroFile) (l1 : List (Nat × Nat)) (pv nx : Nat × Nat)
    (l2 : List (Nat × Nat)) (hrep : TableRep s (l1 ++ pv :: nx :: l2))
    (hwf : FreeWF (l1 ++ pv :: nx :: l2)) (hb : pv.1 + pv.2 = p) (ha : nx.1 = p + sz) :
    ∃ s', MakeFree p sz s = some s' ∧
      freeList s' = l1 ++ (pv.1, pv.2 + sz + nx.2) :: l2 ∧
      (freeList s').length + 1 = (l1 ++ pv :: nx :: l2).length := by
  obtain ⟨_, wm, _, _, w1m, _⟩ := FreeWF_split [pv, nx] (by simpa using hwf)
  have hpv := wm.2 pv (by simp)
  have hnx := wm.2 nx (by simp)
  obtain ⟨s', h1, _, _, _, _, h5, _⟩ := makeFree_step_snoc p sz s l1 pv nx l2 hrep
    (by
      intro x hx
      have := w1m x hx pv (by simp)
      omega)
    (by omega) (by omega) (by omega) (by omega) (fun h => absurd hb h)
  have h := freeList_of_rep (h5 hb ha.symm)
  refine ⟨s', h1, h, ?_⟩
  rw [h]
  simp only [List.length_append, List.length_cons]
  omega

theorem exampleTable_wf : FreeWF [((100 : Nat), (10 : Nat)), (200, 50), (300, 7)] :=
  FreeWF_triple (by decide) (by decide) (by decide) (by decide) (by decide) (by decide)

/-- Witness of C7: the span `(110, 90)` lies between the free ranges `(100, 10)` and
`(200, 50)`. -/
theorem C7_coalesce_witness :
    TableRep exampleTable ([] ++ (100, 10) :: (200, 50) :: [(300, 7)]) ∧
    FreeWF ([] ++ ((100 : Nat), (10 : Nat)) :: (200, 50) :: [(300, 7)]) ∧
    ∃ s', MakeFree 110 90 exampleTable = some s' ∧
      freeList s' = [] ++ (100, 10 + 90 + 50) :: [(300, 7)] ∧
      (freeList s').length + 1 = ([] ++ ((100 : Nat), (10 : Nat)) :: (200, 50) :: [(300, 7)]).length :=
  ⟨exampleTable_rep, exampleTable_wf,
    C7_coalesce 110 90 exampleTable [] (100, 10) (200, 50) [(300, 7)] exampleTable_rep
      exampleTable_wf rfl rfl⟩

theorem snoc_cases {α : Type} (l : List α) : l = [] ∨ ∃ l0 p, l = l0 ++ [p] := by
  rcases List.eq_nil_or_concat l with h | ⟨l0, p, h⟩
  · exact Or.inl h
  · exact Or.inr ⟨l0, p, by simpa using h⟩

/-- C6 (amended): let the free list be well-formed (ranges of positive length), let
`(pos, size)` be a non-empty span disjoint from all free ranges, let `l1` be the free
ranges that start below `pos` and `nx` the first free range that starts at or above `pos`
(such a range must exist).  Then `MakeFree(pos, size)` returns, the set of free addresses
afterwards is exactly the previous set united with `[pos, pos + size)`, and the new list
is given by the four cases: (a) only the preceding range adjoins: its length grows by
`size`; (b) only the following range adjoins: its offset moves down by `size` and its
length grows by `size`; (c) both adjoin: one range spans all three and the following range
is removed; (d) neither adjoins: the range `(pos, size)` is inserted between `l1` and
`nx`.  All other ranges are unchanged. -/
theorem C6_makeFree_effect (pos size : Nat) (s : TFAsroFile) (l1 : List (Nat × Nat))
    (nx : Nat × Nat) (l2 : List (Nat × Nat))
    (hrep : TableRep s (l1 ++ nx :: l2)) (hwf : FreeWF (l1 ++ nx :: l2))
    (hsize : 0 < size)
    (hdis : ∀ a, pos ≤ a → a < pos + size → occ a (l1 ++ nx :: l2) = 0)
    (hl1 : ∀ x ∈ l1, x.1 < pos) (hnx : pos ≤ nx.1)
    (hroom : s.fFreeReserve + 400 < 4294967296) :
    ∃ s', MakeFree pos size s = some s' ∧
      (∀ a, 0 < occ a (freeList s') ↔
        (0 < occ a (l1 ++ nx :: l2) ∨ (pos ≤ a ∧ a < pos + size))) ∧
      (∀ l0 p, l1 = l0 ++ [p] → p.1 + p.2 = pos → pos + size ≠ nx.1 →
        freeList s' = l0 ++ (p.1, p.2 + size) :: nx :: l2) ∧
      ((∀ l0 p, l1 = l0 ++ [p] → p.1 + p.2 ≠ pos) → pos + size = nx.1 →
        freeList s' = l1 ++ (nx.1 - size, nx.2 + size) :: l2) ∧
      (∀ l0 p, l1 = l0 ++ [p] → p.1 + p.2 = pos → pos + size = nx.1 →
        freeList s' = l0 ++ (p.1, p.2 + size + nx.2) :: l2) ∧
      ((∀ l0 p, l1 = l0 ++ [p] → p.1 + p.2 ≠ pos) → pos + size ≠ nx.1 →
        freeList s' = l1 ++ (pos, size) :: nx :: l2) := by
  have hnxm : nx ∈ l1 ++ nx :: l2 := by simp
  have hnxv := hwf.2 nx hnxm
  have hz := fun a h1 h2 => occ_eq_zero.mp (hdis a h1 h2)
  have hnx' : pos + size ≤ nx.1 := by
    by_contra hc
    exact hz nx.1 hnx (by omega) nx hnxm ⟨le_refl _, by omega⟩
  have hocc : ∀ (s' : TFAsroFile) (pv : Option (Nat × Nat)) (l0 : List (Nat × Nat)),
      l1 ++ nx :: l2 = l0 ++ (oldMid pv nx ++ l2) →
      (∀ p, pv = some p → p.1 + p.2 ≤ pos) →
      TableRep s' (l0 ++ (releaseMid pos size pv nx ++ l2)) →
      ∀ a, 0 < occ a (freeList s') ↔
        (0 < occ a (l1 ++ nx :: l2) ∨ (pos ≤ a ∧ a < pos + size)) := by
    intro s' pv l0 hfl hpv h3 a
    rw [freeList_of_rep h3, hfl]
    simp only [occ_append]
    rw [releaseMid_occ a pos size pv nx hpv]
    simp only [occ_cons, occ_nil]
    split_ifs <;> omega
  rcases snoc_cases l1 with hnil | ⟨l0, p, hl⟩
  · subst hnil
    obtain ⟨s', h1, _, _, h3⟩ := makeFree_rep pos size s [] none nx l2
      (by simpa [oldMid] using hrep) (by simp) (fun _ => rfl) (by simp) hnx' (by omega)
      (fun _ => hroom)
    refine ⟨s', h1, hocc s' none [] (by simp [oldMid]) (by simp) h3, ?_, ?_, ?_, ?_⟩
    · intro l0 p hl; simp at hl
    · intro _ ha
      rw [freeList_of_rep h3]
      simp only [releaseMid, if_pos ha, List.nil_append, List.singleton_append]
      rw [show nx.1 - size = pos by omega]
    · intro l0 p hl; simp at hl
    · intro _ ha
      rw [freeList_of_rep h3]
      simp only [releaseMid, if_neg ha, List.nil_append, List.cons_append]
  · subst hl
    have hpm : p ∈ l0 ++ [p] ++ nx :: l2 := by simp
    have hp1 : p.1 < pos := hl1 p (by simp)
    have hp2 : p.1 + p.2 ≤ pos := by
      by_contra hc
      exact hz pos (le_refl _) (by omega) p hpm ⟨le_of_lt hp1, by omega⟩
    have hfl : l0 ++ [p] ++ nx :: l2 = l0 ++ (oldMid (some p) nx ++ l2) := by
      simp [oldMid]
    obtain ⟨s', h1, _, _, h3⟩ := makeFree_rep pos size s l0 (some p) nx l2
      (hfl ▸ hrep) (fun x hx => hl1 x (by simp [hx])) (by simp)
      (by
        intro q hq
        simp only [Option.some.injEq] at hq
        subst hq
        exact ⟨hp1, hp2⟩)
      hnx' (by omega) (fun _ => hroom)
    have hinj : ∀ l0' p', l0 ++ [p] = l0' ++ [p'] → l0' = l0 ∧ p' = p := by
      intro l0' p' h
      have := List.append_inj' h rfl
      simp only [List.cons.injEq, and_true] at this
      exact ⟨this.1.symm, this.2.symm⟩
    refine ⟨s', h1, hocc s' (some p) l0 hfl (by
        intro q hq
        simp only [Option.some.injEq] at hq
        subst hq
        exact hp2) h3, ?_, ?_, ?_, ?_⟩
    · intro l0' p' hl hb ha
      obtain ⟨e1, e2⟩ := hinj l0' p' hl
      subst e1 e2
      rw [freeList_of_rep h3]
      simp only [releaseMid, if_pos hb, if_neg ha, List.cons_append, List.nil_append]
    · intro hb ha
      have hb' := hb l0 p rfl
      rw [freeList_of_rep h3]
      simp only [releaseMid, if_neg hb', if_pos ha, List.cons_append, List.nil_append,
        List.append_assoc, List.singleton_append]
      rw [show nx.1 - size = pos by omega]
    · intro l0' p' hl hb ha
      obtain ⟨e1, e2⟩ := hinj l0' p' hl
      subst e1 e2
      rw [freeList_of_rep h3]
      simp only [releaseMid, if_pos hb, if_pos ha, List.cons_append, List.nil_append]
    · intro hb ha
      have hb' := hb l0 p rfl
      rw [freeList_of_rep h3]
      simp only [releaseMid, if_neg hb', if_neg ha, List.cons_append, List.nil_append,
        List.append_assoc, List.singleton_append]

theorem exampleTable_dis : ∀ a, 150 ≤ a → a < 150 + 10 →
    occ a ([((100 : Nat), (10 : Nat))] ++ (200, 50) :: [(300, 7)]) = 0 := by
  intro a h1 h2
  simp only [List.singleton_append, occ_cons, occ_nil]
  split_ifs <;> omega

/-- Witness of C6: the span `(150, 10)` between the free ranges `(100, 10)` and
`(200, 50)`. -/
theorem C6_makeFree_effect_witness :
    TableRep exampleTable ([(100, 10)] ++ (200, 50) :: [(300, 7)]) ∧
    FreeWF ([((100 : Nat), (10 : Nat))] ++ (200, 50) :: [(300, 7)]) ∧
    (∃ s', MakeFree 150 10 exampleTable = some s' ∧
      (∀ a, 0 < occ a (freeList s') ↔
        (0 < occ a ([((100 : Nat), (10 : Nat))] ++ (200, 50) :: [(300, 7)]) ∨
          (150 ≤ a ∧ a < 150 + 10))) ∧
      (∀ l0 p, [((100 : Nat), (10 : Nat))] = l0 ++ [p] → p.1 + p.2 = 150 → 150 + 10 ≠ 200 →
        freeList s' = l0 ++ (p.1, p.2 + 10) :: (200, 50) :: [(300, 7)]) ∧
      ((∀ l0 p, [((100 : Nat), (10 : Nat))] = l0 ++ [p] → p.1 + p.2 ≠ 150) → 150 + 10 = 200 →
        freeList s' = [(100, 10)] ++ (200 - 10, 50 + 10) :: [(300, 7)]) ∧
      (∀ l0 p, [((100 : Nat), (10 : Nat))] = l0 ++ [p] → p.1 + p.2 = 150 → 150 + 10 = 200 →
        freeList s' = l0 ++ (p.1, p.2 + 10 + 50) :: [(300, 7)]) ∧
      ((∀ l0 p, [((100 : Nat), (10 : Nat))] = l0 ++ [p] → p.1 + p.2 ≠ 150) → 150 + 10 ≠ 200 →
        freeList s' = [(100, 10)] ++ (150, 10) :: (200, 50) :: [(300, 7)])) ∧
    (MakeFree 150 10 exampleTable).map freeList
      = some [(100, 10), (150, 10), (200, 50), (300, 7)] :=
  ⟨exampleTable_rep, exampleTable_wf,
    C6_makeFree_effect 150 10 exampleTable [(100, 10)] (200, 50) [(300, 7)] exampleTable_rep
      exampleTable_wf (by decide) exampleTable_dis (by decide) (by decide) (by decide), rfl⟩

/-- Counterexample to C6 as stated: in `twoRangeTable` the call `GetFree(50)` takes the
last range and leaves `staleTable`, whose free list `[(24, 10)]` is well-formed.  The span
`(60, 40)` is disjoint from it, but no free range starts at or above 60: `MakeFree(60, 40)`
compares with the array slot behind the table, which still holds offset 100, takes the
`after` branch and changes only that slot.  The free list is unchanged and address 60 is
not free afterwards. -/
theorem C6_counterexample :
    GetFree 50 twoRangeTable = some (100, staleTable) ∧
    freeList staleTable = [(24, 10)] ∧ FreeWF (freeList staleTable) ∧
    (∀ a, 60 ≤ a → a < 60 + 40 → occ a (freeList staleTable) = 0) ∧
    ∃ s2, MakeFree 60 40 staleTable = some s2 ∧ freeList s2 = [(24, 10)] ∧
      ¬ (0 < occ 60 (freeList s2) ↔ (0 < occ 60 (freeList staleTable) ∨ (60 ≤ 60 ∧ 60 < 60 + 40))) := by
  refine ⟨rfl, rfl, FreeWF_single (by decide) (by decide), ?_, _, rfl, rfl, by decide⟩
  intro a h1 h2
  show occ a [(24, 10)] = 0
  simp only [occ_cons, occ_nil]
  split_ifs <;> omega

theorem tableInv_of {s : TFAsroFile} {fl : List (Nat × Nat)} (h1 : TableRep s fl)
    (h2 : FreeWF fl) : TableInv s := by
  unfold TableInv
  rw [freeList_of_rep h1]
  exact ⟨h1, h2⟩

/-- C2 (amended): start from a state whose free list is sorted by offset, non-overlapping,
without touching ranges and without empty ranges.  For every sequence of `GetFree(size)`
calls (each satisfiable by some free range) and `MakeFree(pos, size)` calls (each releasing
a non-empty allocated span that lies below some free range, while the table memory is below
the `UInt_t` limit), every single call returns and the free list after it is again sorted
by offset, non-overlapping, without touching ranges and without empty ranges. -/
theorem C2_free_list_invariant (cs : List AllocCall) :
    ∀ s : TFAsroFile, TableInv s → AdmissibleSeq s cs → AllWellFormed s cs := by
  induction cs with
  | nil => intro s _ _; trivial
  | cons c cs ih =>
    intro s hinv hadm
    obtain ⟨hc, hrest⟩ := hadm
    obtain ⟨hrep, hwf⟩ := hinv
    cases c with
    | getFree size =>
      obtain ⟨p1, r, p2, s', fl', _, _, h1, _, _, h3, _, _, h4, _⟩ :=
        getFree_effect size s (freeList s) hrep hwf hc
      have hrun : (AllocCall.getFree size).run s = some s' := by
        simp only [AllocCall.run, h1, Option.map_some']
      have hinv' := tableInv_of h3 h4
      exact ⟨s', hrun, hinv', ih s' hinv' (hrest s' hrun)⟩
    | makeFree pos size =>
      obtain ⟨hsize, hdis, habove, hroom⟩ := hc
      obtain ⟨s', fl', h1, _, h3, h4, _⟩ :=
        makeFree_effect pos size s (freeList s) hrep hwf hsize hdis habove hroom
      have hrun : (AllocCall.makeFree pos size).run s = some s' := h1
      have hinv' := tableInv_of h3 h4
      exact ⟨s', hrun, hinv', ih s' hinv' (hrest s' hrun)⟩

theorem exampleTable_inv : TableInv exampleTable :=
  tableInv_of exampleTable_rep exampleTable_wf

theorem exampleTable_adm :
    AdmissibleSeq exampleTable [AllocCall.getFree 8, AllocCall.makeFree 100 8] := by
  refine ⟨⟨(100, 10), by decide, by decide⟩, ?_⟩
  intro s' h
  have hg : (AllocCall.getFree 8).run exampleTable = some exampleTable1 := rfl
  rw [hg] at h
  simp only [Option.some.injEq] at h
  subst h
  refine ⟨⟨by decide, ?_, ⟨(108, 2), by decide, by decide⟩, by decide⟩, fun _ _ => trivial⟩
  intro a h1 h2
  show occ a [(108, 2), (200, 50), (300, 7)] = 0
  simp only [occ_cons, occ_nil]
  split_ifs <;> omega

/-- Witness of C2: in `exampleTable` allocate 8 bytes and release them again. -/
theorem C2_free_list_invariant_witness :
    TableInv exampleTable ∧
    AdmissibleSeq exampleTable [AllocCall.getFree 8, AllocCall.makeFree 100 8] ∧
    AllWellFormed exampleTable [AllocCall.getFree 8, AllocCall.makeFree 100 8] :=
  ⟨exampleTable_inv, exampleTable_adm,
    C2_free_list_invariant [AllocCall.getFree 8, AllocCall.makeFree 100 8] exampleTable
      exampleTable_inv exampleTable_adm⟩

/-- Counterexample to C2 as stated.  First part: the free list `[(24, 10), (100, 50)]` is
sorted, non-overlapping and without touching ranges; `GetFree(50)` is satisfiable and
leaves `staleTable`; the span `(34, 66)` is then allocated, but `MakeFree(34, 66)` finds no
free range at or above 34, reads the slot behind the table (offset 100), takes the
`before && after` branch and calls `memmove` with the length `8 - 16`: the call has no
result.  Second part: the free list `[(10, 0), (20, 5)]` is sorted, non-overlapping and
without touching ranges, the span `(10, 5)` is allocated, and `MakeFree(10, 5)` leaves
`[(10, 5), (10, 0), (20, 5)]`, in which the first range does not end before the second
starts. -/
theorem C2_counterexample :
    (TableRep twoRangeTable [(24, 10), (100, 50)] ∧
      [((24 : Nat), (10 : Nat)), (100, 50)].Pairwise (fun a b => a.1 + a.2 < b.1) ∧
      (∃ r ∈ freeList twoRangeTable, 50 ≤ r.2) ∧
      GetFree 50 twoRangeTable = some (100, staleTable) ∧
      (freeList staleTable).Pairwise (fun a b => a.1 + a.2 < b.1) ∧
      (∀ a, 34 ≤ a → a < 34 + 66 → occ a (freeList staleTable) = 0) ∧
      MakeFree 34 66 staleTable = none) ∧
    (TableRep emptyRangeTable [(10, 0), (20, 5)] ∧
      [((10 : Nat), (0 : Nat)), (20, 5)].Pairwise (fun a b => a.1 + a.2 < b.1) ∧
      (∀ a, 10 ≤ a → a < 10 + 5 → occ a [((10 : Nat), (0 : Nat)), (20, 5)] = 0) ∧
      ∃ s2, MakeFree 10 5 emptyRangeTable = some s2 ∧
        freeList s2 = [(10, 5), (10, 0), (20, 5)] ∧
        ¬ (freeList s2).Pairwise (fun a b => a.1 + a.2 < b.1)) := by
  refine ⟨⟨twoRangeTable_rep, by decide, ⟨(100, 50), by decide, by decide⟩, rfl, by decide,
    ?_, rfl⟩, ⟨rfl, rfl, by decide, [none], rfl⟩, by decide, ?_, _, rfl, rfl, by decide⟩
  · intro a h1 h2
    show occ a [(24, 10)] = 0
    simp only [occ_cons, occ_nil]
    split_ifs <;> omega
  · intro a h1 h2
    simp only [occ_cons, occ_nil]
    split_ifs <;> omega

theorem lt_iff (a b : TFAsroKey) :
    a.lt b = true ↔
      (a.fElName < b.fElName ∨
        (a.fElName = b.fElName ∧
          (a.fCycle < b.fCycle ∨ (a.fCycle = b.fCycle ∧ a.fSubName < b.fSubName)))) := by
  unfold TFAsroKey.lt
  rw [String.lt_iff_toList_lt]
  by_cases h1 : a.fElName = b.fElName
  · by_cases h2 : a.fCycle = b.fCycle
    · simp [h1, h2]
    · simp [h1, h2]
  · simp [h1]

theorem key_ext {a b : TFAsroKey} (h1 : a.fElName = b.fElName) (h2 : a.fCycle = b.fCycle)
    (h3 : a.fSubName = b.fSubName) : a = b := by
  cases a; cases b; simp_all

theorem lt_irrefl_key (a : TFAsroKey) : a.lt a = false := by
  rw [Bool.eq_false_iff]
  intro h
  rw [lt_iff] at h
  rcases h with h | ⟨_, h | ⟨_, h⟩⟩
  · exact lt_irrefl _ h
  · exact lt_irrefl _ h
  · exact lt_irrefl _ h

theorem lt_trans_key {a b c : TFAsroKey} (h1 : a.lt b = true) (h2 : b.lt c = true) :
    a.lt c = true := by
  rw [lt_iff] at *
  rcases h1 with h1 | ⟨e1, h1 | ⟨e1', h1⟩⟩ <;> rcases h2 with h2 | ⟨e2, h2 | ⟨e2', h2⟩⟩
  · exact Or.inl (lt_trans h1 h2)
  · exact Or.inl (e2 ▸ h1)
  · exact Or.inl (e2 ▸ h1)
  · exact Or.inl (e1 ▸ h2)
  · exact Or.inr ⟨e1.trans e2, Or.inl (lt_trans h1 h2)⟩
  · exact Or.inr ⟨e1.trans e2, Or.inl (e2' ▸ h1)⟩
  · exact Or.inl (e1 ▸ h2)
  · exact Or.inr ⟨e1.trans e2, Or.inl (e1' ▸ h2)⟩
  · exact Or.inr ⟨e1.trans e2, Or.inr ⟨e1'.trans e2', lt_trans h1 h2⟩⟩

theorem lt_trichotomy_key (a b : TFAsroKey) : a.lt b = true ∨ a = b ∨ b.lt a = true := by
  rw [lt_iff, lt_iff]
  rcases lt_trichotomy a.fElName b.fElName with h | h | h
  · exact Or.inl (Or.inl h)
  · rcases lt_trichotomy a.fCycle b.fCycle with h2 | h2 | h2
    · exact Or.inl (Or.inr ⟨h, Or.inl h2⟩)
    · rcases lt_trichotomy a.fSubName b.fSubName with h3 | h3 | h3
      · exact Or.inl (Or.inr ⟨h, Or.inr ⟨h2, h3⟩⟩)
      · exact Or.inr (Or.inl (key_ext h h2 h3))
      · exact Or.inr (Or.inr (Or.inr ⟨h.symm, Or.inr ⟨h2.symm, h3⟩⟩))
    · exact Or.inr (Or.inr (Or.inr ⟨h.symm, Or.inl h2⟩))
  · exact Or.inr (Or.inr (Or.inl h))

theorem lt_asymm_key {a b : TFAsroKey} (h : a.lt b = true) : b.lt a = false := by
  rw [Bool.eq_false_iff]
  intro h2
  have := lt_trans_key h h2
  rw [lt_irrefl_key] at this
  exact Bool.false_ne_true this

/-- C8: `a < b` holds iff the triple (name index, cycle, sub-name) of `a` is
lexicographically smaller than that of `b`; hence `operator<` is a strict total order on
keys: irreflexive, transitive, and exactly one of `a < b`, `a = b`, `b < a` holds. -/
theorem C8_key_order :
    (∀ a b : TFAsroKey, a.lt b = true ↔
      (a.fElName < b.fElName ∨
        (a.fElName = b.fElName ∧
          (a.fCycle < b.fCycle ∨ (a.fCycle = b.fCycle ∧ a.fSubName < b.fSubName))))) ∧
    (∀ a : TFAsroKey, a.lt a = false) ∧
    (∀ a b c : TFAsroKey, a.lt b = true → b.lt c = true → a.lt c = true) ∧
    (∀ a b : TFAsroKey,
      (a.lt b = true ∧ a ≠ b ∧ b.lt a = false) ∨
      (a.lt b = false ∧ a = b ∧ b.lt a = false) ∨
      (a.lt b = false ∧ a ≠ b ∧ b.lt a = true)) := by
  refine ⟨lt_iff, lt_irrefl_key, fun a b c => lt_trans_key, ?_⟩
  intro a b
  rcases lt_trichotomy_key a b with h | h | h
  · refine Or.inl ⟨h, ?_, lt_asymm_key h⟩
    intro e
    subst e
    rw [lt_irrefl_key] at h
    exact Bool.false_ne_true h
  · subst h
    exact Or.inr (Or.inl ⟨lt_irrefl_key a, rfl, lt_irrefl_key a⟩)
  · refine Or.inr (Or.inr ⟨lt_asymm_key h, ?_, h⟩)
    intro e
    subst e
    rw [lt_irrefl_key] at h
    exact Bool.false_ne_true h

theorem dropWhile_head_not {α : Type} (p : α → Bool) (l : List α) (e : α) (tl : List α)
    (h : l.dropWhile p = e :: tl) : p e = false := by
  induction l with
  | nil => simp at h
  | cons x l ih =>
    rw [List.dropWhile_cons] at h
    by_cases hx : p x = true
    · rw [if_pos hx] at h; exact ih h
    · rw [if_neg hx] at h
      simp only [List.cons.injEq] at h
      rw [← h.1]
      simpa using hx

theorem dropWhile_eq_filter {α : Type} {R : α → α → Prop} {p : α → Bool}
    (hp : ∀ a b, R a b → p b = true → p a = true) (l : List α) (h : l.Pairwise R) :
    l.dropWhile p = l.filter (fun x => !p x) := by
  induction l with
  | nil => rfl
  | cons x l ih =>
    rw [List.pairwise_cons] at h
    cases hx : p x with
    | true =>
      simp only [List.dropWhile_cons, List.filter_cons, hx, if_true, Bool.not_true,
        Bool.false_eq_true, if_false]
      exact ih h.2
    | false =>
      simp only [List.dropWhile_cons, List.filter_cons, hx, Bool.false_eq_true, if_false,
        Bool.not_false, if_true, List.cons.injEq, true_and]
      symm
      rw [List.filter_eq_self]
      intro y hy
      cases hpy : p y with
      | false => rfl
      | true =>
        have := hp x y (h.1 y hy) hpy
        rw [hx] at this
        exact absurd this Bool.false_ne_true

theorem takeWhile_eq_filter {α : Type} {R : α → α → Prop} {p : α → Bool}
    (hp : ∀ a b, R a b → p b = true → p a = true) (l : List α) (h : l.Pairwise R) :
    l.takeWhile p = l.filter p := by
  induction l with
  | nil => rfl
  | cons x l ih =>
    rw [List.pairwise_cons] at h
    cases hx : p x with
    | true =>
      simp only [List.takeWhile_cons, List.filter_cons, hx, if_true, List.cons.injEq, true_and]
      exact ih h.2
    | false =>
      simp only [List.takeWhile_cons, List.filter_cons, hx, Bool.false_eq_true, if_false]
      symm
      rw [List.filter_eq_nil_iff]
      intro y hy hpy
      have := hp x y (h.1 y hy) hpy
      rw [hx] at this
      exact absurd this Bool.false_ne_true

theorem lower_bound_eq_filter (m : Entries) (k : TFAsroKey) (h : EntriesSorted m) :
    lower_bound m k = m.filter (fun e => !e.1.lt k) :=
  dropWhile_eq_filter (R := fun a b : TFAsroKey × TFAsroValue => a.1.lt b.1 = true)
    (p := fun e => e.1.lt k) (fun _ _ hab hb => lt_trans_key hab hb) m h

theorem takeWhile_lt_eq_filter (m : Entries) (k : TFAsroKey) (h : EntriesSorted m) :
    m.takeWhile (fun e => e.1.lt k) = m.filter (fun e => e.1.lt k) :=
  takeWhile_eq_filter (R := fun a b : TFAsroKey × TFAsroValue => a.1.lt b.1 = true)
    (p := fun e => e.1.lt k) (fun _ _ hab hb => lt_trans_key hab hb) m h

theorem upper_bound_eq_filter (m : Entries) (k : TFAsroKey) (h : EntriesSorted m) :
    upper_bound m k = m.filter (fun e => k.lt e.1) := by
  have := dropWhile_eq_filter (R := fun a b : TFAsroKey × TFAsroValue => a.1.lt b.1 = true)
    (p := fun e => !(k.lt e.1))
    (by
      intro a b hab hb
      simp only [Bool.not_eq_true'] at hb ⊢
      rw [Bool.eq_false_iff]
      intro hka
      have := lt_trans_key hka hab
      rw [hb] at this
      exact Bool.false_ne_true this) m h
  unfold upper_bound
  rw [this]
  simp

theorem not_lt_empty (s : String) : ¬ s < "" := by
  intro h
  rw [String.lt_iff_toList_lt] at h
  generalize s.toList = l at h
  cases h

theorem empty_lt_iff (s : String) : "" < s ↔ s ≠ "" := by
  constructor
  · intro h e
    subst e
    exact lt_irrefl _ h
  · intro h
    rcases lt_trichotomy "" s with h1 | h1 | h1
    · exact h1
    · exact absurd h1.symm h
    · exact absurd h1 (not_lt_empty s)

theorem wrapInt32_succ (V : Int) (h1 : -2147483648 ≤ V) (h2 : V < 2147483647) :
    wrapInt32 (V + 1) = V + 1 := by
  unfold wrapInt32
  omega

theorem key_range_iff (N : Nat) (V : Int) (k : TFAsroKey) (h1 : -2147483648 ≤ V)
    (h2 : V < 2147483647) :
    (k.lt ⟨N, "", V⟩ = false ∧ k.lt ⟨N, "", wrapInt32 (V + 1)⟩ = true) ↔
      (k.fElName = N ∧ k.fCycle = V) := by
  rw [wrapInt32_succ V h1 h2, Bool.eq_false_iff, Ne, lt_iff, lt_iff]
  simp only
  have hs := not_lt_empty k.fSubName
  constructor
  · rintro ⟨ha, hb⟩
    push_neg at ha
    rcases hb with hb | ⟨hb1, hb | ⟨_, hb⟩⟩
    · exact absurd hb (not_lt_of_le ha.1)
    · have := ha.2 hb1
      exact ⟨hb1, by omega⟩
    · exact absurd hb hs
  · rintro ⟨e1, e2⟩
    refine ⟨?_, Or.inr ⟨e1, Or.inl (by omega)⟩⟩
    push_neg
    refine ⟨le_of_eq e1.symm, fun _ => ⟨by omega, fun _ => hs⟩⟩

theorem toUInt32_of_nonneg (c : Int) (h1 : 0 ≤ c) (h2 : c < 4294967296) :
    toUInt32 c = c.toNat := by
  unfold toUInt32
  rw [Int.emod_eq_of_lt h1 h2]

theorem lt_name_le {a b : TFAsroKey} (h : a.lt b = true) : a.fElName ≤ b.fElName := by
  rw [lt_iff] at h
  rcases h with h | ⟨h, _⟩
  · exact le_of_lt h
  · exact le_of_eq h

theorem lt_cycle_le {a b : TFAsroKey} (h : a.lt b = true) (hn : a.fElName = b.fElName) :
    a.fCycle ≤ b.fCycle := by
  rw [lt_iff] at h
  rcases h with h | ⟨_, h | ⟨h, _⟩⟩
  · omega
  · exact le_of_lt h
  · exact le_of_eq h

theorem freeCycleLoop_spec (N : Nat) (L : Entries) :
    ∀ p : Nat, EntriesSorted L → (∀ e ∈ L, N ≤ e.1.fElName) →
      (∀ e ∈ L, e.1.fElName = N → (p : Int) ≤ e.1.fCycle) →
      (∀ e ∈ L, e.1.fCycle < 2147483648) → p < 2147483648 →
      FirstGap N L p (freeCycleLoop N L p) := by
  induction L with
  | nil =>
    intro p _ _ _ _ hp
    simp only [freeCycleLoop]
    rw [if_pos (by omega), Nat.mod_eq_of_lt (by omega)]
    exact ⟨le_refl _, by simp, fun u h1 h2 => by omega⟩
  | cons e L ih =>
    intro p hs hname hcyc htyp hp
    have hs' : EntriesSorted L := (List.pairwise_cons.mp hs).2
    have hlt := (List.pairwise_cons.mp hs).1
    simp only [freeCycleLoop]
    by_cases hN : N = e.1.fElName
    · rw [if_pos hN]
      have hc0 : (p : Int) ≤ e.1.fCycle := hcyc e (by simp) hN.symm
      have hc1 : e.1.fCycle < 2147483648 := htyp e (by simp)
      have hu : toUInt32 e.1.fCycle = e.1.fCycle.toNat :=
        toUInt32_of_nonneg _ (by omega) (by omega)
      rw [hu]
      have hrest : ∀ x ∈ L, x.1.fElName = N → e.1.fCycle ≤ x.1.fCycle := by
        intro x hx hxn
        exact lt_cycle_le (hlt x hx) (by rw [hxn, hN])
      by_cases hgap : (e.1.fCycle.toNat + 4294967296 - p) % 4294967296 > 1
      · rw [if_pos hgap, Nat.mod_eq_of_lt (by omega)]
        refine ⟨le_refl _, ?_, fun u h1 h2 => by omega⟩
        intro x hx hxn
        simp only [List.mem_cons] at hx
        rcases hx with hx | hx
        · subst hx; omega
        · have := hrest x hx hxn
          omega
      · rw [if_neg hgap]
        obtain ⟨h1, h2, h3⟩ := ih e.1.fCycle.toNat hs'
          (fun x hx => hname x (by simp [hx]))
          (by
            intro x hx hxn
            have := hrest x hx hxn
            omega)
          (fun x hx => htyp x (by simp [hx])) (by omega)
        refine ⟨by omega, ?_, ?_⟩
        · intro x hx hxn
          simp only [List.mem_cons] at hx
          rcases hx with hx | hx
          · subst hx; omega
          · exact h2 x hx hxn
        · intro u hu1 hu2
          by_cases hle : u ≤ e.1.fCycle.toNat
          · exact ⟨e, by simp, hN.symm, by omega⟩
          · obtain ⟨x, hx, hx1, hx2⟩ := h3 u (by omega) hu2
            exact ⟨x, by simp [hx], hx1, hx2⟩
    · rw [if_neg hN, if_pos (by omega), Nat.mod_eq_of_lt (by omega)]
      refine ⟨le_refl _, ?_, fun u h1 h2 => by omega⟩
      intro x hx hxn
      exfalso
      simp only [List.mem_cons] at hx
      rcases hx with hx | hx
      · subst hx; exact hN hxn.symm
      · have h1 := lt_name_le (hlt x hx)
        have h2 := hname e (by simp)
        omega

theorem sorted_filter (m : Entries) (p : TFAsroKey × TFAsroValue → Bool)
    (h : EntriesSorted m) : EntriesSorted (m.filter p) :=
  List.Pairwise.sublist (List.filter_sublist m) h

theorem smallestFree_unique {N : Nat} {m : Entries} {v w : Nat} (hv : SmallestFree N m v)
    (hw : SmallestFree N m w) : v = w := by
  obtain ⟨v1, v2, v3⟩ := hv
  obtain ⟨w1, w2, w3⟩ := hw
  rcases Nat.lt_trichotomy v w with h | h | h
  · obtain ⟨e, he, hn, hc⟩ := w3 v v1 h
    exact absurd hc (v2 e he hn)
  · exact h
  · obtain ⟨e, he, hn, hc⟩ := v3 w w1 h
    exact absurd hc (w2 e he hn)

theorem getFreeCycle_spec (name : String) (s : TFAsroFile) (hs : EntriesSorted s.fEntries)
    (ht : ∀ e ∈ s.fEntries, e.1.WellTyped) :
    SmallestFree (findName s.fNames name) s.fEntries (GetFreeCycle name s).1 := by
  simp only [GetFreeCycle]
  set N := findName s.fNames name with hN
  have hu := upper_bound_eq_filter s.fEntries ⟨N, "", 0⟩ hs
  have hmem : ∀ e, e ∈ upper_bound s.fEntries ⟨N, "", 0⟩ ↔
      e ∈ s.fEntries ∧ TFAsroKey.lt ⟨N, "", 0⟩ e.1 = true := by
    intro e
    rw [hu, List.mem_filter]
  obtain ⟨h1, h2, h3⟩ := freeCycleLoop_spec N (upper_bound s.fEntries ⟨N, "", 0⟩) 0
    (by rw [hu]; exact sorted_filter _ _ hs)
    (by
      intro e he
      exact lt_name_le ((hmem e).mp he).2)
    (by
      intro e he hn
      have := lt_cycle_le ((hmem e).mp he).2 hn.symm
      simpa using this)
    (fun e he => (ht e ((hmem e).mp he).1).2.2) (by decide)
  refine ⟨by omega, ?_, ?_⟩
  · intro e he hn hc
    apply h2 e _ hn hc
    rw [hmem]
    refine ⟨he, ?_⟩
    rw [lt_iff]
    exact Or.inr ⟨hn.symm, Or.inl (by simp only; omega)⟩
  · intro u hu1 hu2
    obtain ⟨e, he, hn, hc⟩ := h3 u (by omega) hu2
    exact ⟨e, ((hmem e).mp he).1, hn, hc⟩

theorem lt_false_of_lt {a b : TFAsroKey} (h : a.lt b = true) : b.lt a = false :=
  lt_asymm_key h

theorem eq_of_not_lt {a b : TFAsroKey} (h1 : a.lt b = false) (h2 : b.lt a = false) : a = b := by
  rcases lt_trichotomy_key a b with h | h | h
  · rw [h1] at h; exact absurd h Bool.false_ne_true
  · exact h
  · rw [h2] at h; exact absurd h Bool.false_ne_true

/-- The part of the map behind the place of `key`: the entries greater than `key`. -/
theorem lower_bound_tail (m : Entries) (k : TFAsroKey) (h : EntriesSorted m) :
    (lower_bound m k = [] ∧ m.filter (fun e => k.lt e.1) = []) ∨
    (∃ e tl, lower_bound m k = e :: tl ∧ k.lt e.1 = true ∧
      m.filter (fun e => k.lt e.1) = e :: tl ∧ ∀ x ∈ m, x.1 ≠ k) ∨
    (∃ v tl, lower_bound m k = (k, v) :: tl ∧ m.filter (fun e => k.lt e.1) = tl ∧
      (k, v) ∈ m ∧ ∀ x ∈ m, x.1 = k → x = (k, v)) := by
  have hsplit : m = m.takeWhile (fun e => e.1.lt k) ++ lower_bound m k :=
    (List.takeWhile_append_dropWhile _ _).symm
  have htw : ∀ x ∈ m.takeWhile (fun e => e.1.lt k), x.1.lt k = true :=
    fun x hx => List.mem_takeWhile_imp (p := fun e : TFAsroKey × TFAsroValue => e.1.lt k) hx
  have hf : m.filter (fun e => k.lt e.1) = (lower_bound m k).filter (fun e => k.lt e.1) := by
    conv_lhs => rw [hsplit]
    rw [List.filter_append]
    have : (m.takeWhile (fun e => e.1.lt k)).filter (fun e => k.lt e.1) = [] := by
      rw [List.filter_eq_nil_iff]
      intro x hx hk
      have := lt_asymm_key (htw x hx)
      rw [this] at hk
      exact Bool.false_ne_true hk
    rw [this, List.nil_append]
  have hsub : (lower_bound m k).Sublist m := List.dropWhile_sublist _
  have hsd : EntriesSorted (lower_bound m k) := List.Pairwise.sublist hsub h
  cases hdw : lower_bound m k with
  | nil =>
    left
    rw [hf, hdw]
    exact ⟨rfl, rfl⟩
  | cons e tl =>
    right
    rw [hdw] at hf hsd
    have hhead : e.1.lt k = false := dropWhile_head_not _ m e tl hdw
    have htl : ∀ x ∈ tl, e.1.lt x.1 = true := (List.pairwise_cons.mp hsd).1
    have hnot : ∀ x ∈ m, x ∈ m.takeWhile (fun e => e.1.lt k) ∨ x = e ∨ x ∈ tl := by
      intro x hx
      rw [hsplit, hdw] at hx
      simpa using hx
    by_cases hk : k.lt e.1 = true
    · left
      refine ⟨e, tl, rfl, hk, ?_, ?_⟩
      · rw [hf, List.filter_eq_self]
        intro x hx
        simp only [List.mem_cons] at hx
        rcases hx with hx | hx
        · subst hx; exact hk
        · exact lt_trans_key hk (htl x hx)
      · intro x hx hxk
        subst hxk
        rcases hnot x hx with h1 | h1 | h1
        · have := htw x h1
          rw [lt_irrefl_key] at this
          exact Bool.false_ne_true this
        · subst h1
          rw [lt_irrefl_key] at hk
          exact Bool.false_ne_true hk
        · have := lt_trans_key hk (htl x h1)
          rw [lt_irrefl_key] at this
          exact Bool.false_ne_true this
    · right
      have hk' : k.lt e.1 = false := by simpa using hk
      have hek : e.1 = k := eq_of_not_lt hhead hk'
      obtain ⟨ek, ev⟩ := e
      simp only at hek
      subst hek
      refine ⟨ev, tl, rfl, ?_, ?_, ?_⟩
      · rw [hf, List.filter_cons]
        simp only [lt_irrefl_key, Bool.false_eq_true, if_false]
        rw [List.filter_eq_self]
        intro x hx
        exact htl x hx
      · rw [hsplit, hdw]; simp
      · intro x hx hxk
        rcases hnot x hx with h1 | h1 | h1
        · have := htw x h1
          rw [hxk, lt_irrefl_key] at this
          exact absurd this Bool.false_ne_true
        · exact h1
        · have := htl x h1
          simp only at this
          rw [hxk, lt_irrefl_key] at this
          exact absurd this Bool.false_ne_true

theorem mapSet_eq (m : Entries) (k : TFAsroKey) (v : TFAsroValue) (h : EntriesSorted m) :
    mapSet m k v = m.filter (fun e => e.1.lt k) ++ (k, v) :: m.filter (fun e => k.lt e.1) := by
  unfold mapSet
  rw [takeWhile_lt_eq_filter m k h]
  congr 1
  rcases lower_bound_tail m k h with ⟨h1, h2⟩ | ⟨e, tl, h1, h2, h3, _⟩ | ⟨w, tl, h1, h2, _⟩
  · rw [h1, h2]
  · rw [h1, h3]; simp only [h2, if_true]
  · rw [h1, h2]; simp only [lt_irrefl_key, Bool.false_eq_true, if_false]

theorem mapErase_eq (m : Entries) (k : TFAsroKey) (h : EntriesSorted m) :
    mapErase m k = m.filter (fun e => e.1.lt k) ++ m.filter (fun e => k.lt e.1) := by
  unfold mapErase
  rw [takeWhile_lt_eq_filter m k h]
  congr 1
  rcases lower_bound_tail m k h with ⟨h1, h2⟩ | ⟨e, tl, h1, h2, h3, _⟩ | ⟨w, tl, h1, h2, _⟩
  · rw [h1, h2]
  · rw [h1, h3]; simp only [h2, if_true]
  · rw [h1, h2]; simp only [lt_irrefl_key, Bool.false_eq_true, if_false]

theorem mapFind_none (m : Entries) (k : TFAsroKey) (h : EntriesSorted m) :
    mapFind m k = none ↔ ∀ x ∈ m, x.1 ≠ k := by
  unfold mapFind
  rcases lower_bound_tail m k h with ⟨h1, h2⟩ | ⟨e, tl, h1, h2, h3, h4⟩ | ⟨w, tl, h1, h2, h3, h4⟩
  · rw [h1]
    simp only [true_iff]
    intro x hx hxk
    have hsplit : m = m.takeWhile (fun e => e.1.lt k) ++ lower_bound m k :=
      (List.takeWhile_append_dropWhile _ _).symm
    rw [hsplit, h1, List.append_nil] at hx
    have := List.mem_takeWhile_imp (p := fun e : TFAsroKey × TFAsroValue => e.1.lt k) hx
    simp only at this
    rw [hxk, lt_irrefl_key] at this
    exact Bool.false_ne_true this
  · rw [h1]; simp only [h2, if_true, true_iff]; exact h4
  · rw [h1]
    simp only [lt_irrefl_key, Bool.false_eq_true, if_false]
    constructor
    · intro hc; cases hc
    · intro hc; exact absurd rfl (hc _ h3)

theorem mapFind_some (m : Entries) (k : TFAsroKey) (e : TFAsroKey × TFAsroValue)
    (h : EntriesSorted m) : mapFind m k = some e ↔ (e ∈ m ∧ e.1 = k) := by
  unfold mapFind
  rcases lower_bound_tail m k h with ⟨h1, h2⟩ | ⟨x, tl, h1, h2, h3, h4⟩ | ⟨w, tl, h1, h2, h3, h4⟩
  · rw [h1]
    constructor
    · intro hc; cases hc
    · rintro ⟨he, hk⟩
      exfalso
      have hsplit : m = m.takeWhile (fun e => e.1.lt k) ++ lower_bound m k :=
        (List.takeWhile_append_dropWhile _ _).symm
      rw [hsplit, h1, List.append_nil] at he
      have := List.mem_takeWhile_imp (p := fun e : TFAsroKey × TFAsroValue => e.1.lt k) he
      simp only at this
      rw [hk, lt_irrefl_key] at this
      exact Bool.false_ne_true this
  · rw [h1]; simp only [h2, if_true]
    constructor
    · intro hc; cases hc
    · rintro ⟨he, hk⟩; exact absurd hk (h4 e he)
  · rw [h1]
    simp only [lt_irrefl_key, Bool.false_eq_true, if_false, Option.some.injEq]
    constructor
    · intro hc; subst hc; exact ⟨h3, rfl⟩
    · rintro ⟨he, hk⟩; exact (h4 e he hk).symm

theorem mem_mapSet (m : Entries) (k : TFAsroKey) (v : TFAsroValue) (h : EntriesSorted m)
    (e : TFAsroKey × TFAsroValue) : e ∈ mapSet m k v ↔ (e = (k, v) ∨ (e ∈ m ∧ e.1 ≠ k)) := by
  rw [mapSet_eq m k v h]
  simp only [List.mem_append, List.mem_cons, List.mem_filter]
  constructor
  · rintro (⟨h1, h2⟩ | h1 | ⟨h1, h2⟩)
    · right
      refine ⟨h1, ?_⟩
      intro hk
      rw [hk, lt_irrefl_key] at h2
      exact Bool.false_ne_true h2
    · exact Or.inl h1
    · right
      refine ⟨h1, ?_⟩
      intro hk
      rw [hk, lt_irrefl_key] at h2
      exact Bool.false_ne_true h2
  · rintro (h1 | ⟨h1, h2⟩)
    · exact Or.inr (Or.inl h1)
    · rcases lt_trichotomy_key e.1 k with h3 | h3 | h3
      · exact Or.inl ⟨h1, h3⟩
      · exact absurd h3 h2
      · exact Or.inr (Or.inr ⟨h1, h3⟩)

theorem mapSet_sorted (m : Entries) (k : TFAsroKey) (v : TFAsroValue) (h : EntriesSorted m) :
    EntriesSorted (mapSet m k v) := by
  rw [mapSet_eq m k v h]
  unfold EntriesSorted
  rw [List.pairwise_append]
  refine ⟨sorted_filter m _ h, ?_, ?_⟩
  · rw [List.pairwise_cons]
    refine ⟨?_, sorted_filter m _ h⟩
    intro x hx
    exact (List.mem_filter.mp hx).2
  · intro a ha b hb
    have ha2 := (List.mem_filter.mp ha).2
    simp only [List.mem_cons] at hb
    rcases hb with hb | hb
    · subst hb; exact ha2
    · exact lt_trans_key ha2 (List.mem_filter.mp hb).2

theorem mapErase_sorted (m : Entries) (k : TFAsroKey) (h : EntriesSorted m) :
    EntriesSorted (mapErase m k) := by
  rw [mapErase_eq m k h]
  unfold EntriesSorted
  rw [List.pairwise_append]
  refine ⟨sorted_filter m _ h, sorted_filter m _ h, ?_⟩
  intro a ha b hb
  exact lt_trans_key (List.mem_filter.mp ha).2 (List.mem_filter.mp hb).2

theorem mem_mapErase (m : Entries) (k : TFAsroKey) (h : EntriesSorted m)
    (e : TFAsroKey × TFAsroValue) : e ∈ mapErase m k ↔ (e ∈ m ∧ e.1 ≠ k) := by
  rw [mapErase_eq m k h]
  simp only [List.mem_append, List.mem_filter]
  constructor
  · rintro (⟨h1, h2⟩ | ⟨h1, h2⟩)
    · refine ⟨h1, ?_⟩
      intro hk
      rw [hk, lt_irrefl_key] at h2
      exact Bool.false_ne_true h2
    · refine ⟨h1, ?_⟩
      intro hk
      rw [hk, lt_irrefl_key] at h2
      exact Bool.false_ne_true h2
  · rintro ⟨h1, h2⟩
    rcases lt_trichotomy_key e.1 k with h3 | h3 | h3
    · exact Or.inl ⟨h1, h3⟩
    · exact absurd h3 h2
    · exact Or.inr ⟨h1, h3⟩

theorem findName_append_self (l : List String) (x : String) :
    findName (l ++ [x]) x = findName l x := by
  induction l with
  | nil => simp [findName]
  | cons n l ih =>
    simp only [List.cons_append, findName]
    split
    · rfl
    · exact congrArg (· + 1) ih

theorem getFreeCycle_names (name : String) (s : TFAsroFile) :
    findName (GetFreeCycle name s).2.fNames name = findName s.fNames name ∧
      (GetFreeCycle name s).2.fEntries = s.fEntries := by
  refine ⟨?_, rfl⟩
  show findName (if findName s.fNames name = s.fNames.length then s.fNames ++ [name]
    else s.fNames) name = findName s.fNames name
  split
  · exact findName_append_self _ _
  · rfl

theorem allocVersions_range (name : String) (val : TFAsroValue) (n : Nat) :
    ∀ (s : TFAsroFile) (j : Nat), EntriesSorted s.fEntries →
      (∀ e ∈ s.fEntries, e.1.WellTyped) →
      (∀ u : Nat, 1 ≤ u → ((∃ e ∈ s.fEntries,
        e.1.fElName = findName s.fNames name ∧ e.1.fCycle = (u : Int)) ↔ u ≤ j)) →
      findName s.fNames name < 4294967296 → j + n < 2147483648 →
      allocVersions name val n s = List.range' (j + 1) n := by
  induction n with
  | zero => intro s j _ _ _ _ _; rfl
  | succ n ih =>
    intro s j hs ht hj hN hb
    have hv : (GetFreeCycle name s).1 = j + 1 := by
      apply smallestFree_unique (getFreeCycle_spec name s hs ht)
      refine ⟨by omega, ?_, ?_⟩
      · intro e he hn hc
        have := (hj (j + 1) (by omega)).mp ⟨e, he, hn, hc⟩
        omega
      · intro u h1 h2
        exact (hj u h1).mpr (by omega)
    obtain ⟨hn1, hn2⟩ := getFreeCycle_names name s
    simp only [allocVersions, List.range'_succ]
    rw [hv, hn1, hn2]
    congr 1
    apply ih _ (j + 1)
    · exact mapSet_sorted _ _ _ hs
    · intro e he
      rw [mem_mapSet _ _ _ hs] at he
      rcases he with he | he
      · subst he
        refine ⟨hN, ?_, ?_⟩ <;> simp only <;> omega
      · exact ht e he.1
    · intro u hu
      simp only [hn1]
      constructor
      · rintro ⟨e, he, hen, hec⟩
        rw [mem_mapSet _ _ _ hs] at he
        rcases he with he | he
        · subst he
          simp only at hec
          omega
        · have := (hj u hu).mp ⟨e, he.1, hen, hec⟩
          omega
      · intro hle
        by_cases hu1 : u = j + 1
        · subst hu1
          exact ⟨(⟨findName s.fNames name, "", ((j + 1 : Nat) : Int)⟩, val),
            (mem_mapSet _ _ _ hs _).mpr (Or.inl rfl), rfl, rfl⟩
        · obtain ⟨e, he, hen, hec⟩ := (hj u hu).mpr (by omega)
          refine ⟨e, (mem_mapSet _ _ _ hs _).mpr (Or.inr ⟨he, ?_⟩), hen, hec⟩
          intro hk
          rw [hk] at hec
          simp only at hec
          omega
    · exact hn1 ▸ hN
    · omega

/-- C10: for every directory (in key order, with keys that fit their machine types) and
every name, `GetFreeCycle(name)` returns the smallest version `v >= 1` such that no entry
with the name's index has version `v`.  Consequently it returns `d` whenever `d >= 1` is
unused and all versions below `d` are used (a version freed by a deletion is returned before
any new high-water version), and when the versions in use are exactly `1 .. j`, asking `n`
times and entering each returned version before asking again yields `j+1, j+2, .., j+n`. -/
theorem C10_next_free_version (name : String) (s : TFAsroFile)
    (hs : EntriesSorted s.fEntries) (ht : ∀ e ∈ s.fEntries, e.1.WellTyped) :
    (1 ≤ (GetFreeCycle name s).1 ∧
      (∀ e ∈ s.fEntries, e.1.fElName = findName s.fNames name →
        e.1.fCycle ≠ ((GetFreeCycle name s).1 : Int)) ∧
      (∀ u : Nat, 1 ≤ u → u < (GetFreeCycle name s).1 →
        ∃ e ∈ s.fEntries, e.1.fElName = findName s.fNames name ∧ e.1.fCycle = (u : Int))) ∧
    (∀ d : Nat, 1 ≤ d →
      (∀ e ∈ s.fEntries, e.1.fElName = findName s.fNames name → e.1.fCycle ≠ (d : Int)) →
      (∀ u : Nat, 1 ≤ u → u < d →
        ∃ e ∈ s.fEntries, e.1.fElName = findName s.fNames name ∧ e.1.fCycle = (u : Int)) →
      (GetFreeCycle name s).1 = d) ∧
    (∀ (val : TFAsroValue) (j n : Nat),
      (∀ u : Nat, 1 ≤ u → ((∃ e ∈ s.fEntries,
        e.1.fElName = findName s.fNames name ∧ e.1.fCycle = (u : Int)) ↔ u ≤ j)) →
      findName s.fNames name < 4294967296 → j + n < 2147483648 →
      allocVersions name val n s = List.range' (j + 1) n) := by
  have h := getFreeCycle_spec name s hs ht
  refine ⟨h, ?_, ?_⟩
  · intro d h1 h2 h3
    exact smallestFree_unique h ⟨h1, h2, h3⟩
  · intro val j n hj hN hb
    exact allocVersions_range name val n s j hs ht hj hN hb

theorem gapDirectory_typed : ∀ e ∈ gapDirectory.fEntries, e.1.WellTyped := by
  intro e he
  simp only [gapDirectory, List.mem_cons, List.mem_singleton, List.not_mem_nil, or_false] at he
  rcases he with he | he <;> subst he <;> exact ⟨by decide, by decide, by decide⟩

theorem gapDirectory_sorted : EntriesSorted gapDirectory.fEntries := by
  unfold EntriesSorted
  decide

/-- Witness of C10: the directory holds the versions 1 and 3 of `"img"`; the next free
version is 2. -/
theorem C10_next_free_version_witness :
    EntriesSorted gapDirectory.fEntries ∧ (∀ e ∈ gapDirectory.fEntries, e.1.WellTyped) ∧
    (GetFreeCycle "img" gapDirectory).1 = 2 ∧
    (1 ≤ (GetFreeCycle "img" gapDirectory).1 ∧
      (∀ e ∈ gapDirectory.fEntries, e.1.fElName = findName gapDirectory.fNames "img" →
        e.1.fCycle ≠ ((GetFreeCycle "img" gapDirectory).1 : Int)) ∧
      (∀ u : Nat, 1 ≤ u → u < (GetFreeCycle "img" gapDirectory).1 →
        ∃ e ∈ gapDirectory.fEntries,
          e.1.fElName = findName gapDirectory.fNames "img" ∧ e.1.fCycle = (u : Int))) :=
  ⟨gapDirectory_sorted, gapDirectory_typed, by decide,
    (C10_next_free_version "img" gapDirectory gapDirectory_sorted gapDirectory_typed).1⟩

theorem dropWhile_split {α : Type} {R : α → α → Prop} {p q : α → Bool}
    (hp : ∀ a b, R a b → p b = true → p a = true)
    (hq : ∀ a b, R a b → q b = true → q a = true)
    (hpq : ∀ x, p x = true → q x = true) (l : List α) (h : l.Pairwise R) :
    l.dropWhile p = l.filter (fun x => !p x && q x) ++ l.dropWhile q := by
  have e1 : (l.takeWhile q).filter (fun x => !p x) = l.filter (fun x => !p x && q x) := by
    rw [takeWhile_eq_filter hq l h, List.filter_filter]
  have e2 : (l.dropWhile q).filter (fun x => !p x) = l.dropWhile q := by
    rw [List.filter_eq_self]
    intro x hx
    have hx' : x ∈ l.filter (fun x => !q x) := by
      rw [← dropWhile_eq_filter hq l h]; exact hx
    have hqx := (List.mem_filter.mp hx').2
    cases hpx : p x with
    | false => rfl
    | true =>
      have := hpq x hpx
      rw [this] at hqx
      simp at hqx
  rw [dropWhile_eq_filter hp l h]
  conv_lhs => rw [← List.takeWhile_append_dropWhile q l]
  rw [List.filter_append, e1, e2]

theorem rangeBetween_append (mid e : Entries) : rangeBetween (mid ++ e) e = some mid := by
  unfold rangeBetween
  rw [if_pos (by simp)]
  congr 1
  have : (mid ++ e).length - e.length = mid.length := by simp
  rw [this, List.take_left]

theorem lower_range (m : Entries) (a b : TFAsroKey) (h : EntriesSorted m)
    (hab : a.lt b = true) :
    lower_bound m a = m.filter (fun e => !e.1.lt a && e.1.lt b) ++ lower_bound m b :=
  dropWhile_split (R := fun x y : TFAsroKey × TFAsroValue => x.1.lt y.1 = true)
    (p := fun e => e.1.lt a) (q := fun e => e.1.lt b)
    (fun _ _ hxy hy => lt_trans_key hxy hy) (fun _ _ hxy hy => lt_trans_key hxy hy)
    (fun _ hx => lt_trans_key hx hab) m h

theorem upper_range (m : Entries) (a b : TFAsroKey) (h : EntriesSorted m)
    (hab : a.lt b = true) :
    upper_bound m a = m.filter (fun e => a.lt e.1 && e.1.lt b) ++ lower_bound m b := by
  have := dropWhile_split (R := fun x y : TFAsroKey × TFAsroValue => x.1.lt y.1 = true)
    (p := fun e => !(a.lt e.1)) (q := fun e => e.1.lt b)
    (by
      intro x y hxy hy
      simp only [Bool.not_eq_true'] at hy ⊢
      rw [Bool.eq_false_iff]
      intro hax
      have := lt_trans_key hax hxy
      rw [hy] at this
      exact Bool.false_ne_true this)
    (fun _ _ hxy hy => lt_trans_key hxy hy)
    (by
      intro x hx
      simp only [Bool.not_eq_true'] at hx
      rcases lt_trichotomy_key x.1 a with h1 | h1 | h1
      · exact lt_trans_key h1 hab
      · show x.1.lt b = true
        rw [h1]; exact hab
      · rw [hx] at h1; exact absurd h1 Bool.false_ne_true) m h
  unfold upper_bound
  rw [this]
  congr 1
  apply List.filter_congr
  intro x _
  simp

theorem key_range_iff' (N : Nat) (V : Int) (k : TFAsroKey) (h1 : -2147483648 ≤ V)
    (h2 : V < 2147483647) :
    (TFAsroKey.lt ⟨N, "", V⟩ k = true ∧ k.lt ⟨N, "", wrapInt32 (V + 1)⟩ = true) ↔
      (k.fElName = N ∧ k.fCycle = V ∧ k.fSubName ≠ "") := by
  constructor
  · rintro ⟨ha, hb⟩
    have hna : k.lt ⟨N, "", V⟩ = false := lt_asymm_key ha
    obtain ⟨e1, e2⟩ := (key_range_iff N V k h1 h2).mp ⟨hna, hb⟩
    refine ⟨e1, e2, ?_⟩
    rw [lt_iff] at ha
    simp only at ha
    rcases ha with ha | ⟨_, ha | ⟨_, ha⟩⟩
    · omega
    · omega
    · exact (empty_lt_iff _).mp ha
  · rintro ⟨e1, e2, e3⟩
    refine ⟨?_, ((key_range_iff N V k h1 h2).mpr ⟨e1, e2⟩).2⟩
    rw [lt_iff]
    exact Or.inr ⟨e1.symm, Or.inr ⟨e2.symm, (empty_lt_iff _).mpr e3⟩⟩

theorem key_le_succ (N : Nat) (V : Int) (h1 : -2147483648 ≤ V) (h2 : V < 2147483647) :
    TFAsroKey.lt ⟨N, "", V⟩ ⟨N, "", wrapInt32 (V + 1)⟩ = true := by
  rw [wrapInt32_succ V h1 h2, lt_iff]
  exact Or.inr ⟨rfl, Or.inl (by simp only; omega)⟩

/-- C9 (amended): for every name index `N`, every version `V < 2^31 - 1` and every key
`k`, `k` is `>= (N, "", V)` and `< (N, "", V+1)` in key order iff `k` has name index `N` and
version `V`; hence in every directory the entries of one (name, version) are exactly the
contiguous range `[lower_bound(N, "", V), lower_bound(N, "", V+1))`.  The column iterator
walks this range from `upper_bound(N, "", V)` on, that is without the entry
`(N, "", V)` itself, and the cascade delete erases `(N, "", V)` and then walks the same
rest of the range. -/
theorem C9_version_range (N : Nat) (V : Int) (h1 : -2147483648 ≤ V) (h2 : V < 2147483647) :
    (∀ k : TFAsroKey,
      (k.lt ⟨N, "", V⟩ = false ∧ k.lt ⟨N, "", wrapInt32 (V + 1)⟩ = true) ↔
        (k.fElName = N ∧ k.fCycle = V)) ∧
    (∀ m : Entries, EntriesSorted m →
      rangeBetween (lower_bound m ⟨N, "", V⟩) (lower_bound m ⟨N, "", wrapInt32 (V + 1)⟩)
        = some (m.filter (fun e => decide (e.1.fElName = N ∧ e.1.fCycle = V))) ∧
      m = m.takeWhile (fun e => e.1.lt ⟨N, "", V⟩) ++
          (m.filter (fun e => decide (e.1.fElName = N ∧ e.1.fCycle = V)) ++
            lower_bound m ⟨N, "", wrapInt32 (V + 1)⟩) ∧
      rangeBetween (upper_bound m ⟨N, "", V⟩) (lower_bound m ⟨N, "", wrapInt32 (V + 1)⟩)
        = some (m.filter (fun e =>
            decide (e.1.fElName = N ∧ e.1.fCycle = V ∧ e.1.fSubName ≠ ""))) ∧
      rangeBetween (upper_bound (mapErase m ⟨N, "", V⟩) ⟨N, "", V⟩)
          (lower_bound (mapErase m ⟨N, "", V⟩) ⟨N, "", wrapInt32 (V + 1)⟩)
        = some (m.filter (fun e =>
            decide (e.1.fElName = N ∧ e.1.fCycle = V ∧ e.1.fSubName ≠ "")))) ∧
    (∀ (s : TFAsroFile) (name : String), EntriesSorted s.fEntries →
      findName s.fNames name = N →
      rangeBetween (MakeColIter name V s).mi_entry (MakeColIter name V s).mi_end
        = some (s.fEntries.filter (fun e =>
            decide (e.1.fElName = N ∧ e.1.fCycle = V ∧ e.1.fSubName ≠ "")))) := by
  have hab := key_le_succ N V h1 h2
  have hf1 : ∀ m : Entries,
      m.filter (fun e => !e.1.lt ⟨N, "", V⟩ && e.1.lt ⟨N, "", wrapInt32 (V + 1)⟩)
        = m.filter (fun e => decide (e.1.fElName = N ∧ e.1.fCycle = V)) := by
    intro m
    apply List.filter_congr
    intro x _
    have := key_range_iff N V x.1 h1 h2
    rw [Bool.eq_iff_iff]
    simp only [Bool.and_eq_true, Bool.not_eq_true', decide_eq_true_eq]
    exact this
  have hf2 : ∀ m : Entries,
      m.filter (fun e => TFAsroKey.lt ⟨N, "", V⟩ e.1 && e.1.lt ⟨N, "", wrapInt32 (V + 1)⟩)
        = m.filter (fun e =>
            decide (e.1.fElName = N ∧ e.1.fCycle = V ∧ e.1.fSubName ≠ "")) := by
    intro m
    apply List.filter_congr
    intro x _
    have := key_range_iff' N V x.1 h1 h2
    rw [Bool.eq_iff_iff]
    simp only [Bool.and_eq_true, decide_eq_true_eq]
    exact this
  have hub : ∀ m : Entries, EntriesSorted m →
      rangeBetween (upper_bound m ⟨N, "", V⟩) (lower_bound m ⟨N, "", wrapInt32 (V + 1)⟩)
        = some (m.filter (fun e =>
            decide (e.1.fElName = N ∧ e.1.fCycle = V ∧ e.1.fSubName ≠ ""))) := by
    intro m hm
    rw [upper_range m _ _ hm hab, rangeBetween_append, hf2]
  refine ⟨fun k => key_range_iff N V k h1 h2, ?_, ?_⟩
  · intro m hm
    refine ⟨?_, ?_, hub m hm, ?_⟩
    · rw [lower_range m _ _ hm hab, rangeBetween_append, hf1]
    · rw [← hf1, ← lower_range m _ _ hm hab]
      exact (List.takeWhile_append_dropWhile _ _).symm
    · rw [hub _ (mapErase_sorted m _ hm), mapErase_eq m _ hm, List.filter_append,
        List.filter_filter, List.filter_filter]
      have e1 : m.filter (fun a => (decide (a.1.fElName = N ∧ a.1.fCycle = V ∧
          a.1.fSubName ≠ "") && a.1.lt ⟨N, "", V⟩)) = [] := by
        rw [List.filter_eq_nil_iff]
        intro x _ hx
        simp only [Bool.and_eq_true, decide_eq_true_eq] at hx
        have := ((key_range_iff' N V x.1 h1 h2).mpr hx.1).1
        rw [lt_asymm_key this] at hx
        exact Bool.false_ne_true hx.2
      have e2 : m.filter (fun a => (decide (a.1.fElName = N ∧ a.1.fCycle = V ∧
          a.1.fSubName ≠ "") && TFAsroKey.lt ⟨N, "", V⟩ a.1))
          = m.filter (fun e =>
            decide (e.1.fElName = N ∧ e.1.fCycle = V ∧ e.1.fSubName ≠ "")) := by
        apply List.filter_congr
        intro x _
        rw [Bool.eq_iff_iff]
        simp only [Bool.and_eq_true, decide_eq_true_eq]
        constructor
        · exact fun h => h.1
        · exact fun h => ⟨h, ((key_range_iff' N V x.1 h1 h2).mpr h).1⟩
      rw [e1, e2, List.nil_append]
  · intro s name hs hn
    simp only [MakeColIter, hn]
    exact hub s.fEntries hs

theorem tableDirectory_sorted : EntriesSorted tableDirectory.fEntries := by
  unfold EntriesSorted
  decide

/-- Witness of C9: name index 0, version 1. -/
theorem C9_version_range_witness :
    (-2147483648 : Int) ≤ 1 ∧ (1 : Int) < 2147483647 ∧
    rangeBetween (lower_bound tableDirectory.fEntries ⟨0, "", 1⟩)
        (lower_bound tableDirectory.fEntries ⟨0, "", wrapInt32 (1 + 1)⟩)
      = some (tableDirectory.fEntries.filter
          (fun e => decide (e.1.fElName = 0 ∧ e.1.fCycle = 1))) :=
  ⟨by decide, by decide,
    ((C9_version_range 0 1 (by decide) (by decide)).2.1 tableDirectory.fEntries
      tableDirectory_sorted).1⟩

/-- Counterexample to C9 as stated: the directory holds the table entry `("tab", "", 1)`
and the column `("tab", "a", 1)`.  The range
`[lower_bound(0, "", 1), lower_bound(0, "", 2))` holds both entries, but the column
iterator starts at `upper_bound(0, "", 1)` and walks only the column `"a"`. -/
theorem C9_counterexample :
    rangeBetween (lower_bound tableDirectory.fEntries ⟨0, "", 1⟩)
        (lower_bound tableDirectory.fEntries ⟨0, "", wrapInt32 (1 + 1)⟩)
      = some [(⟨0, "", 1⟩, ⟨24, 10, 10, 0⟩), (⟨0, "a", 1⟩, ⟨34, 10, 10, 1⟩)] ∧
    rangeBetween (MakeColIter "tab" 1 tableDirectory).mi_entry
        (MakeColIter "tab" 1 tableDirectory).mi_end
      = some [(⟨0, "a", 1⟩, ⟨34, 10, 10, 1⟩)] ∧
    colNames 3 (MakeColIter "tab" 1 tableDirectory) = some ["a"] ∧
    rangeBetween (MakeColIter "tab" 1 tableDirectory).mi_entry
        (MakeColIter "tab" 1 tableDirectory).mi_end
      ≠ rangeBetween (lower_bound tableDirectory.fEntries ⟨0, "", 1⟩)
        (lower_bound tableDirectory.fEntries ⟨0, "", wrapInt32 (1 + 1)⟩) := by
  refine ⟨by decide, by decide, by decide, by decide⟩

theorem TopRange_mono {fl : List (Nat × Nat)} {L L' : Nat} (h : TopRange fl L) (hl : L' ≤ L) :
    TopRange fl L' := by
  obtain ⟨t, h1, h2, h3⟩ := h
  exact ⟨t, h1, h2, by omega⟩

theorem mem_of_getLast? {α : Type} {l : List α} {t : α} (h : l.getLast? = some t) : t ∈ l :=
  List.mem_of_getLast?_eq_some h

/-- Release of an allocated span: `bg a` counts the other spans that hold `a`. -/
theorem release_ok (bg : Nat → Nat) (pos size L : Nat) (s : TFAsroFile) (hinv : TableInv s)
    (htop : TopRange (freeList s) L) (hsize : 0 < size)
    (hcov : ∀ a, bg a + occ a [(pos, size)] + occ a (freeList s) = inFile a)
    (hroom : s.fFreeReserve + 400 < 4294967296) :
    ∃ s', MakeFree pos size s = some s' ∧ SameButTable s s' ∧ TableInv s' ∧
      TopRange (freeList s') L ∧ (∀ a, bg a + occ a (freeList s') = inFile a) ∧
      s'.fFreeReserve ≤ s.fFreeReserve + 400 ∧ (freeList s').length ≤ (freeList s).length + 1 ∧
      s'.fDes2 ≤ s.fDes2 + 8 := by
  obtain ⟨hrep, hwf⟩ := hinv
  obtain ⟨t, ht1, ht2, ht3⟩ := htop
  have htm := mem_of_getLast? ht1
  have htv := hwf.2 t htm
  have hin : ∀ a, pos ≤ a → a < pos + size → occ a (freeList s) = 0 ∧ a < 4294967295 := by
    intro a h1 h2
    have := hcov a
    simp only [occ_cons, occ_nil, inFile] at this
    rw [if_pos ⟨h1, h2⟩] at this
    split_ifs at this <;> omega
  have habove : ∃ r ∈ freeList s, pos ≤ r.1 := by
    refine ⟨t, htm, ?_⟩
    by_contra hc
    have h0 := hin pos (le_refl _) (by omega)
    exact occ_eq_zero.mp h0.1 t htm ⟨by omega, by omega⟩
  obtain ⟨s', fl', h1, h2, h3, h4, h5, h6, h7, h8⟩ :=
    makeFree_effect pos size s (freeList s) hrep hwf hsize (fun a x y => (hin a x y).1) habove
      hroom
  have hfl := freeList_of_rep h3
  refine ⟨s', h1, h2, tableInv_of h3 h4, ?_, ?_, h8, ?_, ?_⟩
  · rw [hfl]
    obtain ⟨t', e1, e2, e3⟩ := h6 t ht1
    exact ⟨t', e1, by omega, by omega⟩
  · intro a
    rw [hfl, h5 a]
    have := hcov a
    omega
  · rw [hfl]; exact h7
  · rw [h3.1, hrep.1]; omega

/-- Allocation of `size` bytes when the top free range is longer than `size`. -/
theorem alloc_ok (bg : Nat → Nat) (size L : Nat) (s : TFAsroFile) (hinv : TableInv s)
    (htop : TopRange (freeList s) (size + 1 + L))
    (hcov : ∀ a, bg a + occ a (freeList s) = inFile a) :
    ∃ pos s', GetFree size s = some (pos, s') ∧ SameButTable s s' ∧ TableInv s' ∧
      TopRange (freeList s') (L + 1) ∧
      (∀ a, bg a + occ a [(pos, size)] + occ a (freeList s') = inFile a) ∧
      s'.fFreeReserve = s.fFreeReserve ∧ s'.fDes2 ≤ s.fDes2 ∧
      (s.fDes3 + 8 < 4294967296 → s'.fDes2 + s'.fDes3 = s.fDes2 + s.fDes3) ∧
      (0 < size → 24 ≤ pos ∧ pos + size ≤ 4294967295) := by
  obtain ⟨hrep, hwf⟩ := hinv
  obtain ⟨t, ht1, ht2, ht3⟩ := htop
  have htm := mem_of_getLast? ht1
  obtain ⟨p1, r, p2, s', fl', hfl, hbf, h1, h2, h3, h4, h5, h6, h7, h8, h9, h10⟩ :=
    getFree_effect size s (freeList s) hrep hwf ⟨t, htm, by omega⟩
  have hfl' := freeList_of_rep h4
  have hcov' : ∀ a, bg a + occ a [(r.1, size)] + occ a (freeList s') = inFile a := by
    intro a
    rw [hfl']
    have := hcov a
    have := h8 a
    omega
  refine ⟨r.1, s', h1, h2, tableInv_of h4 h7, ?_, hcov', h3, ?_, ?_, ?_⟩
  · rw [hfl']
    obtain ⟨t', e1, e2, e3⟩ := h9 t ht1 (by omega)
    exact ⟨t', e1, by omega, by omega⟩
  · rw [h4.1, hrep.1]; omega
  · intro hd3
    rw [h4.1, hrep.1, h6, h5, hfl]
    split
    · simp only [List.length_append, List.length_cons]
      omega
    · simp only [List.length_append, List.length_cons]
  · intro hsize
    have hc := hcov' r.1
    have hc2 := hcov' (r.1 + size - 1)
    simp only [occ_cons, occ_nil, inFile] at hc hc2
    rw [if_pos ⟨le_refl _, by omega⟩] at hc
    rw [if_pos ⟨by omega, by omega⟩] at hc2
    split_ifs at hc hc2 <;> omega

theorem freeList_congr {s t : TFAsroFile} (h1 : t.fFree = s.fFree) (h2 : t.fDes2 = s.fDes2) :
    freeList t = freeList s := by
  unfold freeList TFAsroFile.numFree
  rw [h1, h2]

theorem tableInv_congr {s t : TFAsroFile} (h1 : t.fFree = s.fFree) (h2 : t.fDes2 = s.fDes2)
    (h3 : t.fFreeReserve = s.fFreeReserve) (h : TableInv s) : TableInv t := by
  unfold TableInv TableRep at *
  rw [freeList_congr h1 h2, h1, h2, h3]
  exact h

theorem tableWords_of_map (fl : List (Nat × Nat)) (rest : List Slot) :
    ∃ ws, tableWords (fl.map some ++ rest) fl.length = some ws ∧ ws.length = 2 * fl.length := by
  induction fl with
  | nil => exact ⟨[], by simp [tableWords], rfl⟩
  | cons r fl ih =>
    obtain ⟨ws, h1, h2⟩ := ih
    obtain ⟨p, l⟩ := r
    refine ⟨p :: l :: ws, ?_, by simp [h2]; omega⟩
    show (tableWords (fl.map some ++ rest) fl.length).map (fun ws => p :: l :: ws) = _
    rw [h1]
    rfl

theorem tableWords_of_inv {s : TFAsroFile} (h : TableInv s) :
    ∃ ws, tableWords s.fFree (s.fDes2 / 8) = some ws := by
  obtain ⟨⟨h1, _, _, rest, h4⟩, _⟩ := h
  obtain ⟨ws, hw, _⟩ := tableWords_of_map (freeList s) rest
  refine ⟨ws, ?_⟩
  rw [h4, h1]
  have : 8 * (freeList s).length / 8 = (freeList s).length := by omega
  rw [this]
  exact hw

/-- The common end of `FinishWrite` and `Delete` in a state that satisfies the invariant
of a write transaction, when the top free range is longer than the request. -/
theorem commit_ok (st : DirStreamer) (pad L : Nat) (s : TFAsroFile) (hinv : WritingInv s)
    (hpad : 0 < pad ∧ pad ≤ 16)
    (htop : TopRange (freeList s)
      ((st.write s.fEntries s.fClassNames s.fNames).length + s.fDes2 + pad + 1 + L)) :
    ∃ s', commit st pad s = some (true, s') ∧ CommittedInv s' ∧
      TopRange (freeList s') (L + 1) ∧ s'.fEntries = s.fEntries ∧
      s'.fNames = s.fNames ∧ s'.fClassNames = s.fClassNames ∧ s'.fFile = s.fFile ∧
      s'.fFreeReserve = s.fFreeReserve ∧
      s'.fDes1 = (st.write s.fEntries s.fClassNames s.fNames).length ∧
      s'.fDes1 + s'.fDes2 + s'.fDes3
        = (st.write s.fEntries s.fClassNames s.fNames).length + s.fDes2 + pad := by
  obtain ⟨⟨hf, hti, _, hso, hpo⟩, hcov⟩ := hinv
  set blob := st.write s.fEntries s.fClassNames s.fNames with hblob
  obtain ⟨t, ht1, ht2, ht3⟩ := htop
  have htv := hti.2.2 t (mem_of_getLast? ht1)
  have hreq : (blob.length + s.fDes2 + pad) % 4294967296 = blob.length + s.fDes2 + pad :=
    Nat.mod_eq_of_lt (by omega)
  let s1 : TFAsroFile := { s with fDes1 := blob.length, fDes3 := pad }
  have hti1 : TableInv s1 := tableInv_congr rfl rfl rfl hti
  have hfl1 : freeList s1 = freeList s := freeList_congr rfl rfl
  obtain ⟨pos, s2, h1, h2, h3, h4, h5, h6, h7, h8, h9⟩ :=
    alloc_ok (fun a => occ a (recordSpans s.fEntries)) (blob.length + s.fDes2 + pad) L s1 hti1
      (by rw [hfl1]; exact ⟨t, ht1, ht2, by omega⟩)
      (by rw [hfl1]; exact hcov)
  obtain ⟨ws, hws⟩ := tableWords_of_inv h3
  obtain ⟨e1, e2, e3, e4, e5, e6, e7⟩ := h2
  have hsum : s2.fDes2 + s2.fDes3 = s.fDes2 + pad := h8 (by show pad + 8 < 4294967296; omega)
  have hd1 : s2.fDes1 = blob.length := e5
  let s3 : TFAsroFile := { s2 with fDes0 := pos, disk := pwrite (pwrite (pwrite s2.disk pos blob) (pos + blob.length) (encodeWords ws)) 8 (encodeWords [pos, s2.fDes1, s2.fDes2, s2.fDes3]) }
  have hfl3 : freeList s3 = freeList s2 := freeList_congr rfl rfl
  refine ⟨s3, ?_, ?_, ?_, e1, e3, e2, e6, h6, hd1, ?_⟩
  · unfold commit
    simp only [← hblob]
    show (match GetFree ((s1.fDes1 + s1.fDes2 + s1.fDes3) % 4294967296) s1 with
      | none => none
      | some (pos, s2) => _) = _
    have : (s1.fDes1 + s1.fDes2 + s1.fDes3) % 4294967296 = blob.length + s.fDes2 + pad := hreq
    rw [this, h1]
    simp only [hws]
  · refine ⟨⟨?_, tableInv_congr rfl rfl rfl h3, ?_, ?_, ?_⟩, ?_, ?_, ?_⟩
    · show 0 ≤ s2.fFile
      rw [e6]; exact hf
    · rw [hfl3]; exact TopRange_mono h4 (by omega)
    · show EntriesSorted s2.fEntries
      rw [e1]; exact hso
    · show ∀ e ∈ s2.fEntries, 0 < e.2.fFileLength
      rw [e1]; exact hpo
    · intro a
      rw [hfl3]
      show occ a (recordSpans s2.fEntries) + occ a [(pos, s2.fDes1 + s2.fDes2 + s2.fDes3)]
        + occ a (freeList s2) = inFile a
      rw [e1, hd1, Nat.add_assoc blob.length, hsum, ← Nat.add_assoc]
      exact h5 a
    · show 0 < s2.fDes1 + s2.fDes2 + s2.fDes3
      omega
    · show s2.fDes1 + s2.fDes2 + s2.fDes3 < 4294967296
      omega
  · rw [hfl3]; exact h4
  · show s2.fDes1 + s2.fDes2 + s2.fDes3 = _
    omega

theorem initWrite_ok (s : TFAsroFile) (hinv : CommittedInv s)
    (hroom : s.fFreeReserve + 400 < 4294967296) :
    ∃ s', InitWrite s = some (true, s') ∧ WritingInv s' ∧
      (∀ L, TopRange (freeList s) L → TopRange (freeList s') L) ∧
      s'.fEntries = s.fEntries ∧ s'.fNames = s.fNames ∧ s'.fClassNames = s.fClassNames ∧
      s'.fFile = s.fFile ∧ s'.fFreeReserve ≤ s.fFreeReserve + 400 ∧ s'.fDes2 ≤ s.fDes2 + 8 ∧
      ∃ s1, MakeFree s.fDes0 (s.fDes1 + s.fDes2 + s.fDes3) s = some s1 ∧
        s' = { s1 with disk := pwrite s1.disk 8 (encodeU32 0) } := by
  obtain ⟨⟨hf, hti, htop, hso, hpo⟩, hcov, hd1, hd2⟩ := hinv
  have hmod : (s.fDes1 + s.fDes2 + s.fDes3) % 4294967296 = s.fDes1 + s.fDes2 + s.fDes3 :=
    Nat.mod_eq_of_lt hd2
  have hrel : ∀ L, TopRange (freeList s) L →
      ∃ s1, MakeFree s.fDes0 (s.fDes1 + s.fDes2 + s.fDes3) s = some s1 ∧ SameButTable s s1 ∧
        TableInv s1 ∧ TopRange (freeList s1) L ∧
        (∀ a, occ a (recordSpans s.fEntries) + occ a (freeList s1) = inFile a) ∧
        s1.fFreeReserve ≤ s.fFreeReserve + 400 ∧ s1.fDes2 ≤ s.fDes2 + 8 := by
    intro L hL
    obtain ⟨s1, h1, h2, h3, h4, h5, h6, _, h8⟩ :=
      release_ok (fun a => occ a (recordSpans s.fEntries)) s.fDes0
        (s.fDes1 + s.fDes2 + s.fDes3) L s hti hL hd1 hcov hroom
    exact ⟨s1, h1, h2, h3, h4, h5, h6, h8⟩
  obtain ⟨s1, h1, h2, h3, h4, h5, h6, h8⟩ := hrel 0 htop
  obtain ⟨e1, e2, e3, e4, e5, e6, e7⟩ := h2
  let s2 : TFAsroFile := { s1 with disk := pwrite s1.disk 8 (encodeU32 0) }
  have hfl2 : freeList s2 = freeList s1 := freeList_congr rfl rfl
  refine ⟨s2, ?_, ?_, ?_, e1, e3, e2, e6, h6, h8, s1, h1, rfl⟩
  · unfold InitWrite
    rw [if_neg (by omega), hmod, h1]
  · refine ⟨⟨?_, tableInv_congr rfl rfl rfl h3, ?_, ?_, ?_⟩, ?_⟩
    · show 0 ≤ s1.fFile
      rw [e6]; exact hf
    · rw [hfl2]; exact h4
    · show EntriesSorted s1.fEntries
      rw [e1]; exact hso
    · show ∀ e ∈ s1.fEntries, 0 < e.2.fFileLength
      rw [e1]; exact hpo
    · intro a
      rw [hfl2]
      show occ a (recordSpans s1.fEntries) + _ = _
      rw [e1]; exact h5 a
  · intro L hL
    obtain ⟨s1', h1', _, _, h4', _⟩ := hrel L hL
    rw [h1] at h1'
    simp only [Option.some.injEq] at h1'
    subst h1'
    rw [hfl2]; exact h4'

/-- The place of `k` in a directory in key order. -/
theorem map_split (m : Entries) (k : TFAsroKey) (h : EntriesSorted m) :
    (mapFind m k = none ∧ ∃ tw tl, m = tw ++ tl ∧ ∀ w, mapSet m k w = tw ++ (k, w) :: tl) ∨
    (∃ v tw tl, mapFind m k = some (k, v) ∧ m = tw ++ (k, v) :: tl ∧
      (∀ w, mapSet m k w = tw ++ (k, w) :: tl) ∧ mapErase m k = tw ++ tl) := by
  have hm : m = m.takeWhile (fun e => e.1.lt k) ++ lower_bound m k :=
    (List.takeWhile_append_dropWhile _ m).symm
  rcases lower_bound_tail m k h with ⟨h1, _⟩ | ⟨e, tl, h1, h2, _, _⟩ | ⟨v, tl, h1, _, _, _⟩
  · left
    refine ⟨by unfold mapFind; rw [h1], m.takeWhile (fun e => e.1.lt k), [], ?_, ?_⟩
    · rw [h1] at hm; exact hm
    · intro w; unfold mapSet; rw [h1]
  · left
    refine ⟨by unfold mapFind; rw [h1]; simp only [h2, if_true],
      m.takeWhile (fun e => e.1.lt k), e :: tl, ?_, ?_⟩
    · rw [h1] at hm; exact hm
    · intro w; unfold mapSet; rw [h1]; simp only [h2, if_true]
  · right
    have hk : k.lt k = false := lt_irrefl_key k
    refine ⟨v, m.takeWhile (fun e => e.1.lt k), tl, ?_, ?_, ?_, ?_⟩
    · unfold mapFind; rw [h1]; simp only [hk]; rfl
    · rw [h1] at hm; exact hm
    · intro w; unfold mapSet; rw [h1]; simp only [hk]; rfl
    · unfold mapErase; rw [h1]; simp only [hk]; rfl

theorem occ_records_mid (a : Nat) (tw tl : Entries) (e : TFAsroKey × TFAsroValue) :
    occ a (recordSpans (tw ++ e :: tl))
      = occ a (recordSpans (tw ++ tl)) + occ a [(e.2.fPos, e.2.fFileLength)] := by
  unfold recordSpans
  simp only [List.map_append, List.map_cons, occ_append, occ_cons, occ_nil]
  omega

theorem compressLoop_some (c : Codec) (lvl : Int)
    (hzip : ∀ src n, (c.zip lvl src n).length ≤ n) :
    ∀ (fuel : Nat) (inp out : List Nat), inp.length < fuel →
      ∃ b o, compressLoop c lvl fuel inp out = some (b, o) ∧
        (b = true → o.length ≤ out.length + inp.length ∧ out.length ≤ o.length ∧
          (0 < inp.length → out.length < o.length)) := by
  intro fuel
  induction fuel with
  | zero => intro inp out h; omega
  | succ fuel ih =>
    intro inp out h
    unfold compressLoop
    by_cases h0 : inp.length > 0
    · rw [if_pos h0]
      simp only []
      set len := (if inp.length ≤ MAX_CUT_LENGTH then inp.length
        else if inp.length < MAX_CUT_LENGTH * 2 then inp.length / 2 else MAX_CUT_LENGTH) with hlen
      have hl1 : 0 < len ∧ len ≤ inp.length := by
        rw [hlen]; unfold MAX_CUT_LENGTH
        split_ifs <;> omega
      have hz := hzip (inp.take len) len
      rw [if_neg (by omega)]
      by_cases hr : (c.zip lvl (inp.take len) len).length = 0
      · rw [if_pos hr]
        exact ⟨false, out, rfl, fun hb => absurd hb (by decide)⟩
      · rw [if_neg hr]
        obtain ⟨b, o, h1, h2⟩ := ih (inp.drop len) (out ++ c.zip lvl (inp.take len) len)
          (by rw [List.length_drop]; omega)
        refine ⟨b, o, h1, fun hb => ?_⟩
        obtain ⟨h3, h4, _⟩ := h2 hb
        rw [List.length_append, List.length_drop] at h3
        rw [List.length_append] at h4
        exact ⟨by omega, by omega, fun _ => by omega⟩
    · rw [if_neg h0]
      exact ⟨true, out, rfl, fun _ => ⟨by omega, le_refl _, fun h => absurd h h0⟩⟩

theorem compress_some (c : Codec) (lvl : Int) (hzip : ∀ src n, (c.zip lvl src n).length ≤ n)
    (inp : List Nat) :
    ∃ b o, Compress c lvl inp = some (b, o) ∧
      (b = true → o.length ≤ inp.length ∧ (0 < inp.length → 0 < o.length)) := by
  obtain ⟨b, o, h1, h2⟩ := compressLoop_some c lvl hzip (inp.length + 1) inp [] (by omega)
  refine ⟨b, o, h1, fun hb => ?_⟩
  obtain ⟨h3, _, h5⟩ := h2 hb
  exact ⟨by simpa using h3, fun h => by simpa using h5 h⟩

/-- The buffer that `Write` stores for an object. -/
theorem packed_some (c : Codec) (lvl : Int) (hzip : ∀ src n, (c.zip lvl src n).length ≤ n)
    (data : List Nat) (hdata : data ≠ []) :
    ∃ buf, (if lvl ≤ 0 ∨ data.length < 256 then some data
        else match Compress c lvl data with
          | none => none
          | some (true, out) => some out
          | some (false, _) => some data) = some buf ∧
      0 < buf.length ∧ buf.length ≤ data.length ∧
      (buf = data ∨ (¬ (lvl ≤ 0 ∨ data.length < 256) ∧ Compress c lvl data = some (true, buf))) := by
  have hpos : 0 < data.length := List.length_pos.mpr hdata
  by_cases h : lvl ≤ 0 ∨ data.length < 256
  · exact ⟨data, by rw [if_pos h], hpos, le_refl _, Or.inl rfl⟩
  · rw [if_neg h]
    obtain ⟨b, o, h1, h2⟩ := compress_some c lvl hzip data
    cases b with
    | false => exact ⟨data, by rw [h1], hpos, le_refl _, Or.inl rfl⟩
    | true =>
      obtain ⟨h3, h4⟩ := h2 rfl
      exact ⟨o, by rw [h1], h4 hpos, h3, Or.inr ⟨h, h1⟩⟩

theorem record_in_file {bg fr : Nat → Nat} {p l : Nat}
    (hcov : ∀ a, bg a + occ a [(p, l)] + fr a = inFile a) (hl : 0 < l) : 24 ≤ p := by
  have h := hcov p
  rw [occ_cons, occ_nil] at h
  simp only [le_refl, true_and] at h
  rw [if_pos (by omega)] at h
  unfold inFile at h
  split_ifs at h with h1
  · exact h1.1
  · omega

/-- The effect of `Write` in a state that satisfies the invariant of a write transaction,
when the object is not empty and shorter than the top free range. -/
theorem write_ok (c : Codec) (obj : TObject) (lvl : Int) (name sub : String) (cycle : Int)
    (L : Nat) (s : TFAsroFile) (hinv : WritingInv s) (hdata : obj.data ≠ [])
    (hzip : ∀ src n, (c.zip lvl src n).length ≤ n)
    (hroom : s.fFreeReserve + 400 < 4294967296)
    (htop : TopRange (freeList s) (obj.data.length + 1 + L)) :
    ∃ pos buf s', Write c obj lvl name sub cycle s = some (true, s') ∧ WritingInv s' ∧
      TopRange (freeList s') (L + 1) ∧
      (buf = obj.data ∨
        (¬ (lvl ≤ 0 ∨ obj.data.length < 256) ∧ Compress c lvl obj.data = some (true, buf))) ∧
      0 < buf.length ∧ buf.length ≤ obj.data.length ∧ 24 ≤ pos ∧
      pos + buf.length ≤ 4294967295 ∧
      s'.fEntries = mapSet s.fEntries ⟨findName s.fNames name, sub, cycle⟩
        ⟨pos, buf.length, obj.data.length, findName s.fClassNames obj.className⟩ ∧
      s'.fNames = (if findName s.fNames name = s.fNames.length then s.fNames ++ [name]
        else s.fNames) ∧
      s'.fClassNames = (if findName s.fClassNames obj.className = s.fClassNames.length
        then s.fClassNames ++ [obj.className] else s.fClassNames) ∧
      s'.fFile = s.fFile ∧ s'.fFreeReserve ≤ s.fFreeReserve + 400 ∧
      s'.fDes2 ≤ s.fDes2 + 8 ∧ s'.disk = pwrite s.disk pos buf := by
  obtain ⟨⟨hf, hti, _, hso, hpo⟩, hcov⟩ := hinv
  set key : TFAsroKey := ⟨findName s.fNames name, sub, cycle⟩ with hkey
  -- free space for object to be deleted
  have hA : ∃ old s1 tw tl,
      ((mapFind s.fEntries key = none ∧ old = TFAsroValue.default) ∨
        mapFind s.fEntries key = some (key, old)) ∧
      (if old.fPos > 0 then MakeFree old.fPos old.fFileLength s else some s) = some s1 ∧
      SameButTable s s1 ∧ TableInv s1 ∧ TopRange (freeList s1) (obj.data.length + 1 + L) ∧
      (∀ a, occ a (recordSpans (tw ++ tl)) + occ a (freeList s1) = inFile a) ∧
      s1.fFreeReserve ≤ s.fFreeReserve + 400 ∧ s1.fDes2 ≤ s.fDes2 + 8 ∧
      (∀ w, mapSet s.fEntries key w = tw ++ (key, w) :: tl) := by
    rcases map_split s.fEntries key hso with ⟨h1, tw, tl, h2, h3⟩ | ⟨v, tw, tl, h1, h2, h3, _⟩
    · refine ⟨TFAsroValue.default, s, tw, tl, Or.inl ⟨h1, rfl⟩, if_neg (by decide),
        ⟨rfl, rfl, rfl, rfl, rfl, rfl, rfl⟩, hti, htop, ?_, by omega, by omega, h3⟩
      rw [← h2]; exact hcov
    · have hv : (key, v) ∈ s.fEntries := by rw [h2]; simp
      have hvl : 0 < v.fFileLength := hpo _ hv
      have hc : ∀ a, occ a (recordSpans (tw ++ tl)) + occ a [(v.fPos, v.fFileLength)]
          + occ a (freeList s) = inFile a := by
        intro a
        have := hcov a
        rw [h2, occ_records_mid] at this
        exact this
      have hp : 24 ≤ v.fPos := record_in_file hc hvl
      obtain ⟨s1, e1, e2, e3, e4, e5, e6, _, e8⟩ :=
        release_ok (fun a => occ a (recordSpans (tw ++ tl))) v.fPos v.fFileLength _ s hti htop
          hvl hc hroom
      exact ⟨v, s1, tw, tl, Or.inr h1, by rw [if_pos (by omega)]; exact e1, e2, e3, e4, e5,
        e6, e8, h3⟩
  obtain ⟨old, s1, tw, tl, hA0, hA1, hA2, hA3, hA4, hA5, hA6, hA7, hA8⟩ := hA
  -- write obj into a buffer
  obtain ⟨buf, hB1, hB2, hB3, hB4⟩ := packed_some c lvl hzip obj.data hdata
  -- find position in file for obj
  let s1' : TFAsroFile := { s1 with fDes3 := 8 }
  have hfl1 : freeList s1' = freeList s1 := freeList_congr rfl rfl
  obtain ⟨pos, s2, hC1, hC2, hC3, hC4, hC5, hC6, hC7, _, hC9⟩ :=
    alloc_ok (fun a => occ a (recordSpans (tw ++ tl))) buf.length L s1'
      (tableInv_congr rfl rfl rfl hA3)
      (by rw [hfl1]; exact TopRange_mono hA4 (by omega))
      (by rw [hfl1]; exact hA5)
  obtain ⟨hp1, hp2⟩ := hC9 hB2
  obtain ⟨a1, a2, a3, a4, a5, a6, a7⟩ := hA2
  obtain ⟨c1, c2, c3, c4, c5, c6, c7⟩ := hC2
  let s3 : TFAsroFile := { s2 with fEntries := mapSet s.fEntries key ⟨pos, buf.length, obj.data.length, findName s.fClassNames obj.className⟩, fNames := (if findName s.fNames name = s.fNames.length then s.fNames ++ [name] else s.fNames), fClassNames := (if findName s.fClassNames obj.className = s.fClassNames.length then s.fClassNames ++ [obj.className] else s.fClassNames), disk := pwrite s2.disk pos buf }
  have hfl3 : freeList s3 = freeList s2 := freeList_congr rfl rfl
  refine ⟨pos, buf, s3, ?_, ?_, ?_, hB4, hB2, hB3, hp1, hp2, rfl, rfl, rfl, ?_, ?_, ?_, ?_⟩
  · unfold Write
    rw [if_neg (by omega)]
    simp only []
    rw [hkey] at hA0
    have hfin : (match (if old.fPos > 0 then MakeFree old.fPos old.fFileLength s
        else some s) with
      | none => none
      | some s1 =>
        match (if lvl ≤ 0 ∨ obj.data.length < 256 then some obj.data
          else match Compress c lvl obj.data with
            | none => none
            | some (true, out) => some out
            | some (false, _) => some obj.data) with
        | none => none
        | some dataBuffer =>
          match GetFree dataBuffer.length { s1 with fDes3 := 8 } with
          | none => none
          | some (pos, s2) =>
            some (true, { s2 with
              fEntries := mapSet s.fEntries ⟨findName s.fNames name, sub, cycle⟩
                ⟨pos, dataBuffer.length, obj.data.length, findName s.fClassNames obj.className⟩,
              fNames := (if findName s.fNames name = s.fNames.length then s.fNames ++ [name]
                else s.fNames),
              fClassNames := (if findName s.fClassNames obj.className = s.fClassNames.length
                then s.fClassNames ++ [obj.className] else s.fClassNames),
              disk := pwrite s2.disk pos dataBuffer })) = some (true, s3) := by
      rw [hA1]
      simp only []
      have hB1' : (if lvl ≤ 0 ∨ obj.data.length < 256 then some obj.data
          else match Compress c lvl obj.data with
            | none => none
            | some (true, out) => some out
            | some (false, _) => some obj.data) = some buf := by
        rcases hB4 with h | ⟨h1, h2⟩
        · by_cases hc : lvl ≤ 0 ∨ obj.data.length < 256
          · rw [if_pos hc, h]
          · rw [if_neg hc]
            rw [if_neg hc] at hB1
            obtain ⟨b, o, h3, _⟩ := compress_some c lvl hzip obj.data
            rw [h3] at hB1 ⊢
            cases b with
            | false => rw [h]
            | true => exact hB1
        · rw [if_neg h1, h2]
      rw [hB1']
      simp only []
      rw [hC1]
    rcases hA0 with ⟨h1, h2⟩ | h1
    · subst h2
      rw [h1]
      exact hfin
    · rw [h1]
      exact hfin
  · refine ⟨⟨?_, tableInv_congr rfl rfl rfl hC3, ?_, mapSet_sorted _ _ _ hso, ?_⟩, ?_⟩
    · show 0 ≤ s2.fFile
      rw [c6]; show 0 ≤ s1.fFile; rw [a6]; exact hf
    · rw [hfl3]; exact TopRange_mono hC4 (by omega)
    · intro e he
      have he' : e ∈ mapSet s.fEntries key ⟨pos, buf.length, obj.data.length,
          findName s.fClassNames obj.className⟩ := he
      rw [mem_mapSet _ _ _ hso] at he'
      rcases he' with rfl | ⟨h1, _⟩
      · exact hB2
      · exact hpo e h1
    · intro a
      rw [hfl3]
      show occ a (recordSpans (mapSet s.fEntries key ⟨pos, buf.length, obj.data.length,
          findName s.fClassNames obj.className⟩)) + _ = _
      rw [hA8, occ_records_mid]
      exact hC5 a
  · rw [hfl3]; exact hC4
  · show s2.fFile = s.fFile
    rw [c6]; exact a6
  · show s2.fFreeReserve ≤ _
    rw [hC6]; exact hA6
  · show s2.fDes2 ≤ _
    exact le_trans hC7 hA7
  · show pwrite s2.disk pos buf = _
    rw [c7]; show pwrite s1.disk pos buf = _; rw [a7]

theorem sameButTable_trans {s t u : TFAsroFile} (h1 : SameButTable s t)
    (h2 : SameButTable t u) : SameButTable s u := by
  obtain ⟨a1, a2, a3, a4, a5, a6, a7⟩ := h1
  obtain ⟨b1, b2, b3, b4, b5, b6, b7⟩ := h2
  exact ⟨b1.trans a1, b2.trans a2, b3.trans a3, b4.trans a4, b5.trans a5, b6.trans a6,
    b7.trans a7⟩

theorem des2_lt_of_inv {s : TFAsroFile} (h : TableInv s) : s.fDes2 < 4294967296 := by
  obtain ⟨⟨h1, h2, h3, rest, h4⟩, _⟩ := h
  have : s.fFree.length = (freeList s).length + rest.length := by
    rw [h4, List.length_append, List.length_map]
  omega

/-- The loop of `Delete` over the columns releases every span of `cols`. -/
theorem freeAll_ok (bg : Nat → Nat) (L : Nat) (cols : Entries) :
    ∀ (s : TFAsroFile), TableInv s → TopRange (freeList s) L →
      (∀ e ∈ cols, 0 < e.2.fFileLength) →
      (∀ a, bg a + occ a (recordSpans cols) + occ a (freeList s) = inFile a) →
      s.fFreeReserve + 400 * cols.length < 4294967296 →
      ∃ s', freeAll cols s = some s' ∧ SameButTable s s' ∧ TableInv s' ∧
        TopRange (freeList s') L ∧ (∀ a, bg a + occ a (freeList s') = inFile a) ∧
        s'.fFreeReserve ≤ s.fFreeReserve + 400 * cols.length ∧
        s'.fDes2 ≤ s.fDes2 + 8 * cols.length := by
  induction cols generalizing bg with
  | nil =>
    intro s hti htop _ hcov _
    refine ⟨s, rfl, ⟨rfl, rfl, rfl, rfl, rfl, rfl, rfl⟩, hti, htop, ?_, by simp, by simp⟩
    intro a
    have := hcov a
    simp only [recordSpans, List.map_nil, occ_nil, Nat.add_zero] at this
    exact this
  | cons e rest ih =>
    intro s hti htop hpos hcov hroom
    rw [List.length_cons] at hroom
    obtain ⟨s1, e1, e2, e3, e4, e5, e6, _, e8⟩ :=
      release_ok (fun a => bg a + occ a (recordSpans rest)) e.2.fPos e.2.fFileLength L s hti
        htop (hpos e (List.mem_cons_self _ _))
        (by
          intro a
          have := hcov a
          simp only [recordSpans, List.map_cons, occ_cons, occ_nil] at this ⊢
          omega)
        (by omega)
    obtain ⟨s2, f1, f2, f3, f4, f5, f6, f7⟩ :=
      ih bg s1 e3 e4 (fun x hx => hpos x (List.mem_cons_of_mem _ hx)) e5 (by omega)
    refine ⟨s2, ?_, sameButTable_trans e2 f2, f3, f4, f5, ?_, ?_⟩
    · show (match MakeFree e.2.fPos e.2.fFileLength s with
        | none => none
        | some s1 => freeAll rest s1) = some s2
      rw [e1]
      exact f1
    · rw [List.length_cons]; omega
    · rw [List.length_cons]; omega

theorem take_sub_dropWhile {α : Type} (p : α → Bool) (l : List α) :
    l.take (l.length - (l.dropWhile p).length) = l.takeWhile p := by
  have h := List.takeWhile_append_dropWhile p l
  have hl : l.length = (l.takeWhile p).length + (l.dropWhile p).length := by
    conv_lhs => rw [← h]
    rw [List.length_append]
  have : l.length - (l.dropWhile p).length = (l.takeWhile p).length := by omega
  rw [this]
  have h2 : (l.takeWhile p ++ l.dropWhile p).take (l.takeWhile p).length = l.takeWhile p :=
    List.take_left _ _
  rw [h] at h2
  exact h2

theorem getFree_des {size pos : Nat} {s s' : TFAsroFile} (h : GetFree size s = some (pos, s'))
    (h3 : s.fDes3 + 8 < 4294967296) (h2 : s.fDes2 < 4294967296) :
    s'.fDes2 + s'.fDes3 = s.fDes2 + s.fDes3 ∧ s'.fDes1 = s.fDes1 := by
  unfold GetFree at h
  split at h
  · exact absurd h (by simp)
  · split at h
    · exact absurd h (by simp)
    · split_ifs at h with h4 h5
      · split at h
        · exact absurd h (by simp)
        · simp only [Option.some.injEq, Prod.mk.injEq] at h
          obtain ⟨_, rfl⟩ := h
          simp only []
          refine ⟨?_, trivial⟩
          have : 8 ≤ s.fDes2 := by
            have := Nat.le_of_not_lt h5
            omega
          omega
      · simp only [Option.some.injEq, Prod.mk.injEq] at h
        obtain ⟨_, rfl⟩ := h
        exact ⟨rfl, rfl⟩

theorem commit_des {st : DirStreamer} {pad : Nat} {b : Bool} {s s' : TFAsroFile}
    (h : commit st pad s = some (b, s')) (hpad : pad + 8 < 4294967296)
    (h2 : s.fDes2 < 4294967296) :
    s'.fDes1 + s'.fDes2 + s'.fDes3
      = (st.write s.fEntries s.fClassNames s.fNames).length + s.fDes2 + pad := by
  unfold commit at h
  simp only [] at h
  split at h
  · exact absurd h (by simp)
  · rename_i pos s2 hg
    split at h
    · exact absurd h (by simp)
    · simp only [Option.some.injEq, Prod.mk.injEq] at h
      obtain ⟨_, rfl⟩ := h
      obtain ⟨e1, e2⟩ := getFree_des hg hpad h2
      show s2.fDes1 + s2.fDes2 + s2.fDes3 = _
      rw [e2]
      show (st.write s.fEntries s.fClassNames s.fNames).length + s2.fDes2 + s2.fDes3 = _
      have e1' : s2.fDes2 + s2.fDes3 = s.fDes2 + pad := e1
      omega

theorem occ_records_append (a : Nat) (m1 m2 : Entries) :
    occ a (recordSpans (m1 ++ m2)) = occ a (recordSpans m1) + occ a (recordSpans m2) := by
  unfold recordSpans
  rw [List.map_append, occ_append]

/-- The part of `Delete` before the commit: the spans of the descriptor, of the entry and
of its columns are released, the entries are erased. -/
theorem delete_prep (st : DirStreamer) (name sub : String) (cycle : Int) (L : Nat)
    (s : TFAsroFile) (hinv : CommittedInv s) (htop : TopRange (freeList s) L)
    (hc1 : -2147483648 ≤ cycle) (hc2 : cycle < 2147483647)
    (hroom : s.fFreeReserve + 400 * (s.fEntries.length + 2) < 4294967296) :
    Delete st name sub cycle s = some (false, s) ∨
    ∃ sX, Delete st name sub cycle s = commit st 16 sX ∧ WritingInv sX ∧
      TopRange (freeList sX) L ∧ sX.fFile = s.fFile ∧ sX.fNames = s.fNames ∧
      sX.fClassNames = s.fClassNames ∧
      (∀ e ∈ sX.fEntries, e ∈ s.fEntries ∧
        e.1 ≠ (⟨findName s.fNames name, sub, cycle⟩ : TFAsroKey)) := by
  obtain ⟨⟨hf, hti, _, hso, hpo⟩, hcov, hd1, hd2⟩ := hinv
  have hmod : (s.fDes1 + s.fDes2 + s.fDes3) % 4294967296 = s.fDes1 + s.fDes2 + s.fDes3 :=
    Nat.mod_eq_of_lt hd2
  unfold Delete
  rw [if_neg (not_lt.mpr hf)]
  by_cases hn : s.fNames.length = 0
  · rw [if_pos hn]; exact Or.inl rfl
  rw [if_neg hn]
  by_cases hn2 : findName s.fNames name = s.fNames.length
  · rw [if_pos hn2]; exact Or.inl rfl
  rw [if_neg hn2]
  simp only []
  rcases map_split s.fEntries ⟨findName s.fNames name, sub, cycle⟩ hso with
    ⟨h1, _⟩ | ⟨v, tw, tl, h1, h2, h3, h4⟩
  · rw [h1]; exact Or.inl rfl
  right
  rw [h1]
  simp only []
  -- free space for old description
  obtain ⟨s1, e1, e2, e3, e4, e5, e6, _, e8⟩ :=
    release_ok (fun a => occ a (recordSpans s.fEntries)) s.fDes0
      (s.fDes1 + s.fDes2 + s.fDes3) L s hti htop hd1 hcov (by omega)
  rw [hmod, e1]
  simp only []
  -- free space for object to be deleted
  have hv : (⟨findName s.fNames name, sub, cycle⟩, v) ∈ s.fEntries := by rw [h2]; simp
  obtain ⟨s2, g1, g2, g3, g4, g5, g6, _, g8⟩ :=
    release_ok (fun a => occ a (recordSpans (tw ++ tl))) v.fPos v.fFileLength L s1 e3 e4
      (hpo _ hv)
      (by
        intro a
        have := e5 a
        rw [h2, occ_records_mid] at this
        exact this)
      (by omega)
  rw [g1]
  simp only []
  rw [h4]
  have hs12 := sameButTable_trans e2 g2
  have hsub : ∀ e ∈ tw ++ tl, e ∈ s.fEntries ∧
      e.1 ≠ (⟨findName s.fNames name, sub, cycle⟩ : TFAsroKey) := by
    intro e he
    rw [← h4, mem_mapErase _ _ hso] at he
    exact he
  have hso1 : EntriesSorted (tw ++ tl) := by
    rw [← h4]; exact mapErase_sorted _ _ hso
  have hlen : (tw ++ tl).length ≤ s.fEntries.length := by
    rw [h2]; simp
  by_cases hs : sub = ""
  · subst hs
    rw [if_pos rfl]
    have hub := upper_range (tw ++ tl) ⟨findName s.fNames name, "", cycle⟩
      ⟨findName s.fNames name, "", wrapInt32 (cycle + 1)⟩ hso1
      (key_le_succ _ _ hc1 hc2)
    have hpre : (tw ++ tl).take ((tw ++ tl).length -
        (upper_bound (tw ++ tl) ⟨findName s.fNames name, "", cycle⟩).length)
        = (tw ++ tl).takeWhile
          (fun e => !(TFAsroKey.lt ⟨findName s.fNames name, "", cycle⟩ e.1)) :=
      take_sub_dropWhile _ _
    have hE : (tw ++ tl).takeWhile
          (fun e => !(TFAsroKey.lt ⟨findName s.fNames name, "", cycle⟩ e.1)) ++
        upper_bound (tw ++ tl) ⟨findName s.fNames name, "", cycle⟩ = tw ++ tl :=
      List.takeWhile_append_dropWhile _ _
    rw [hpre]
    rw [hub] at hE ⊢
    rw [rangeBetween_append]
    simp only []
    generalize (tw ++ tl).takeWhile
      (fun e => !(TFAsroKey.lt ⟨findName s.fNames name, "", cycle⟩ e.1)) = pre at hE ⊢
    generalize (tw ++ tl).filter (fun e =>
      TFAsroKey.lt ⟨findName s.fNames name, "", cycle⟩ e.1 &&
        e.1.lt ⟨findName s.fNames name, "", wrapInt32 (cycle + 1)⟩) = cols at hE ⊢
    generalize lower_bound (tw ++ tl) ⟨findName s.fNames name, "", wrapInt32 (cycle + 1)⟩
      = i_end at hE ⊢
    have hcl : cols.length ≤ s.fEntries.length := by
      have : (pre ++ (cols ++ i_end)).length = (tw ++ tl).length := by rw [hE]
      simp only [List.length_append] at this hlen
      omega
    obtain ⟨s3, k1, k2, k3, k4, k5, k6, k7⟩ :=
      freeAll_ok (fun a => occ a (recordSpans (pre ++ i_end))) L cols s2 g3 g4
        (fun e he => hpo e (hsub e (by rw [← hE]; simp [he])).1)
        (by
          intro a
          have := g5 a
          rw [← hE] at this
          simp only [occ_records_append] at this ⊢
          omega)
        (by
          have : 400 * cols.length ≤ 400 * s.fEntries.length := Nat.mul_le_mul_left _ hcl
          omega)
    rw [k1]
    simp only []
    have hs13 := sameButTable_trans hs12 k2
    obtain ⟨a1, a2, a3, a4, a5, a6, a7⟩ := hs13
    let sX : TFAsroFile := { s3 with fEntries := pre ++ i_end }
    have hflX : freeList sX = freeList s3 := freeList_congr rfl rfl
    have hmem : ∀ e ∈ pre ++ i_end, e ∈ tw ++ tl := by
      intro e he
      rw [← hE]
      rw [List.mem_append] at he ⊢
      rcases he with he | he
      · exact Or.inl he
      · exact Or.inr (List.mem_append_right _ he)
    refine ⟨sX, rfl, ⟨⟨?_, tableInv_congr rfl rfl rfl k3, ?_, ?_, ?_⟩, ?_⟩, ?_, a6, a3, a2, ?_⟩
    · show 0 ≤ s3.fFile
      rw [a6]; exact hf
    · rw [hflX]; exact TopRange_mono k4 (Nat.zero_le _)
    · show EntriesSorted (pre ++ i_end)
      rw [← hE] at hso1
      exact List.Pairwise.sublist
        ((List.sublist_append_right cols i_end).append_left pre) hso1
    · intro e he
      exact hpo e (hsub e (hmem e he)).1
    · intro a
      rw [hflX]
      exact k5 a
    · rw [hflX]; exact k4
    · intro e he
      exact hsub e (hmem e he)
  · rw [if_neg hs]
    obtain ⟨a1, a2, a3, a4, a5, a6, a7⟩ := hs12
    let sX : TFAsroFile := { s2 with fEntries := tw ++ tl }
    have hflX : freeList sX = freeList s2 := freeList_congr rfl rfl
    refine ⟨sX, rfl, ⟨⟨?_, tableInv_congr rfl rfl rfl g3, ?_, hso1, ?_⟩, ?_⟩, ?_, a6, a3, a2,
      hsub⟩
    · show 0 ≤ s2.fFile
      rw [a6]; exact hf
    · rw [hflX]; exact TopRange_mono g4 (Nat.zero_le _)
    · intro e he
      exact hpo e (hsub e he).1
    · intro a
      rw [hflX]
      exact g5 a
    · rw [hflX]; exact g4

theorem openFile_nil (st : DirStreamer) :
    openFile st [] =
    { fEntries := [], fClassNames := [], fNames := [],
      fDes0 := 24, fDes1 := 0, fDes2 := 8, fDes3 := 0, fFreeReserve := 8,
      fFree := [some (32, 4294967295 - 32)], fFile := 3,
      disk := magic ++ encodeWords [24, 0, 8, 0] ++ encodeWords [32, 4294967295 - 32] } := rfl

theorem created_inv (st : DirStreamer) : CommittedInv (openFile st []) := by
  rw [openFile_nil]
  have hrep : TableRep
      { fEntries := [], fClassNames := [], fNames := [],
        fDes0 := 24, fDes1 := 0, fDes2 := 8, fDes3 := 0, fFreeReserve := 8,
        fFree := [some (32, 4294967295 - 32)], fFile := 3,
        disk := magic ++ encodeWords [24, 0, 8, 0] ++ encodeWords [32, 4294967295 - 32] }
      [(32, 4294967263)] := ⟨rfl, rfl, by decide, [], rfl⟩
  refine ⟨⟨by decide, tableInv_of hrep (FreeWF_single (by decide) (by decide)),
    ⟨(32, 4294967263), rfl, by decide, by decide⟩, List.Pairwise.nil, ?_⟩, ?_, by decide,
    by decide⟩
  · intro e he
    exact absurd he (List.not_mem_nil _)
  · intro a
    show occ a [] + occ a [(24, 0 + 8 + 0)] + occ a [(32, 4294967263)] = inFile a
    simp only [occ_cons, occ_nil, inFile]
    split_ifs <;> omega

/-- Every reachable state satisfies the invariant of its phase. -/
theorem reach_inv (st : DirStreamer) (c : Codec) (b : Bool) (s : TFAsroFile)
    (h : Reach st c b s) : (b = true → WritingInv s) ∧ (b = false → CommittedInv s) := by
  induction h with
  | create => exact ⟨fun h => absurd h (by decide), fun _ => created_inv st⟩
  | initWrite hr hroom hop ih =>
    refine ⟨fun _ => ?_, fun h => absurd h (by decide)⟩
    obtain ⟨s'', h1, h2, _⟩ := initWrite_ok _ (ih.2 rfl) hroom
    rw [h1] at hop
    simp only [Option.some.injEq, Prod.mk.injEq, true_and] at hop
    rw [← hop]; exact h2
  | write obj lvl name sub cycle hr hdata hzip hroom htop hop ih =>
    refine ⟨fun _ => ?_, fun h => absurd h (by decide)⟩
    obtain ⟨pos, buf, s'', h1, h2, _⟩ :=
      write_ok c obj lvl name sub cycle 0 _ (ih.1 rfl) hdata hzip hroom htop
    rw [h1] at hop
    simp only [Option.some.injEq, Prod.mk.injEq, true_and] at hop
    rw [← hop]; exact h2
  | finishWrite hr htop hop ih =>
    rename_i s s'
    refine ⟨fun h => absurd h (by decide), fun _ => ?_⟩
    have hw := ih.1 rfl
    have hc : commit st 8 s = some (true, s') := by
      unfold FinishWrite at hop
      rw [if_neg (not_lt.mpr hw.1.1)] at hop
      exact hop
    have hd := commit_des hc (by decide) (des2_lt_of_inv hw.1.2.1)
    rw [hd] at htop
    obtain ⟨s'', h1, h2, _⟩ := commit_ok st 8 0 s hw ⟨by decide, by decide⟩ htop
    rw [h1] at hc
    simp only [Option.some.injEq, Prod.mk.injEq, true_and] at hc
    rw [← hc]; exact h2
  | delete name sub cycle hr hc1 hc2 hroom htop hop ih =>
    rename_i s s'
    refine ⟨fun h => absurd h (by decide), fun _ => ?_⟩
    rcases delete_prep st name sub cycle _ s (ih.2 rfl) htop hc1 hc2 hroom with h | h
    · rw [h] at hop
      simp at hop
    · obtain ⟨sX, h1, h2, h3, _⟩ := h
      rw [h1] at hop
      have hd := commit_des hop (by decide) (des2_lt_of_inv h2.1.2.1)
      rw [hd] at h3
      obtain ⟨s'', k1, k2, _⟩ := commit_ok st 16 0 sX h2 ⟨by decide, by decide⟩ h3
      rw [k1] at hop
      simp only [Option.some.injEq, Prod.mk.injEq, true_and] at hop
      rw [← hop]; exact k2

/-- C3 (amended): in every committed state of a file that was created empty and then used
by transactions `InitWrite`, `Write`, ..., `Write`, `FinishWrite` and by successful calls of
`Delete`, as long as the file does not run out of address space (every stored buffer is
non-empty and, like every committed descriptor, shorter than the last free range, which
ends at `0xFFFFFFFF`), the free table stays below `0xFFFFFFFF` bytes and `Delete` is called
with versions below `2^31 - 1`: every address from 24 up to `0xFFFFFFFF` lies in exactly
one of the payload spans of the records, the span `[W0, W0+W1+W2+W3)` of the committed
descriptor and the free ranges, and no other address lies in any of them. -/
theorem C3_no_byte_lost_or_twice (st : DirStreamer) (c : Codec) (s : TFAsroFile)
    (h : Reach st c false s) : NoByteLostOrTwice s :=
  ((reach_inv st c false s h).2 rfl).2.1

theorem sample_init : InitWrite (openFile sampleStreamer []) = some (true, sampleFile1) := rfl

theorem sample_write :
    Write sampleCodec sampleObject 0 "a" "" 1 sampleFile1 = some (true, sampleFile2) := rfl

theorem sample_finish : FinishWrite sampleStreamer sampleFile2 = some (true, sampleFile3) := rfl

theorem sample_delete :
    Delete sampleStreamer "a" "" 1 sampleFile3 = some (true, sampleFile4) := by decide

theorem sample_reach3 : Reach sampleStreamer sampleCodec false sampleFile3 :=
  Reach.finishWrite
    (Reach.write sampleObject 0 "a" "" 1
      (Reach.initWrite Reach.create (by decide) sample_init)
      (by decide) (fun _ _ => Nat.zero_le _) (by decide)
      ⟨(24, 4294967271), rfl, by decide, by decide⟩ sample_write)
    ⟨(27, 4294967268), rfl, by decide, by decide⟩ sample_finish

theorem sample_reach4 : Reach sampleStreamer sampleCodec false sampleFile4 :=
  Reach.delete "a" "" 1 sample_reach3 (by decide) (by decide) (by decide)
    ⟨(44, 4294967251), rfl, by decide, by decide⟩ sample_delete

/-- Witness of C3: a new file, one transaction that writes an object of three bytes, and
the deletion of that object. -/
theorem C3_no_byte_lost_or_twice_witness :
    Reach sampleStreamer sampleCodec false sampleFile4 ∧ NoByteLostOrTwice sampleFile4 :=
  ⟨sample_reach4, C3_no_byte_lost_or_twice sampleStreamer sampleCodec sampleFile4 sample_reach4⟩

/-- The call `GetFree(size)` on a table with one range `(p, l)` of another length: no test
tells whether the request fits. -/
theorem getFree_single (size p l : Nat) (s : TFAsroFile) (hF : s.fFree = [some (p, l)])
    (h2 : s.fDes2 = 8) (hne : size ≠ l) :
    GetFree size s = some (p, { s with
      fFree := [some ((p + size) % 4294967296, (l + 4294967296 - size) % 4294967296)] }) := by
  have hscan : ∃ b, getFreeScan s.fFree size s.numFree 0 (0, 4294967295) = some (0, b) := by
    have hn : s.numFree = 1 := by unfold TFAsroFile.numFree; rw [h2]
    rw [hn, hF]
    unfold getFreeScan
    simp only [rdSlot, List.getD_cons_zero]
    split_ifs
    · exact ⟨l, rfl⟩
    · exact ⟨4294967295, rfl⟩
  obtain ⟨b, hb⟩ := hscan
  unfold GetFree
  rw [hb]
  simp only []
  have hr : rdSlot s.fFree 0 = some (p, l) := by rw [hF]; rfl
  rw [hr]
  simp only []
  rw [if_neg hne, hF]
  rfl

theorem length_pwrite_ge (d : List Nat) (p : Nat) (b : List Nat) :
    d.length ≤ (pwrite d p b).length ∧ (b ≠ [] → p + b.length ≤ (pwrite d p b).length) := by
  unfold pwrite
  by_cases hb : b.length = 0
  · rw [if_pos hb]
    exact ⟨le_refl _, fun h => absurd (List.length_eq_zero.mp hb) h⟩
  · rw [if_neg hb]
    simp only [List.length_append, List.length_take, List.length_replicate, List.length_drop]
    constructor
    · omega
    · intro _; omega

/-- The byte at address `a` after a write of `b` at `p`. -/
theorem getD_pwrite (d : List Nat) (p : Nat) (b : List Nat) (a : Nat) :
    (pwrite d p b).getD a 0
      = if p ≤ a ∧ a < p + b.length then b.getD (a - p) 0 else d.getD a 0 := by
  unfold pwrite
  by_cases hb : b.length = 0
  · rw [if_pos hb, if_neg (by omega)]
  · rw [if_neg hb]
    have hlen : ((d ++ List.replicate (p - d.length) 0).take p).length = p := by
      rw [List.length_take, List.length_append, List.length_replicate]; omega
    by_cases h1 : a < p
    · rw [if_neg (by omega)]
      rw [List.append_assoc, List.getD_append _ _ _ _ (by rw [hlen]; exact h1)]
      rw [List.getD_eq_getElem?_getD, List.getElem?_take_of_lt h1,
        ← List.getD_eq_getElem?_getD]
      by_cases h2 : a < d.length
      · rw [List.getD_append _ _ _ _ h2]
      · have e1 : (d ++ List.replicate (p - d.length) 0).getD a 0 = 0 := by
          rw [List.getD_append_right _ _ _ _ (by omega), List.getD_eq_getElem?_getD,
            List.getElem?_replicate]
          split_ifs <;> rfl
        have e2 : d.getD a 0 = 0 := List.getD_eq_default _ _ (by omega)
        rw [e1, e2]
    · rw [List.append_assoc, List.getD_append_right _ _ _ _ (by rw [hlen]; omega), hlen]
      by_cases h2 : a < p + b.length
      · rw [if_pos ⟨by omega, h2⟩, List.getD_append _ _ _ _ (by omega)]
      · rw [if_neg (by omega), List.getD_append_right _ _ _ _ (by omega)]
        rw [List.getD_eq_getElem?_getD, List.getElem?_drop, ← List.getD_eq_getElem?_getD]
        congr 1
        omega

theorem pread_of_getD (d l : List Nat) (p : Nat) (h1 : p + l.length ≤ d.length)
    (h2 : ∀ i, i < l.length → d.getD (p + i) 0 = l.getD i 0) :
    pread d p l.length = some l := by
  unfold pread
  by_cases h0 : l.length = 0
  · rw [if_pos h0, List.length_eq_zero.mp h0]
  · rw [if_neg h0, if_pos h1]
    congr 1
    apply List.ext_getElem
    · rw [List.length_take, List.length_drop]; omega
    · intro i hi1 hi2
      have := h2 i hi2
      rw [List.getD_eq_getElem?_getD, List.getD_eq_getElem?_getD,
        List.getElem?_eq_getElem (by omega), List.getElem?_eq_getElem hi2] at this
      simp only [Option.getD_some] at this
      rw [List.getElem_take, List.getElem_drop]
      exact this

theorem decodeU32_encodeU32 (x : Nat) (h : x < 4294967296) :
    decodeU32 ((encodeU32 x).take 4) = x := by
  unfold decodeU32 encodeU32
  simp only [List.take, List.getD_cons_zero, List.getD_cons_succ]
  omega

theorem decodeWords_four (a b c d : Nat) (ha : a < 4294967296) (hb : b < 4294967296)
    (hc : c < 4294967296) (hd : d < 4294967296) :
    decodeWords 4 (encodeWords [a, b, c, d]) = [a, b, c, d] := by
  have e := decodeU32_encodeU32
  unfold decodeU32 encodeU32 at e
  simp only [decodeWords, encodeWords, encodeU32, decodeU32, List.cons_append, List.nil_append,
    List.take, List.drop, List.getD_cons_zero, List.getD_cons_succ, List.append_nil]
  simp only [List.take, List.getD_cons_zero, List.getD_cons_succ] at e
  rw [e a ha, e b hb, e c hc, e d hd]

theorem length_encodeWords (ws : List Nat) : (encodeWords ws).length = 4 * ws.length := by
  induction ws with
  | nil => rfl
  | cons w ws ih =>
    show (encodeU32 w ++ encodeWords ws).length = _
    rw [List.length_append, ih, List.length_cons]
    show 4 + _ = _
    omega

theorem tableWords_length : ∀ (a : List Slot) (n : Nat) (ws : List Nat),
    tableWords a n = some ws → ws.length = 2 * n
  | _, 0, ws, h => by
    unfold tableWords at h
    simp only [Option.some.injEq] at h
    rw [← h]; rfl
  | [], _ + 1, ws, h => by simp [tableWords] at h
  | none :: _, _ + 1, ws, h => by simp [tableWords] at h
  | some (p, l) :: rest, n + 1, ws, h => by
    simp only [tableWords, Option.map_eq_some'] at h
    obtain ⟨ws', h1, h2⟩ := h
    rw [← h2, List.length_cons, List.length_cons, tableWords_length rest n ws' h1]
    omega

theorem findName_le (l : List String) (x : String) : findName l x ≤ l.length := by
  induction l with
  | nil => exact le_refl _
  | cons n rest ih =>
    unfold findName
    split_ifs
    · exact Nat.zero_le _
    · rw [List.length_cons]; omega

theorem getD_findName (l : List String) (x : String) (h : findName l x < l.length) :
    l.getD (findName l x) "" = x := by
  induction l with
  | nil => exact absurd h (Nat.not_lt_zero _)
  | cons n rest ih =>
    unfold findName at h ⊢
    split_ifs at h ⊢ with h1
    · rw [List.getD_cons_zero]; exact h1
    · rw [List.getD_cons_succ]
      rw [List.length_cons] at h
      exact ih (by omega)

/-- The name table after the search-or-append of `Write`: the name is in the table at
the index that the search returned. -/
theorem findName_intern (l : List String) (x : String) :
    findName (if findName l x = l.length then l ++ [x] else l) x = findName l x ∧
    findName l x < (if findName l x = l.length then l ++ [x] else l).length ∧
    (if findName l x = l.length then l ++ [x] else l).getD (findName l x) "" = x := by
  have hle := findName_le l x
  by_cases h : findName l x = l.length
  · rw [if_pos h]
    have h1 := findName_append_self l x
    refine ⟨h1, by rw [List.length_append]; simp; omega, ?_⟩
    rw [← h1]
    exact getD_findName _ _ (by rw [h1, List.length_append]; simp; omega)
  · rw [if_neg h]
    exact ⟨rfl, by omega, getD_findName _ _ (by omega)⟩

theorem mapFind_mapSet (m : Entries) (k : TFAsroKey) (v : TFAsroValue) (h : EntriesSorted m) :
    mapFind (mapSet m k v) k = some (k, v) := by
  rw [mapFind_some _ _ _ (mapSet_sorted m k v h), mem_mapSet _ _ _ h]
  exact ⟨Or.inl rfl, rfl⟩

theorem occ_pos_of_mem {a : Nat} {m : Entries} {e : TFAsroKey × TFAsroValue} (he : e ∈ m)
    (h1 : e.2.fPos ≤ a) (h2 : a < e.2.fPos + e.2.fFileLength) :
    0 < occ a (recordSpans m) := by
  unfold occ recordSpans
  rw [List.countP_pos_iff]
  refine ⟨(e.2.fPos, e.2.fFileLength), List.mem_map.mpr ⟨e, he, rfl⟩, ?_⟩
  unfold inSpan
  simp only [Bool.and_eq_true, decide_eq_true_eq]
  exact ⟨h1, h2⟩

theorem getFree_disk {size pos : Nat} {s s' : TFAsroFile}
    (h : GetFree size s = some (pos, s')) : s'.disk = s.disk := by
  unfold GetFree at h
  split at h
  · exact absurd h (by simp)
  · split at h
    · exact absurd h (by simp)
    · split_ifs at h with h4 h5
      · split at h
        · exact absurd h (by simp)
        · simp only [Option.some.injEq, Prod.mk.injEq] at h
          obtain ⟨_, rfl⟩ := h
          rfl
      · simp only [Option.some.injEq, Prod.mk.injEq] at h
        obtain ⟨_, rfl⟩ := h
        rfl

/-- What a successful commit wrote to the file. -/
theorem commit_disk {st : DirStreamer} {pad : Nat} {b : Bool} {s s' : TFAsroFile}
    (h : commit st pad s = some (b, s')) :
    ∃ ws, ws.length = 2 * (s'.fDes2 / 8) ∧
      s'.disk = pwrite (pwrite (pwrite s.disk s'.fDes0
          (st.write s.fEntries s.fClassNames s.fNames))
          (s'.fDes0 + (st.write s.fEntries s.fClassNames s.fNames).length) (encodeWords ws)) 8
        (encodeWords [s'.fDes0, s'.fDes1, s'.fDes2, s'.fDes3]) := by
  unfold commit at h
  simp only [] at h
  split at h
  · exact absurd h (by simp)
  · rename_i pos s2 hg
    split at h
    · exact absurd h (by simp)
    · rename_i ws hws
      simp only [Option.some.injEq, Prod.mk.injEq] at h
      obtain ⟨_, rfl⟩ := h
      have hd : s2.disk = s.disk := getFree_disk (s := { s with fDes1 := (st.write s.fEntries s.fClassNames s.fNames).length, fDes3 := pad }) hg
      refine ⟨ws, tableWords_length _ _ _ hws, ?_⟩
      simp only []
      rw [hd]

/-- The state of a file opened from a disk with a committed descriptor. -/
theorem openFile_of_layout (st : DirStreamer) (disk blob tbl : List Nat) (d0 d1 d2 d3 : Nat)
    (hlen : 0 < disk.length) (h0 : pread disk 0 8 = some magic)
    (h1 : pread disk 8 16 = some (encodeWords [d0, d1, d2, d3]))
    (b0 : d0 < 4294967296) (b1 : d1 < 4294967296) (b2 : d2 < 4294967296)
    (b3 : d3 < 4294967296) (hd1 : 0 < d1) (h2 : pread disk d0 d1 = some blob)
    (h3 : pread disk (d0 + d1) d2 = some tbl) :
    openFile st disk =
      { fEntries := (st.read blob).1, fClassNames := (st.read blob).2.1,
        fNames := (st.read blob).2.2, fDes0 := d0, fDes1 := d1, fDes2 := d2, fDes3 := d3,
        fFreeReserve := d2, fFree := slotsOfWords (decodeWords (d2 / 4) tbl), fFile := 3,
        disk := disk } := by
  unfold openFile
  rw [if_pos hlen, h0]
  simp only []
  rw [if_neg (by simp), h1]
  simp only []
  rw [decodeWords_four d0 d1 d2 d3 b0 b1 b2 b3]
  simp only [List.getD_cons_zero, List.getD_cons_succ]
  rw [if_pos hd1, h2, h3]
  simp only []
  rw [if_pos hd1]

/-- The layout of the file after one transaction: the header of the old file `d0`, the
payload `buf` at `pos`, the descriptor `blob` at `dpos`, the free table `tbl` behind it and
the four words `hdr` at offset 8. -/
theorem disk_layout (d0 : List Nat) (pos dpos : Nat) (buf blob tbl hdr : List Nat)
    (hmagic : d0.take 8 = magic) (hhdr : hdr.length = 16) (hpos : 24 ≤ pos)
    (hdpos : 24 ≤ dpos) (hbuf : buf ≠ []) (hblob : blob ≠ []) (htbl : tbl ≠ [])
    (hdisj : ∀ a, pos ≤ a → a < pos + buf.length →
      ¬ (dpos ≤ a ∧ a < dpos + blob.length + tbl.length)) :
    0 < (pwrite (pwrite (pwrite (pwrite (pwrite d0 8 (encodeU32 0)) pos buf) dpos blob)
        (dpos + blob.length) tbl) 8 hdr).length ∧
    pread (pwrite (pwrite (pwrite (pwrite (pwrite d0 8 (encodeU32 0)) pos buf) dpos blob)
        (dpos + blob.length) tbl) 8 hdr) 0 8 = some magic ∧
    pread (pwrite (pwrite (pwrite (pwrite (pwrite d0 8 (encodeU32 0)) pos buf) dpos blob)
        (dpos + blob.length) tbl) 8 hdr) 8 16 = some hdr ∧
    pread (pwrite (pwrite (pwrite (pwrite (pwrite d0 8 (encodeU32 0)) pos buf) dpos blob)
        (dpos + blob.length) tbl) 8 hdr) dpos blob.length = some blob ∧
    pread (pwrite (pwrite (pwrite (pwrite (pwrite d0 8 (encodeU32 0)) pos buf) dpos blob)
        (dpos + blob.length) tbl) 8 hdr) (dpos + blob.length) tbl.length = some tbl ∧
    pread (pwrite (pwrite (pwrite (pwrite (pwrite d0 8 (encodeU32 0)) pos buf) dpos blob)
        (dpos + blob.length) tbl) 8 hdr) pos buf.length = some buf := by
  have l1 := length_pwrite_ge d0 8 (encodeU32 0)
  have l2 := length_pwrite_ge (pwrite d0 8 (encodeU32 0)) pos buf
  have l3 := length_pwrite_ge (pwrite (pwrite d0 8 (encodeU32 0)) pos buf) dpos blob
  have l4 := length_pwrite_ge (pwrite (pwrite (pwrite d0 8 (encodeU32 0)) pos buf) dpos blob)
    (dpos + blob.length) tbl
  have l5 := length_pwrite_ge (pwrite (pwrite (pwrite (pwrite d0 8 (encodeU32 0)) pos buf)
    dpos blob) (dpos + blob.length) tbl) 8 hdr
  have hh : hdr ≠ [] := by
    intro h; rw [h] at hhdr; exact absurd hhdr (by decide)
  have k2 := l2.2 hbuf
  have k3 := l3.2 hblob
  have k4 := l4.2 htbl
  have k5 := l5.2 hh
  have hbl : 0 < buf.length := List.length_pos.mpr hbuf
  have hget : ∀ a, (pwrite (pwrite (pwrite (pwrite (pwrite d0 8 (encodeU32 0)) pos buf) dpos
      blob) (dpos + blob.length) tbl) 8 hdr).getD a 0
      = if 8 ≤ a ∧ a < 8 + hdr.length then hdr.getD (a - 8) 0
        else if dpos + blob.length ≤ a ∧ a < dpos + blob.length + tbl.length then
          tbl.getD (a - (dpos + blob.length)) 0
        else if dpos ≤ a ∧ a < dpos + blob.length then blob.getD (a - dpos) 0
        else if pos ≤ a ∧ a < pos + buf.length then buf.getD (a - pos) 0
        else if 8 ≤ a ∧ a < 8 + (encodeU32 0).length then (encodeU32 0).getD (a - 8) 0
        else d0.getD a 0 := by
    intro a
    simp only [getD_pwrite]
  have hz : (encodeU32 0).length = 4 := rfl
  refine ⟨by omega, ?_, ?_, ?_, ?_, ?_⟩
  · refine pread_of_getD _ magic 0 (by show 0 + 8 ≤ _; omega) ?_
    intro i hi
    have hi8 : i < 8 := hi
    rw [hget, if_neg (by omega), if_neg (by omega), if_neg (by omega), if_neg (by omega),
      if_neg (by omega), ← hmagic, Nat.zero_add]
    rw [List.getD_eq_getElem?_getD, List.getD_eq_getElem?_getD, List.getElem?_take_of_lt hi8]
  · rw [← hhdr]
    refine pread_of_getD _ hdr 8 (by omega) ?_
    intro i hi
    rw [hget, if_pos ⟨by omega, by omega⟩, Nat.add_sub_cancel_left]
  · refine pread_of_getD _ blob dpos (by omega) ?_
    intro i hi
    rw [hget, if_neg (by omega), if_neg (by omega), if_pos ⟨by omega, by omega⟩,
      Nat.add_sub_cancel_left]
  · refine pread_of_getD _ tbl (dpos + blob.length) (by omega) ?_
    intro i hi
    rw [hget, if_neg (by omega), if_pos ⟨by omega, by omega⟩, Nat.add_sub_cancel_left]
  · refine pread_of_getD _ buf pos (by omega) ?_
    intro i hi
    have := hdisj (pos + i) (by omega) (by omega)
    rw [hget, if_neg (by omega), if_neg (by omega), if_neg (by omega),
      if_pos ⟨by omega, by omega⟩, Nat.add_sub_cancel_left]

/-- The result of `Read` for a key whose record is `v`. -/
theorem read_record (c : Codec) (name sub : String) (cycle : Int) (r : TFAsroFile)
    (k : TFAsroKey) (v : TFAsroValue) (data : List Nat)
    (hf : 0 ≤ r.fFile) (hn : findName r.fNames name < r.fNames.length)
    (hfind : mapFind r.fEntries ⟨findName r.fNames name, sub, cycle⟩ = some (k, v))
    (hcl : v.fClassName < r.fClassNames.length)
    (hbuf : (v.fDataLength = v.fFileLength ∧
        pread r.disk v.fPos v.fDataLength = some data) ∨
      (v.fDataLength ≠ v.fFileLength ∧ ∃ buf b out,
        pread r.disk v.fPos v.fFileLength = some buf ∧
        Uncompress c buf v.fDataLength = some (b, out) ∧
        (out ++ List.replicate (v.fDataLength - out.length) 0).take v.fDataLength = data)) :
    Read c name sub cycle r
      = some (some { className := r.fClassNames.getD v.fClassName "", data := data }) := by
  unfold Read
  rw [if_neg (not_lt.mpr hf), if_neg (by omega), if_neg (by omega)]
  unfold ReadKey
  rw [if_neg (not_lt.mpr hf), hfind]
  simp only []
  rcases hbuf with ⟨h1, h2⟩ | ⟨h1, buf, b, out, h2, h3, h4⟩
  · rw [if_pos h1, h2]
    simp only []
    rw [if_pos hcl]
  · rw [if_neg h1, h2]
    simp only []
    rw [h3]
    simp only []
    rw [if_pos hcl, h4]

/-- The call `Write` without compression of a new key on a table with one range. -/
theorem write_single (c : Codec) (obj : TObject) (name sub : String) (cycle : Int)
    (n p l : Nat) (s : TFAsroFile) (hf : 0 ≤ s.fFile) (hF : s.fFree = [some (p, l)])
    (h2 : s.fDes2 = 8)
    (hnew : mapFind s.fEntries ⟨findName s.fNames name, sub, cycle⟩ = none)
    (hn : obj.data.length = n) (hne : n ≠ l) :
    ∃ s', Write c obj 0 name sub cycle s = some (true, s') ∧ s'.fFile = s.fFile ∧
      s'.fFree = [some ((p + n) % 4294967296, (l + 4294967296 - n) % 4294967296)] ∧
      s'.fDes2 = 8 ∧
      s'.fEntries = mapSet s.fEntries ⟨findName s.fNames name, sub, cycle⟩
        ⟨p, n, n, findName s.fClassNames obj.className⟩ ∧
      s'.fNames = (if findName s.fNames name = s.fNames.length then s.fNames ++ [name]
        else s.fNames) ∧
      s'.fClassNames = (if findName s.fClassNames obj.className = s.fClassNames.length
        then s.fClassNames ++ [obj.className] else s.fClassNames) ∧
      s'.disk = pwrite s.disk p obj.data := by
  have hg := getFree_single n p l { s with fDes3 := 8 } hF h2 hne
  refine ⟨
    { s with
      fFree := [some ((p + n) % 4294967296, (l + 4294967296 - n) % 4294967296)],
      fDes3 := 8,
      fEntries := mapSet s.fEntries ⟨findName s.fNames name, sub, cycle⟩
        ⟨p, n, n, findName s.fClassNames obj.className⟩,
      fNames := (if findName s.fNames name = s.fNames.length then s.fNames ++ [name]
        else s.fNames),
      fClassNames := (if findName s.fClassNames obj.className = s.fClassNames.length
        then s.fClassNames ++ [obj.className] else s.fClassNames),
      disk := pwrite s.disk p obj.data }, ?_, ?_, ?_, ?_, ?_, ?_, ?_, ?_⟩
  · unfold Write
    rw [if_neg (not_lt.mpr hf)]
    simp only []
    rw [hnew]
    simp only []
    rw [if_neg (by decide), if_pos (Or.inl (le_refl _))]
    simp only []
    rw [hn, hg]
  all_goals first | rfl | exact h2

/-- The call `FinishWrite` on a table with one range. -/
theorem finish_single (st : DirStreamer) (p l : Nat) (s : TFAsroFile) (hf : 0 ≤ s.fFile)
    (hF : s.fFree = [some (p, l)]) (h2 : s.fDes2 = 8)
    (hne : ((st.write s.fEntries s.fClassNames s.fNames).length + 8 + 8) % 4294967296 ≠ l) :
    ∃ s', FinishWrite st s = some (true, s') ∧ s'.fEntries = s.fEntries ∧
      s'.fClassNames = s.fClassNames ∧ s'.fNames = s.fNames ∧ s'.fDes0 = p ∧
      s'.fDes1 = (st.write s.fEntries s.fClassNames s.fNames).length ∧ s'.fDes2 = 8 ∧
      s'.fDes3 = 8 ∧
      s'.fFree = [some
        ((p + ((st.write s.fEntries s.fClassNames s.fNames).length + 8 + 8) % 4294967296)
            % 4294967296,
          (l + 4294967296
            - ((st.write s.fEntries s.fClassNames s.fNames).length + 8 + 8) % 4294967296)
            % 4294967296)] ∧
      s'.disk = pwrite (pwrite (pwrite s.disk p (st.write s.fEntries s.fClassNames s.fNames))
        (p + (st.write s.fEntries s.fClassNames s.fNames).length)
        (encodeWords
          [(p + ((st.write s.fEntries s.fClassNames s.fNames).length + 8 + 8) % 4294967296)
              % 4294967296,
            (l + 4294967296
              - ((st.write s.fEntries s.fClassNames s.fNames).length + 8 + 8) % 4294967296)
              % 4294967296])) 8
        (encodeWords [p, (st.write s.fEntries s.fClassNames s.fNames).length, 8, 8]) := by
  obtain ⟨m, cn, nm, d0, d1, d2, d3, fr, ff, fi, dk⟩ := s
  simp only at hf hF h2 hne ⊢
  subst hF
  subst h2
  have hg := getFree_single (((st.write m cn nm).length + 8 + 8) % 4294967296) p l
    { fEntries := m, fClassNames := cn, fNames := nm, fDes0 := d0,
      fDes1 := (st.write m cn nm).length, fDes2 := 8, fDes3 := 8, fFreeReserve := fr,
      fFree := [some (p, l)], fFile := fi, disk := dk } rfl rfl hne
  refine ⟨
    { fEntries := m, fClassNames := cn, fNames := nm, fDes0 := p,
      fDes1 := (st.write m cn nm).length, fDes2 := 8, fDes3 := 8, fFreeReserve := fr,
      fFree := [some ((p + ((st.write m cn nm).length + 8 + 8) % 4294967296) % 4294967296,
        (l + 4294967296 - ((st.write m cn nm).length + 8 + 8) % 4294967296) % 4294967296)],
      fFile := fi,
      disk := pwrite (pwrite (pwrite dk p (st.write m cn nm)) (p + (st.write m cn nm).length)
        (encodeWords [(p + ((st.write m cn nm).length + 8 + 8) % 4294967296) % 4294967296,
          (l + 4294967296 - ((st.write m cn nm).length + 8 + 8) % 4294967296) % 4294967296]))
        8 (encodeWords [p, (st.write m cn nm).length, 8, 8]) },
    ?_, rfl, rfl, rfl, rfl, rfl, rfl, rfl, rfl, rfl⟩
  unfold FinishWrite
  rw [if_neg (not_lt.mpr hf)]
  unfold commit
  simp only []
  rw [hg]
  simp only []
  have hws : tableWords
      [some ((p + ((st.write m cn nm).length + 8 + 8) % 4294967296) % 4294967296,
        (l + 4294967296 - ((st.write m cn nm).length + 8 + 8) % 4294967296) % 4294967296)]
      (8 / 8) = some
      [(p + ((st.write m cn nm).length + 8 + 8) % 4294967296) % 4294967296,
        (l + 4294967296 - ((st.write m cn nm).length + 8 + 8) % 4294967296) % 4294967296] :=
    rfl
  rw [hws]

/-- Two objects of `0x7FFFFFFE` bytes do not fit into the address space: the second
`Write` and `FinishWrite` hand out bytes that are in use. -/
theorem exhaustion (dir : Entries × List String × List String) (obj : TObject)
    (hn : obj.data.length = 2147483646) (hcl : obj.className = "TNamed") :
    ∃ s2 s3 s4, Write sampleCodec obj 0 "a" "" 1 sampleFile1 = some (true, s2) ∧
      Write sampleCodec obj 0 "b" "" 1 s2 = some (true, s3) ∧
      FinishWrite (memoStreamer dir) s3 = some (true, s4) ∧
      (s4.fEntries, s4.fClassNames, s4.fNames) = bigDirectory ∧
      desSpan s4 = (20, 17) ∧ freeList s4 = [(37, 4294967258)] ∧
      s4.disk = pwrite (pwrite (pwrite (pwrite (pwrite sampleFile1.disk 24 obj.data)
        2147483670 obj.data) 20 [7]) 21 (encodeWords [37, 4294967258])) 8
        (encodeWords [20, 1, 8, 8]) := by
  obtain ⟨s2, w1, f1, fr1, d1, en1, nm1, cn1, dk1⟩ :=
    write_single sampleCodec obj "a" "" 1 2147483646 24 4294967271 sampleFile1 (by decide)
      rfl rfl rfl hn (by decide)
  rw [hcl] at en1 cn1
  have en1' : s2.fEntries = [(⟨0, "", 1⟩, ⟨24, 2147483646, 2147483646, 0⟩)] := en1
  have nm1' : s2.fNames = ["a"] := nm1
  have cn1' : s2.fClassNames = ["TNamed"] := cn1
  have fr1' : s2.fFree = [some (2147483670, 2147483625)] := fr1
  obtain ⟨s3, w2, f2, fr2, d2, en2, nm2, cn2, dk2⟩ :=
    write_single sampleCodec obj "b" "" 1 2147483646 2147483670 2147483625 s2
      (by rw [f1]; decide) fr1' d1 (by rw [en1', nm1']; rfl) hn (by decide)
  rw [hcl, en1', nm1', cn1'] at en2
  rw [nm1'] at nm2
  rw [hcl, cn1'] at cn2
  have en2' : s3.fEntries = [(⟨0, "", 1⟩, ⟨24, 2147483646, 2147483646, 0⟩),
      (⟨1, "", 1⟩, ⟨2147483670, 2147483646, 2147483646, 0⟩)] := en2
  have nm2' : s3.fNames = ["a", "b"] := nm2
  have cn2' : s3.fClassNames = ["TNamed"] := cn2
  have fr2' : s3.fFree = [some (20, 4294967275)] := fr2
  obtain ⟨s4, w3, e4, c4, n4, p4, l4, d4, t4, fr4, dk4⟩ :=
    finish_single (memoStreamer dir) 20 4294967275 s3 (by rw [f2, f1]; decide) fr2' d2
      (by show (1 + 8 + 8) % 4294967296 ≠ 4294967275; decide)
  have hw : (memoStreamer dir).write s3.fEntries s3.fClassNames s3.fNames = [7] := rfl
  rw [hw] at l4 fr4 dk4
  have l4' : s4.fDes1 = 1 := l4
  have fr4' : s4.fFree = [some (37, 4294967258)] := fr4
  refine ⟨s2, s3, s4, w1, w2, w3, ?_, ?_, ?_, ?_⟩
  · rw [e4, c4, n4, en2', nm2', cn2']; rfl
  · unfold desSpan
    rw [p4, l4', d4, t4]
  · unfold freeList TFAsroFile.numFree
    rw [fr4', d4]; rfl
  · rw [dk4, dk2, dk1]; rfl

/-- Counterexample to C3 as stated: a new file, `InitWrite`, two calls of `Write` with an
object of `0x7FFFFFFE` bytes each, `FinishWrite`.  After the first `Write` the free range is
`(2147483670, 2147483625)`, too short for the second object; `GetFree` has no test for that
case, returns 2147483670 and leaves the range `(20, 4294967275)` (the arithmetic wraps
around).  `FinishWrite` then places the descriptor at offset 20.  In the committed state
the span `[20, 37)` of the descriptor overlaps the fixed header and the span
`[24, 2147483670)` of the first record: address 24 is used twice. -/
theorem C3_counterexample :
    InitWrite (openFile sampleStreamer []) = some (true, sampleFile1) ∧
    ∃ s2 s3 s4, Write sampleCodec bigObject 0 "a" "" 1 sampleFile1 = some (true, s2) ∧
      Write sampleCodec bigObject 0 "b" "" 1 s2 = some (true, s3) ∧
      FinishWrite sampleStreamer s3 = some (true, s4) ∧
      recordSpans s4.fEntries = [(24, 2147483646), (2147483670, 2147483646)] ∧
      desSpan s4 = (20, 17) ∧ freeList s4 = [(37, 4294967258)] ∧
      ¬ NoByteLostOrTwice s4 := by
  refine ⟨rfl, ?_⟩
  obtain ⟨s2, s3, s4, w1, w2, w3, hd, hdes, hfree, _⟩ :=
    exhaustion ([(⟨0, "", 1⟩, ⟨24, 3, 3, 0⟩)], ["TNamed"], ["a"]) bigObject
      (List.length_replicate _ _) rfl
  have hrec : recordSpans s4.fEntries = [(24, 2147483646), (2147483670, 2147483646)] := by
    have : s4.fEntries = bigDirectory.1 := congrArg Prod.fst hd
    rw [this]; rfl
  refine ⟨s2, s3, s4, w1, w2, w3, hrec, hdes, hfree, ?_⟩
  intro h
  have h24 := h 24
  rw [hrec, hdes, hfree] at h24
  revert h24
  decide

set_option maxRecDepth 100000 in
theorem echo_compress : Compress echoCodec 1 echoData = some (true, echoPacked) := by
  decide

set_option maxRecDepth 100000 in
theorem echo_uncompress : Uncompress echoCodec echoPacked 256 = some (true, echoData) := by
  decide

set_option maxRecDepth 100000 in
theorem echo_write :
    Write echoCodec echoObject 1 "a" "" 1 sampleFile1 = some (true, echoFile2) := by
  decide

set_option maxRecDepth 100000 in
theorem echo_finish : FinishWrite echoStreamer echoFile2 = some (true, echoFile3) := by
  decide

set_option maxRecDepth 100000 in
theorem echo_read :
    Read echoCodec "a" "" 1 (openFile echoStreamer echoFile3.disk)
      = some (some ⟨"TNamed", echoPacked⟩) := by
  decide

set_option maxRecDepth 100000 in
theorem shrink_compress : Compress shrinkCodec 1 echoData = some (true, shortPacked) := by
  decide

set_option maxRecDepth 100000 in
theorem shrink_uncompress :
    Uncompress shrinkCodec shortPacked 256 = some (true, echoData) := by
  decide

set_option maxRecDepth 100000 in
theorem shrink_write :
    Write shrinkCodec echoObject 1 "a" "" 1 sampleFile1 = some (true, shrinkFile2) := by
  decide

set_option maxRecDepth 100000 in
theorem shrink_finish : FinishWrite shrinkStreamer shrinkFile2 = some (true, shrinkFile3) := by
  decide

theorem echoData_length : echoData.length = 256 := List.length_replicate _ _

theorem shortPacked_length : shortPacked.length = 255 := by
  unfold shortPacked
  rw [List.length_append, List.length_replicate]
  rfl

theorem shrink_zip (src : List Nat) (n : Nat) : (shrinkCodec.zip 1 src n).length ≤ n := by
  show (if src = echoData ∧ 255 ≤ n then shortPacked else []).length ≤ n
  split_ifs with h
  · rw [shortPacked_length]; exact h.2
  · exact Nat.zero_le _

/-- Entries not below `(N, "", W)` in key order: a greater name, or the name `N` with a
version of at least `W`. -/
theorem not_lt_table_key (k : TFAsroKey) (N : Nat) (W : Int) :
    k.lt ⟨N, "", W⟩ = false ↔ (N < k.fElName ∨ (k.fElName = N ∧ W ≤ k.fCycle)) := by
  rw [← Bool.not_eq_true, lt_iff]
  simp only []
  have hs : ¬ k.fSubName < "" := not_lt_empty _
  constructor
  · intro h
    rcases lt_trichotomy k.fElName N with h1 | h1 | h1
    · exact absurd (Or.inl h1) h
    · right
      refine ⟨h1, ?_⟩
      by_contra hc
      exact h (Or.inr ⟨h1, Or.inl (lt_of_not_le hc)⟩)
    · exact Or.inl h1
  · rintro (h | ⟨h1, h2⟩) (h3 | ⟨h3, h4 | ⟨_, h5⟩⟩)
    · omega
    · omega
    · omega
    · omega
    · omega
    · exact hs h5

/-- The first entry not below a key is the least of those entries. -/
theorem lower_bound_head (m : Entries) (k : TFAsroKey) (h : EntriesSorted m)
    (e : TFAsroKey × TFAsroValue) (tl : Entries) (hl : lower_bound m k = e :: tl) :
    e ∈ m ∧ e.1.lt k = false ∧
      ∀ x ∈ m, x.1.lt k = false → x = e ∨ e.1.lt x.1 = true := by
  have hf := lower_bound_eq_filter m k h
  rw [hl] at hf
  have hmem : e ∈ m.filter (fun e => !e.1.lt k) := by rw [← hf]; exact List.mem_cons_self _ _
  rw [List.mem_filter] at hmem
  have hs : EntriesSorted (e :: tl) := by rw [hf]; exact sorted_filter m _ h
  refine ⟨hmem.1, by simpa using hmem.2, ?_⟩
  intro x hx hxk
  have hx' : x ∈ e :: tl := by
    rw [hf, List.mem_filter]
    exact ⟨hx, by simp [hxk]⟩
  rcases List.mem_cons.mp hx' with h1 | h1
  · exact Or.inl h1
  · exact Or.inr (List.rel_of_pairwise_cons hs h1)

theorem lower_bound_nil (m : Entries) (k : TFAsroKey) (h : EntriesSorted m)
    (hl : lower_bound m k = []) : ∀ x ∈ m, x.1.lt k = true := by
  intro x hx
  have hf := lower_bound_eq_filter m k h
  rw [hl] at hf
  by_contra hc
  have : x ∈ m.filter (fun e => !e.1.lt k) := by
    rw [List.mem_filter]
    exact ⟨hx, by simpa using hc⟩
  rw [← hf] at this
  exact absurd this (List.not_mem_nil _)

/-- C11: for a directory in key order whose keys fit their machine types, a name that is in
the name table (`N` is its index) and a version `V` with `0 ≤ V < 2^31 - 1`:
`GetNextCycle(name, V)` is 0 when no entry with the name-id `N` has a version above `V`, and
otherwise it is the smallest version above `V` of an entry with the name-id `N`. -/
theorem C11_next_version (name : String) (V : Int) (s : TFAsroFile)
    (hsorted : EntriesSorted s.fEntries) (htyped : ∀ e ∈ s.fEntries, e.1.WellTyped)
    (hname : findName s.fNames name < s.fNames.length) (h0 : 0 ≤ V) (h1 : V < 2147483647) :
    ((¬ ∃ e ∈ s.fEntries, e.1.fElName = findName s.fNames name ∧ V < e.1.fCycle) →
      GetNextCycle name V s = 0) ∧
    ((∃ e ∈ s.fEntries, e.1.fElName = findName s.fNames name ∧ V < e.1.fCycle) →
      ∃ e ∈ s.fEntries, e.1.fElName = findName s.fNames name ∧ V < e.1.fCycle ∧
        (GetNextCycle name V s : Int) = e.1.fCycle ∧
        ∀ x ∈ s.fEntries, x.1.fElName = findName s.fNames name → V < x.1.fCycle →
          e.1.fCycle ≤ x.1.fCycle) := by
  have hw : wrapInt32 (V + 1) = V + 1 := wrapInt32_succ V (by omega) h1
  have hG : GetNextCycle name V s =
      match lower_bound s.fEntries ⟨findName s.fNames name, "", V + 1⟩ with
      | [] => 0
      | e :: _ => if findName s.fNames name ≠ e.1.fElName then 0 else toUInt32 e.1.fCycle := by
    unfold GetNextCycle
    rw [if_neg (by omega), if_neg (by omega), hw]
  rw [hG]
  cases hl : lower_bound s.fEntries ⟨findName s.fNames name, "", V + 1⟩ with
  | nil =>
    have hall := lower_bound_nil _ _ hsorted hl
    refine ⟨fun _ => rfl, ?_⟩
    rintro ⟨e, he, hn, hv⟩
    have h2 : e.1.lt ⟨findName s.fNames name, "", V + 1⟩ = false := by
      rw [not_lt_table_key]
      exact Or.inr ⟨hn, by omega⟩
    rw [hall e he] at h2
    exact absurd h2 (by decide)
  | cons e tl =>
    obtain ⟨hem, hek, hmin⟩ := lower_bound_head _ _ hsorted e tl hl
    rw [not_lt_table_key] at hek
    simp only []
    by_cases hn : findName s.fNames name = e.1.fElName
    · rw [if_neg (not_not.mpr hn)]
      have hc : V + 1 ≤ e.1.fCycle := by
        rcases hek with h | ⟨_, h⟩
        · omega
        · exact h
      have ht := htyped e hem
      have hres : ((toUInt32 e.1.fCycle : Nat) : Int) = e.1.fCycle := by
        rw [toUInt32_of_nonneg _ (by omega) (by have := ht.2.2; omega)]
        exact Int.toNat_of_nonneg (by omega)
      constructor
      · intro hno
        exact absurd ⟨e, hem, hn.symm, by omega⟩ hno
      · intro _
        refine ⟨e, hem, hn.symm, by omega, hres, ?_⟩
        intro x hx hxn hxv
        have hxk : x.1.lt ⟨findName s.fNames name, "", V + 1⟩ = false := by
          rw [not_lt_table_key]
          exact Or.inr ⟨hxn, by omega⟩
        rcases hmin x hx hxk with h | h
        · rw [h]
        · exact lt_cycle_le h (by rw [hxn, ← hn])
    · rw [if_pos hn]
      refine ⟨fun _ => rfl, ?_⟩
      rintro ⟨x, hx, hxn, hxv⟩
      have hgt : findName s.fNames name < e.1.fElName := by
        rcases hek with h | ⟨h, _⟩
        · exact h
        · exact absurd h.symm hn
      have hxk : x.1.lt ⟨findName s.fNames name, "", V + 1⟩ = false := by
        rw [not_lt_table_key]
        exact Or.inr ⟨hxn, by omega⟩
      rcases hmin x hx hxk with h | h
      · rw [h] at hxn; omega
      · have := lt_name_le h
        omega

/-- Witness of C11: the only entry is `("img", "", 1)`; `GetNextCycle("img", 1)` is 0 and
`GetNextCycle("img", 0)` is 1. -/
theorem C11_next_version_witness :
    GetNextCycle "img" 1 imgDirectory = 0 ∧ GetNextCycle "img" 0 imgDirectory = 1 ∧
    ((¬ ∃ e ∈ imgDirectory.fEntries,
        e.1.fElName = findName imgDirectory.fNames "img" ∧ 1 < e.1.fCycle) →
      GetNextCycle "img" 1 imgDirectory = 0) ∧
    ((∃ e ∈ imgDirectory.fEntries,
        e.1.fElName = findName imgDirectory.fNames "img" ∧ 0 < e.1.fCycle) →
      ∃ e ∈ imgDirectory.fEntries, e.1.fElName = findName imgDirectory.fNames "img" ∧
        0 < e.1.fCycle ∧ (GetNextCycle "img" 0 imgDirectory : Int) = e.1.fCycle ∧
        ∀ x ∈ imgDirectory.fEntries, x.1.fElName = findName imgDirectory.fNames "img" →
          0 < x.1.fCycle → e.1.fCycle ≤ x.1.fCycle) :=
  ⟨by decide, by decide,
    (C11_next_version "img" 1 imgDirectory (List.pairwise_singleton _ _)
      (by intro e he; rw [List.mem_singleton.mp he]; exact ⟨by decide, by decide, by decide⟩) (by decide) (by decide)
      (by decide)).1,
    (C11_next_version "img" 0 imgDirectory (List.pairwise_singleton _ _)
      (by intro e he; rw [List.mem_singleton.mp he]; exact ⟨by decide, by decide, by decide⟩) (by decide) (by decide)
      (by decide)).2⟩

theorem sameButTable_refl (s : TFAsroFile) : SameButTable s s :=
  ⟨rfl, rfl, rfl, rfl, rfl, rfl, rfl⟩

theorem getFree_same {size pos : Nat} {s s' : TFAsroFile}
    (h : GetFree size s = some (pos, s')) : SameButTable s s' := by
  unfold GetFree at h
  split at h
  · exact absurd h (by simp)
  · split at h
    · exact absurd h (by simp)
    · split_ifs at h with h4 h5
      · split at h
        · exact absurd h (by simp)
        · simp only [Option.some.injEq, Prod.mk.injEq] at h
          obtain ⟨_, rfl⟩ := h
          exact ⟨rfl, rfl, rfl, rfl, rfl, rfl, rfl⟩
      · simp only [Option.some.injEq, Prod.mk.injEq] at h
        obtain ⟨_, rfl⟩ := h
        exact ⟨rfl, rfl, rfl, rfl, rfl, rfl, rfl⟩

theorem insertFree_same {index pos size : Nat} {s s' : TFAsroFile}
    (h : insertFree index pos size s = some s') : SameButTable s s' := by
  unfold insertFree at h
  by_cases h1 : s.fDes2 < index * 8
  · rw [if_pos h1] at h
    exact absurd h (by simp)
  · rw [if_neg h1] at h
    simp only [] at h
    generalize (if s.fDes2 = s.fFreeReserve then _ else _ : Option (Nat × List Slot)) = moved at h
    cases moved with
    | none => exact absurd h (by simp)
    | some ra =>
      obtain ⟨reserve, a⟩ := ra
      simp only [] at h
      by_cases h2 : index < a.length
      · rw [if_pos h2] at h
        simp only [Option.some.injEq] at h
        rw [← h]
        exact ⟨rfl, rfl, rfl, rfl, rfl, rfl, rfl⟩
      · rw [if_neg h2] at h
        exact absurd h (by simp)

theorem makeFree_same {pos size : Nat} {s s' : TFAsroFile}
    (h : MakeFree pos size s = some s') : SameButTable s s' := by
  unfold MakeFree at h
  split at h
  · exact absurd h (by simp)
  · split at h
    · exact absurd h (by simp)
    · split_ifs at h with h1
      · simp only [Option.some.injEq] at h
        rw [← h]
        exact ⟨rfl, rfl, rfl, rfl, rfl, rfl, rfl⟩
      · exact insertFree_same h
  · split at h
    · simp only [] at h
      split_ifs at h with h1 h2 h3 h4
      · simp only [Option.some.injEq] at h
        rw [← h]
        exact ⟨rfl, rfl, rfl, rfl, rfl, rfl, rfl⟩
      · simp only [Option.some.injEq] at h
        rw [← h]
        exact ⟨rfl, rfl, rfl, rfl, rfl, rfl, rfl⟩
      · split at h
        · exact absurd h (by simp)
        · simp only [Option.some.injEq] at h
          rw [← h]
          exact ⟨rfl, rfl, rfl, rfl, rfl, rfl, rfl⟩
      · exact insertFree_same h
    · exact absurd h (by simp)

theorem freeAll_same : ∀ (cols : Entries) {s s' : TFAsroFile},
    freeAll cols s = some s' → SameButTable s s'
  | [], s, s', h => by
    unfold freeAll at h
    simp only [Option.some.injEq] at h
    rw [← h]
    exact sameButTable_refl s
  | e :: rest, s, s', h => by
    unfold freeAll at h
    split at h
    · exact absurd h (by simp)
    · rename_i s1 h1
      exact sameButTable_trans (makeFree_same h1) (freeAll_same rest h)

/-- The steps of a call of `Write` on an open file: the release of the old span, the choice
of the bytes to store, the request for space, the new state. -/
theorem write_shape {c : Codec} {obj : TObject} {lvl : Int} {name sub : String} {cycle : Int}
    {s s' : TFAsroFile} {b : Bool} (hf : 0 ≤ s.fFile)
    (h : Write c obj lvl name sub cycle s = some (b, s')) :
    b = true ∧ ∃ s1 buf pos s2,
      ((0 < (oldRecord s.fEntries ⟨findName s.fNames name, sub, cycle⟩).fPos ∧
          MakeFree (oldRecord s.fEntries ⟨findName s.fNames name, sub, cycle⟩).fPos
            (oldRecord s.fEntries ⟨findName s.fNames name, sub, cycle⟩).fFileLength s
            = some s1) ∨
        ((oldRecord s.fEntries ⟨findName s.fNames name, sub, cycle⟩).fPos = 0 ∧ s1 = s)) ∧
      (((lvl ≤ 0 ∨ obj.data.length < 256) ∧ buf = obj.data) ∨
        (¬ (lvl ≤ 0 ∨ obj.data.length < 256) ∧
          (Compress c lvl obj.data = some (true, buf) ∨
            (∃ o, Compress c lvl obj.data = some (false, o)) ∧ buf = obj.data))) ∧
      GetFree buf.length { s1 with fDes3 := 8 } = some (pos, s2) ∧
      s'.fEntries = mapSet s.fEntries ⟨findName s.fNames name, sub, cycle⟩
        ⟨pos, buf.length, obj.data.length, findName s.fClassNames obj.className⟩ ∧
      s'.fNames = (if findName s.fNames name = s.fNames.length then s.fNames ++ [name]
        else s.fNames) ∧
      s'.fClassNames = (if findName s.fClassNames obj.className = s.fClassNames.length
        then s.fClassNames ++ [obj.className] else s.fClassNames) ∧
      s'.disk = pwrite s.disk pos buf ∧ s'.fFree = s2.fFree ∧ s'.fDes2 = s2.fDes2 ∧
      s'.fDes3 = s2.fDes3 ∧ s'.fFreeReserve = s2.fFreeReserve ∧ s'.fDes0 = s.fDes0 ∧
      s'.fDes1 = s.fDes1 ∧ s'.fFile = s.fFile := by
  unfold Write at h
  rw [if_neg (not_lt.mpr hf)] at h
  simp only [] at h
  have hold : (match mapFind s.fEntries ⟨findName s.fNames name, sub, cycle⟩ with
      | none => TFAsroValue.default
      | some (_, v) => v) = oldRecord s.fEntries ⟨findName s.fNames name, sub, cycle⟩ := by
    unfold oldRecord
    cases mapFind s.fEntries ⟨findName s.fNames name, sub, cycle⟩ with
    | none => rfl
    | some e => rfl
  generalize oldRecord s.fEntries ⟨findName s.fNames name, sub, cycle⟩ = old at hold ⊢
  have h' : (match (if old.fPos > 0 then MakeFree old.fPos old.fFileLength s
        else some s) with
      | none => none
      | some s1 =>
        match (if lvl ≤ 0 ∨ obj.data.length < 256 then some obj.data
          else match Compress c lvl obj.data with
            | none => none
            | some (true, out) => some out
            | some (false, _) => some obj.data) with
        | none => none
        | some dataBuffer =>
          match GetFree dataBuffer.length { s1 with fDes3 := 8 } with
          | none => none
          | some (pos, s2) =>
            some (true, { s2 with
              fEntries := mapSet s.fEntries ⟨findName s.fNames name, sub, cycle⟩
                ⟨pos, dataBuffer.length, obj.data.length, findName s.fClassNames obj.className⟩,
              fNames := (if findName s.fNames name = s.fNames.length then s.fNames ++ [name]
                else s.fNames),
              fClassNames := (if findName s.fClassNames obj.className = s.fClassNames.length
                then s.fClassNames ++ [obj.className] else s.fClassNames),
              disk := pwrite s2.disk pos dataBuffer })) = some (b, s') := by
    rw [← hold]
    exact h
  clear h hold
  -- free space for object to be deleted
  have hA : ∃ s1, (if old.fPos > 0 then MakeFree old.fPos old.fFileLength s else some s)
      = some s1 := by
    cases hm : (if old.fPos > 0 then MakeFree old.fPos old.fFileLength s else some s) with
    | none => rw [hm] at h'; exact absurd h' (by simp)
    | some s1 => exact ⟨s1, rfl⟩
  obtain ⟨s1, hA⟩ := hA
  rw [hA] at h'
  simp only [] at h'
  have hA' : (0 < old.fPos ∧ MakeFree old.fPos old.fFileLength s = some s1) ∨
      (old.fPos = 0 ∧ s1 = s) := by
    by_cases hp : old.fPos > 0
    · rw [if_pos hp] at hA
      exact Or.inl ⟨hp, hA⟩
    · rw [if_neg hp] at hA
      simp only [Option.some.injEq] at hA
      exact Or.inr ⟨by omega, hA.symm⟩
  have hs1 : SameButTable s s1 := by
    rcases hA' with ⟨_, hm⟩ | ⟨_, hm⟩
    · exact makeFree_same hm
    · rw [hm]; exact sameButTable_refl s
  -- write obj into a buffer
  have hB : ∃ buf, (if lvl ≤ 0 ∨ obj.data.length < 256 then some obj.data
        else match Compress c lvl obj.data with
          | none => none
          | some (true, out) => some out
          | some (false, _) => some obj.data) = some buf ∧
      (((lvl ≤ 0 ∨ obj.data.length < 256) ∧ buf = obj.data) ∨
        (¬ (lvl ≤ 0 ∨ obj.data.length < 256) ∧
          (Compress c lvl obj.data = some (true, buf) ∨
            (∃ o, Compress c lvl obj.data = some (false, o)) ∧ buf = obj.data))) := by
    by_cases hc : lvl ≤ 0 ∨ obj.data.length < 256
    · exact ⟨obj.data, by rw [if_pos hc], Or.inl ⟨hc, rfl⟩⟩
    · rw [if_neg hc] at h' ⊢
      cases hcm : Compress c lvl obj.data with
      | none => rw [hcm] at h'; exact absurd h' (by simp)
      | some r =>
        obtain ⟨ok, o⟩ := r
        cases ok with
        | true => exact ⟨o, rfl, Or.inr ⟨hc, Or.inl rfl⟩⟩
        | false => exact ⟨obj.data, rfl, Or.inr ⟨hc, Or.inr ⟨⟨o, rfl⟩, rfl⟩⟩⟩
  obtain ⟨buf, hB, hB'⟩ := hB
  rw [hB] at h'
  simp only [] at h'
  -- find position in file for obj
  cases hg : GetFree buf.length { s1 with fDes3 := 8 } with
  | none => rw [hg] at h'; exact absurd h' (by simp)
  | some r =>
    obtain ⟨pos, s2⟩ := r
    rw [hg] at h'
    simp only [Option.some.injEq, Prod.mk.injEq] at h'
    obtain ⟨hb, hs'⟩ := h'
    have hs2 := getFree_same hg
    obtain ⟨a1, a2, a3, a4, a5, a6, a7⟩ := hs1
    obtain ⟨c1, c2, c3, c4, c5, c6, c7⟩ := hs2
    refine ⟨hb.symm, s1, buf, pos, s2, hA', hB', hg, ?_, ?_, ?_, ?_, ?_, ?_, ?_, ?_, ?_, ?_,
      ?_⟩
    all_goals rw [← hs']
    · show pwrite s2.disk pos buf = _
      rw [c7]; show pwrite s1.disk pos buf = _; rw [a7]
    · show s2.fDes0 = _
      rw [c4]; exact a4
    · show s2.fDes1 = _
      rw [c5]; exact a5
    · show s2.fFile = _
      rw [c6]; exact a6

/-- The members that a commit leaves as they are. -/
theorem commit_same {st : DirStreamer} {pad : Nat} {b : Bool} {s s' : TFAsroFile}
    (h : commit st pad s = some (b, s')) :
    b = true ∧ s'.fEntries = s.fEntries ∧ s'.fClassNames = s.fClassNames ∧
      s'.fNames = s.fNames ∧ s'.fFile = s.fFile := by
  unfold commit at h
  simp only [] at h
  split at h
  · exact absurd h (by simp)
  · rename_i pos s2 hg
    split at h
    · exact absurd h (by simp)
    · simp only [Option.some.injEq, Prod.mk.injEq] at h
      obtain ⟨hb, rfl⟩ := h
      obtain ⟨e1, e2, e3, _, _, e6, _⟩ := getFree_same
        (s := { s with fDes1 := (st.write s.fEntries s.fClassNames s.fNames).length,
                       fDes3 := pad }) hg
      exact ⟨hb.symm, e1, e2, e3, e6⟩

/-- The steps of a call of `Delete` that found its key. -/
theorem delete_shape {st : DirStreamer} {name sub : String} {cycle : Int}
    {s s' : TFAsroFile} (h : Delete st name sub cycle s = some (true, s')) :
    0 ≤ s.fFile ∧ findName s.fNames name < s.fNames.length ∧
    ∃ k v s1 s2 sX,
      mapFind s.fEntries ⟨findName s.fNames name, sub, cycle⟩ = some (k, v) ∧
      MakeFree s.fDes0 ((s.fDes1 + s.fDes2 + s.fDes3) % 4294967296) s = some s1 ∧
      MakeFree v.fPos v.fFileLength s1 = some s2 ∧
      ((sub = "" ∧ ∃ cols s3,
          rangeBetween
            (upper_bound (mapErase s.fEntries ⟨findName s.fNames name, sub, cycle⟩)
              ⟨findName s.fNames name, "", cycle⟩)
            (lower_bound (mapErase s.fEntries ⟨findName s.fNames name, sub, cycle⟩)
              ⟨findName s.fNames name, "", wrapInt32 (cycle + 1)⟩) = some cols ∧
          freeAll cols s2 = some s3 ∧ SameButTable s s3 ∧
          sX.fFree = s3.fFree ∧ sX.fDes2 = s3.fDes2 ∧ sX.fFreeReserve = s3.fFreeReserve ∧
          sX.fEntries =
            (mapErase s.fEntries ⟨findName s.fNames name, sub, cycle⟩).take
              ((mapErase s.fEntries ⟨findName s.fNames name, sub, cycle⟩).length -
                (upper_bound (mapErase s.fEntries ⟨findName s.fNames name, sub, cycle⟩)
                  ⟨findName s.fNames name, "", cycle⟩).length) ++
            lower_bound (mapErase s.fEntries ⟨findName s.fNames name, sub, cycle⟩)
              ⟨findName s.fNames name, "", wrapInt32 (cycle + 1)⟩) ∨
        (sub ≠ "" ∧ sX.fFree = s2.fFree ∧ sX.fDes2 = s2.fDes2 ∧
          sX.fFreeReserve = s2.fFreeReserve ∧
          sX.fEntries = mapErase s.fEntries ⟨findName s.fNames name, sub, cycle⟩)) ∧
      sX.fNames = s.fNames ∧ sX.fClassNames = s.fClassNames ∧ sX.fFile = s.fFile ∧
      commit st 16 sX = some (true, s') := by
  unfold Delete at h
  by_cases hf : s.fFile < 0
  · rw [if_pos hf] at h
    exact absurd h (by simp)
  rw [if_neg hf] at h
  by_cases hn : s.fNames.length = 0
  · rw [if_pos hn] at h
    exact absurd h (by simp)
  rw [if_neg hn] at h
  by_cases hn2 : findName s.fNames name = s.fNames.length
  · rw [if_pos hn2] at h
    exact absurd h (by simp)
  rw [if_neg hn2] at h
  simp only [] at h
  have hle := findName_le s.fNames name
  refine ⟨not_lt.mp hf, by omega, ?_⟩
  cases hm : mapFind s.fEntries ⟨findName s.fNames name, sub, cycle⟩ with
  | none => rw [hm] at h; exact absurd h (by simp)
  | some e =>
    obtain ⟨k, v⟩ := e
    rw [hm] at h
    simp only [] at h
    cases h1 : MakeFree s.fDes0 ((s.fDes1 + s.fDes2 + s.fDes3) % 4294967296) s with
    | none => rw [h1] at h; exact absurd h (by simp)
    | some s1 =>
      rw [h1] at h
      simp only [] at h
      cases h2 : MakeFree v.fPos v.fFileLength s1 with
      | none => rw [h2] at h; exact absurd h (by simp)
      | some s2 =>
        rw [h2] at h
        simp only [] at h
        have hs2 := sameButTable_trans (makeFree_same h1) (makeFree_same h2)
        by_cases hs : sub = ""
        · rw [if_pos hs] at h
          cases h3 : rangeBetween
              (upper_bound (mapErase s.fEntries ⟨findName s.fNames name, sub, cycle⟩)
                ⟨findName s.fNames name, "", cycle⟩)
              (lower_bound (mapErase s.fEntries ⟨findName s.fNames name, sub, cycle⟩)
                ⟨findName s.fNames name, "", wrapInt32 (cycle + 1)⟩) with
          | none => rw [h3] at h; exact absurd h (by simp)
          | some cols =>
            rw [h3] at h
            simp only [] at h
            cases h4 : freeAll cols s2 with
            | none => rw [h4] at h; exact absurd h (by simp)
            | some s3 =>
              rw [h4] at h
              simp only [] at h
              have hs3 := sameButTable_trans hs2 (freeAll_same cols h4)
              refine ⟨k, v, s1, s2, _, ?_, ?_, ?_, ?_, ?_, ?_, ?_, h⟩
              · rfl
              · rfl
              · exact h2
              · exact Or.inl ⟨hs, cols, s3, rfl,
                  h4, hs3, rfl, rfl, rfl, rfl⟩
              · exact hs3.2.2.1
              · exact hs3.2.1
              · exact hs3.2.2.2.2.2.1
        · rw [if_neg hs] at h
          refine ⟨k, v, s1, s2, _, ?_, ?_, ?_, ?_, ?_, ?_, ?_, h⟩
          · rfl
          · rfl
          · exact h2
          · exact Or.inr ⟨hs, rfl, rfl, rfl, rfl⟩
          · exact hs2.2.2.1
          · exact hs2.2.1
          · exact hs2.2.2.2.2.2.1

theorem findName_eq_length_iff (l : List String) (x : String) :
    findName l x = l.length ↔ x ∉ l := by
  induction l with
  | nil => simp [findName]
  | cons n rest ih =>
    unfold findName
    by_cases h : n = x
    · rw [if_pos h]
      simp [h]
    · rw [if_neg h, List.length_cons, List.mem_cons, not_or]
      constructor
      · intro h1
        exact ⟨fun e => h e.symm, ih.mp (by omega)⟩
      · rintro ⟨_, h2⟩
        rw [ih.mpr h2]

theorem mapFind_mapSet_ne (m : Entries) (key k : TFAsroKey) (v : TFAsroValue)
    (h : EntriesSorted m) (hk : k ≠ key) : mapFind (mapSet m key v) k = mapFind m k := by
  apply Option.ext
  intro e
  rw [Option.mem_def, Option.mem_def, mapFind_some _ _ _ (mapSet_sorted m key v h),
    mapFind_some _ _ _ h, mem_mapSet _ _ _ h]
  constructor
  · rintro ⟨h1 | ⟨h1, _⟩, h2⟩
    · rw [h1] at h2
      exact absurd h2.symm hk
    · exact ⟨h1, h2⟩
  · rintro ⟨h1, h2⟩
    exact ⟨Or.inr ⟨h1, by rw [h2]; exact hk⟩, h2⟩

theorem length_mapSet (m : Entries) (key : TFAsroKey) (v : TFAsroValue)
    (h : EntriesSorted m) :
    (mapFind m key = none → (mapSet m key v).length = m.length + 1) ∧
    (mapFind m key ≠ none → (mapSet m key v).length = m.length) := by
  rcases map_split m key h with ⟨h1, tw, tl, h2, h3⟩ | ⟨w, tw, tl, h1, h2, h3, _⟩
  · refine ⟨fun _ => ?_, fun hne => absurd h1 hne⟩
    rw [h3 v]
    conv_rhs => rw [h2]
    simp only [List.length_append, List.length_cons]
    omega
  · refine ⟨fun hn => ?_, fun _ => ?_⟩
    · rw [h1] at hn
      exact absurd hn (by simp)
    · rw [h3 v]
      conv_rhs => rw [h2]
      simp

theorem write_open {c : Codec} {obj : TObject} {lvl : Int} {name sub : String} {cycle : Int}
    {s s' : TFAsroFile} (h : Write c obj lvl name sub cycle s = some (true, s')) :
    0 ≤ s.fFile := by
  by_contra hf
  unfold Write at h
  rw [if_pos (not_le.mp hf)] at h
  exact absurd h (by simp)

/-- C13: after a call `Write(obj, level, name, sub, cycle)` that returned `true` on a
directory in key order, the directory maps the key `(id(name), sub, cycle)` to the record
(offset that `GetFree` returned for the on-disk length, on-disk length, logical length,
id(class name)); `names[id(name)] = name` and `classNames[id(class name)] = class name`,
each name being appended to its table only if it was not in it; the number of entries
grows by one if the key was new and is unchanged otherwise; every other key has the record
it had.  The offset is requested after the span of an old record of the key has been
released. -/
theorem C13_write_upserts (c : Codec) (obj : TObject) (compLevel : Int)
    (name subName : String) (cycle : Int) (s s' : TFAsroFile)
    (hsorted : EntriesSorted s.fEntries)
    (h : Write c obj compLevel name subName cycle s = some (true, s')) :
    ∃ (pos : Nat) (buf : List Nat) (s1 s2 : TFAsroFile),
      ((0 < (oldRecord s.fEntries ⟨findName s.fNames name, subName, cycle⟩).fPos ∧
          MakeFree (oldRecord s.fEntries ⟨findName s.fNames name, subName, cycle⟩).fPos
            (oldRecord s.fEntries ⟨findName s.fNames name, subName, cycle⟩).fFileLength s
            = some s1) ∨
        ((oldRecord s.fEntries ⟨findName s.fNames name, subName, cycle⟩).fPos = 0 ∧ s1 = s)) ∧
      GetFree buf.length { s1 with fDes3 := 8 } = some (pos, s2) ∧
      mapFind s'.fEntries ⟨findName s.fNames name, subName, cycle⟩
        = some (⟨findName s.fNames name, subName, cycle⟩,
            ⟨pos, buf.length, obj.data.length, findName s.fClassNames obj.className⟩) ∧
      s'.fNames.getD (findName s.fNames name) "" = name ∧
      s'.fClassNames.getD (findName s.fClassNames obj.className) "" = obj.className ∧
      (name ∈ s.fNames → s'.fNames = s.fNames) ∧
      (name ∉ s.fNames → s'.fNames = s.fNames ++ [name]) ∧
      (obj.className ∈ s.fClassNames → s'.fClassNames = s.fClassNames) ∧
      (obj.className ∉ s.fClassNames → s'.fClassNames = s.fClassNames ++ [obj.className]) ∧
      (mapFind s.fEntries ⟨findName s.fNames name, subName, cycle⟩ = none →
        s'.fEntries.length = s.fEntries.length + 1) ∧
      (mapFind s.fEntries ⟨findName s.fNames name, subName, cycle⟩ ≠ none →
        s'.fEntries.length = s.fEntries.length) ∧
      ∀ k, k ≠ (⟨findName s.fNames name, subName, cycle⟩ : TFAsroKey) →
        mapFind s'.fEntries k = mapFind s.fEntries k := by
  obtain ⟨_, s1, buf, pos, s2, hrel, _, hg, he, hn, hc, _⟩ := write_shape (write_open h) h
  obtain ⟨_, _, i3⟩ := findName_intern s.fNames name
  obtain ⟨_, _, j3⟩ := findName_intern s.fClassNames obj.className
  have hl := length_mapSet s.fEntries ⟨findName s.fNames name, subName, cycle⟩
    ⟨pos, buf.length, obj.data.length, findName s.fClassNames obj.className⟩ hsorted
  refine ⟨pos, buf, s1, s2, hrel, hg, ?_, ?_, ?_, ?_, ?_, ?_, ?_, ?_, ?_, ?_⟩
  · rw [he]; exact mapFind_mapSet _ _ _ hsorted
  · rw [hn]; exact i3
  · rw [hc]; exact j3
  · intro hm
    rw [hn, if_neg (fun e => (findName_eq_length_iff _ _).mp e hm)]
  · intro hm
    rw [hn, if_pos ((findName_eq_length_iff _ _).mpr hm)]
  · intro hm
    rw [hc, if_neg (fun e => (findName_eq_length_iff _ _).mp e hm)]
  · intro hm
    rw [hc, if_pos ((findName_eq_length_iff _ _).mpr hm)]
  · rw [he]; exact hl.1
  · rw [he]; exact hl.2
  · intro k hk
    rw [he]
    exact mapFind_mapSet_ne _ _ _ _ hsorted hk

/-- Witness of C13: the first `Write` into a new file. -/
theorem C13_write_upserts_witness :
    EntriesSorted sampleFile1.fEntries ∧
    Write sampleCodec sampleObject 0 "a" "" 1 sampleFile1 = some (true, sampleFile2) ∧
    ∃ (pos : Nat) (buf : List Nat) (s1 s2 : TFAsroFile),
      ((0 < (oldRecord sampleFile1.fEntries ⟨findName sampleFile1.fNames "a", "", 1⟩).fPos ∧
          MakeFree (oldRecord sampleFile1.fEntries ⟨findName sampleFile1.fNames "a", "", 1⟩).fPos
            (oldRecord sampleFile1.fEntries
              ⟨findName sampleFile1.fNames "a", "", 1⟩).fFileLength sampleFile1
            = some s1) ∨
        ((oldRecord sampleFile1.fEntries ⟨findName sampleFile1.fNames "a", "", 1⟩).fPos = 0 ∧
          s1 = sampleFile1)) ∧
      GetFree buf.length { s1 with fDes3 := 8 } = some (pos, s2) ∧
      mapFind sampleFile2.fEntries ⟨findName sampleFile1.fNames "a", "", 1⟩
        = some (⟨findName sampleFile1.fNames "a", "", 1⟩,
            ⟨pos, buf.length, sampleObject.data.length,
              findName sampleFile1.fClassNames sampleObject.className⟩) ∧
      sampleFile2.fNames.getD (findName sampleFile1.fNames "a") "" = "a" ∧
      sampleFile2.fClassNames.getD (findName sampleFile1.fClassNames sampleObject.className) ""
        = sampleObject.className ∧
      ("a" ∈ sampleFile1.fNames → sampleFile2.fNames = sampleFile1.fNames) ∧
      ("a" ∉ sampleFile1.fNames → sampleFile2.fNames = sampleFile1.fNames ++ ["a"]) ∧
      (sampleObject.className ∈ sampleFile1.fClassNames →
        sampleFile2.fClassNames = sampleFile1.fClassNames) ∧
      (sampleObject.className ∉ sampleFile1.fClassNames →
        sampleFile2.fClassNames = sampleFile1.fClassNames ++ [sampleObject.className]) ∧
      (mapFind sampleFile1.fEntries ⟨findName sampleFile1.fNames "a", "", 1⟩ = none →
        sampleFile2.fEntries.length = sampleFile1.fEntries.length + 1) ∧
      (mapFind sampleFile1.fEntries ⟨findName sampleFile1.fNames "a", "", 1⟩ ≠ none →
        sampleFile2.fEntries.length = sampleFile1.fEntries.length) ∧
      ∀ k, k ≠ (⟨findName sampleFile1.fNames "a", "", 1⟩ : TFAsroKey) →
        mapFind sampleFile2.fEntries k = mapFind sampleFile1.fEntries k :=
  ⟨List.Pairwise.nil, sample_write,
    C13_write_upserts sampleCodec sampleObject 0 "a" "" 1 sampleFile1 sampleFile2
      List.Pairwise.nil sample_write⟩

/-- Below the threshold `Write` does not depend on the codec. -/
theorem write_raw_eq (c c' : Codec) (obj : TObject) (lvl : Int) (name sub : String)
    (cycle : Int) (s : TFAsroFile) (hc : lvl ≤ 0 ∨ obj.data.length < 256) :
    Write c obj lvl name sub cycle s = Write c' obj lvl name sub cycle s := by
  unfold Write
  simp only [if_pos hc]

/-- C15: `Write` consults the codec iff the level is positive and the payload has at least
256 bytes.  For a level `≤ 0` or a payload shorter than 256 bytes the call gives the same
result with every codec, the raw payload is stored and the record has on-disk length =
logical length = payload length.  For a positive level and at least 256 bytes the result
of `Compress` decides what is stored: its output when it returns true, the raw payload
when it returns false. -/
theorem C15_compression_threshold (c : Codec) (obj : TObject) (compLevel : Int)
    (name subName : String) (cycle : Int) (s s' : TFAsroFile)
    (hsorted : EntriesSorted s.fEntries)
    (h : Write c obj compLevel name subName cycle s = some (true, s')) :
    ((compLevel ≤ 0 ∨ obj.data.length < 256) →
      (∀ c', Write c' obj compLevel name subName cycle s = some (true, s')) ∧
      ∃ pos, mapFind s'.fEntries ⟨findName s.fNames name, subName, cycle⟩
          = some (⟨findName s.fNames name, subName, cycle⟩,
              ⟨pos, obj.data.length, obj.data.length,
                findName s.fClassNames obj.className⟩) ∧
        s'.disk = pwrite s.disk pos obj.data) ∧
    ((0 < compLevel ∧ 256 ≤ obj.data.length) →
      ∃ ok out pos, Compress c compLevel obj.data = some (ok, out) ∧
        (ok = true →
          mapFind s'.fEntries ⟨findName s.fNames name, subName, cycle⟩
            = some (⟨findName s.fNames name, subName, cycle⟩,
                ⟨pos, out.length, obj.data.length, findName s.fClassNames obj.className⟩) ∧
          s'.disk = pwrite s.disk pos out) ∧
        (ok = false →
          mapFind s'.fEntries ⟨findName s.fNames name, subName, cycle⟩
            = some (⟨findName s.fNames name, subName, cycle⟩,
                ⟨pos, obj.data.length, obj.data.length,
                  findName s.fClassNames obj.className⟩) ∧
          s'.disk = pwrite s.disk pos obj.data)) := by
  obtain ⟨_, s1, buf, pos, s2, _, hbuf, _, he, _, _, hd, _⟩ := write_shape (write_open h) h
  have hrec : mapFind s'.fEntries ⟨findName s.fNames name, subName, cycle⟩
      = some (⟨findName s.fNames name, subName, cycle⟩,
          ⟨pos, buf.length, obj.data.length, findName s.fClassNames obj.className⟩) := by
    rw [he]; exact mapFind_mapSet _ _ _ hsorted
  constructor
  · intro hc
    refine ⟨fun c' => by rw [← write_raw_eq c c' obj compLevel name subName cycle s hc]; exact h,
      pos, ?_⟩
    rcases hbuf with ⟨_, hb⟩ | ⟨hn, _⟩
    · rw [hb] at hrec hd
      exact ⟨hrec, hd⟩
    · exact absurd hc hn
  · rintro ⟨h1, h2⟩
    rcases hbuf with ⟨hc, _⟩ | ⟨_, hb | ⟨⟨o, ho⟩, hb⟩⟩
    · exact absurd hc (by omega)
    · exact ⟨true, buf, pos, hb, fun _ => ⟨hrec, hd⟩, fun hk => absurd hk (by decide)⟩
    · rw [hb] at hrec hd
      exact ⟨false, o, pos, ho, fun hk => absurd hk (by decide), fun _ => ⟨hrec, hd⟩⟩

/-- Witness of C15: three bytes at level 0 with `sampleCodec`, and the 256 bytes of
`echoData` at level 1 with `shrinkCodec`. -/
theorem C15_compression_threshold_witness :
    (∀ c', Write c' sampleObject 0 "a" "" 1 sampleFile1 = some (true, sampleFile2)) ∧
    (∃ ok out pos, Compress shrinkCodec 1 echoObject.data = some (ok, out) ∧
      (ok = true →
        mapFind shrinkFile2.fEntries ⟨findName sampleFile1.fNames "a", "", 1⟩
          = some (⟨findName sampleFile1.fNames "a", "", 1⟩,
              ⟨pos, out.length, echoObject.data.length,
                findName sampleFile1.fClassNames echoObject.className⟩) ∧
        shrinkFile2.disk = pwrite sampleFile1.disk pos out) ∧
      (ok = false →
        mapFind shrinkFile2.fEntries ⟨findName sampleFile1.fNames "a", "", 1⟩
          = some (⟨findName sampleFile1.fNames "a", "", 1⟩,
              ⟨pos, echoObject.data.length, echoObject.data.length,
                findName sampleFile1.fClassNames echoObject.className⟩) ∧
        shrinkFile2.disk = pwrite sampleFile1.disk pos echoObject.data)) :=
  ⟨((C15_compression_threshold sampleCodec sampleObject 0 "a" "" 1 sampleFile1 sampleFile2
      List.Pairwise.nil sample_write).1 (Or.inl (le_refl _))).1,
    (C15_compression_threshold shrinkCodec echoObject 1 "a" "" 1 sampleFile1 shrinkFile2
      List.Pairwise.nil shrink_write).2
      ⟨by decide, by rw [show echoObject.data.length = 256 from echoData_length]⟩⟩

theorem namesKept_of_eq {s s' : TFAsroFile} (h1 : s'.fNames = s.fNames)
    (h2 : s'.fClassNames = s.fClassNames) : NamesKept s s' := by
  unfold NamesKept
  rw [h1, h2]
  exact ⟨List.prefix_refl _, List.prefix_refl _⟩

theorem prefix_intern (l : List String) (x : String) :
    l <+: (if findName l x = l.length then l ++ [x] else l) := by
  split_ifs
  · exact List.prefix_append _ _
  · exact List.prefix_refl _

theorem getD_of_prefix {l l' : List String} (h : l <+: l') (i : Nat) (hi : i < l.length) :
    l'.getD i "" = l.getD i "" := by
  obtain ⟨t, rfl⟩ := h
  exact List.getD_append _ _ _ _ hi

theorem delete_false {st : DirStreamer} {name sub : String} {cycle : Int}
    {s s' : TFAsroFile} (h : Delete st name sub cycle s = some (false, s')) : s' = s := by
  unfold Delete at h
  simp only [] at h
  repeat' split at h
  all_goals
    first
    | (simp only [Option.some.injEq, Prod.mk.injEq, true_and] at h; exact h.symm)
    | exact absurd (commit_same h).1 (by decide)
    | exact Option.noConfusion h

/-- C17: the name tables are append-only.  Each of `Write`, `Delete`, `GetFreeCycle`,
`InitWrite` and `FinishWrite` leaves the table of names and the table of class names with
their previous contents as a prefix of the new contents, so that every index keeps
denoting the same string. -/
theorem C17_names_append_only (st : DirStreamer) (c : Codec) (obj : TObject)
    (compLevel : Int) (name subName : String) (cycle : Int) (s : TFAsroFile) :
    (∀ b s', Write c obj compLevel name subName cycle s = some (b, s') → NamesKept s s') ∧
    (∀ b s', Delete st name subName cycle s = some (b, s') → NamesKept s s') ∧
    NamesKept s (GetFreeCycle name s).2 ∧
    (∀ b s', InitWrite s = some (b, s') → NamesKept s s') ∧
    (∀ b s', FinishWrite st s = some (b, s') → NamesKept s s') ∧
    (∀ s', NamesKept s s' →
      (∀ i, i < s.fNames.length → s'.fNames.getD i "" = s.fNames.getD i "") ∧
      (∀ i, i < s.fClassNames.length → s'.fClassNames.getD i "" = s.fClassNames.getD i "")) := by
  refine ⟨?_, ?_, ?_, ?_, ?_, ?_⟩
  · intro b s' h
    by_cases hf : s.fFile < 0
    · unfold Write at h
      rw [if_pos hf] at h
      simp only [Option.some.injEq, Prod.mk.injEq] at h
      rw [← h.2]
      exact namesKept_of_eq rfl rfl
    · obtain ⟨_, s1, buf, pos, s2, _, _, _, _, hn, hc, _⟩ := write_shape (not_lt.mp hf) h
      unfold NamesKept
      rw [hn, hc]
      exact ⟨prefix_intern _ _, prefix_intern _ _⟩
  · intro b s' h
    cases b with
    | false =>
      rw [delete_false h]
      exact namesKept_of_eq rfl rfl
    | true =>
      obtain ⟨_, _, k, v, s1, s2, sX, _, _, _, _, hn, hc, _, hcm⟩ := delete_shape h
      obtain ⟨_, _, c2, c3, _⟩ := commit_same hcm
      exact namesKept_of_eq (c3.trans hn) (c2.trans hc)
  · exact ⟨prefix_intern _ _, List.prefix_refl _⟩
  · intro b s' h
    unfold InitWrite at h
    by_cases hf : s.fFile < 0
    · rw [if_pos hf] at h
      simp only [Option.some.injEq, Prod.mk.injEq] at h
      rw [← h.2]
      exact namesKept_of_eq rfl rfl
    · rw [if_neg hf] at h
      cases hm : MakeFree s.fDes0 ((s.fDes1 + s.fDes2 + s.fDes3) % 4294967296) s with
      | none => rw [hm] at h; exact absurd h (by simp)
      | some s1 =>
        rw [hm] at h
        simp only [Option.some.injEq, Prod.mk.injEq] at h
        obtain ⟨_, e2, e3, _⟩ := makeFree_same hm
        rw [← h.2]
        exact namesKept_of_eq e3 e2
  · intro b s' h
    unfold FinishWrite at h
    by_cases hf : s.fFile < 0
    · rw [if_pos hf] at h
      simp only [Option.some.injEq, Prod.mk.injEq] at h
      rw [← h.2]
      exact namesKept_of_eq rfl rfl
    · rw [if_neg hf] at h
      obtain ⟨_, _, c2, c3, _⟩ := commit_same h
      exact namesKept_of_eq c3 c2
  · intro s' h
    exact ⟨fun i hi => getD_of_prefix h.1 i hi, fun i hi => getD_of_prefix h.2 i hi⟩

/-- Witness of C17: the sample run; after `Delete("a", "", 1)` the directory is empty and
both tables still hold their names. -/
theorem C17_names_append_only_witness :
    NamesKept sampleFile1 sampleFile2 ∧ NamesKept sampleFile3 sampleFile4 ∧
    sampleFile4.fEntries = [] ∧ sampleFile4.fNames = ["a"] ∧
    sampleFile4.fClassNames = ["TNamed"] :=
  ⟨(C17_names_append_only sampleStreamer sampleCodec sampleObject 0 "a" "" 1 sampleFile1).1
      true sampleFile2 sample_write,
    (C17_names_append_only sampleStreamer sampleCodec sampleObject 0 "a" "" 1 sampleFile3).2.1
      true sampleFile4 sample_delete, rfl, rfl, rfl⟩

theorem removed_iff_range (N : Nat) (V : Int) (e : TFAsroKey × TFAsroValue)
    (h1 : -2147483648 ≤ V) (h2 : V < 2147483647) (hne : e.1 ≠ ⟨N, "", V⟩) :
    removedByDelete N "" V e
      = (TFAsroKey.lt ⟨N, "", V⟩ e.1 && e.1.lt ⟨N, "", wrapInt32 (V + 1)⟩) := by
  have hk := key_range_iff' N V e.1 h1 h2
  rw [Bool.eq_iff_iff]
  unfold removedByDelete
  simp only [Bool.or_eq_true, Bool.and_eq_true, decide_eq_true_eq, true_and]
  rw [hk]
  constructor
  · rintro (h | ⟨h3, h4⟩)
    · exact absurd h hne
    · refine ⟨h3, h4, ?_⟩
      intro hs
      exact hne (key_ext h3 h4 hs)
  · rintro ⟨h3, h4, _⟩
    exact Or.inr ⟨h3, h4⟩

theorem filter_split_mid {α : Type} (p : α → Bool) (tw tl : List α) (x : α) :
    (tw ++ x :: tl).filter p = tw.filter p ++ (if p x then [x] else []) ++ tl.filter p := by
  rw [List.filter_append, List.filter_cons]
  split_ifs <;> simp

/-- The entries of the directory and the calls of `MakeFree` of a successful `Delete`. -/
theorem delete_entries {st : DirStreamer} {name sub : String} {cycle : Int}
    {s s' : TFAsroFile} (hsorted : EntriesSorted s.fEntries)
    (hc1 : -2147483648 ≤ cycle) (hc2 : cycle < 2147483647)
    (h : Delete st name sub cycle s = some (true, s')) :
    ∃ s1 sF,
      MakeFree s.fDes0 ((s.fDes1 + s.fDes2 + s.fDes3) % 4294967296) s = some s1 ∧
      freeAll (s.fEntries.filter (removedByDelete (findName s.fNames name) sub cycle)) s1
        = some sF ∧
      (∃ v, (⟨findName s.fNames name, sub, cycle⟩, v) ∈
        s.fEntries.filter (removedByDelete (findName s.fNames name) sub cycle)) ∧
      s'.fEntries
        = s.fEntries.filter (fun e => !removedByDelete (findName s.fNames name) sub cycle e) ∧
      s'.fNames = s.fNames ∧ s'.fClassNames = s.fClassNames ∧
      ∃ sX, sX.fFree = sF.fFree ∧ sX.fDes2 = sF.fDes2 ∧ sX.fFreeReserve = sF.fFreeReserve ∧
        commit st 16 sX = some (true, s') := by
  obtain ⟨_, _, k, v, s1, s2, sX, hfind, hm1, hm2, hcase, hn, hcn, _, hcm⟩ := delete_shape h
  obtain ⟨_, ce, cc, cn, _⟩ := commit_same hcm
  rcases map_split s.fEntries ⟨findName s.fNames name, sub, cycle⟩ hsorted with
    ⟨h0, _⟩ | ⟨v', tw, tl, hf', hm, _, herase⟩
  · rw [h0] at hfind
    exact absurd hfind (by simp)
  rw [hf'] at hfind
  simp only [Option.some.injEq, Prod.mk.injEq] at hfind
  obtain ⟨_, rfl⟩ := hfind
  have hE1 : ∀ e ∈ tw ++ tl, e ∈ s.fEntries ∧
      e.1 ≠ (⟨findName s.fNames name, sub, cycle⟩ : TFAsroKey) := by
    intro e he
    rw [← herase, mem_mapErase _ _ hsorted] at he
    exact he
  have hself : removedByDelete (findName s.fNames name) sub cycle
      (⟨findName s.fNames name, sub, cycle⟩, v') = true := by
    unfold removedByDelete
    simp
  have hvmem : (⟨findName s.fNames name, sub, cycle⟩, v') ∈
      s.fEntries.filter (removedByDelete (findName s.fNames name) sub cycle) := by
    rw [List.mem_filter]
    exact ⟨by rw [hm]; simp, hself⟩
  refine ⟨s1, ?_⟩
  rw [ce, cn.trans hn, cc.trans hcn]
  rcases hcase with ⟨hs, cols, s3, hrb, hfa, _, hX1, hX2, hX3, hent⟩ | ⟨hs, hX1, hX2, hX3, hent⟩
  · -- the table and all its columns
    subst hs
    have hso1 : EntriesSorted (tw ++ tl) := by
      rw [← herase]; exact mapErase_sorted _ _ hsorted
    have hub := upper_range (tw ++ tl) ⟨findName s.fNames name, "", cycle⟩
      ⟨findName s.fNames name, "", wrapInt32 (cycle + 1)⟩ hso1 (key_le_succ _ _ hc1 hc2)
    have hpre : (tw ++ tl).take ((tw ++ tl).length -
        (upper_bound (tw ++ tl) ⟨findName s.fNames name, "", cycle⟩).length)
        = (tw ++ tl).takeWhile
          (fun e => !(TFAsroKey.lt ⟨findName s.fNames name, "", cycle⟩ e.1)) :=
      take_sub_dropWhile _ _
    have hE : (tw ++ tl).takeWhile
          (fun e => !(TFAsroKey.lt ⟨findName s.fNames name, "", cycle⟩ e.1)) ++
        upper_bound (tw ++ tl) ⟨findName s.fNames name, "", cycle⟩ = tw ++ tl :=
      List.takeWhile_append_dropWhile _ _
    have hpm : ∀ e ∈ (tw ++ tl).takeWhile
        (fun e => !(TFAsroKey.lt ⟨findName s.fNames name, "", cycle⟩ e.1)),
        TFAsroKey.lt ⟨findName s.fNames name, "", cycle⟩ e.1 = false := by
      intro e he
      have := List.mem_takeWhile_imp
        (p := fun e : TFAsroKey × TFAsroValue =>
          !(TFAsroKey.lt ⟨findName s.fNames name, "", cycle⟩ e.1)) he
      simpa using this
    have hlb := lower_bound_eq_filter (tw ++ tl)
      ⟨findName s.fNames name, "", wrapInt32 (cycle + 1)⟩ hso1
    rw [herase, hpre] at hent
    rw [herase, hub, rangeBetween_append] at hrb
    simp only [Option.some.injEq] at hrb
    rw [hub] at hE
    -- the removed entries of the directory without the entry of the key
    have hcong : (tw ++ tl).filter (removedByDelete (findName s.fNames name) "" cycle)
        = (tw ++ tl).filter (fun e =>
          TFAsroKey.lt ⟨findName s.fNames name, "", cycle⟩ e.1 &&
            e.1.lt ⟨findName s.fNames name, "", wrapInt32 (cycle + 1)⟩) := by
      apply List.filter_congr
      intro e he
      exact removed_iff_range _ _ e hc1 hc2 (hE1 e he).2
    have htw : ∀ e ∈ tw, removedByDelete (findName s.fNames name) "" cycle e = false := by
      intro e he
      have hlt : e.1.lt ⟨findName s.fNames name, "", cycle⟩ = true := by
        have hp : EntriesSorted (tw ++ (⟨findName s.fNames name, "", cycle⟩, v') :: tl) := by
          rw [← hm]; exact hsorted
        exact (List.pairwise_append.mp hp).2.2 e he _ (List.mem_cons_self _ _)
      rw [removed_iff_range _ _ e hc1 hc2 (hE1 e (List.mem_append_left _ he)).2,
        lt_asymm_key hlt]
      rfl
    have hrem : s.fEntries.filter (removedByDelete (findName s.fNames name) "" cycle)
        = (⟨findName s.fNames name, "", cycle⟩, v') :: cols := by
      have e1 : tw.filter (removedByDelete (findName s.fNames name) "" cycle) = [] :=
        List.filter_eq_nil_iff.mpr (fun e he => by rw [htw e he]; decide)
      have e2 := hcong
      rw [List.filter_append, e1, List.nil_append] at e2
      rw [hm, filter_split_mid, e1, if_pos hself, e2, hrb]
      rfl
    have hkeep : s.fEntries.filter (fun e =>
          !removedByDelete (findName s.fNames name) "" cycle e)
        = (tw ++ tl).takeWhile
            (fun e => !(TFAsroKey.lt ⟨findName s.fNames name, "", cycle⟩ e.1)) ++
          lower_bound (tw ++ tl) ⟨findName s.fNames name, "", wrapInt32 (cycle + 1)⟩ := by
      have e0 : s.fEntries.filter (fun e =>
            !removedByDelete (findName s.fNames name) "" cycle e)
          = (tw ++ tl).filter (fun e =>
            !removedByDelete (findName s.fNames name) "" cycle e) := by
        rw [hm, filter_split_mid, List.filter_append, hself]
        simp
      rw [e0]
      conv_lhs => rw [← hE]
      rw [List.filter_append, List.filter_append]
      have f1 : ((tw ++ tl).takeWhile
          (fun e => !(TFAsroKey.lt ⟨findName s.fNames name, "", cycle⟩ e.1))).filter
          (fun e => !removedByDelete (findName s.fNames name) "" cycle e)
          = (tw ++ tl).takeWhile
            (fun e => !(TFAsroKey.lt ⟨findName s.fNames name, "", cycle⟩ e.1)) := by
        rw [List.filter_eq_self]
        intro e he
        have hin : e ∈ tw ++ tl := by rw [← hE]; exact List.mem_append_left _ he
        rw [removed_iff_range _ _ e hc1 hc2 (hE1 e hin).2, hpm e he]
        rfl
      have f2 : ((tw ++ tl).filter (fun e =>
            TFAsroKey.lt ⟨findName s.fNames name, "", cycle⟩ e.1 &&
              e.1.lt ⟨findName s.fNames name, "", wrapInt32 (cycle + 1)⟩)).filter
          (fun e => !removedByDelete (findName s.fNames name) "" cycle e) = [] := by
        rw [List.filter_eq_nil_iff]
        intro e he
        rw [List.mem_filter] at he
        rw [removed_iff_range _ _ e hc1 hc2 (hE1 e he.1).2, he.2]
        decide
      have f3 : (lower_bound (tw ++ tl)
            ⟨findName s.fNames name, "", wrapInt32 (cycle + 1)⟩).filter
          (fun e => !removedByDelete (findName s.fNames name) "" cycle e)
          = lower_bound (tw ++ tl) ⟨findName s.fNames name, "", wrapInt32 (cycle + 1)⟩ := by
        rw [List.filter_eq_self]
        intro e he
        rw [hlb, List.mem_filter] at he
        have h3 : e.1.lt ⟨findName s.fNames name, "", wrapInt32 (cycle + 1)⟩ = false := by
          simpa using he.2
        rw [removed_iff_range _ _ e hc1 hc2 (hE1 e he.1).2, h3, Bool.and_false]
        rfl
      rw [f1, f2, f3, List.nil_append]
    refine ⟨s3, hm1, ?_, ⟨v', hvmem⟩, ?_, rfl, rfl, sX, hX1, hX2, hX3, hcm⟩
    · rw [hrem]
      show (match MakeFree v'.fPos v'.fFileLength s1 with
        | none => none
        | some s1 => freeAll cols s1) = some s3
      rw [hm2]
      exact hfa
    · rw [hent, hkeep]
  · -- one entry
    have hno : ∀ e ∈ tw ++ tl, removedByDelete (findName s.fNames name) sub cycle e = false := by
      intro e he
      unfold removedByDelete
      simp [(hE1 e he).2, hs]
    have e1 : tw.filter (removedByDelete (findName s.fNames name) sub cycle) = [] :=
      List.filter_eq_nil_iff.mpr
        (fun e he => by rw [hno e (List.mem_append_left _ he)]; decide)
    have e2 : tl.filter (removedByDelete (findName s.fNames name) sub cycle) = [] :=
      List.filter_eq_nil_iff.mpr
        (fun e he => by rw [hno e (List.mem_append_right _ he)]; decide)
    have hrem : s.fEntries.filter (removedByDelete (findName s.fNames name) sub cycle)
        = [(⟨findName s.fNames name, sub, cycle⟩, v')] := by
      rw [hm, filter_split_mid, e1, e2, if_pos hself]
      rfl
    have hkeep : s.fEntries.filter (fun e =>
          !removedByDelete (findName s.fNames name) sub cycle e) = tw ++ tl := by
      have f : (tw ++ tl).filter (fun e =>
          !removedByDelete (findName s.fNames name) sub cycle e) = tw ++ tl := by
        rw [List.filter_eq_self]
        intro e he
        rw [hno e he]
        rfl
      rw [hm, filter_split_mid, hself]
      rw [List.filter_append] at f
      simpa using f
    refine ⟨s2, hm1, ?_, ⟨v', hvmem⟩, ?_, rfl, rfl, sX, hX1, hX2, hX3, hcm⟩
    · rw [hrem]
      show (match MakeFree v'.fPos v'.fFileLength s1 with
        | none => none
        | some s1 => freeAll [] s1) = some s2
      rw [hm2]
      rfl
    · rw [hent, herase, hkeep]

theorem occ_records_filter (a : Nat) (p : TFAsroKey × TFAsroValue → Bool) (m : Entries) :
    occ a (recordSpans m)
      = occ a (recordSpans (m.filter p)) + occ a (recordSpans (m.filter (fun e => !p e))) := by
  induction m with
  | nil => rfl
  | cons e m ih =>
    have hc : ∀ l : Entries, occ a (recordSpans (e :: l))
        = occ a (recordSpans l) + occ a [(e.2.fPos, e.2.fFileLength)] := by
      intro l
      have := occ_records_mid a [] l e
      simpa using this
    rw [hc, ih, List.filter_cons, List.filter_cons]
    cases hp : p e
    · simp only [Bool.false_eq_true, if_false, Bool.not_false, if_true]
      rw [hc]; omega
    · simp only [if_true, Bool.not_true, Bool.false_eq_true, if_false]
      rw [hc]; omega

set_option maxRecDepth 100000 in
theorem table_delete :
    Delete sampleStreamer "a" "" 1 tableFile = some (true, tableFile2) := by decide

theorem tableFile_sorted : EntriesSorted tableFile.fEntries := by
  unfold EntriesSorted
  decide

theorem tableFile_inv : CommittedInv tableFile := by
  have hfl : freeList tableFile = [(59, 4294967236)] := rfl
  refine ⟨⟨by decide, ⟨⟨rfl, rfl, by decide, [], rfl⟩, ?_⟩,
    ⟨(59, 4294967236), rfl, by decide, by decide⟩, tableFile_sorted, by decide⟩, ?_,
    by decide, by decide⟩
  · rw [hfl]
    unfold FreeWF
    decide
  · intro a
    rw [hfl]
    show occ a [(24, 3), (27, 2), (29, 1), (30, 4)] + occ a [(34, 25)] +
      occ a [(59, 4294967236)] = inFile a
    simp only [occ_cons, occ_nil, inFile]
    split_ifs <;> omega

/-- Claim C12.  A successful `Delete(name, sub, cycle)` with a version below `2^31 - 1`
on a directory in key order: the key was in the directory; the directory afterwards is the
old one without the entry of the key and, iff `sub` is empty, without the other entries of
the same name-id and version, so every other entry is still there with its record;
`MakeFree` is called for the span of the old descriptor and then for the span of every
removed entry, and in a committed file with room for the growth of the free table the free
list after these calls covers what it covered before, the span of the old descriptor and
the spans of the removed entries.  The commit that ends `Delete` runs on that free table and
takes the span of the new descriptor from it. -/
theorem C12_delete_cascade (st : DirStreamer) (name sub : String) (cycle : Int)
    (s s' : TFAsroFile) (hsorted : EntriesSorted s.fEntries)
    (hc1 : -2147483648 ≤ cycle) (hc2 : cycle < 2147483647)
    (h : Delete st name sub cycle s = some (true, s')) :
    (∃ v, (⟨findName s.fNames name, sub, cycle⟩, v) ∈ s.fEntries) ∧
    s'.fEntries
      = s.fEntries.filter (fun e => !removedByDelete (findName s.fNames name) sub cycle e) ∧
    ∃ s1 sF sX,
      MakeFree s.fDes0 ((s.fDes1 + s.fDes2 + s.fDes3) % 4294967296) s = some s1 ∧
      freeAll (s.fEntries.filter (removedByDelete (findName s.fNames name) sub cycle)) s1
        = some sF ∧
      sX.fFree = sF.fFree ∧ sX.fDes2 = sF.fDes2 ∧ sX.fFreeReserve = sF.fFreeReserve ∧
      commit st 16 sX = some (true, s') ∧
      (CommittedInv s → s.fFreeReserve + 400 * (s.fEntries.length + 2) < 4294967296 →
        ∀ a, occ a (freeList sF) = occ a (freeList s) + occ a [desSpan s] +
          occ a (recordSpans
            (s.fEntries.filter (removedByDelete (findName s.fNames name) sub cycle)))) := by
  obtain ⟨s1, sF, hm1, hfa, ⟨v, hv⟩, hent, _, _, sX, hX1, hX2, hX3, hcm⟩ :=
    delete_entries hsorted hc1 hc2 h
  refine ⟨⟨v, (List.mem_filter.mp hv).1⟩, hent, s1, sF, sX, hm1, hfa, hX1, hX2, hX3, hcm, ?_⟩
  intro hinv hroom a
  obtain ⟨⟨_, hti, htop, _, hpo⟩, hcov, hd1, hd2⟩ := hinv
  obtain ⟨t1, e1, _, e3, e4, e5, e6, _, _⟩ :=
    release_ok (fun a => occ a (recordSpans s.fEntries)) s.fDes0
      (s.fDes1 + s.fDes2 + s.fDes3) 0 s hti htop hd1 hcov (by omega)
  rw [Nat.mod_eq_of_lt hd2, e1] at hm1
  simp only [Option.some.injEq] at hm1
  subst hm1
  have hlen : (s.fEntries.filter
      (removedByDelete (findName s.fNames name) sub cycle)).length ≤ s.fEntries.length :=
    List.length_filter_le _ _
  obtain ⟨t2, g1, _, _, _, g5, _, _⟩ :=
    freeAll_ok (fun a => occ a (recordSpans (s.fEntries.filter
        (fun e => !removedByDelete (findName s.fNames name) sub cycle e))))
      0 (s.fEntries.filter (removedByDelete (findName s.fNames name) sub cycle)) t1 e3 e4
      (fun e he => hpo e (List.mem_filter.mp he).1)
      (by
        intro b
        have h1 := e5 b
        have h2 := occ_records_filter b
          (removedByDelete (findName s.fNames name) sub cycle) s.fEntries
        beta_reduce at h1 ⊢
        omega)
      (by
        have : 400 * (s.fEntries.filter
            (removedByDelete (findName s.fNames name) sub cycle)).length
            ≤ 400 * s.fEntries.length := Nat.mul_le_mul_left _ hlen
        omega)
  rw [g1] at hfa
  simp only [Option.some.injEq] at hfa
  subst hfa
  have h1 := g5 a
  have h2 := hcov a
  have h3 := occ_records_filter a
    (removedByDelete (findName s.fNames name) sub cycle) s.fEntries
  beta_reduce at h1
  omega

/-- Witness of C12: the deletion of the table `("a", "", 1)` of `tableFile`, a committed
file, removes the table and its column. -/
theorem C12_delete_cascade_witness :
    CommittedInv tableFile ∧
    EntriesSorted tableFile.fEntries ∧ (-2147483648 : Int) ≤ 1 ∧ (1 : Int) < 2147483647 ∧
    Delete sampleStreamer "a" "" 1 tableFile = some (true, tableFile2) ∧
    ((∃ v, (⟨findName tableFile.fNames "a", "", 1⟩, v) ∈ tableFile.fEntries) ∧
    tableFile2.fEntries
      = tableFile.fEntries.filter
          (fun e => !removedByDelete (findName tableFile.fNames "a") "" 1 e) ∧
    ∃ s1 sF sX,
      MakeFree tableFile.fDes0
        ((tableFile.fDes1 + tableFile.fDes2 + tableFile.fDes3) % 4294967296) tableFile
          = some s1 ∧
      freeAll (tableFile.fEntries.filter
        (removedByDelete (findName tableFile.fNames "a") "" 1)) s1 = some sF ∧
      sX.fFree = sF.fFree ∧ sX.fDes2 = sF.fDes2 ∧ sX.fFreeReserve = sF.fFreeReserve ∧
      commit sampleStreamer 16 sX = some (true, tableFile2) ∧
      (CommittedInv tableFile →
        tableFile.fFreeReserve + 400 * (tableFile.fEntries.length + 2) < 4294967296 →
        ∀ a, occ a (freeList sF) = occ a (freeList tableFile) + occ a [desSpan tableFile] +
          occ a (recordSpans (tableFile.fEntries.filter
            (removedByDelete (findName tableFile.fNames "a") "" 1))))) :=
  ⟨tableFile_inv, tableFile_sorted, by decide, by decide, table_delete,
    C12_delete_cascade sampleStreamer "a" "" 1 tableFile tableFile2 tableFile_sorted
      (by decide) (by decide) table_delete⟩

theorem sum_occ_single (N : Nat) (r : Nat × Nat) (h : r.1 + r.2 ≤ N) :
    (∑ a in Finset.range N, (if r.1 ≤ a ∧ a < r.1 + r.2 then 1 else 0)) = r.2 := by
  rw [Finset.sum_boole]
  have : (Finset.range N).filter (fun a => r.1 ≤ a ∧ a < r.1 + r.2)
      = Finset.Ico r.1 (r.1 + r.2) := by
    ext a
    simp only [Finset.mem_filter, Finset.mem_range, Finset.mem_Ico]
    omega
  rw [this]
  simp

theorem sum_occ (N : Nat) (fl : List (Nat × Nat)) (h : ∀ r ∈ fl, r.1 + r.2 ≤ N) :
    (∑ a in Finset.range N, occ a fl) = totalFree fl := by
  induction fl with
  | nil => simp [occ_nil, totalFree]
  | cons r l ih =>
    simp only [occ_cons]
    rw [Finset.sum_add_distrib, ih (fun x hx => h x (List.mem_cons_of_mem _ hx)),
      sum_occ_single N r (h r (List.mem_cons_self _ _))]
    simp only [totalFree, List.map_cons, List.sum_cons]
    omega

/-- Two free lists that differ by one span differ by its length in total. -/
theorem total_of_occ (fl fl' : List (Nat × Nat)) (p n : Nat)
    (h1 : ∀ r ∈ fl, r.1 + r.2 ≤ 4294967296) (h2 : ∀ r ∈ fl', r.1 + r.2 ≤ 4294967296)
    (h3 : p + n ≤ 4294967296) (h : ∀ a, occ a fl' = occ a fl + occ a [(p, n)]) :
    totalFree fl' = totalFree fl + n := by
  rw [← sum_occ 4294967296 fl' h2, ← sum_occ 4294967296 fl h1]
  have e : (∑ a in Finset.range 4294967296, occ a [(p, n)]) = n := by
    have := sum_occ 4294967296 [(p, n)] (by simpa using h3)
    rw [this]
    simp [totalFree]
  rw [Finset.sum_congr rfl (fun a _ => h a), Finset.sum_add_distrib, e]

theorem freeWF_bound {fl : List (Nat × Nat)} (h : FreeWF fl) :
    ∀ r ∈ fl, r.1 + r.2 ≤ 4294967296 := by
  intro r hr
  have := (h.2 r hr).2
  omega

theorem span_end_in_file {bg fr : Nat → Nat} {p l : Nat}
    (hcov : ∀ a, bg a + occ a [(p, l)] + fr a = inFile a) (hl : 0 < l) :
    p + l ≤ 4294967295 := by
  have h := hcov (p + l - 1)
  rw [occ_cons, occ_nil] at h
  rw [if_pos (by constructor <;> simp only [] <;> omega)] at h
  unfold inFile at h
  split_ifs at h with h1
  · omega
  · omega

/-- Claim C14 (amended).  A call `Write` that returned `true` in a transaction on a valid
file, with the free-table memory below the `UInt_t` limit and, at the time of the request
for the new space, a free range at least as long as the new on-disk length.  `old` is the
record of the key before the call, `new` the record after it.  The request `GetFree(new
on-disk length)` is made on the state `s1` after the release, and the free list of the
result is the free list after the call.  When the key was in the directory, `s1` is the
result of `MakeFree(old offset, old on-disk length)`, its total free space is the total
before plus the old on-disk length, and the total after the call plus the new on-disk
length is the total before plus the old on-disk length.  When the key is new, `s1` is the
state before the call and the total after the call plus the new on-disk length is the
total before. -/
theorem C14_overwrite_releases_first (c : Codec) (obj : TObject) (compLevel : Int)
    (name subName : String) (cycle : Int) (s s' : TFAsroFile)
    (hinv : WritingInv s) (hroom : s.fFreeReserve + 400 < 4294967296)
    (h : Write c obj compLevel name subName cycle s = some (true, s'))
    (hfit : ∀ s1,
      ((0 < (oldRecord s.fEntries ⟨findName s.fNames name, subName, cycle⟩).fPos ∧
          MakeFree (oldRecord s.fEntries ⟨findName s.fNames name, subName, cycle⟩).fPos
            (oldRecord s.fEntries ⟨findName s.fNames name, subName, cycle⟩).fFileLength s
            = some s1) ∨
        ((oldRecord s.fEntries ⟨findName s.fNames name, subName, cycle⟩).fPos = 0 ∧
          s1 = s)) →
      ∃ r ∈ freeList s1,
        (oldRecord s'.fEntries ⟨findName s.fNames name, subName, cycle⟩).fFileLength ≤ r.2) :
    ∃ s1 s2,
      GetFree (oldRecord s'.fEntries ⟨findName s.fNames name, subName, cycle⟩).fFileLength
          { s1 with fDes3 := 8 }
        = some ((oldRecord s'.fEntries ⟨findName s.fNames name, subName, cycle⟩).fPos, s2) ∧
      freeList s' = freeList s2 ∧
      (mapFind s.fEntries ⟨findName s.fNames name, subName, cycle⟩ ≠ none →
        MakeFree (oldRecord s.fEntries ⟨findName s.fNames name, subName, cycle⟩).fPos
          (oldRecord s.fEntries ⟨findName s.fNames name, subName, cycle⟩).fFileLength s
          = some s1 ∧
        totalFree (freeList s1) = totalFree (freeList s) +
          (oldRecord s.fEntries ⟨findName s.fNames name, subName, cycle⟩).fFileLength ∧
        totalFree (freeList s') +
            (oldRecord s'.fEntries ⟨findName s.fNames name, subName, cycle⟩).fFileLength
          = totalFree (freeList s) +
            (oldRecord s.fEntries ⟨findName s.fNames name, subName, cycle⟩).fFileLength) ∧
      (mapFind s.fEntries ⟨findName s.fNames name, subName, cycle⟩ = none →
        s1 = s ∧
        totalFree (freeList s') +
            (oldRecord s'.fEntries ⟨findName s.fNames name, subName, cycle⟩).fFileLength
          = totalFree (freeList s)) := by
  obtain ⟨⟨hf, hti, htop, hso, hpo⟩, hcov⟩ := hinv
  obtain ⟨_, s1, buf, pos, s2, hrel, _, hg, hent, _, _, _, hfr, hd2, _, _, _, _, _⟩ :=
    write_shape hf h
  have hnew : oldRecord s'.fEntries ⟨findName s.fNames name, subName, cycle⟩
      = ⟨pos, buf.length, obj.data.length, findName s.fClassNames obj.className⟩ := by
    unfold oldRecord
    rw [hent, mapFind_mapSet _ _ _ hso]
    rfl
  rw [hnew] at hfit ⊢
  simp only [] at hfit ⊢
  have hfl' : freeList s' = freeList s2 := freeList_congr hfr hd2
  obtain ⟨r, hr, hrs⟩ := hfit s1 hrel
  -- the release
  have hS1 : TableInv s1 ∧
      ((mapFind s.fEntries ⟨findName s.fNames name, subName, cycle⟩ = none ∧ s1 = s) ∨
        (mapFind s.fEntries ⟨findName s.fNames name, subName, cycle⟩ ≠ none ∧
          MakeFree (oldRecord s.fEntries ⟨findName s.fNames name, subName, cycle⟩).fPos
            (oldRecord s.fEntries ⟨findName s.fNames name, subName, cycle⟩).fFileLength s
            = some s1 ∧
          totalFree (freeList s1) = totalFree (freeList s) +
            (oldRecord s.fEntries ⟨findName s.fNames name, subName, cycle⟩).fFileLength)) := by
    rcases map_split s.fEntries ⟨findName s.fNames name, subName, cycle⟩ hso with
      ⟨h1, _⟩ | ⟨v, tw, tl, h1, h2, _, _⟩
    · have hold : oldRecord s.fEntries ⟨findName s.fNames name, subName, cycle⟩
          = TFAsroValue.default := by
        unfold oldRecord; rw [h1]; rfl
      rw [hold] at hrel
      rcases hrel with ⟨h3, _⟩ | ⟨_, h3⟩
      · exact absurd h3 (by decide)
      · subst h3
        exact ⟨hti, Or.inl ⟨h1, rfl⟩⟩
    · have hold : oldRecord s.fEntries ⟨findName s.fNames name, subName, cycle⟩ = v := by
        unfold oldRecord; rw [h1]; rfl
      rw [hold] at hrel ⊢
      have hv : (⟨findName s.fNames name, subName, cycle⟩, v) ∈ s.fEntries := by
        rw [h2]; simp
      have hvl : 0 < v.fFileLength := hpo _ hv
      have hc : ∀ a, occ a (recordSpans (tw ++ tl)) + occ a [(v.fPos, v.fFileLength)]
          + occ a (freeList s) = inFile a := by
        intro a
        have := hcov a
        rw [h2, occ_records_mid] at this
        exact this
      have hp : 24 ≤ v.fPos := record_in_file hc hvl
      have hp2 : v.fPos + v.fFileLength ≤ 4294967295 := span_end_in_file hc hvl
      obtain ⟨t1, e1, _, e3, _, e5, _⟩ :=
        release_ok (fun a => occ a (recordSpans (tw ++ tl))) v.fPos v.fFileLength 0 s hti htop
          hvl hc hroom
      rcases hrel with ⟨_, h3⟩ | ⟨h3, _⟩
      · rw [e1] at h3
        simp only [Option.some.injEq] at h3
        subst h3
        refine ⟨e3, Or.inr ⟨by rw [h1]; simp, e1, ?_⟩⟩
        apply total_of_occ _ _ v.fPos v.fFileLength (freeWF_bound hti.2) (freeWF_bound e3.2)
          (by omega)
        intro a
        have g1 := hc a
        have g2 := e5 a
        beta_reduce at g2
        omega
      · omega
  obtain ⟨hti1, hcase⟩ := hS1
  -- the request
  have hfl1 : freeList { s1 with fDes3 := 8 } = freeList s1 := freeList_congr rfl rfl
  have hti1' : TableInv { s1 with fDes3 := 8 } := tableInv_congr rfl rfl rfl hti1
  obtain ⟨p1, r', p2, t2, fl', hsplit, hbf, g3, _, _, g6, _, _, g9, g10, _, _⟩ :=
    getFree_effect buf.length { s1 with fDes3 := 8 } (freeList { s1 with fDes3 := 8 })
      hti1'.1 hti1'.2 ⟨r, by rw [hfl1]; exact hr, hrs⟩
  rw [g3] at hg
  simp only [Option.some.injEq, Prod.mk.injEq] at hg
  obtain ⟨hpos, hs2⟩ := hg
  subst hs2
  have hfl2 : freeList t2 = fl' := freeList_of_rep g6
  have hrm : r' ∈ freeList { s1 with fDes3 := 8 } := by
    rw [hsplit]; simp
  have hrb := freeWF_bound hti1'.2 r' hrm
  have htot : totalFree (freeList s1) = totalFree (freeList t2) + buf.length := by
    rw [← hfl1, hfl2]
    apply total_of_occ _ _ r'.1 buf.length (freeWF_bound g9) (freeWF_bound hti1'.2)
    · have := hbf.1
      omega
    · exact g10
  refine ⟨s1, t2, ?_, hfl', ?_, ?_⟩
  · rw [g3, hpos]
  · intro hne
    rcases hcase with ⟨h1, _⟩ | ⟨_, h2, h3⟩
    · exact absurd h1 hne
    · refine ⟨h2, h3, ?_⟩
      rw [hfl']; omega
  · intro hnone
    rcases hcase with ⟨_, h2⟩ | ⟨h1, _⟩
    · refine ⟨h2, ?_⟩
      rw [hfl', ← h2]; omega
    · exact absurd hnone h1

theorem sample_overwrite :
    Write sampleCodec fiveObject 0 "a" "" 1 sampleFile2 = some (true, sampleFile5) := by
  decide

theorem sampleFile2_inv : WritingInv sampleFile2 := by
  have hfl : freeList sampleFile2 = [(27, 4294967268)] := rfl
  refine ⟨⟨by decide, ⟨⟨rfl, rfl, by decide, [], rfl⟩, ?_⟩,
    ⟨(27, 4294967268), rfl, by decide, by decide⟩, ?_, by decide⟩, ?_⟩
  · rw [hfl]
    unfold FreeWF
    decide
  · unfold EntriesSorted
    decide
  · intro a
    rw [hfl]
    show occ a [(24, 3)] + occ a [(27, 4294967268)] = inFile a
    simp only [occ_cons, occ_nil, inFile]
    split_ifs <;> omega

/-- Witness of C14: in the transaction of the sample file the object of five bytes is
written over the record of three bytes of the same key. -/
theorem C14_overwrite_releases_first_witness :
    WritingInv sampleFile2 ∧
    Write sampleCodec fiveObject 0 "a" "" 1 sampleFile2 = some (true, sampleFile5) ∧
    ∃ s1 s2,
      GetFree (oldRecord sampleFile5.fEntries
          ⟨findName sampleFile2.fNames "a", "", 1⟩).fFileLength { s1 with fDes3 := 8 }
        = some ((oldRecord sampleFile5.fEntries
          ⟨findName sampleFile2.fNames "a", "", 1⟩).fPos, s2) ∧
      freeList sampleFile5 = freeList s2 ∧
      (mapFind sampleFile2.fEntries ⟨findName sampleFile2.fNames "a", "", 1⟩ ≠ none →
        MakeFree (oldRecord sampleFile2.fEntries
            ⟨findName sampleFile2.fNames "a", "", 1⟩).fPos
          (oldRecord sampleFile2.fEntries
            ⟨findName sampleFile2.fNames "a", "", 1⟩).fFileLength sampleFile2 = some s1 ∧
        totalFree (freeList s1) = totalFree (freeList sampleFile2) +
          (oldRecord sampleFile2.fEntries
            ⟨findName sampleFile2.fNames "a", "", 1⟩).fFileLength ∧
        totalFree (freeList sampleFile5) +
            (oldRecord sampleFile5.fEntries
              ⟨findName sampleFile2.fNames "a", "", 1⟩).fFileLength
          = totalFree (freeList sampleFile2) +
            (oldRecord sampleFile2.fEntries
              ⟨findName sampleFile2.fNames "a", "", 1⟩).fFileLength) ∧
      (mapFind sampleFile2.fEntries ⟨findName sampleFile2.fNames "a", "", 1⟩ = none →
        s1 = sampleFile2 ∧
        totalFree (freeList sampleFile5) +
            (oldRecord sampleFile5.fEntries
              ⟨findName sampleFile2.fNames "a", "", 1⟩).fFileLength
          = totalFree (freeList sampleFile2)) :=
  ⟨sampleFile2_inv, sample_overwrite,
    C14_overwrite_releases_first sampleCodec fiveObject 0 "a" "" 1 sampleFile2 sampleFile5
      sampleFile2_inv (by decide) sample_overwrite
      (by
        intro s1 h1
        have ho : oldRecord sampleFile2.fEntries ⟨findName sampleFile2.fNames "a", "", 1⟩
            = ⟨24, 3, 3, 0⟩ := rfl
        have hn : oldRecord sampleFile5.fEntries ⟨findName sampleFile2.fNames "a", "", 1⟩
            = ⟨24, 5, 5, 0⟩ := rfl
        rw [ho] at h1
        rw [hn]
        rcases h1 with ⟨_, h2⟩ | ⟨h2, _⟩
        · have hm : MakeFree 24 3 sampleFile2
              = some { sampleFile2 with fFree := [some (24, 4294967271)] } := by decide
          have h3 : MakeFree 24 3 sampleFile2 = some s1 := h2
          rw [hm] at h3
          simp only [Option.some.injEq] at h3
          subst h3
          exact ⟨(24, 4294967271), by decide, by decide⟩
        · exact absurd h2 (by decide))⟩

/-- The second of two objects of `0x7FFFFFFE` bytes written to a new file: the key is new,
the only free range `(2147483670, 2147483625)` is shorter than the object, and the call
returns `true` with the free range `(20, 4294967275)`. -/
theorem exhaustion_total (obj : TObject) (hn : obj.data.length = 2147483646)
    (hcl : obj.className = "TNamed") :
    ∃ s2 s3, Write sampleCodec obj 0 "a" "" 1 sampleFile1 = some (true, s2) ∧
      Write sampleCodec obj 0 "b" "" 1 s2 = some (true, s3) ∧
      mapFind s2.fEntries ⟨findName s2.fNames "b", "", 1⟩ = none ∧
      oldRecord s3.fEntries ⟨findName s2.fNames "b", "", 1⟩
        = ⟨2147483670, 2147483646, 2147483646, 0⟩ ∧
      freeList s2 = [(2147483670, 2147483625)] ∧ freeList s3 = [(20, 4294967275)] := by
  obtain ⟨s2, w1, f1, fr1, d1, en1, nm1, cn1, dk1⟩ :=
    write_single sampleCodec obj "a" "" 1 2147483646 24 4294967271 sampleFile1 (by decide)
      rfl rfl rfl hn (by decide)
  rw [hcl] at en1 cn1
  have en1' : s2.fEntries = [(⟨0, "", 1⟩, ⟨24, 2147483646, 2147483646, 0⟩)] := en1
  have nm1' : s2.fNames = ["a"] := nm1
  have cn1' : s2.fClassNames = ["TNamed"] := cn1
  have fr1' : s2.fFree = [some (2147483670, 2147483625)] := fr1
  obtain ⟨s3, w2, f2, fr2, d2, en2, nm2, cn2, dk2⟩ :=
    write_single sampleCodec obj "b" "" 1 2147483646 2147483670 2147483625 s2
      (by rw [f1]; decide) fr1' d1 (by rw [en1', nm1']; rfl) hn (by decide)
  rw [hcl, en1', nm1', cn1'] at en2
  have en2' : s3.fEntries = [(⟨0, "", 1⟩, ⟨24, 2147483646, 2147483646, 0⟩),
      (⟨1, "", 1⟩, ⟨2147483670, 2147483646, 2147483646, 0⟩)] := en2
  have fr2' : s3.fFree = [some (20, 4294967275)] := fr2
  refine ⟨s2, s3, w1, w2, ?_, ?_, ?_, ?_⟩
  · rw [en1', nm1']; rfl
  · rw [en2', nm1']; rfl
  · unfold freeList TFAsroFile.numFree
    rw [fr1', d1]; rfl
  · unfold freeList TFAsroFile.numFree
    rw [fr2', d2]; rfl

/-- Counterexample to C14 as stated: a new file in its first transaction, and two calls of
`Write` with an object of `0x7FFFFFFE` bytes each.  At the second call the key
`("b", "", 1)` is new and the new on-disk length is 2147483646, but the total free space
goes from 2147483625 to 4294967275: it does not decrease by the new on-disk length. -/
theorem C14_counterexample :
    ∃ s2 s3, Write sampleCodec bigObject 0 "a" "" 1 sampleFile1 = some (true, s2) ∧
      Write sampleCodec bigObject 0 "b" "" 1 s2 = some (true, s3) ∧
      mapFind s2.fEntries ⟨findName s2.fNames "b", "", 1⟩ = none ∧
      (oldRecord s3.fEntries ⟨findName s2.fNames "b", "", 1⟩).fFileLength = 2147483646 ∧
      totalFree (freeList s2) = 2147483625 ∧ totalFree (freeList s3) = 4294967275 ∧
      totalFree (freeList s3) +
          (oldRecord s3.fEntries ⟨findName s2.fNames "b", "", 1⟩).fFileLength
        ≠ totalFree (freeList s2) := by
  obtain ⟨s2, s3, w1, w2, hnew, hrec, hf2, hf3⟩ :=
    exhaustion_total bigObject (List.length_replicate _ _) rfl
  refine ⟨s2, s3, w1, w2, hnew, by rw [hrec], by rw [hf2]; rfl, by rw [hf3]; rfl, ?_⟩
  rw [hrec, hf2, hf3]
  decide

/-- With a codec that never writes more than the size of its target, the record of a key
after `Write` has on-disk length at most the logical length, and when it is shorter the
stored bytes are the output of `Compress`. -/
theorem write_length_le (c : Codec) (obj : TObject) (lvl : Int) (name sub : String)
    (cycle : Int) (s s' : TFAsroFile) (hzip : ∀ src n, (c.zip lvl src n).length ≤ n)
    (hsorted : EntriesSorted s.fEntries)
    (h : Write c obj lvl name sub cycle s = some (true, s')) :
    (oldRecord s'.fEntries ⟨findName s.fNames name, sub, cycle⟩).fDataLength
      = obj.data.length ∧
    (oldRecord s'.fEntries ⟨findName s.fNames name, sub, cycle⟩).fFileLength
      ≤ obj.data.length ∧
    ((oldRecord s'.fEntries ⟨findName s.fNames name, sub, cycle⟩).fFileLength
        < obj.data.length →
      ∃ buf, Compress c lvl obj.data = some (true, buf) ∧
        s'.disk = pwrite s.disk
          (oldRecord s'.fEntries ⟨findName s.fNames name, sub, cycle⟩).fPos buf) := by
  obtain ⟨_, s1, buf, pos, s2, _, hbuf, _, hent, _, _, hdisk, _⟩ :=
    write_shape (write_open h) h
  have hnew : oldRecord s'.fEntries ⟨findName s.fNames name, sub, cycle⟩
      = ⟨pos, buf.length, obj.data.length, findName s.fClassNames obj.className⟩ := by
    unfold oldRecord
    rw [hent, mapFind_mapSet _ _ _ hsorted]
    rfl
  rw [hnew]
  simp only []
  obtain ⟨b, o, hc, hlen⟩ := compress_some c lvl hzip obj.data
  rcases hbuf with ⟨_, h2⟩ | ⟨_, h2 | ⟨_, h2⟩⟩
  · subst h2
    exact ⟨trivial, le_refl _, fun hlt => absurd hlt (lt_irrefl _)⟩
  · rw [hc] at h2
    simp only [Option.some.injEq, Prod.mk.injEq] at h2
    obtain ⟨hb, ho⟩ := h2
    subst ho
    exact ⟨trivial, (hlen hb).1, fun _ => ⟨o, by rw [hc, hb], hdisk⟩⟩
  · subst h2
    exact ⟨trivial, le_refl _, fun hlt => absurd hlt (lt_irrefl _)⟩

theorem echoPacked_length : echoPacked.length = 256 := by
  unfold echoPacked
  rw [List.length_append, List.length_replicate]
  rfl

set_option maxRecDepth 100000 in
theorem echo_stored : pread echoFile2.disk 24 256 = some echoPacked := by
  decide

set_option maxRecDepth 100000 in
theorem echo_readKey :
    ReadKey echoCodec ⟨0, "", 1⟩ echoFile2 = some (some ⟨"TNamed", echoPacked⟩) := by
  decide

set_option maxRecDepth 100000 in
theorem echo_ne : echoPacked ≠ echoData := by
  decide

/-- Claim C16 fails on the code at this input: in the first transaction of a new file,
`Write(echoObject, 1, "a", "", 1)` with a codec whose output for the 256 bytes of the
payload has 256 bytes.  `Compress` returns true, `Write` stores the compressed bytes, and
the record has on-disk length = logical length = 256 although the stored bytes are not the
raw payload; `Read` of the key takes the equal lengths for a raw payload and returns the
compressed bytes. -/
theorem C16_equal_length_stored_compressed :
    Compress echoCodec 1 echoObject.data = some (true, echoPacked) ∧
    echoPacked.length = 256 ∧ echoObject.data.length = 256 ∧
    echoPacked ≠ echoObject.data ∧
    Write echoCodec echoObject 1 "a" "" 1 sampleFile1 = some (true, echoFile2) ∧
    oldRecord echoFile2.fEntries ⟨findName sampleFile1.fNames "a", "", 1⟩
      = ⟨24, 256, 256, 0⟩ ∧
    pread echoFile2.disk 24 256 = some echoPacked ∧
    ReadKey echoCodec ⟨0, "", 1⟩ echoFile2 = some (some ⟨"TNamed", echoPacked⟩) :=
  ⟨echo_compress, echoPacked_length, echoData_length, echo_ne, echo_write, rfl, echo_stored,
    echo_readKey⟩

theorem sample_init3 : InitWrite sampleFile3 = some (true, sampleFile3w) := by decide

theorem length_pwrite_inside (d : List Nat) (p : Nat) (b : List Nat)
    (h : p + b.length ≤ d.length) : (pwrite d p b).length = d.length := by
  unfold pwrite
  by_cases hb : b.length = 0
  · rw [if_pos hb]
  · rw [if_neg hb]
    simp only [List.length_append, List.length_take, List.length_replicate, List.length_drop]
    omega

/-- Claim C20 (amended).  `InitWrite` on a committed valid file whose free-table memory is
below the `UInt_t` limit and whose header is on the disk returns `true`; the free list
afterwards covers what it covered before and the span `[W0, W0+W1+W2+W3)` of the members
`fDes[0..3]`, which hold the header words of the committed file; the four bytes 8..11 of
the file, the header word W0, are zero and every other byte of the file, the header word
W1 in the bytes 12..15 included, is unchanged, as are the length of the file, the directory,
the name tables and the members `fDes[0]` and `fDes[1]`. -/
theorem C20_initWrite_effect (s : TFAsroFile) (hinv : CommittedInv s)
    (hroom : s.fFreeReserve + 400 < 4294967296) (hlen : 12 ≤ s.disk.length) :
    ∃ s', InitWrite s = some (true, s') ∧
      (∀ a, occ a (freeList s') = occ a (freeList s) + occ a [desSpan s]) ∧
      (∀ a, s'.disk.getD a 0 = if 8 ≤ a ∧ a < 12 then 0 else s.disk.getD a 0) ∧
      s'.disk.length = s.disk.length ∧
      s'.fEntries = s.fEntries ∧ s'.fNames = s.fNames ∧ s'.fClassNames = s.fClassNames ∧
      s'.fDes0 = s.fDes0 ∧ s'.fDes1 = s.fDes1 ∧ s'.fFile = s.fFile := by
  obtain ⟨s', h1, h2, _, h4, h5, h6, h7, _, _, s1, h8, h9⟩ := initWrite_ok s hinv hroom
  obtain ⟨_, _, _, e4, e5, _, e7⟩ := makeFree_same h8
  have hfl : freeList s' = freeList s1 := by rw [h9]; exact freeList_congr rfl rfl
  have hd : s'.disk = pwrite s.disk 8 (encodeU32 0) := by rw [h9, ← e7]
  refine ⟨s', h1, ?_, ?_, ?_, h4, h5, h6, ?_, ?_, h7⟩
  · intro a
    have g1 := h2.2 a
    have g2 := hinv.2.1 a
    rw [h4] at g1
    omega
  · intro a
    rw [hd, getD_pwrite]
    have hl : (encodeU32 0).length = 4 := rfl
    rw [hl]
    by_cases ha : 8 ≤ a ∧ a < 12
    · rw [if_pos (by omega), if_pos ha]
      have : a - 8 = 0 ∨ a - 8 = 1 ∨ a - 8 = 2 ∨ a - 8 = 3 := by omega
      rcases this with h | h | h | h <;> rw [h] <;> rfl
    · rw [if_neg (by omega), if_neg ha]
  · rw [hd]
    exact length_pwrite_inside _ _ _ (by show 8 + 4 ≤ _; omega)
  · rw [h9]; exact e4
  · rw [h9]; exact e5

/-- Witness of C20: `InitWrite` on the committed sample file. -/
theorem C20_initWrite_effect_witness :
    CommittedInv sampleFile3 ∧ InitWrite sampleFile3 = some (true, sampleFile3w) ∧
    ∃ s', InitWrite sampleFile3 = some (true, s') ∧
      (∀ a, occ a (freeList s') = occ a (freeList sampleFile3) + occ a [desSpan sampleFile3]) ∧
      (∀ a, s'.disk.getD a 0 = if 8 ≤ a ∧ a < 12 then 0 else sampleFile3.disk.getD a 0) ∧
      s'.disk.length = sampleFile3.disk.length ∧
      s'.fEntries = sampleFile3.fEntries ∧ s'.fNames = sampleFile3.fNames ∧
      s'.fClassNames = sampleFile3.fClassNames ∧
      s'.fDes0 = sampleFile3.fDes0 ∧ s'.fDes1 = sampleFile3.fDes1 ∧
      s'.fFile = sampleFile3.fFile :=
  ⟨(reach_inv sampleStreamer sampleCodec false sampleFile3 sample_reach3).2 rfl, sample_init3,
    C20_initWrite_effect sampleFile3
      ((reach_inv sampleStreamer sampleCodec false sampleFile3 sample_reach3).2 rfl)
      (by decide) (by decide)⟩

/-- Counterexample to C20 as stated: `InitWrite` on the committed sample file, whose header
words are W0 = 27 and W1 = 1.  After the call the bytes 8..11 (W0) are zero and the bytes
12..15 (W1) still hold 1: the word that was written is W0, not W1, and W0 did change. -/
theorem C20_counterexample :
    InitWrite sampleFile3 = some (true, sampleFile3w) ∧
    pread sampleFile3.disk 8 4 = some (encodeU32 27) ∧
    pread sampleFile3.disk 12 4 = some (encodeU32 1) ∧
    pread sampleFile3w.disk 8 4 = some (encodeU32 0) ∧
    pread sampleFile3w.disk 12 4 = some (encodeU32 1) := by
  refine ⟨sample_init3, by decide, by decide, by decide, by decide⟩

theorem mem_setItem (m : List (Int × TFAsroFileItem)) (id : Int) (item : TFAsroFileItem)
    (hs : KeysSorted m) (e : Int × TFAsroFileItem) :
    e ∈ setItem m id item ↔ e = (id, item) ∨ (e ∈ m ∧ e.1 ≠ id) := by
  induction m with
  | nil => simp [setItem]
  | cons kv m ih =>
    obtain ⟨k, v⟩ := kv
    have hs' : KeysSorted m := (List.pairwise_cons.mp hs).2
    have hk : ∀ x ∈ m, k < x.1 := fun x hx => (List.pairwise_cons.mp hs).1 x hx
    unfold setItem
    by_cases h1 : id < k
    · rw [if_pos h1]
      simp only [List.mem_cons]
      constructor
      · rintro (h | h | h)
        · exact Or.inl h
        · right; refine ⟨Or.inl h, ?_⟩; rw [h]; simp only []; omega
        · right; refine ⟨Or.inr h, ?_⟩; have := hk e h; omega
      · rintro (h | ⟨h | h, _⟩)
        · exact Or.inl h
        · exact Or.inr (Or.inl h)
        · exact Or.inr (Or.inr h)
    · rw [if_neg h1]
      by_cases h2 : id = k
      · rw [if_pos h2]
        simp only [List.mem_cons]
        constructor
        · rintro (h | h)
          · exact Or.inl h
          · right; refine ⟨Or.inr h, ?_⟩; have := hk e h; omega
        · rintro (h | ⟨h | h, hne⟩)
          · exact Or.inl h
          · exfalso; apply hne; rw [h]; exact h2.symm
          · exact Or.inr h
      · rw [if_neg h2]
        simp only [List.mem_cons]
        rw [ih hs']
        constructor
        · rintro (h | h | ⟨h, hne⟩)
          · right; refine ⟨Or.inl h, ?_⟩; rw [h]; simp only []; omega
          · exact Or.inl h
          · exact Or.inr ⟨Or.inr h, hne⟩
        · rintro (h | ⟨h | h, hne⟩)
          · exact Or.inr (Or.inl h)
          · exact Or.inl h
          · exact Or.inr (Or.inr ⟨h, hne⟩)

theorem setItem_sorted (m : List (Int × TFAsroFileItem)) (id : Int) (item : TFAsroFileItem)
    (hs : KeysSorted m) : KeysSorted (setItem m id item) := by
  induction m with
  | nil => simp [setItem, KeysSorted]
  | cons kv m ih =>
    obtain ⟨k, v⟩ := kv
    have hs' : KeysSorted m := (List.pairwise_cons.mp hs).2
    have hk : ∀ x ∈ m, k < x.1 := fun x hx => (List.pairwise_cons.mp hs).1 x hx
    unfold setItem
    by_cases h1 : id < k
    · rw [if_pos h1]
      refine List.pairwise_cons.mpr ⟨?_, hs⟩
      intro x hx
      rcases List.mem_cons.mp hx with h | h
      · rw [h]; exact h1
      · have := hk x h
        show id < x.1
        omega
    · rw [if_neg h1]
      by_cases h2 : id = k
      · rw [if_pos h2]
        refine List.pairwise_cons.mpr ⟨?_, hs'⟩
        intro x hx
        have := hk x hx
        show id < x.1
        omega
      · rw [if_neg h2]
        refine List.pairwise_cons.mpr ⟨?_, ih hs'⟩
        intro x hx
        rcases (mem_setItem m id item hs' x).mp hx with h | ⟨h, _⟩
        · rw [h]; show k < id; omega
        · exact hk x h

theorem keys_unique {m : List (Int × TFAsroFileItem)} (hs : KeysSorted m)
    {a b : Int × TFAsroFileItem} (ha : a ∈ m) (hb : b ∈ m) (h : a.1 = b.1) : a = b := by
  induction m with
  | nil => cases ha
  | cons x m ih =>
    have hs' : KeysSorted m := (List.pairwise_cons.mp hs).2
    have hk : ∀ y ∈ m, x.1 < y.1 := fun y hy => (List.pairwise_cons.mp hs).1 y hy
    rcases List.mem_cons.mp ha with h1 | h1 <;> rcases List.mem_cons.mp hb with h2 | h2
    · rw [h1, h2]
    · have := hk b h2; rw [h1] at h; omega
    · have := hk a h1; rw [h2] at h; omega
    · exact ih hs' h1 h2

theorem find_of_unique {m : List (Int × TFAsroFileItem)} (q : Int × TFAsroFileItem → Bool)
    {a : Int × TFAsroFileItem} (ha : a ∈ m) (hq : q a = true)
    (hu : ∀ e ∈ m, q e = true → e = a) : m.find? q = some a := by
  cases hf : m.find? q with
  | none =>
    have := List.find?_eq_none.mp hf a ha
    exact absurd hq this
  | some e =>
    have h1 := List.find?_some hf
    have h2 := List.mem_of_find?_eq_some hf
    rw [hu e h2 h1]

theorem itemAt_of_mem {m : List (Int × TFAsroFileItem)} (hs : KeysSorted m) {id : Int}
    {item : TFAsroFileItem} (h : (id, item) ∈ m) : itemAt m id = item := by
  unfold itemAt
  rw [find_of_unique (fun e => decide (e.1 = id)) h (by simp)
    (fun e he hq => keys_unique hs he h (by simpa using hq))]

theorem itemAt_absent {m : List (Int × TFAsroFileItem)} {id : Int}
    (h : ∀ e ∈ m, e.1 ≠ id) : itemAt m id = TFAsroFileItem.default := by
  unfold itemAt
  have : m.find? (fun e => decide (e.1 = id)) = none := by
    rw [List.find?_eq_none]
    intro e he
    simpa using h e he
  rw [this]

theorem find_pointer {m : List (Int × TFAsroFileItem)} (hs : KeysSorted m) {id : Int}
    {item : TFAsroFileItem} {p : Nat} (h : (id, item) ∈ m) (hp : item.fasroFile = some p)
    (hu : ∀ e ∈ m, e.2.fasroFile = some p → e.1 = id) :
    m.find? (fun e => decide (e.2.fasroFile = some p)) = some (id, item) :=
  find_of_unique _ h (by simpa using hp)
    (fun e he hq => keys_unique hs he h (hu e he (by simpa using hq)))

theorem setItem_self {m : List (Int × TFAsroFileItem)} (hs : KeysSorted m) {id : Int}
    {item : TFAsroFileItem} (h : (id, item) ∈ m) : setItem m id item = m := by
  induction m with
  | nil => cases h
  | cons kv m ih =>
    obtain ⟨k, v⟩ := kv
    have hs' : KeysSorted m := (List.pairwise_cons.mp hs).2
    have hk : ∀ x ∈ m, k < x.1 := fun x hx => (List.pairwise_cons.mp hs).1 x hx
    unfold setItem
    rcases List.mem_cons.mp h with h1 | h1
    · simp only [Prod.mk.injEq] at h1
      rw [if_neg (by omega), if_pos h1.1, h1.1, h1.2]
    · have := hk _ h1
      simp only [] at this
      rw [if_neg (by omega), if_neg (by omega), ih hs' h1]

theorem setItem_cons (k : Int) (v : TFAsroFileItem) (m : List (Int × TFAsroFileItem))
    (id : Int) (item : TFAsroFileItem) :
    setItem ((k, v) :: m) id item
      = if id < k then (id, item) :: (k, v) :: m
        else if id = k then (id, item) :: m else (k, v) :: setItem m id item := rfl

theorem setItem_setItem (m : List (Int × TFAsroFileItem)) (id : Int)
    (a b : TFAsroFileItem) : setItem (setItem m id a) id b = setItem m id b := by
  induction m with
  | nil => simp [setItem]
  | cons kv m ih =>
    obtain ⟨k, v⟩ := kv
    rw [setItem_cons, setItem_cons]
    by_cases h1 : id < k
    · rw [if_pos h1, if_pos h1, setItem_cons, if_neg (lt_irrefl _), if_pos rfl]
    · rw [if_neg h1, if_neg h1]
      by_cases h2 : id = k
      · rw [if_pos h2, if_pos h2, setItem_cons, if_neg (lt_irrefl _), if_pos rfl]
      · rw [if_neg h2, if_neg h2, setItem_cons, if_neg h1, if_neg h2, ih]

/-- A further successful `OpenFile` of a file that is open: the same address, the count
plus one, the objects untouched. -/
theorem open_again {r r1 : TFAsroFiles} {id : Int} {p q : Nat} {n : Int} {eng : TFAsroFile}
    {sys : SystemView} {readOnly : Bool} (hS : Shares r id p n eng)
    (hsys : sys.pathInfo = some id)
    (h : OpenFile sys readOnly r = some (some q, r1)) :
    q = p ∧ Shares r1 id p (n + 1) eng ∧ r1.heap = r.heap := by
  obtain ⟨hs, ⟨ro, hmem⟩, hu, hheap⟩ := hS
  have hit := itemAt_of_mem hs hmem
  unfold OpenFile at h
  rw [hsys] at h
  simp only [hit] at h
  have hfin : ∀ (ro' : Option Bool),
      Shares { r with fFiles := setItem r.fFiles id ⟨some p, n + 1, ro'⟩ } id p (n + 1) eng := by
    intro ro'
    refine ⟨setItem_sorted _ _ _ hs, ⟨ro', (mem_setItem _ _ _ hs _).mpr (Or.inl rfl)⟩, ?_,
      hheap⟩
    intro e he hp
    rcases (mem_setItem _ _ _ hs _).mp he with h1 | ⟨h1, _⟩
    · rw [h1]
    · exact hu e h1 hp
  by_cases hmax : n = 2147483647
  · rw [if_pos hmax] at h
    exact absurd h (by simp)
  rw [if_neg hmax] at h
  cases readOnly with
  | true =>
    simp only [if_true, Option.some.injEq, Prod.mk.injEq] at h
    obtain ⟨h1, h2⟩ := h
    subst h2
    exact ⟨h1.symm, hfin ro, rfl⟩
  | false =>
    simp only [Bool.false_eq_true, if_false] at h
    cases ro with
    | none => exact absurd h (by simp)
    | some b =>
      cases b with
      | true =>
        simp only [Option.map_eq_some', Prod.mk.injEq] at h
        obtain ⟨_, _, h2, _⟩ := h
        exact absurd h2 (by simp)
      | false =>
        simp only [Option.some.injEq, Prod.mk.injEq] at h
        obtain ⟨h1, h2⟩ := h
        subst h2
        exact ⟨h1.symm, hfin (some false), rfl⟩

/-- The first successful `OpenFile` of a file that has no item in the registry: a new
object at the address `sys.addr`, the count 1. -/
theorem open_first {r r1 : TFAsroFiles} {id : Int} {q : Nat} {sys : SystemView}
    {readOnly : Bool} (hwf : RegistryWF r) (hnew : ∀ e ∈ r.fFiles, e.1 ≠ id)
    (hfresh : ∀ h ∈ r.heap, h.1 ≠ sys.addr)
    (hsys : sys.pathInfo = some id ∨ (sys.pathInfo = none ∧ sys.pathInfoAfter = id))
    (h : OpenFile sys readOnly r = some (some q, r1)) :
    q = sys.addr ∧ Shares r1 id q 1 (sys.construct readOnly).1 ∧
      0 ≤ (sys.construct readOnly).1.fFile ∧
      r1.heap = (q, (sys.construct readOnly).1) :: r.heap := by
  obtain ⟨hs, hlive⟩ := hwf
  have hfin : ∀ (ro' : Option Bool),
      Shares { fFiles := setItem r.fFiles id ⟨some sys.addr, 1, ro'⟩,
               heap := (sys.addr, (sys.construct readOnly).1) :: r.heap }
        id sys.addr 1 (sys.construct readOnly).1 := by
    intro ro'
    refine ⟨setItem_sorted _ _ _ hs, ⟨ro', (mem_setItem _ _ _ hs _).mpr (Or.inl rfl)⟩, ?_,
      List.mem_cons_self _ _⟩
    intro e he hp
    rcases (mem_setItem _ _ _ hs _).mp he with h1 | ⟨h1, _⟩
    · rw [h1]
    · obtain ⟨eng', he'⟩ := hlive e h1 _ hp
      exact absurd rfl (hfresh _ he')
  unfold OpenFile at h
  rcases hsys with hsys | ⟨hsys, hid⟩
  · rw [hsys] at h
    simp only [itemAt_absent hnew, TFAsroFileItem.default] at h
    rw [if_neg (by decide)] at h
    by_cases hopen : 0 ≤ (sys.construct readOnly).1.fFile
    · rw [if_pos hopen] at h
      simp only [Option.some.injEq, Prod.mk.injEq] at h
      obtain ⟨h1, h2⟩ := h
      subst h2
      subst h1
      exact ⟨rfl, hfin _, hopen, rfl⟩
    · rw [if_neg hopen] at h
      simp only [Option.map_eq_some', Prod.mk.injEq] at h
      obtain ⟨_, _, h2, _⟩ := h
      exact absurd h2 (by simp)
  · rw [hsys] at h
    simp only [] at h
    cases readOnly with
    | true =>
      simp only [if_true, Option.some.injEq, Prod.mk.injEq] at h
      exact absurd h.1 (by simp)
    | false =>
      simp only [Bool.false_eq_true, if_false] at h
      by_cases hopen : 0 ≤ (sys.construct false).1.fFile
      · rw [if_pos hopen, hid] at h
        simp only [Option.some.injEq, Prod.mk.injEq] at h
        obtain ⟨h1, h2⟩ := h
        subst h2
        subst h1
        exact ⟨rfl, hfin _, hopen, rfl⟩
      · rw [if_neg hopen] at h
        simp only [Option.some.injEq, Prod.mk.injEq] at h
        exact absurd h.1 (by simp)

/-- The call `CloseFile` of a file that is open at least twice: the count minus one. -/
theorem close_step {r : TFAsroFiles} {id : Int} {p : Nat} {n : Int} {eng : TFAsroFile}
    (hS : Shares r id p n eng) (hn : 2 ≤ n) :
    ∃ r1, CloseFile (some p) r = some r1 ∧ Shares r1 id p (n - 1) eng ∧
      r1.heap = r.heap := by
  obtain ⟨hs, ⟨ro, hmem⟩, hu, hheap⟩ := hS
  have hf := find_pointer hs hmem rfl hu
  refine ⟨{ r with fFiles := setItem r.fFiles id ⟨some p, n - 1, ro⟩ }, ?_, ?_, rfl⟩
  · unfold CloseFile
    simp only [hf]
    rw [if_neg (by omega), if_neg (by omega)]
  · refine ⟨setItem_sorted _ _ _ hs, ⟨ro, (mem_setItem _ _ _ hs _).mpr (Or.inl rfl)⟩, ?_,
      hheap⟩
    intro e he hp
    rcases (mem_setItem _ _ _ hs _).mp he with h1 | ⟨h1, _⟩
    · rw [h1]
    · exact hu e h1 hp

/-- The call `CloseFile` of a file that is open once: the item is erased and the object
deleted. -/
theorem close_last {r : TFAsroFiles} {id : Int} {p : Nat} {eng : TFAsroFile}
    (hS : Shares r id p 1 eng) :
    ∃ r1, CloseFile (some p) r = some r1 ∧ r1.fFiles = eraseItem r.fFiles id ∧
      (∀ e ∈ r1.fFiles, e.1 ≠ id) ∧ (∀ e ∈ r1.fFiles, e.2.fasroFile ≠ some p) ∧
      (∀ h ∈ r1.heap, h.1 ≠ p) ∧
      r1.heap = r.heap.filter (fun h => !decide (h.1 = p)) := by
  obtain ⟨hs, ⟨ro, hmem⟩, hu, hheap⟩ := hS
  have hf := find_pointer hs hmem rfl hu
  have hany : r.heap.any (fun h => decide (h.1 = p)) = true := by
    rw [List.any_eq_true]
    exact ⟨(p, eng), hheap, by simp⟩
  refine ⟨{ fFiles := eraseItem r.fFiles id,
            heap := r.heap.filter (fun h => !decide (h.1 = p)) }, ?_, rfl, ?_, ?_, ?_, rfl⟩
  · unfold CloseFile
    simp only [hf]
    rw [if_neg (by decide), if_pos (by decide), if_pos hany]
  · intro e he
    have := (List.mem_filter.mp he).2
    simpa using this
  · intro e he hp
    have h1 := List.mem_filter.mp he
    have := hu e h1.1 hp
    simp [this] at h1
  · intro h hh
    have := (List.mem_filter.mp hh).2
    simpa using this

theorem useHandle_shares {r : TFAsroFiles} {id : Int} {p : Nat} {n : Int} {eng : TFAsroFile}
    (f : TFAsroFile → TFAsroFile) (hS : Shares r id p n eng) :
    Shares (useHandle p f r) id p n (f eng) := by
  obtain ⟨hs, hm, hu, hheap⟩ := hS
  refine ⟨hs, hm, hu, ?_⟩
  show (p, f eng) ∈ r.heap.map (fun h => if h.1 = p then (h.1, f h.2) else h)
  rw [List.mem_map]
  exact ⟨(p, eng), hheap, by simp⟩

/-- Further successful calls of `OpenFile` for a file that is open. -/
theorem openAll_shares (id : Int) (p : Nat) :
    ∀ (cs : List (SystemView × Bool × (TFAsroFile → TFAsroFile))) (r r' : TFAsroFiles)
      (n : Int) (eng : TFAsroFile) (handles : List (Option Nat)),
      Shares r id p n eng → (∀ c ∈ cs, c.1.pathInfo = some id) →
      openAll cs r = some (handles, r') → (∀ h ∈ handles, h ≠ none) →
      handles = List.replicate cs.length (some p) ∧
        Shares r' id p (n + cs.length) (cs.foldl (fun e c => c.2.2 e) eng) := by
  intro cs
  induction cs with
  | nil =>
    intro r r' n eng handles hS _ hrun _
    simp only [openAll, Option.some.injEq, Prod.mk.injEq] at hrun
    obtain ⟨h1, h2⟩ := hrun
    subst h1 h2
    simpa using hS
  | cons c cs ih =>
    intro r r' n eng handles hS hcs hrun hok
    unfold openAll at hrun
    cases ho : OpenFile c.1 c.2.1 r with
    | none => rw [ho] at hrun; exact absurd hrun (by simp)
    | some res =>
      obtain ⟨h, r1⟩ := res
      rw [ho] at hrun
      simp only [] at hrun
      cases h with
      | none =>
        simp only [] at hrun
        cases hrest : openAll cs r1 with
        | none => rw [hrest] at hrun; exact absurd hrun (by simp)
        | some res2 =>
          rw [hrest] at hrun
          simp only [Option.some.injEq, Prod.mk.injEq] at hrun
          exact absurd rfl (hok none (by rw [← hrun.1]; exact List.mem_cons_self _ _))
      | some q =>
        simp only [] at hrun
        cases hrest : openAll cs (useHandle q c.2.2 r1) with
        | none => rw [hrest] at hrun; exact absurd hrun (by simp)
        | some res2 =>
          obtain ⟨hs, r2⟩ := res2
          rw [hrest] at hrun
          simp only [Option.some.injEq, Prod.mk.injEq] at hrun
          obtain ⟨e1, e2⟩ := hrun
          subst e1 e2
          obtain ⟨hq, hS1, _⟩ := open_again hS (hcs c (List.mem_cons_self _ _)) ho
          subst hq
          obtain ⟨g1, g2⟩ := ih (useHandle q c.2.2 r1) r2 (n + 1) (c.2.2 eng) hs
            (useHandle_shares c.2.2 hS1) (fun c' hc' => hcs c' (List.mem_cons_of_mem _ hc'))
            hrest (fun h' hh' => hok h' (List.mem_cons_of_mem _ hh'))
          refine ⟨?_, ?_⟩
          · rw [g1]; rfl
          · simp only [List.length_cons, List.foldl_cons]
            have e : n + ((cs.length + 1 : Nat) : Int) = n + 1 + (cs.length : Int) := by
              push_cast; ring
            rw [e]
            exact g2

/-- The call `CloseFile` made fewer times than the file is open. -/
theorem closeTimes_shares (id : Int) (p : Nat) (eng : TFAsroFile) :
    ∀ (j : Nat) (r : TFAsroFiles) (n : Int), Shares r id p n eng → (j : Int) < n →
      ∃ rj, closeTimes (some p) j r = some rj ∧ Shares rj id p (n - j) eng ∧
        rj.heap = r.heap := by
  intro j
  induction j with
  | zero =>
    intro r n hS _
    exact ⟨r, rfl, by simpa using hS, rfl⟩
  | succ j ih =>
    intro r n hS hj
    obtain ⟨r1, h1, h2, h3⟩ := close_step hS (by omega)
    obtain ⟨rj, g1, g2, g3⟩ := ih r1 (n - 1) h2 (by push_cast at hj; omega)
    refine ⟨rj, ?_, ?_, by rw [g3, h3]⟩
    · unfold closeTimes
      rw [h1]
      exact g1
    · have e : n - ((j + 1 : Nat) : Int) = n - 1 - (j : Int) := by push_cast; ring
      rw [e]
      exact g2

/-- The call `CloseFile` made as many times as the file is open. -/
theorem closeTimes_all (id : Int) (p : Nat) (eng : TFAsroFile) (j : Nat) (r : TFAsroFiles)
    (hS : Shares r id p (j + 1) eng) :
    ∃ rk, closeTimes (some p) (j + 1) r = some rk ∧ (∀ e ∈ rk.fFiles, e.1 ≠ id) ∧
      (∀ e ∈ rk.fFiles, e.2.fasroFile ≠ some p) ∧ (∀ h ∈ rk.heap, h.1 ≠ p) := by
  obtain ⟨rj, g1, g2, _⟩ := closeTimes_shares id p eng j r (j + 1) hS (by omega)
  have e : ((j : Int) + 1) - (j : Int) = 1 := by ring
  rw [e] at g2
  obtain ⟨rk, h1, _, h3, h4, h5, _⟩ := close_last g2
  refine ⟨rk, ?_, h3, h4, h5⟩
  have hsplit : ∀ (a : Nat) (s : TFAsroFiles) (s1 : TFAsroFiles),
      closeTimes (some p) a s = some s1 →
      closeTimes (some p) (a + 1) s = CloseFile (some p) s1 := by
    intro a
    induction a with
    | zero =>
      intro s s1 hs
      simp only [closeTimes, Option.some.injEq] at hs
      subst hs
      unfold closeTimes
      cases CloseFile (some p) s with
      | none => rfl
      | some x => rfl
    | succ a iha =>
      intro s s1 hs
      unfold closeTimes at hs ⊢
      cases hc : CloseFile (some p) s with
      | none => rw [hc] at hs; exact absurd hs (by simp)
      | some x =>
        rw [hc] at hs
        simp only [] at hs ⊢
        exact iha x s1 hs
  rw [hsplit j r rj g1, h1]

/-- Claim C18.  `k = cs.length + 1` calls of `OpenFile` for the file `id`, which has no
item in a well-formed registry before the first call (the address of the new object is
not in use; after the first call the file exists), with any work of the callers through
the returned handles in between.  If every call returns a pointer, all `k` pointers are
the same address `p`, the item of `id` holds `p` and the count `k`, and the object at `p`
is the object that the first call constructed with the work of all callers applied to it
in turn.  After `j ≤ k - 1` calls `CloseFile(p)` the item still holds `p`, its count is
`k - j` and no object was deleted; the `k`-th call erases the item and deletes the
object. -/
theorem C18_shared_handle (id : Int) (r r' : TFAsroFiles)
    (c0 : SystemView × Bool × (TFAsroFile → TFAsroFile))
    (cs : List (SystemView × Bool × (TFAsroFile → TFAsroFile)))
    (handles : List (Option Nat))
    (hwf : RegistryWF r) (hnew : ∀ e ∈ r.fFiles, e.1 ≠ id)
    (hfresh : ∀ h ∈ r.heap, h.1 ≠ c0.1.addr)
    (h0 : c0.1.pathInfo = some id ∨ (c0.1.pathInfo = none ∧ c0.1.pathInfoAfter = id))
    (hcs : ∀ c ∈ cs, c.1.pathInfo = some id)
    (hrun : openAll (c0 :: cs) r = some (handles, r'))
    (hok : ∀ h ∈ handles, h ≠ none) :
    ∃ p, handles = List.replicate (cs.length + 1) (some p) ∧
      (itemAt r'.fFiles id).fasroFile = some p ∧
      (itemAt r'.fFiles id).fNumOpen = cs.length + 1 ∧
      (p, (c0 :: cs).foldl (fun e c => c.2.2 e) (c0.1.construct c0.2.1).1) ∈ r'.heap ∧
      (∀ j, j ≤ cs.length → ∃ rj, closeTimes (some p) j r' = some rj ∧
        (itemAt rj.fFiles id).fasroFile = some p ∧
        (itemAt rj.fFiles id).fNumOpen = cs.length + 1 - j ∧ rj.heap = r'.heap) ∧
      (∃ rk, closeTimes (some p) (cs.length + 1) r' = some rk ∧
        (∀ e ∈ rk.fFiles, e.1 ≠ id) ∧ (∀ e ∈ rk.fFiles, e.2.fasroFile ≠ some p) ∧
        (∀ h ∈ rk.heap, h.1 ≠ p)) := by
  unfold openAll at hrun
  cases ho : OpenFile c0.1 c0.2.1 r with
  | none => rw [ho] at hrun; exact absurd hrun (by simp)
  | some res =>
    obtain ⟨h, r1⟩ := res
    rw [ho] at hrun
    simp only [] at hrun
    cases h with
    | none =>
      simp only [] at hrun
      cases hrest : openAll cs r1 with
      | none => rw [hrest] at hrun; exact absurd hrun (by simp)
      | some res2 =>
        rw [hrest] at hrun
        simp only [Option.some.injEq, Prod.mk.injEq] at hrun
        exact absurd rfl (hok none (by rw [← hrun.1]; exact List.mem_cons_self _ _))
    | some p =>
      simp only [] at hrun
      cases hrest : openAll cs (useHandle p c0.2.2 r1) with
      | none => rw [hrest] at hrun; exact absurd hrun (by simp)
      | some res2 =>
        obtain ⟨hs, r2⟩ := res2
        rw [hrest] at hrun
        simp only [Option.some.injEq, Prod.mk.injEq] at hrun
        obtain ⟨e1, e2⟩ := hrun
        subst e1 e2
        obtain ⟨_, hS1, _, _⟩ := open_first hwf hnew hfresh h0 ho
        obtain ⟨g1, g2⟩ := openAll_shares id p cs (useHandle p c0.2.2 r1) r2 1
          (c0.2.2 (c0.1.construct c0.2.1).1) hs (useHandle_shares c0.2.2 hS1) hcs hrest
          (fun h' hh' => hok h' (List.mem_cons_of_mem _ hh'))
        have e : (1 : Int) + (cs.length : Int) = (cs.length : Int) + 1 := by ring
        rw [e] at g2
        obtain ⟨ro, hmem⟩ := g2.2.1
        have hit := itemAt_of_mem g2.1 hmem
        refine ⟨p, by rw [g1]; rfl, by rw [hit], by rw [hit], g2.2.2.2, ?_, ?_⟩
        · intro j hj
          obtain ⟨rj, k1, k2, k3⟩ := closeTimes_shares id p _ j r2 _ g2 (by omega)
          obtain ⟨ro', hmem'⟩ := k2.2.1
          have hit' := itemAt_of_mem k2.1 hmem'
          exact ⟨rj, k1, by rw [hit'], by rw [hit'], k3⟩
        · exact closeTimes_all id p _ cs.length r2 g2

theorem open_twice :
    openAll (createCall :: laterCalls) ⟨[], []⟩ = some ([some 1, some 1], registry2) := by
  decide

/-- Witness of C18: an empty registry, the `OpenFile` that creates the file with the id 7,
a `Write` of the first caller in an open transaction, and a second `OpenFile` of the
file. -/
theorem C18_shared_handle_witness :
    openAll (createCall :: laterCalls) ⟨[], []⟩ = some ([some 1, some 1], registry2) ∧
    ∃ p, [some 1, some 1] = List.replicate (laterCalls.length + 1) (some p) ∧
      (itemAt registry2.fFiles 7).fasroFile = some p ∧
      (itemAt registry2.fFiles 7).fNumOpen = laterCalls.length + 1 ∧
      (p, (createCall :: laterCalls).foldl (fun e c => c.2.2 e)
        (createCall.1.construct createCall.2.1).1) ∈ registry2.heap ∧
      (∀ j, j ≤ laterCalls.length →
        ∃ rj, closeTimes (some p) j registry2 = some rj ∧
          (itemAt rj.fFiles 7).fasroFile = some p ∧
          (itemAt rj.fFiles 7).fNumOpen = laterCalls.length + 1 - j ∧
          rj.heap = registry2.heap) ∧
      (∃ rk, closeTimes (some p) (laterCalls.length + 1) registry2 = some rk ∧
        (∀ e ∈ rk.fFiles, e.1 ≠ 7) ∧ (∀ e ∈ rk.fFiles, e.2.fasroFile ≠ some p) ∧
        (∀ h ∈ rk.heap, h.1 ≠ p)) :=
  ⟨open_twice,
    C18_shared_handle 7 ⟨[], []⟩ registry2 createCall laterCalls [some 1, some 1]
      ⟨List.Pairwise.nil, fun e he => absurd he (List.not_mem_nil _)⟩
      (fun e he => absurd he (List.not_mem_nil _))
      (fun h hh => absurd hh (List.not_mem_nil _))
      (Or.inr ⟨rfl, rfl⟩)
      (fun c hc => by rw [List.mem_singleton.mp hc]; rfl)
      open_twice
      (fun h hh => by
        simp only [List.mem_cons, List.mem_singleton, List.not_mem_nil, or_false, or_self] at hh
        rw [hh]; simp)⟩

/-- Claim C19 (amended).  The item of the file `id` holds the address `p` of an engine, a
count `n` with `1 ≤ n < 2^31 - 1` and the mark read-only, and no other item holds `p`.
Then `OpenFile(fileName, kFALSE)` for this file returns `NULL` and leaves the registry as
it was: the count is incremented and then decremented again by the call `CloseFile` of
this branch, the item keeps its mark read-only, and no engine is closed, deleted or
constructed. -/
theorem C19_read_only_stays (sys : SystemView) (r : TFAsroFiles) (id : Int) (p : Nat)
    (n : Int) (hs : KeysSorted r.fFiles)
    (hmem : (id, (⟨some p, n, some true⟩ : TFAsroFileItem)) ∈ r.fFiles)
    (hu : ∀ e ∈ r.fFiles, e.2.fasroFile = some p → e.1 = id)
    (hsys : sys.pathInfo = some id) (h1 : 1 ≤ n) (h2 : n < 2147483647) :
    OpenFile sys false r = some (none, r) := by
  have hit := itemAt_of_mem hs hmem
  have hs1 := setItem_sorted r.fFiles id ⟨some p, n + 1, some true⟩ hs
  have hf : (setItem r.fFiles id ⟨some p, n + 1, some true⟩).find?
      (fun e => decide (e.2.fasroFile = some p))
      = some (id, ⟨some p, n + 1, some true⟩) := by
    apply find_pointer hs1 ((mem_setItem _ _ _ hs _).mpr (Or.inl rfl)) rfl
    intro e he hp
    rcases (mem_setItem _ _ _ hs _).mp he with g | ⟨g, _⟩
    · rw [g]
    · exact hu e g hp
  have hclose : CloseFile (some p)
      { r with fFiles := setItem r.fFiles id ⟨some p, n + 1, some true⟩ } = some r := by
    unfold CloseFile
    simp only [hf]
    rw [if_neg (by omega), if_neg (by omega)]
    have e : n + 1 - 1 = n := by ring
    rw [setItem_setItem, e, setItem_self hs hmem]
  unfold OpenFile
  rw [hsys]
  simp only [hit]
  rw [if_neg (by omega)]
  simp only [Bool.false_eq_true, if_false]
  rw [hclose]
  rfl

/-- Witness of C19: the file with the id 7 is open once, read-only, and is opened again
for reading and writing. -/
theorem C19_read_only_stays_witness :
    KeysSorted readOnlyRegistry.fFiles ∧
    (7, (⟨some 1, 1, some true⟩ : TFAsroFileItem)) ∈ readOnlyRegistry.fFiles ∧
    (∀ e ∈ readOnlyRegistry.fFiles, e.2.fasroFile = some 1 → e.1 = 7) ∧
    againView.pathInfo = some 7 ∧
    OpenFile againView false readOnlyRegistry = some (none, readOnlyRegistry) :=
  ⟨List.pairwise_singleton _ _, List.mem_singleton.mpr rfl,
    fun e he _ => by rw [List.mem_singleton.mp he], rfl,
    C19_read_only_stays againView readOnlyRegistry 7 1 1 (List.pairwise_singleton _ _)
      (List.mem_singleton.mpr rfl) (fun e he _ => by rw [List.mem_singleton.mp he]) rfl
      (by decide) (by decide)⟩

/-- Counterexample to C19 as stated: the file with the id 7 is open once, read-only, at the
address 1.  `OpenFile(fileName, kFALSE)` returns `NULL` and not a handle; afterwards the
item is still marked read-only, its count is still 1 and the object at the address 1 is
the one that was there. -/
theorem C19_counterexample :
    itemAt readOnlyRegistry.fFiles 7 = ⟨some 1, 1, some true⟩ ∧
    (OpenFile againView false readOnlyRegistry).map Prod.fst = some none ∧
    (OpenFile againView false readOnlyRegistry).map
        (fun x => itemAt x.2.fFiles 7) = some ⟨some 1, 1, some true⟩ ∧
    (OpenFile againView false readOnlyRegistry).map (fun x => x.2.heap)
      = some [(1, sampleFile3)] := by
  decide

/-- Claim C21 (amended).  The constructor on a new or empty file gives an open engine with
an empty directory, empty name tables, the header words `(24, 0, 8, 0)` and a free list of
exactly one range.  The range starts at offset 32: behind the fixed header of 24 bytes
(8 bytes of identification and four words) and behind the free table of 8 bytes that the
constructor writes at offset 24.  Its length is `0xFFFFFFFF - 32`. -/
theorem C21_fresh_file (st : DirStreamer) :
    (openFile st []).fEntries = [] ∧ (openFile st []).fNames = [] ∧
    (openFile st []).fClassNames = [] ∧ 0 ≤ (openFile st []).fFile ∧
    freeList (openFile st []) = [(32, 4294967295 - 32)] ∧
    desSpan (openFile st []) = (24, 8) ∧
    (openFile st []).fDes0 = 24 ∧ (openFile st []).fDes1 = 0 ∧
    (openFile st []).fDes2 = 8 ∧ (openFile st []).fDes3 = 0 ∧
    (openFile st []).disk
      = magic ++ encodeWords [24, 0, 8, 0] ++ encodeWords [32, 4294967295 - 32] ∧
    (openFile st []).disk.length = 32 := by
  rw [openFile_nil]
  refine ⟨rfl, rfl, rfl, ?_, ?_, rfl, rfl, rfl, rfl, rfl, rfl, rfl⟩
  · show (0 : Int) ≤ 3
    decide
  · simp [freeList, TFAsroFile.numFree]

/-- Counterexample to C21 as stated: the free range of a new file starts at offset 32,
which is not the first byte after the fixed header of 24 bytes, and its length is
`0xFFFFFFFF - 32`, not `0xFFFFFFFF - 24`. -/
theorem C21_counterexample :
    freeList (openFile sampleStreamer []) = [(32, 4294967263)] ∧
    (8 + 4 * 4 : Nat) = 24 ∧ (32 : Nat) ≠ 24 ∧ (4294967263 : Nat) ≠ 4294967295 - 24 := by
  refine ⟨rfl, by decide, by decide, by decide⟩

theorem openFile_bad_magic (st : DirStreamer) (disk : List Nat) (hne : disk ≠ [])
    (hbad : pread disk 0 8 ≠ some magic) : openFile st disk = closedFile (-2) disk := by
  unfold openFile
  rw [if_pos (List.length_pos.mpr hne)]
  cases h : pread disk 0 8 with
  | none => rfl
  | some id =>
    simp only []
    rw [if_pos]
    intro hid
    rw [h, hid] at hbad
    exact hbad rfl

/-- Claim C22.  The constructor on a non-empty file whose first 8 bytes are not
`"ASRO0001"`, in particular on a file of fewer than 8 bytes, sets `fFile` to `-2`, so that
`IsOpen()` is false; `Read` returns `NULL`, and `Write`, `InitWrite`, `FinishWrite` and
`Delete` return false and leave the object as it is. -/
theorem C22_bad_magic (st : DirStreamer) (c : Codec) (obj : TObject) (compLevel : Int)
    (name subName : String) (cycle : Int) (disk : List Nat) (hne : disk ≠ [])
    (hbad : pread disk 0 8 ≠ some magic) :
    (openFile st disk).fFile = -2 ∧ ¬ (0 ≤ (openFile st disk).fFile) ∧
    Read c name subName cycle (openFile st disk) = some none ∧
    ReadKey c ⟨0, subName, cycle⟩ (openFile st disk) = some none ∧
    Write c obj compLevel name subName cycle (openFile st disk)
      = some (false, openFile st disk) ∧
    InitWrite (openFile st disk) = some (false, openFile st disk) ∧
    FinishWrite st (openFile st disk) = some (false, openFile st disk) ∧
    Delete st name subName cycle (openFile st disk) = some (false, openFile st disk) := by
  rw [openFile_bad_magic st disk hne hbad]
  refine ⟨rfl, ?_, rfl, rfl, rfl, rfl, rfl, rfl⟩
  show ¬ ((0 : Int) ≤ -2)
  decide

/-- Witness of C22: a file of three bytes. -/
theorem C22_bad_magic_witness :
    ([1, 2, 3] : List Nat) ≠ [] ∧ pread [1, 2, 3] 0 8 ≠ some magic ∧
    (openFile sampleStreamer [1, 2, 3]).fFile = -2 ∧
    ¬ (0 ≤ (openFile sampleStreamer [1, 2, 3]).fFile) ∧
    Read sampleCodec "a" "" 1 (openFile sampleStreamer [1, 2, 3]) = some none ∧
    ReadKey sampleCodec ⟨0, "", 1⟩ (openFile sampleStreamer [1, 2, 3]) = some none ∧
    Write sampleCodec sampleObject 0 "a" "" 1 (openFile sampleStreamer [1, 2, 3])
      = some (false, openFile sampleStreamer [1, 2, 3]) ∧
    InitWrite (openFile sampleStreamer [1, 2, 3])
      = some (false, openFile sampleStreamer [1, 2, 3]) ∧
    FinishWrite sampleStreamer (openFile sampleStreamer [1, 2, 3])
      = some (false, openFile sampleStreamer [1, 2, 3]) ∧
    Delete sampleStreamer "a" "" 1 (openFile sampleStreamer [1, 2, 3])
      = some (false, openFile sampleStreamer [1, 2, 3]) :=
  ⟨by decide, by decide,
    C22_bad_magic sampleStreamer sampleCodec sampleObject 0 "a" "" 1 [1, 2, 3] (by decide)
      (by decide)⟩

/-- Claim C23.  On a directory in key order, for a name that is not in the name table or a
key `(id(name), subName, cycle)` that is not in the directory, `Read` returns `NULL` and
`Delete` returns false; the state after `Delete` is the state before the call (directory,
name tables, free table, header words, file), and `Read` has no state to change. -/
theorem C23_absent_key (st : DirStreamer) (c : Codec) (name subName : String) (cycle : Int)
    (s : TFAsroFile) (hs : EntriesSorted s.fEntries)
    (habs : name ∉ s.fNames ∨
      ∀ e ∈ s.fEntries, e.1 ≠ (⟨findName s.fNames name, subName, cycle⟩ : TFAsroKey)) :
    Read c name subName cycle s = some none ∧
    Delete st name subName cycle s = some (false, s) := by
  unfold Read Delete
  by_cases hf : s.fFile < 0
  · rw [if_pos hf, if_pos hf]
    exact ⟨rfl, rfl⟩
  rw [if_neg hf, if_neg hf]
  by_cases h0 : s.fNames.length = 0
  · rw [if_pos h0, if_pos h0]
    exact ⟨rfl, rfl⟩
  rw [if_neg h0, if_neg h0]
  by_cases h1 : findName s.fNames name = s.fNames.length
  · rw [if_pos h1, if_pos h1]
    exact ⟨rfl, rfl⟩
  rw [if_neg h1, if_neg h1]
  rcases habs with h | h
  · exact absurd ((findName_eq_length_iff _ _).mpr h) h1
  · have hnone := (mapFind_none s.fEntries _ hs).mpr h
    unfold ReadKey
    rw [if_neg hf]
    simp only [hnone]
    exact ⟨trivial, trivial⟩

/-- Witness of C23: the committed sample file holds `("a", "", 1)`; the name `"b"` is not in
its name table. -/
theorem C23_absent_key_witness :
    EntriesSorted sampleFile3.fEntries ∧ "b" ∉ sampleFile3.fNames ∧
    Read sampleCodec "b" "" 1 sampleFile3 = some none ∧
    Delete sampleStreamer "b" "" 1 sampleFile3 = some (false, sampleFile3) :=
  ⟨List.pairwise_singleton _ _, by decide,
    C23_absent_key sampleStreamer sampleCodec "b" "" 1 sampleFile3
      (List.pairwise_singleton _ _) (Or.inl (by decide))⟩

theorem fullVersions_entries : fullVersions.fEntries = fullEntries := rfl

theorem fullVersions_sorted : EntriesSorted fullVersions.fEntries := by
  rw [fullVersions_entries]
  unfold EntriesSorted fullEntries
  rw [List.pairwise_map]
  apply List.Pairwise.imp _ (List.pairwise_lt_range _)
  intro i j hij
  rw [lt_iff]
  exact Or.inr ⟨rfl, Or.inl (by simp only []; omega)⟩

theorem fullVersions_mem (e : TFAsroKey × TFAsroValue) :
    e ∈ fullVersions.fEntries ↔
      ∃ i : Nat, i < 2147483647 ∧ e = (⟨0, "", (i : Int) + 1⟩, ⟨24 + i, 1, 1, 0⟩) := by
  rw [fullVersions_entries]
  unfold fullEntries
  rw [List.mem_map]
  constructor
  · rintro ⟨i, hi, he⟩
    exact ⟨i, List.mem_range.mp hi, he.symm⟩
  · rintro ⟨i, hi, he⟩
    exact ⟨i, List.mem_range.mpr hi, he.symm⟩

theorem fullVersions_typed : ∀ e ∈ fullVersions.fEntries, e.1.WellTyped := by
  intro e he
  obtain ⟨i, hi, rfl⟩ := (fullVersions_mem e).mp he
  refine ⟨by show (0 : Nat) < 4294967296; decide, ?_, ?_⟩
  · show (-2147483648 : Int) ≤ (i : Int) + 1
    omega
  · show (i : Int) + 1 < 2147483648
    omega

theorem fullVersions_all (u : Nat) (h1 : 1 ≤ u) (h2 : u ≤ 2147483647) :
    ∃ e ∈ fullVersions.fEntries,
      e.1.fElName = findName fullVersions.fNames "a" ∧ e.1.fCycle = (u : Int) := by
  refine ⟨(⟨0, "", ((u - 1 : Nat) : Int) + 1⟩, ⟨24 + (u - 1), 1, 1, 0⟩),
    (fullVersions_mem _).mpr ⟨u - 1, by omega, rfl⟩, ?_, ?_⟩
  · show (0 : Nat) = findName ["a"] "a"
    decide
  · show ((u - 1 : Nat) : Int) + 1 = (u : Int)
    omega

/-- Claim C24 fails on the code.  For every directory in key order whose keys fit their
machine types, `GetFreeCycle` never returns 0; and when every version from 1 to
`2^31 - 1` is in use for the name, it returns `2^31 = 0x80000000`, which is not a positive
`Int_t`.  (The last line of the function compares with `MAX_UNIQUE_NAMES = 0xffffffff`, a
value that the cycle of a key never reaches.) -/
theorem C24_exhaustion_not_reported (name : String) (s : TFAsroFile)
    (hs : EntriesSorted s.fEntries) (ht : ∀ e ∈ s.fEntries, e.1.WellTyped) :
    (GetFreeCycle name s).1 ≠ 0 ∧
    ((∀ u : Nat, 1 ≤ u → u ≤ 2147483647 →
        ∃ e ∈ s.fEntries, e.1.fElName = findName s.fNames name ∧ e.1.fCycle = (u : Int)) →
      (GetFreeCycle name s).1 = 2147483648 ∧
      wrapInt32 ((GetFreeCycle name s).1 : Int) = -2147483648) := by
  have h := getFreeCycle_spec name s hs ht
  refine ⟨?_, ?_⟩
  · have := h.1
    omega
  · intro hall
    have hv : (GetFreeCycle name s).1 = 2147483648 := by
      apply smallestFree_unique h
      refine ⟨by decide, ?_, ?_⟩
      · intro e he _ hc
        have := (ht e he).2.2
        rw [hc] at this
        omega
      · intro u h1 h2
        exact hall u h1 (by omega)
    refine ⟨hv, ?_⟩
    rw [hv]
    decide

/-- The failing input of C24: in `fullVersions` every version of `"a"` is in use, and
`GetFreeCycle("a")` returns `2^31`. -/
theorem C24_exhaustion_not_reported_witness :
    EntriesSorted fullVersions.fEntries ∧ (∀ e ∈ fullVersions.fEntries, e.1.WellTyped) ∧
    (∀ u : Nat, 1 ≤ u → u ≤ 2147483647 →
      ∃ e ∈ fullVersions.fEntries,
        e.1.fElName = findName fullVersions.fNames "a" ∧ e.1.fCycle = (u : Int)) ∧
    (GetFreeCycle "a" fullVersions).1 ≠ 0 ∧
    (GetFreeCycle "a" fullVersions).1 = 2147483648 ∧
    wrapInt32 ((GetFreeCycle "a" fullVersions).1 : Int) = -2147483648 :=
  ⟨fullVersions_sorted, fullVersions_typed, fullVersions_all,
    (C24_exhaustion_not_reported "a" fullVersions fullVersions_sorted fullVersions_typed).1,
    (C24_exhaustion_not_reported "a" fullVersions fullVersions_sorted fullVersions_typed).2
      fullVersions_all⟩

/-- Claim C25 (amended).  After each of the enumerating calls the directory, the table of
class names, the free table and the header words of the file are what they were.  The
calls other than `GetFreeCycle` leave the whole state as it is.  `GetFreeCycle(name)`
leaves the state as it is when the name is in the name table, and otherwise appends the
name to the name table. -/
theorem C25_enumerations_frame (call : Enumeration) (s : TFAsroFile) :
    (call.after s).fEntries = s.fEntries ∧ (call.after s).fClassNames = s.fClassNames ∧
    (call.after s).fFree = s.fFree ∧ (call.after s).fFreeReserve = s.fFreeReserve ∧
    freeList (call.after s) = freeList s ∧
    (call.after s).fDes0 = s.fDes0 ∧ (call.after s).fDes1 = s.fDes1 ∧
    (call.after s).fDes2 = s.fDes2 ∧ (call.after s).fDes3 = s.fDes3 ∧
    (call.after s).fFile = s.fFile ∧ (call.after s).disk = s.disk ∧
    s.fNames <+: (call.after s).fNames ∧
    ((∀ name, call ≠ Enumeration.getFreeCycle name) → call.after s = s) ∧
    (∀ name, call = Enumeration.getFreeCycle name →
      (name ∈ s.fNames → call.after s = s) ∧
      (name ∉ s.fNames → (call.after s).fNames = s.fNames ++ [name])) := by
  have hg : ∀ name,
      (name ∈ s.fNames → (GetFreeCycle name s).2 = s) ∧
      (name ∉ s.fNames → (GetFreeCycle name s).2.fNames = s.fNames ++ [name]) := by
    intro name
    constructor
    · intro h
      have hne : findName s.fNames name ≠ s.fNames.length := by
        rw [Ne, findName_eq_length_iff]
        exact fun hc => hc h
      show { s with fNames := if findName s.fNames name = s.fNames.length then
        s.fNames ++ [name] else s.fNames } = s
      rw [if_neg hne]
    · intro h
      have he := (findName_eq_length_iff s.fNames name).mpr h
      show (if findName s.fNames name = s.fNames.length then
        s.fNames ++ [name] else s.fNames) = s.fNames ++ [name]
      rw [if_pos he]
  cases call with
  | getFreeCycle name =>
    refine ⟨rfl, rfl, rfl, rfl, rfl, rfl, rfl, rfl, rfl, rfl, rfl, ?_,
      fun h => absurd rfl (h name), ?_⟩
    · show s.fNames <+: (if findName s.fNames name = s.fNames.length then
        s.fNames ++ [name] else s.fNames)
      exact prefix_intern _ _
    · intro name' h
      cases h
      exact hg name
  | getNumSubs _ _ =>
    exact ⟨rfl, rfl, rfl, rfl, rfl, rfl, rfl, rfl, rfl, rfl, rfl, List.prefix_refl _,
      fun _ => rfl, fun _ h => Enumeration.noConfusion h⟩
  | getNextCycle _ _ =>
    exact ⟨rfl, rfl, rfl, rfl, rfl, rfl, rfl, rfl, rfl, rfl, rfl, List.prefix_refl _,
      fun _ => rfl, fun _ h => Enumeration.noConfusion h⟩
  | makeColIter _ _ =>
    exact ⟨rfl, rfl, rfl, rfl, rfl, rfl, rfl, rfl, rfl, rfl, rfl, List.prefix_refl _,
      fun _ => rfl, fun _ h => Enumeration.noConfusion h⟩
  | colNext _ =>
    exact ⟨rfl, rfl, rfl, rfl, rfl, rfl, rfl, rfl, rfl, rfl, rfl, List.prefix_refl _,
      fun _ => rfl, fun _ h => Enumeration.noConfusion h⟩
  | elementReset _ =>
    exact ⟨rfl, rfl, rfl, rfl, rfl, rfl, rfl, rfl, rfl, rfl, rfl, List.prefix_refl _,
      fun _ => rfl, fun _ h => Enumeration.noConfusion h⟩
  | elementNext _ =>
    exact ⟨rfl, rfl, rfl, rfl, rfl, rfl, rfl, rfl, rfl, rfl, rfl, List.prefix_refl _,
      fun _ => rfl, fun _ h => Enumeration.noConfusion h⟩

/-- Counterexample to C25 as stated: the name table of the committed sample file is
`["a"]`; after `GetFreeCycle("b")`, which returns 1, it is `["a", "b"]`. -/
theorem C25_counterexample :
    sampleFile3.fNames = ["a"] ∧ (GetFreeCycle "b" sampleFile3).1 = 1 ∧
    (GetFreeCycle "b" sampleFile3).2.fNames = ["a", "b"] ∧
    (Enumeration.getFreeCycle "b").after sampleFile3 ≠ sampleFile3 := by
  decide

theorem numSubsLoop_eq (N : Nat) (V : Int) (L : Entries) :
    ∀ n, n + L.length < 4294967296 →
      numSubsLoop N V L n
        = n + (L.takeWhile (fun e => decide (e.1.fCycle = V ∧ N = e.1.fElName))).length := by
  induction L with
  | nil => intro n _; rfl
  | cons e L ih =>
    intro n hn
    simp only [List.length_cons] at hn
    unfold numSubsLoop
    by_cases hp : e.1.fCycle = V ∧ N = e.1.fElName
    · rw [if_pos hp, Nat.mod_eq_of_lt (by omega), ih (n + 1) (by omega)]
      rw [List.takeWhile_cons_of_pos (by simpa using hp)]
      simp only [List.length_cons]
      omega
    · rw [if_neg hp, List.takeWhile_cons_of_neg (by simpa using hp)]
      rfl

/-- The entries that `GetNumSubs` counts. -/
theorem numSubs_filter (N : Nat) (V : Int) (m : Entries) (hs : EntriesSorted m) :
    (upper_bound m ⟨N, "", V⟩).takeWhile (fun e => decide (e.1.fCycle = V ∧ N = e.1.fElName))
      = m.filter (fun e => decide (e.1.fElName = N ∧ e.1.fCycle = V ∧ e.1.fSubName ≠ "")) := by
  have hu := upper_bound_eq_filter m ⟨N, "", V⟩ hs
  have hsu : (upper_bound m ⟨N, "", V⟩).Pairwise
      (fun a b => TFAsroKey.lt ⟨N, "", V⟩ a.1 = true ∧ a.1.lt b.1 = true) := by
    have h1 : EntriesSorted (upper_bound m ⟨N, "", V⟩) := by
      rw [hu]; exact sorted_filter _ _ hs
    apply List.Pairwise.imp_of_mem _ h1
    intro a b ha _ hab
    rw [hu, List.mem_filter] at ha
    exact ⟨ha.2, hab⟩
  rw [takeWhile_eq_filter
    (R := fun a b : TFAsroKey × TFAsroValue =>
      TFAsroKey.lt ⟨N, "", V⟩ a.1 = true ∧ a.1.lt b.1 = true)
    (p := fun e => decide (e.1.fCycle = V ∧ N = e.1.fElName)) _ _ hsu, hu, List.filter_filter]
  · apply List.filter_congr
    intro e _
    rw [Bool.eq_iff_iff]
    simp only [Bool.and_eq_true, decide_eq_true_eq, lt_iff]
    constructor
    · rintro ⟨⟨h1, h2⟩, h3⟩
      refine ⟨h2.symm, h1, ?_⟩
      rcases h3 with h | ⟨_, h | ⟨_, h⟩⟩
      · omega
      · omega
      · exact (empty_lt_iff _).mp h
    · rintro ⟨h1, h2, h3⟩
      exact ⟨⟨h2, h1.symm⟩, Or.inr ⟨h1.symm, Or.inr ⟨h2.symm, (empty_lt_iff _).mpr h3⟩⟩⟩
  · rintro a b ⟨hka, hab⟩ hb
    simp only [decide_eq_true_eq] at hb ⊢
    have n1 := lt_name_le hka
    have n2 := lt_name_le hab
    simp only [] at n1
    have hn : N = a.1.fElName := by omega
    have c1 := lt_cycle_le hka hn
    have c2 := lt_cycle_le hab (by omega)
    simp only [] at c1
    exact ⟨by omega, hn⟩

theorem colNames_spec (cols : Entries) :
    ∀ (it : TFAsroColIter) (fuel : Nat), it.mi_entry = cols ++ it.mi_end →
      cols.length < fuel → colNames fuel it = some (cols.map (fun e => e.1.fSubName)) := by
  induction cols with
  | nil =>
    intro it fuel h hf
    obtain ⟨fuel, rfl⟩ : ∃ k, fuel = k + 1 := ⟨fuel - 1, by simp at hf; omega⟩
    unfold colNames TFAsroColIter.Next
    rw [if_pos (by rw [h]; rfl)]
    rfl
  | cons e cols ih =>
    intro it fuel h hf
    obtain ⟨fuel, rfl⟩ : ∃ k, fuel = k + 1 := ⟨fuel - 1, by simp at hf; omega⟩
    unfold colNames TFAsroColIter.Next
    rw [if_neg (by rw [h]; simp only [List.length_append, List.length_cons]; omega)]
    rw [h]
    simp only [List.cons_append]
    rw [ih { it with m_colName := some e.1.fSubName, m_classNameIndex := e.2.fClassName,
                     mi_entry := cols ++ it.mi_end } fuel rfl
      (by simp only [List.length_cons] at hf; omega)]
    rfl

/-- Claim C27 (amended).  On a directory in key order with fewer than `2^32` entries,
`GetNumSubs(name, V)` is 0 when the name is not in the name table and otherwise the number
of entries with the name-id of the name, the version `V` and a non-empty sub-name.  For
`V < 2^31 - 1` the column iterator of `(name, V)` returns true for exactly these entries,
in key order, and then false, so the number of its true results is `GetNumSubs(name, V)`. -/
theorem C27_num_subs (name : String) (V : Int) (s : TFAsroFile)
    (hs : EntriesSorted s.fEntries) (hlen : s.fEntries.length < 4294967296) :
    (name ∉ s.fNames → GetNumSubs name V s = 0) ∧
    (name ∈ s.fNames →
      GetNumSubs name V s = (s.fEntries.filter (fun e =>
        decide (e.1.fElName = findName s.fNames name ∧ e.1.fCycle = V ∧
          e.1.fSubName ≠ ""))).length) ∧
    (name ∈ s.fNames → -2147483648 ≤ V → V < 2147483647 →
      colNames (s.fEntries.length + 1) (MakeColIter name V s)
        = some ((s.fEntries.filter (fun e =>
            decide (e.1.fElName = findName s.fNames name ∧ e.1.fCycle = V ∧
              e.1.fSubName ≠ ""))).map (fun e => e.1.fSubName)) ∧
      ∃ names, colNames (s.fEntries.length + 1) (MakeColIter name V s) = some names ∧
        names.length = GetNumSubs name V s) := by
  have hcount : name ∈ s.fNames →
      GetNumSubs name V s = (s.fEntries.filter (fun e =>
        decide (e.1.fElName = findName s.fNames name ∧ e.1.fCycle = V ∧
          e.1.fSubName ≠ ""))).length := by
    intro hin
    have h1 : findName s.fNames name ≠ s.fNames.length := by
      rw [Ne, findName_eq_length_iff]; exact fun hc => hc hin
    have h0 : s.fNames.length ≠ 0 := by
      intro hc
      rw [List.length_eq_zero.mp hc] at hin
      exact absurd hin (List.not_mem_nil _)
    unfold GetNumSubs
    rw [if_neg h0, if_neg h1, numSubsLoop_eq, numSubs_filter _ _ _ hs, Nat.zero_add]
    have hu := upper_bound_eq_filter s.fEntries ⟨findName s.fNames name, "", V⟩ hs
    have : (upper_bound s.fEntries ⟨findName s.fNames name, "", V⟩).length
        ≤ s.fEntries.length := by
      rw [hu]; exact List.length_filter_le _ _
    omega
  refine ⟨?_, hcount, ?_⟩
  · intro hout
    unfold GetNumSubs
    by_cases h0 : s.fNames.length = 0
    · rw [if_pos h0]
    · rw [if_neg h0, if_pos ((findName_eq_length_iff _ _).mpr hout)]
  · intro hin h1 h2
    have hcol : colNames (s.fEntries.length + 1) (MakeColIter name V s)
        = some ((s.fEntries.filter (fun e =>
            decide (e.1.fElName = findName s.fNames name ∧ e.1.fCycle = V ∧
              e.1.fSubName ≠ ""))).map (fun e => e.1.fSubName)) := by
      apply colNames_spec
      · show upper_bound s.fEntries ⟨findName s.fNames name, "", V⟩
          = _ ++ lower_bound s.fEntries ⟨findName s.fNames name, "", wrapInt32 (V + 1)⟩
        rw [upper_range s.fEntries _ _ hs (key_le_succ _ V h1 h2)]
        congr 1
        apply List.filter_congr
        intro x _
        have := key_range_iff' (findName s.fNames name) V x.1 h1 h2
        rw [Bool.eq_iff_iff]
        simp only [Bool.and_eq_true, decide_eq_true_eq]
        exact this
      · have := List.length_filter_le (fun e : TFAsroKey × TFAsroValue =>
          decide (e.1.fElName = findName s.fNames name ∧ e.1.fCycle = V ∧
            e.1.fSubName ≠ "")) s.fEntries
        omega
    refine ⟨hcol, _, hcol, ?_⟩
    rw [List.length_map, hcount hin]

/-- Witness of C27: the table `("tab", "", 1)` with its column `"a"`. -/
theorem C27_num_subs_witness :
    EntriesSorted tableDirectory.fEntries ∧ tableDirectory.fEntries.length < 4294967296 ∧
    GetNumSubs "tab" 1 tableDirectory = 1 ∧
    colNames 3 (MakeColIter "tab" 1 tableDirectory) = some ["a"] ∧
    (("tab" ∉ tableDirectory.fNames → GetNumSubs "tab" 1 tableDirectory = 0) ∧
    ("tab" ∈ tableDirectory.fNames →
      GetNumSubs "tab" 1 tableDirectory = (tableDirectory.fEntries.filter (fun e =>
        decide (e.1.fElName = findName tableDirectory.fNames "tab" ∧ e.1.fCycle = 1 ∧
          e.1.fSubName ≠ ""))).length) ∧
    ("tab" ∈ tableDirectory.fNames → (-2147483648 : Int) ≤ 1 → (1 : Int) < 2147483647 →
      colNames (tableDirectory.fEntries.length + 1) (MakeColIter "tab" 1 tableDirectory)
        = some ((tableDirectory.fEntries.filter (fun e =>
            decide (e.1.fElName = findName tableDirectory.fNames "tab" ∧ e.1.fCycle = 1 ∧
              e.1.fSubName ≠ ""))).map (fun e => e.1.fSubName)) ∧
      ∃ names, colNames (tableDirectory.fEntries.length + 1)
          (MakeColIter "tab" 1 tableDirectory) = some names ∧
        names.length = GetNumSubs "tab" 1 tableDirectory)) :=
  ⟨tableDirectory_sorted, by decide, by decide, by decide,
    C27_num_subs "tab" 1 tableDirectory tableDirectory_sorted (by decide)⟩

/-- Counterexample to C27 as stated: the table `("tab", "", 2^31 - 1)` has one column, and
`GetNumSubs("tab", 2^31 - 1)` is 1.  The column iterator of that version ends at
`lower_bound("tab", "", 2^31 - 1 + 1)`, where the sum wraps to `-2^31`: the end lies
before the start, `Next` returns true for the column, then compares again unequal and
reads the entry at `end()` of the map. -/
theorem C27_counterexample :
    GetNumSubs "tab" 2147483647 lastVersionTable = 1 ∧
    (lastVersionTable.fEntries.filter (fun e =>
      decide (e.1.fElName = 0 ∧ e.1.fCycle = 2147483647 ∧ e.1.fSubName ≠ ""))).length = 1 ∧
    (MakeColIter "tab" 2147483647 lastVersionTable).mi_entry
      = [(⟨0, "a", 2147483647⟩, ⟨34, 10, 10, 1⟩)] ∧
    (MakeColIter "tab" 2147483647 lastVersionTable).mi_end = lastVersionTable.fEntries ∧
    ((MakeColIter "tab" 2147483647 lastVersionTable).Next.map Prod.fst) = some true ∧
    ((MakeColIter "tab" 2147483647 lastVersionTable).Next.bind
      (fun r => r.2.Next)).isNone = true ∧
    colNames 3 (MakeColIter "tab" 2147483647 lastVersionTable) = none := by
  refine ⟨by decide, by decide, by decide, by decide, by decide, by decide, by decide⟩

/-- In a list in key order, the entries selected by `p` are `e` and the entries behind `e`
when `p` selects exactly these. -/
theorem filter_from (T : Entries) (hs : EntriesSorted T) (p : TFAsroKey × TFAsroValue → Bool)
    (e : TFAsroKey × TFAsroValue) (he : e ∈ T)
    (hp : ∀ t ∈ T, p t = true ↔ (t = e ∨ e.1.lt t.1 = true)) :
    T.filter p = e :: T.filter (fun t => e.1.lt t.1) := by
  induction T with
  | nil => cases he
  | cons x T ih =>
    have hs' : EntriesSorted T := (List.pairwise_cons.mp hs).2
    have hx : ∀ t ∈ T, x.1.lt t.1 = true := (List.pairwise_cons.mp hs).1
    by_cases hxe : x = e
    · subst hxe
      have h1 : p x = true := (hp x (List.mem_cons_self _ _)).mpr (Or.inl rfl)
      have h2 : x.1.lt x.1 = false := lt_irrefl_key _
      rw [List.filter_cons, if_pos h1, List.filter_cons, h2]
      simp only [Bool.false_eq_true, if_false, List.cons.injEq, true_and]
      apply List.filter_congr
      intro t ht
      rw [hx t ht]
      exact (hp t (List.mem_cons_of_mem _ ht)).mpr (Or.inr (hx t ht))
    · have he' : e ∈ T := by
        rcases List.mem_cons.mp he with h | h
        · exact absurd h.symm hxe
        · exact h
      have hxlt : x.1.lt e.1 = true := hx e he'
      have h1 : p x = false := by
        rw [Bool.eq_false_iff]
        intro hc
        rcases (hp x (List.mem_cons_self _ _)).mp hc with h | h
        · exact hxe h
        · rw [lt_asymm_key hxlt] at h
          exact absurd h (by decide)
      rw [List.filter_cons, h1, List.filter_cons, lt_asymm_key hxlt]
      simp only [Bool.false_eq_true, if_false]
      exact ih hs' he' (fun t ht => hp t (List.mem_cons_of_mem _ ht))

/-- The keys that the element iterator returns when it stands at a key with an empty
sub-name: the keys with an empty sub-name behind that key. -/
theorem elementKeys_from (m : Entries) (hs : EntriesSorted m)
    (hcyc : ∀ e ∈ m, -2147483648 ≤ e.1.fCycle ∧ e.1.fCycle < 2147483647)
    (htab : ∀ e ∈ m, e.1.fSubName ≠ "" → ∃ v, (⟨e.1.fElName, "", e.1.fCycle⟩, v) ∈ m) :
    ∀ (fuel : Nat) (k : TFAsroKey), k.fSubName = "" → -2147483648 ≤ k.fCycle →
      k.fCycle < 2147483647 →
      ((m.filter (fun e => decide (e.1.fSubName = ""))).filter
        (fun e => k.lt e.1)).length < fuel →
      elementKeys m fuel ⟨k⟩
        = some (((m.filter (fun e => decide (e.1.fSubName = ""))).filter
            (fun e => k.lt e.1)).map Prod.fst) := by
  intro fuel
  induction fuel with
  | zero => intro k _ _ _ h; exact absurd h (Nat.not_lt_zero _)
  | succ fuel ih =>
    intro k hsub hc1 hc2 hfuel
    have hw : wrapInt32 (k.fCycle + 1) = k.fCycle + 1 := wrapInt32_succ _ hc1 hc2
    have hTs : EntriesSorted (m.filter (fun e => decide (e.1.fSubName = ""))) :=
      sorted_filter _ _ hs
    -- keys with an empty sub-name behind `k` are not below the key that `Next` looks up
    have hge : ∀ t ∈ m, t.1.fSubName = "" → k.lt t.1 = true →
        t.1.lt ⟨k.fElName, "", k.fCycle + 1⟩ = false := by
      intro t _ hts hkt
      rw [not_lt_table_key]
      rw [lt_iff, hsub, hts] at hkt
      rcases hkt with h | ⟨h, h' | ⟨_, h'⟩⟩
      · exact Or.inl h
      · exact Or.inr ⟨h.symm, by omega⟩
      · exact absurd h' (lt_irrefl _)
    have hlt : ∀ t : TFAsroKey, t.lt ⟨k.fElName, "", k.fCycle + 1⟩ = false →
        k.lt t = true := by
      intro t ht
      rw [not_lt_table_key] at ht
      rw [lt_iff]
      rcases ht with h | ⟨h, h'⟩
      · exact Or.inl h
      · exact Or.inr ⟨h.symm, Or.inl (by omega)⟩
    unfold elementKeys TFAsroElementIter.Next
    simp only [hw]
    cases hl : lower_bound m ⟨k.fElName, k.fSubName, k.fCycle + 1⟩ with
    | nil =>
      simp only []
      rw [hsub] at hl
      have hall := lower_bound_nil m _ hs hl
      have hnil : (m.filter (fun e => decide (e.1.fSubName = ""))).filter
          (fun e => k.lt e.1) = [] := by
        rw [List.filter_eq_nil_iff]
        intro t ht hkt
        rw [List.mem_filter] at ht
        have h1 := hge t ht.1 (by simpa using ht.2) hkt
        rw [hall t ht.1] at h1
        exact absurd h1 (by decide)
      rw [hnil]
      rfl
    | cons e tl =>
      simp only []
      rw [hsub] at hl
      obtain ⟨hem, hek, hmin⟩ := lower_bound_head m _ hs e tl hl
      -- the entry found has an empty sub-name
      have hes : e.1.fSubName = "" := by
        by_contra hne
        obtain ⟨v, hv⟩ := htab e hem hne
        have h1 : (⟨e.1.fElName, "", e.1.fCycle⟩ : TFAsroKey).lt
            ⟨k.fElName, "", k.fCycle + 1⟩ = false := by
          rw [not_lt_table_key] at hek ⊢
          exact hek
        rcases hmin _ hv h1 with h | h
        · apply hne
          rw [← h]
        · rw [lt_iff] at h
          rcases h with h | ⟨_, h | ⟨_, h⟩⟩
          · exact absurd h (lt_irrefl _)
          · exact absurd h (lt_irrefl _)
          · exact not_lt_empty _ h
      have heT : e ∈ m.filter (fun e => decide (e.1.fSubName = "")) := by
        rw [List.mem_filter]
        exact ⟨hem, by simpa using hes⟩
      have hsplit := filter_from (m.filter (fun e => decide (e.1.fSubName = ""))) hTs
        (fun t => k.lt t.1) e heT
        (by
          intro t ht
          rw [List.mem_filter] at ht
          constructor
          · intro hkt
            exact hmin t ht.1 (hge t ht.1 (by simpa using ht.2) hkt)
          · rintro (h | h)
            · rw [h]; exact hlt _ hek
            · exact lt_trans_key (hlt _ hek) h)
      rw [hsplit] at hfuel ⊢
      simp only [List.length_cons] at hfuel
      rw [ih e.1 hes (hcyc e hem).1 (hcyc e hem).2 (by omega)]
      rfl

/-- Claim C26 (amended).  For a directory in key order whose versions lie between 1 and
`2^31 - 2` and in which every entry with a non-empty sub-name has its table entry (same
name-id and version, empty sub-name): after `Reset` the successive calls of `Next` return
every key with an empty sub-name exactly once, in ascending key order, and no other key,
and then `Next` returns false.  When no entry has a sub-name these are all the keys of the
directory. -/
theorem C26_element_iteration (m : Entries) (it : TFAsroElementIter)
    (hs : EntriesSorted m)
    (hcyc : ∀ e ∈ m, 1 ≤ e.1.fCycle ∧ e.1.fCycle < 2147483647)
    (htab : ∀ e ∈ m, e.1.fSubName ≠ "" → ∃ v, (⟨e.1.fElName, "", e.1.fCycle⟩, v) ∈ m) :
    elementKeys m (m.length + 1) it.Reset
      = some ((m.filter (fun e => decide (e.1.fSubName = ""))).map Prod.fst) ∧
    ((∀ e ∈ m, e.1.fSubName = "") →
      elementKeys m (m.length + 1) it.Reset = some (m.map Prod.fst)) := by
  have hall : (m.filter (fun e => decide (e.1.fSubName = ""))).filter
      (fun e => TFAsroKey.lt ⟨0, "", 0⟩ e.1)
      = m.filter (fun e => decide (e.1.fSubName = "")) := by
    rw [List.filter_eq_self]
    intro e he
    rw [List.mem_filter] at he
    have := (hcyc e he.1).1
    rw [lt_iff]
    rcases Nat.eq_zero_or_pos e.1.fElName with h | h
    · exact Or.inr ⟨h.symm, Or.inl (by simp only []; omega)⟩
    · exact Or.inl h
  have h := elementKeys_from m hs (fun e he => ⟨by have := (hcyc e he).1; omega, (hcyc e he).2⟩)
    htab (m.length + 1) ⟨0, "", 0⟩ rfl (by decide) (by decide)
    (by
      rw [hall]
      have := List.length_filter_le (fun e : TFAsroKey × TFAsroValue =>
        decide (e.1.fSubName = "")) m
      omega)
  rw [hall] at h
  have h' : elementKeys m (m.length + 1) it.Reset
      = some ((m.filter (fun e => decide (e.1.fSubName = ""))).map Prod.fst) := h
  refine ⟨h', ?_⟩
  intro hno
  rw [h']
  congr 2
  rw [List.filter_eq_self]
  intro e he
  simpa using hno e he

theorem tableFile_tables : ∀ e ∈ tableFile.fEntries, e.1.fSubName ≠ "" →
    ∃ v, (⟨e.1.fElName, "", e.1.fCycle⟩, v) ∈ tableFile.fEntries := by
  intro e he hne
  have he' : e ∈ [((⟨0, "", 1⟩ : TFAsroKey), (⟨24, 3, 3, 0⟩ : TFAsroValue)),
      (⟨0, "x", 1⟩, ⟨27, 2, 2, 0⟩), (⟨0, "", 2⟩, ⟨29, 1, 1, 0⟩),
      (⟨1, "", 1⟩, ⟨30, 4, 4, 0⟩)] := he
  simp only [List.mem_cons, List.mem_singleton, List.not_mem_nil, or_false] at he'
  rcases he' with h | h | h | h
  · rw [h] at hne; exact absurd rfl hne
  · rw [h]; exact ⟨⟨24, 3, 3, 0⟩, List.mem_cons_self _ _⟩
  · rw [h] at hne; exact absurd rfl hne
  · rw [h] at hne; exact absurd rfl hne

/-- Witness of C26: the file with the table `("a", "", 1)`, its column `"x"`, the version
`("a", "", 2)` and the element `("b", "", 1)`; the iterator returns the three keys
without sub-name. -/
theorem C26_element_iteration_witness :
    EntriesSorted tableFile.fEntries ∧
    elementKeys tableFile.fEntries 5 (TFAsroElementIter.Reset ⟨⟨5, "x", 7⟩⟩)
      = some [⟨0, "", 1⟩, ⟨0, "", 2⟩, ⟨1, "", 1⟩] ∧
    elementKeys tableFile.fEntries (tableFile.fEntries.length + 1)
        (TFAsroElementIter.Reset ⟨⟨5, "x", 7⟩⟩)
      = some ((tableFile.fEntries.filter
          (fun e => decide (e.1.fSubName = ""))).map Prod.fst) ∧
    ((∀ e ∈ tableFile.fEntries, e.1.fSubName = "") →
      elementKeys tableFile.fEntries (tableFile.fEntries.length + 1)
          (TFAsroElementIter.Reset ⟨⟨5, "x", 7⟩⟩)
        = some (tableFile.fEntries.map Prod.fst)) :=
  ⟨tableFile_sorted, by decide,
    C26_element_iteration tableFile.fEntries ⟨⟨5, "x", 7⟩⟩ tableFile_sorted
      (by decide) tableFile_tables⟩

/-- Counterexample to C26 as stated.  The directory holds the table `("tab", "", 1)` and
its column `("tab", "a", 1)`: after `Reset` the first `Next` returns the key of the table
and the second `Next`, which looks for the first key from `(0, "", 2)` on, returns false;
the key of the column is never returned.  With the single entry `(0, "", 0)` the first
`Next` returns false.  With the single entry `(0, "", 2^31 - 1)` the increment of the
version wraps, every `Next` returns true with the same key, and the calls never end. -/
theorem C26_counterexample :
    tableDirectory.fEntries.map Prod.fst = [⟨0, "", 1⟩, ⟨0, "a", 1⟩] ∧
    elementKeys tableDirectory.fEntries 3 (TFAsroElementIter.Reset ⟨⟨0, "", 0⟩⟩)
      = some [⟨0, "", 1⟩] ∧
    elementKeys [(⟨0, "", 0⟩, ⟨24, 1, 1, 0⟩)] 2 (TFAsroElementIter.Reset ⟨⟨0, "", 0⟩⟩)
      = some [] ∧
    (TFAsroElementIter.Next [(⟨0, "", 2147483647⟩, ⟨24, 1, 1, 0⟩)] ⟨⟨0, "", 0⟩⟩).1 = true ∧
    (TFAsroElementIter.Next [(⟨0, "", 2147483647⟩, ⟨24, 1, 1, 0⟩)]
      ⟨⟨0, "", 2147483647⟩⟩).1 = true ∧
    (TFAsroElementIter.Next [(⟨0, "", 2147483647⟩, ⟨24, 1, 1, 0⟩)]
      ⟨⟨0, "", 2147483647⟩⟩).2.fKey = ⟨0, "", 2147483647⟩ := by
  refine ⟨by decide, by decide, by decide, by decide, by decide, by decide⟩

theorem scanL_none (size : Nat) (fl : List (Nat × Nat)) (h : ∀ x ∈ fl, x.2 < size) :
    ∀ (index : Nat) (best : Nat × Nat), scanL size fl index best = best := by
  induction fl with
  | nil => intro index best; rfl
  | cons r fl ih =>
    intro index best
    have hr := h r (List.mem_cons_self _ _)
    simp only [scanL]
    rw [if_neg (by omega)]
    exact ih (fun x hx => h x (List.mem_cons_of_mem _ hx)) _ _

/-- The call `GetFree(size)` when no range of the table is long enough: the first range is
taken. -/
theorem getFree_exhausted (size : Nat) (s : TFAsroFile) (r : Nat × Nat)
    (rest : List (Nat × Nat)) (hrep : TableRep s (r :: rest))
    (h : ∀ x ∈ r :: rest, x.2 < size) :
    ∃ s', GetFree size s = some (r.1, s') ∧ SameButTable s s' ∧
      freeList s' = ((r.1 + size) % 4294967296, (r.2 + 4294967296 - size) % 4294967296)
        :: rest := by
  have hb : (scanL size ([] ++ r :: rest) 0 (0, 4294967295)).1 = ([] : List (Nat × Nat)).length := by
    rw [List.nil_append, scanL_none size _ h]
    rfl
  obtain ⟨s', h1, h2, _, _, h5⟩ := getFree_step size s [] r rest hrep hb
  have hr := h r (List.mem_cons_self _ _)
  exact ⟨s', h1, h2, freeList_of_rep (h5 (by omega)).1⟩

theorem nearlyFull_rep : TableRep nearlyFull [(2147483670, 2147483625)] :=
  ⟨rfl, rfl, by decide, [], rfl⟩

/-- Claim C29 fails on the code.  For a record of an open file with on-disk length
different from the logical length whose bytes are on the disk: when `Uncompress` returns
false, `Read` does not return `NULL`; it returns an object streamed from the buffer as
`Uncompress` left it (the bytes written before the failure, the rest never written).  The
return value of `Uncompress` is not looked at. -/
theorem C29_read_ignores_uncompress (c : Codec) (key k : TFAsroKey) (v : TFAsroValue)
    (s : TFAsroFile) (fileBuffer out : List Nat) (hf : 0 ≤ s.fFile)
    (hfind : mapFind s.fEntries key = some (k, v))
    (hne : v.fDataLength ≠ v.fFileLength)
    (hread : pread s.disk v.fPos v.fFileLength = some fileBuffer)
    (hun : Uncompress c fileBuffer v.fDataLength = some (false, out))
    (hcl : v.fClassName < s.fClassNames.length) :
    ReadKey c key s
      = some (some ⟨s.fClassNames.getD v.fClassName "",
          (out ++ List.replicate (v.fDataLength - out.length) 0).take v.fDataLength⟩) := by
  unfold ReadKey
  rw [if_neg (not_lt.mpr hf)]
  simp only [hfind, if_neg hne, hread, hun, if_pos hcl]

set_option maxRecDepth 100000 in
theorem shrink_stored : pread shrinkFile3.disk 24 255 = some shortPacked := by
  decide

set_option maxRecDepth 100000 in
theorem sample_uncompress_fails :
    Uncompress sampleCodec shortPacked 256 = some (false, []) := by
  decide

set_option maxRecDepth 100000 in
theorem shrink_read_failed :
    ReadKey sampleCodec ⟨0, "", 1⟩ shrinkFile3
      = some (some ⟨"TNamed", List.replicate 256 0⟩) := by
  decide

/-- The failing input of C29: the committed file that holds the 256 bytes of `echoData`
compressed to 255 bytes, read with a codec that cannot expand them.  `Uncompress` returns
false and has written nothing, and `Read` returns an object of 256 bytes. -/
theorem C29_read_ignores_uncompress_witness :
    (0 : Int) ≤ shrinkFile3.fFile ∧
    mapFind shrinkFile3.fEntries ⟨0, "", 1⟩ = some (⟨0, "", 1⟩, ⟨24, 255, 256, 0⟩) ∧
    (256 : Nat) ≠ 255 ∧
    pread shrinkFile3.disk 24 255 = some shortPacked ∧
    Uncompress sampleCodec shortPacked 256 = some (false, []) ∧
    ReadKey sampleCodec ⟨0, "", 1⟩ shrinkFile3
      = some (some ⟨"TNamed", List.replicate 256 0⟩) ∧
    ReadKey sampleCodec ⟨0, "", 1⟩ shrinkFile3
      = some (some ⟨shrinkFile3.fClassNames.getD (TFAsroValue.mk 24 255 256 0).fClassName "",
          (([] : List Nat) ++ List.replicate
            ((TFAsroValue.mk 24 255 256 0).fDataLength - ([] : List Nat).length) 0).take
              (TFAsroValue.mk 24 255 256 0).fDataLength⟩) :=
  ⟨by decide, by decide, by decide, shrink_stored, sample_uncompress_fails,
    shrink_read_failed,
    C29_read_ignores_uncompress sampleCodec ⟨0, "", 1⟩ ⟨0, "", 1⟩ ⟨24, 255, 256, 0⟩
      shrinkFile3 shortPacked [] (by decide) (by decide) (by decide) shrink_stored
      sample_uncompress_fails (by decide)⟩

theorem wild_nil (t : List Char) : WildMatch [] t ↔ t = [] := by
  constructor
  · intro h
    cases h
    rfl
  · intro h
    subst h
    exact WildMatch.nil

theorem wild_star (p t : List Char) :
    WildMatch ('*' :: p) t ↔ ∃ g r, t = g ++ r ∧ WildMatch p r := by
  constructor
  · intro h
    cases h with
    | star g h1 => exact ⟨g, _, rfl, h1⟩
    | char c hc h1 => exact absurd rfl hc
  · rintro ⟨g, r, rfl, h⟩
    exact WildMatch.star g h

theorem wild_char (c : Char) (hc : c ≠ '*') (p t : List Char) :
    WildMatch (c :: p) t ↔ ∃ r, t = c :: r ∧ WildMatch p r := by
  constructor
  · intro h
    cases h with
    | star g h1 => exact absurd rfl hc
    | char c hc h1 => exact ⟨_, rfl, h1⟩
  · rintro ⟨r, rfl, h⟩
    exact WildMatch.char c hc h

theorem wild_run (k : List Char) (hk : ∀ c ∈ k, c ≠ '*') (d t : List Char) :
    WildMatch (k ++ d) t ↔ ∃ r, t = k ++ r ∧ WildMatch d r := by
  induction k generalizing t with
  | nil => simp
  | cons c k ih =>
    have hc : c ≠ '*' := hk c (List.mem_cons_self _ _)
    have ih2 := ih (fun x hx => hk x (List.mem_cons_of_mem _ hx))
    rw [List.cons_append, wild_char c hc]
    constructor
    · rintro ⟨r, rfl, h⟩
      obtain ⟨r2, rfl, h2⟩ := (ih2 r).1 h
      exact ⟨r2, rfl, h2⟩
    · rintro ⟨r, rfl, h⟩
      exact ⟨k ++ r, rfl, (ih2 _).2 ⟨r, rfl, h⟩⟩

theorem wild_literal (k : List Char) (hk : ∀ c ∈ k, c ≠ '*') (t : List Char) :
    WildMatch k t ↔ t = k := by
  have h := wild_run k hk [] t
  rw [List.append_nil] at h
  rw [h]
  constructor
  · rintro ⟨r, rfl, hr⟩
    rw [(wild_nil r).1 hr, List.append_nil]
  · intro h2
    exact ⟨[], by rw [h2, List.append_nil], WildMatch.nil⟩

theorem wild_star_star (p t : List Char) :
    WildMatch ('*' :: '*' :: p) t ↔ WildMatch ('*' :: p) t := by
  rw [wild_star, wild_star]
  constructor
  · rintro ⟨g, r, rfl, h⟩
    obtain ⟨g2, r2, rfl, h2⟩ := (wild_star p r).1 h
    exact ⟨g ++ g2, r2, by rw [List.append_assoc], h2⟩
  · rintro ⟨g, r, rfl, h⟩
    exact ⟨g, r, rfl, (wild_star p r).2 ⟨[], r, rfl, h⟩⟩

theorem wild_stars (s : List Char) (hs : ∀ c ∈ s, c = '*') (p t : List Char) :
    WildMatch ('*' :: (s ++ p)) t ↔ WildMatch ('*' :: p) t := by
  induction s with
  | nil => simp
  | cons c s ih =>
    have hc : c = '*' := hs c (List.mem_cons_self _ _)
    subst hc
    rw [List.cons_append, wild_star_star]
    exact ih (fun x hx => hs x (List.mem_cons_of_mem _ hx))

theorem wild_only_star (t : List Char) : WildMatch ['*'] t := by
  rw [wild_star]
  exact ⟨t, [], by rw [List.append_nil], WildMatch.nil⟩

theorem dropWhile_cases (p : Char → Bool) (l : List Char) :
    (l.dropWhile p = [] ∧ ∀ c ∈ l, p c = true) ∨
      ∃ c r, l.dropWhile p = c :: r ∧ p c = false := by
  induction l with
  | nil => left; simp
  | cons a l ih =>
    cases hp : p a with
    | false => right; exact ⟨a, l, by simp [List.dropWhile, hp], hp⟩
    | true =>
      rcases ih with ⟨h1, h2⟩ | ⟨c, r, h1, h2⟩
      · left
        refine ⟨by simp [List.dropWhile, hp, h1], ?_⟩
        intro c hc
        rcases List.mem_cons.1 hc with rfl | hc
        · exact hp
        · exact h2 c hc
      · right; exact ⟨c, r, by simp [List.dropWhile, hp, h1], h2⟩

theorem strtok_none (q : List Char) (h : strtok q = none) : ∀ c ∈ q, c = '*' := by
  unfold strtok at h
  split at h
  · rename_i h1
    rcases dropWhile_cases (fun c => decide (c = '*')) q with ⟨_, h2⟩ | ⟨c, r, h2, _⟩
    · intro c hc
      simpa using h2 c hc
    · rw [h2] at h1
      exact absurd h1 (by simp)
  · exact absurd h (by simp)

theorem strtok_some (q k rest : List Char) (h : strtok q = some (k, rest)) :
    ∃ s d, q = s ++ k ++ d ∧ (∀ c ∈ s, c = '*') ∧ k ≠ [] ∧ (∀ c ∈ k, c ≠ '*') ∧
      ((d = [] ∧ rest = []) ∨ d = '*' :: rest) := by
  unfold strtok at h
  split at h
  · exact absurd h (by simp)
  · rename_i h1
    simp only [Option.some.injEq, Prod.mk.injEq] at h
    obtain ⟨hk, hrest⟩ := h
    have hq := List.takeWhile_append_dropWhile (fun c => decide (c = '*')) q
    have hb := List.takeWhile_append_dropWhile (fun c => decide (c ≠ '*'))
      (q.dropWhile (fun c => decide (c = '*')))
    rw [hk] at hb
    refine ⟨q.takeWhile (fun c => decide (c = '*')),
      (q.dropWhile (fun c => decide (c = '*'))).dropWhile (fun c => decide (c ≠ '*')),
      ?_, ?_, ?_, ?_, ?_⟩
    · rw [List.append_assoc, hb, hq]
    · intro c hc
      simpa using List.mem_takeWhile_imp hc
    · rcases dropWhile_cases (fun c => decide (c = '*')) q with ⟨h2, _⟩ | ⟨c, r, h2, h3⟩
      · exact absurd h2 h1
      · rw [h2] at hk
        have hc : decide (c ≠ '*') = true := by simpa using h3
        rw [List.takeWhile_cons, hc] at hk
        rw [← hk]
        simp
    · intro c hc
      rw [← hk] at hc
      simpa using List.mem_takeWhile_imp hc
    · rcases dropWhile_cases (fun c => decide (c ≠ '*'))
        (q.dropWhile (fun c => decide (c = '*'))) with ⟨h2, _⟩ | ⟨c, r, h2, h3⟩
      · left
        rw [h2] at hrest
        exact ⟨h2, by rw [← hrest]; rfl⟩
      · right
        rw [h2] at hrest ⊢
        have hc : c = '*' := by simpa using h3
        rw [hc, ← hrest]
        rfl

theorem tokenLoop_nil (fuel : Nat) : tokenLoop fuel [] = [] := by
  cases fuel with
  | zero => rfl
  | succ n => rfl

theorem lastStar_all (q : List Char) (hq : ∀ c ∈ q, c = '*') :
    lastStar ('*' :: q) = true := by
  unfold lastStar
  have h : ('*' :: q).getLast? = some (('*' :: q).getLast (by simp)) :=
    List.getLast?_eq_getLast _ _
  have h2 := List.getLast_mem (l := '*' :: q) (by simp)
  rw [h]
  rcases List.mem_cons.1 h2 with h3 | h3
  · simp [h3]
  · simp [hq _ h3]

theorem lastStar_append (a b : List Char) (hb : b ≠ []) :
    lastStar (a ++ b) = lastStar b := by
  unfold lastStar
  rw [List.getLast?_append_of_ne_nil _ hb]

theorem lastStar_literal (k : List Char) (hk : k ≠ []) (hs : ∀ c ∈ k, c ≠ '*') :
    lastStar k = false := by
  unfold lastStar
  rw [List.getLast?_eq_getLast _ hk]
  have h := hs _ (List.getLast_mem hk)
  simp [h]

theorem gap_of_pattern (fuel : Nat) : ∀ (q : List Char), q.length < fuel → ∀ t,
    (WildMatch ('*' :: q) t ↔ GapMatch (lastStar ('*' :: q)) (tokenLoop fuel q) t) := by
  induction fuel with
  | zero => intro q hq; omega
  | succ fuel ih =>
    intro q hq t
    cases h : strtok q with
    | none =>
      have hall := strtok_none q h
      have h1 : tokenLoop (fuel + 1) q = [] := by simp [tokenLoop, h]
      rw [h1, lastStar_all q hall]
      have h2 := wild_stars q hall [] t
      rw [List.append_nil] at h2
      rw [h2]
      simp [GapMatch, wild_only_star]
    | some kr =>
      obtain ⟨k, rest⟩ := kr
      obtain ⟨s, d, hq2, hs, hkne, hk, hd⟩ := strtok_some q k rest h
      have h1 : tokenLoop (fuel + 1) q = k :: tokenLoop fuel rest := by simp [tokenLoop, h]
      rw [h1]
      have key : ∀ r, WildMatch d r ↔
          GapMatch (lastStar ('*' :: q)) (tokenLoop fuel rest) r := by
        intro r
        rcases hd with ⟨hd1, hd2⟩ | hd1
        · subst hd1; subst hd2
          rw [tokenLoop_nil, wild_nil]
          have h3 : lastStar ('*' :: q) = false := by
            rw [hq2, List.append_nil, ← List.cons_append, lastStar_append _ _ hkne]
            exact lastStar_literal k hkne hk
          rw [h3]
          simp [GapMatch]
        · subst hd1
          have hlen : rest.length < fuel := by
            have := congrArg List.length hq2
            simp only [List.length_append, List.length_cons] at this
            omega
          have h3 : lastStar ('*' :: q) = lastStar ('*' :: rest) := by
            rw [hq2, ← List.cons_append, lastStar_append _ _ (by simp)]
          rw [h3]
          exact ih rest hlen r
      rw [hq2, List.append_assoc, wild_stars s hs, wild_star]
      show _ ↔ ∃ g r, t = g ++ k ++ r ∧ GapMatch (lastStar ('*' :: (s ++ (k ++ d))))
        (tokenLoop fuel rest) r
      rw [← List.append_assoc, ← hq2]
      constructor
      · rintro ⟨g, r, rfl, hw⟩
        obtain ⟨r2, rfl, hw2⟩ := (wild_run k hk d r).1 hw
        exact ⟨g, r2, by rw [List.append_assoc], (key r2).1 hw2⟩
      · rintro ⟨g, r, rfl, hg⟩
        exact ⟨g, k ++ r, by rw [List.append_assoc],
          (wild_run k hk d _).2 ⟨r, rfl, (key r).2 hg⟩⟩

theorem strstr_some (hay k : List Char) : ∀ off, strstr hay k = some off →
    hay = hay.take off ++ k ++ hay.drop (off + k.length) ∧
      ∀ g r, hay = g ++ k ++ r → off ≤ g.length := by
  induction hay with
  | nil =>
    intro off h
    unfold strstr at h
    split at h
    · rename_i hp
      have hk : k = [] := List.prefix_nil.1 hp
      simp only [Option.some.injEq] at h
      subst h; subst hk
      simp
    · exact absurd h (by simp)
  | cons c hay ih =>
    intro off h
    unfold strstr at h
    split at h
    · rename_i hp
      simp only [Option.some.injEq] at h
      subst h
      obtain ⟨r, hr⟩ := hp
      refine ⟨?_, fun _ _ _ => Nat.zero_le _⟩
      rw [← hr]
      simp
    · rename_i hp
      cases h2 : strstr hay k with
      | none => rw [h2] at h; exact absurd h (by simp)
      | some o =>
        rw [h2] at h
        simp only [Option.map_some', Option.some.injEq] at h
        subst h
        obtain ⟨h3, h4⟩ := ih o h2
        constructor
        · rw [List.take_succ_cons, Nat.add_right_comm, List.drop_succ_cons,
            List.cons_append, List.cons_append, ← h3]
        · intro g r hg
          cases g with
          | nil =>
            exfalso
            apply hp
            exact ⟨r, by rw [hg]; simp⟩
          | cons a g =>
            simp only [List.cons_append, List.cons.injEq] at hg
            have := h4 g r hg.2
            simp only [List.length_cons]
            omega

theorem strstr_none (hay k : List Char) : strstr hay k = none →
    ∀ g r, hay ≠ g ++ k ++ r := by
  induction hay with
  | nil =>
    intro h g r hg
    unfold strstr at h
    split at h
    · exact absurd h (by simp)
    · rename_i hp
      apply hp
      have : k = [] := by
        have h2 := congrArg List.length hg
        simp only [List.length_append, List.length_nil] at h2
        exact List.length_eq_zero.1 (by omega)
      rw [this]
  | cons c hay ih =>
    intro h g r hg
    unfold strstr at h
    split at h
    · exact absurd h (by simp)
    · rename_i hp
      cases h2 : strstr hay k with
      | some o => rw [h2] at h; exact absurd h (by simp)
      | none =>
        cases g with
        | nil => exact hp ⟨r, by rw [hg]; simp⟩
        | cons a g =>
          simp only [List.cons_append, List.cons.injEq] at hg
          exact ih h2 g r hg.2

theorem gap_extend (trail : Bool) (k : List Char) (ks : List (List Char))
    (x t : List Char) (h : GapMatch trail (k :: ks) t) : GapMatch trail (k :: ks) (x ++ t) := by
  obtain ⟨g, r, rfl, hr⟩ := h
  exact ⟨x ++ g, r, by simp [List.append_assoc], hr⟩

theorem select_free_none (T : List Char) (lead trail : Bool) (N num : Nat)
    (k : List Char) (ks : List (List Char)) (pos1 : List Char)
    (h : (!trail && decide (num = N - 1)) = false) (hs : strstr pos1 k = none) :
    selectLoop T lead trail N num (k :: ks) pos1 = false := by
  rw [selectLoop]
  simp only [h, Bool.false_and, Bool.false_eq_true, if_false, hs]

theorem select_free_some (T : List Char) (lead trail : Bool) (N num : Nat)
    (k : List Char) (ks : List (List Char)) (pos1 : List Char) (off : Nat)
    (h : (!trail && decide (num = N - 1)) = false) (hs : strstr pos1 k = some off) :
    selectLoop T lead trail N num (k :: ks) pos1 =
      if !lead && decide (num = 0) && decide (off ≠ 0) then false
      else selectLoop T lead trail N (num + 1) ks (pos1.drop (off + k.length)) := by
  rw [selectLoop]
  simp only [h, Bool.false_and, Bool.false_eq_true, if_false, hs]

theorem select_last_short (T : List Char) (lead trail : Bool) (N num : Nat)
    (k : List Char) (ks : List (List Char)) (pos1 : List Char)
    (h : (!trail && decide (num = N - 1)) = true) (hlen : k.length > pos1.length) :
    selectLoop T lead trail N num (k :: ks) pos1 = false := by
  rw [selectLoop]
  simp only [h, Bool.true_and, if_true, decide_eq_true_eq, hlen]

theorem select_last_none (T : List Char) (lead trail : Bool) (N num : Nat)
    (k : List Char) (ks : List (List Char)) (pos1 : List Char)
    (h : (!trail && decide (num = N - 1)) = true)
    (hs : strstr (T.drop (T.length - k.length)) k = none) :
    selectLoop T lead trail N num (k :: ks) pos1 = false := by
  rw [selectLoop]
  simp only [h, Bool.true_and, if_true, decide_eq_true_eq, hs]
  split <;> rfl

theorem select_last_some (T : List Char) (lead trail : Bool) (N num : Nat)
    (k : List Char) (ks : List (List Char)) (pos1 : List Char) (off : Nat)
    (h : (!trail && decide (num = N - 1)) = true) (hlen : ¬ k.length > pos1.length)
    (hs : strstr (T.drop (T.length - k.length)) k = some off) :
    selectLoop T lead trail N num (k :: ks) pos1 =
      if !lead && decide (num = 0) && decide (off ≠ 0) then false
      else selectLoop T lead trail N (num + 1) ks
        ((T.drop (T.length - k.length)).drop (off + k.length)) := by
  rw [selectLoop]
  simp only [h, Bool.true_and, if_true, decide_eq_true_eq, hs, hlen, if_false]

theorem strstr_same_length (e k : List Char) (h : e.length = k.length) :
    strstr e k = if e = k then some 0 else none := by
  cases hs : strstr e k with
  | none =>
    have h1 := strstr_none e k hs [] []
    have h2 : e ≠ k := by simpa using h1
    rw [if_neg h2]
  | some off =>
    obtain ⟨h1, h2⟩ := strstr_some e k off hs
    have h3 := congrArg List.length h1
    simp only [List.length_append, List.length_take, List.length_drop] at h3
    have h4 : (e.take off).length = 0 := by
      rw [List.length_take]; omega
    have h5 : (e.drop (off + k.length)).length = 0 := by
      rw [List.length_drop]; omega
    rw [List.length_eq_zero] at h4 h5
    rw [h4, h5] at h1
    have h6 : e = k := by simpa using h1
    have h7 := h2 [] [] (by simpa using h6)
    simp only [List.length_nil] at h7
    have h8 : off = 0 := by omega
    rw [if_pos h6, h8]

theorem strstr_zero (hay k : List Char) : strstr hay k = some 0 ↔ k <+: hay := by
  cases hay with
  | nil =>
    unfold strstr
    split <;> simp_all
  | cons c hay =>
    unfold strstr
    split
    · simp_all
    · rename_i hp
      constructor
      · intro h
        cases h2 : strstr hay k with
        | none => rw [h2] at h; exact absurd h (by simp)
        | some o => rw [h2] at h; simp at h
      · intro h
        exact absurd h hp

theorem strstr_found (hay k : List Char) :
    (∃ off, strstr hay k = some off) ↔ ∃ g r, hay = g ++ k ++ r := by
  constructor
  · rintro ⟨off, h⟩
    exact ⟨_, _, (strstr_some hay k off h).1⟩
  · rintro ⟨g, r, h⟩
    cases hs : strstr hay k with
    | none => exact absurd h (strstr_none hay k hs g r)
    | some off => exact ⟨off, rfl⟩

theorem suffix_of_rest (T pre pos1 k : List Char) (hT : T = pre ++ pos1)
    (hlen : k.length ≤ pos1.length) :
    T.drop (T.length - k.length) = k ↔ ∃ g, pos1 = g ++ k := by
  constructor
  · intro h
    have h1 : k <:+ T := (List.suffix_iff_eq_drop).2 h.symm
    have h2 : pos1 <:+ T := ⟨pre, hT.symm⟩
    obtain ⟨g, hg⟩ := List.suffix_of_suffix_length_le h1 h2 hlen
    exact ⟨g, hg.symm⟩
  · rintro ⟨g, hg⟩
    have h1 : k <:+ T := ⟨pre ++ g, by rw [hT, hg, List.append_assoc]⟩
    exact ((List.suffix_iff_eq_drop).1 h1).symm

theorem loop_gap (T : List Char) (lead trail : Bool) (N : Nat) :
    ∀ (toks : List (List Char)) (num : Nat) (pos1 : List Char), toks ≠ [] →
      num + toks.length = N → (lead = true ∨ num ≠ 0) → (∃ pre, T = pre ++ pos1) →
      (selectLoop T lead trail N num toks pos1 = true ↔ GapMatch trail toks pos1) := by
  intro toks
  induction toks with
  | nil => intro num pos1 h; exact absurd rfl h
  | cons k ks ih =>
    intro num pos1 _ hN hfree hsuf
    have hcheck : ∀ off : Nat, (!lead && decide (num = 0) && decide (off ≠ 0)) = false := by
      intro off
      rcases hfree with h | h
      · simp [h]
      · simp [h]
    by_cases hc : (!trail && decide (num = N - 1)) = true
    · -- the last token of a pattern that does not end with a star
      have htr : trail = false := by
        cases trail
        · rfl
        · simp at hc
      have hnum : num = N - 1 := by simpa [htr] using hc
      have hks : ks = [] := by
        apply List.length_eq_zero.1
        simp only [List.length_cons] at hN
        omega
      subst hks
      subst htr
      have hgap : GapMatch false [k] pos1 ↔ ∃ g, pos1 = g ++ k := by
        simp only [GapMatch, Bool.false_eq_true, false_or]
        constructor
        · rintro ⟨g, r, h1, rfl⟩
          exact ⟨g, by rw [h1, List.append_nil]⟩
        · rintro ⟨g, h1⟩
          exact ⟨g, [], by rw [h1, List.append_nil], rfl⟩
      rw [hgap]
      by_cases hlen : k.length > pos1.length
      · rw [select_last_short T lead false N num k [] pos1 hc hlen]
        constructor
        · intro h; exact absurd h (by simp)
        · rintro ⟨g, hg⟩
          have := congrArg List.length hg
          simp only [List.length_append] at this
          omega
      · obtain ⟨pre, hpre⟩ := hsuf
        have hsx := suffix_of_rest T pre pos1 k hpre (by omega)
        have hlenT : (T.drop (T.length - k.length)).length = k.length := by
          rw [List.length_drop]
          have := congrArg List.length hpre
          simp only [List.length_append] at this
          omega
        have hss := strstr_same_length _ k hlenT
        by_cases heq : T.drop (T.length - k.length) = k
        · rw [if_pos heq] at hss
          rw [select_last_some T lead false N num k [] pos1 0 hc hlen hss, hcheck 0]
          simp only [Bool.false_eq_true, if_false, selectLoop, true_iff]
          exact hsx.1 heq
        · rw [if_neg heq] at hss
          rw [select_last_none T lead false N num k [] pos1 hc hss]
          constructor
          · intro h; exact absurd h (by simp)
          · intro h; exact absurd (hsx.2 h) heq
    · have hc2 : (!trail && decide (num = N - 1)) = false := by
        simpa using hc
      cases hs : strstr pos1 k with
      | none =>
        rw [select_free_none T lead trail N num k ks pos1 hc2 hs]
        constructor
        · intro h; exact absurd h (by simp)
        · rintro ⟨g, r, h1, _⟩
          exact absurd h1 (strstr_none pos1 k hs g r)
      | some off =>
        rw [select_free_some T lead trail N num k ks pos1 off hc2 hs, hcheck off]
        simp only [Bool.false_eq_true, if_false]
        obtain ⟨h1, h2⟩ := strstr_some pos1 k off hs
        cases ks with
        | nil =>
          have htr : trail = true := by
            simp only [List.length_cons, List.length_nil] at hN
            have : num = N - 1 := by omega
            simpa [this] using hc2
          subst htr
          simp only [selectLoop, true_iff, GapMatch]
          exact ⟨_, _, h1, Or.inl trivial⟩
        | cons k2 ks2 =>
          obtain ⟨pre, hpre⟩ := hsuf
          have hsuf2 : ∃ pre2, T = pre2 ++ pos1.drop (off + k.length) := by
            refine ⟨pre ++ pos1.take (off + k.length), ?_⟩
            rw [List.append_assoc, List.take_append_drop]
            exact hpre
          have hih := ih (num + 1) (pos1.drop (off + k.length)) (by simp)
            (by simp only [List.length_cons] at hN ⊢; omega) (Or.inr (by omega)) hsuf2
          rw [hih]
          constructor
          · intro h
            exact ⟨_, _, h1, h⟩
          · rintro ⟨g, r, hg, hr⟩
            have hle := h2 g r hg
            have hdrop : pos1.drop (off + k.length) =
                (pos1.drop (off + k.length)).take (g.length - off) ++ r := by
              have h3 : pos1.drop (g.length + k.length) = r := by
                rw [hg, ← List.length_append, List.drop_left]
              have h4 : pos1.drop (off + k.length) =
                  (pos1.drop (off + k.length)).take (g.length - off) ++
                    (pos1.drop (off + k.length)).drop (g.length - off) :=
                (List.take_append_drop _ _).symm
              rw [List.drop_drop] at h4
              have h5 : off + k.length + (g.length - off) = g.length + k.length := by omega
              rw [h5, h3] at h4
              exact h4
            rw [hdrop]
            exact gap_extend trail k2 ks2 _ r hr

theorem loop_anchored (T : List Char) (trail : Bool) (N : Nat) (k : List Char)
    (ks : List (List Char)) (hN : (k :: ks).length = N) (h : ks ≠ [] ∨ trail = true) :
    selectLoop T false trail N 0 (k :: ks) T = true ↔
      ∃ r, T = k ++ r ∧ GapMatch trail ks r := by
  have hc2 : (!trail && decide (0 = N - 1)) = false := by
    rcases h with h | h
    · have : 0 < ks.length := List.length_pos.2 h
      simp only [List.length_cons] at hN
      have h2 : ¬ (0 = N - 1) := by omega
      simp [h2]
    · simp [h]
  cases hs : strstr T k with
  | none =>
    rw [select_free_none T false trail N 0 k ks T hc2 hs]
    constructor
    · intro h; exact absurd h (by simp)
    · rintro ⟨r, h1, _⟩
      exact absurd (by rw [List.nil_append]; exact h1) (strstr_none T k hs [] r)
  | some off =>
    rw [select_free_some T false trail N 0 k ks T off hc2 hs]
    by_cases hoff : off = 0
    · subst hoff
      simp only [Bool.not_false, decide_True, Bool.and_self, ne_eq, not_true_eq_false,
        decide_False, Bool.and_false, Bool.false_eq_true, if_false, Nat.zero_add]
      have hpre : k <+: T := (strstr_zero T k).1 hs
      obtain ⟨r0, hr0⟩ := hpre
      have hdrop : T.drop k.length = r0 := by
        rw [← hr0, List.drop_left]
      rw [hdrop]
      have hrhs : (∃ r, T = k ++ r ∧ GapMatch trail ks r) ↔ GapMatch trail ks r0 := by
        constructor
        · rintro ⟨r, h1, h2⟩
          rw [← hr0] at h1
          rw [List.append_cancel_left h1]
          exact h2
        · intro h2
          exact ⟨r0, hr0.symm, h2⟩
      rw [hrhs]
      cases ks with
      | nil =>
        rcases h with h | h
        · exact absurd rfl h
        · subst h
          simp [selectLoop, GapMatch]
      | cons k2 ks2 =>
        exact loop_gap T false trail N (k2 :: ks2) 1 r0 (by simp)
          (by simp only [List.length_cons] at hN ⊢; omega) (Or.inr (by omega))
          ⟨k, hr0.symm⟩
    · have hchk : (!false && decide (0 = 0) && decide (off ≠ 0)) = true := by
        simp [hoff]
      rw [hchk]
      simp only [if_true]
      constructor
      · intro h; exact absurd h (by simp)
      · rintro ⟨r, h1, _⟩
        have h2 : strstr T k = some 0 := (strstr_zero T k).2 ⟨r, h1.symm⟩
        rw [hs] at h2
        simp only [Option.some.injEq] at h2
        exact absurd h2 hoff

theorem strtok_star (q : List Char) : strtok ('*' :: q) = strtok q := by
  simp [strtok, List.dropWhile]

theorem tokenLoop_star (fuel : Nat) (q : List Char) :
    tokenLoop fuel ('*' :: q) = tokenLoop fuel q := by
  cases fuel with
  | zero => rfl
  | succ n => simp only [tokenLoop, strtok_star]

theorem tokenLoop_eq_nil (fuel : Nat) (q : List Char) (hq : q.length < fuel)
    (h : tokenLoop fuel q = []) : ∀ c ∈ q, c = '*' := by
  cases fuel with
  | zero => omega
  | succ n =>
    cases hs : strtok q with
    | none => exact strtok_none q hs
    | some kr =>
      simp [tokenLoop, hs] at h

theorem setName_trail (p : List Char) : (TFToken.SetName p).fTrail = lastStar p := by
  unfold TFToken.SetName lastStar
  cases p with
  | nil => simp
  | cons c q => simp

/-- For a pattern that contains a `'*'`, `Select` after `SetName` decides `WildMatch`. -/
theorem select_iff (p T : List Char) (hstar : '*' ∈ p) :
    (TFToken.SetName p).Select T = true ↔ WildMatch p T := by
  cases p with
  | nil => exact absurd hstar (by simp)
  | cons c q =>
    by_cases hc : c = '*'
    · subst hc
      have htok : (TFToken.SetName ('*' :: q)).fToken = tokenLoop (q.length + 2) q := by
        simp only [TFToken.SetName, List.length_cons, tokenLoop_star]
      have hlead : (TFToken.SetName ('*' :: q)).fLead = true := by
        simp [TFToken.SetName]
      have hgap := gap_of_pattern (q.length + 2) q (by omega) T
      rw [hgap]
      unfold TFToken.Select
      rw [htok, hlead, setName_trail]
      cases htl : tokenLoop (q.length + 2) q with
      | nil =>
        have hall := tokenLoop_eq_nil _ q (by omega) htl
        simp [GapMatch, lastStar_all q hall]
      | cons k ks =>
        simp only [List.length_cons, Nat.add_one_ne_zero, if_false]
        exact loop_gap T true (lastStar ('*' :: q)) (ks.length + 1) (k :: ks) 0 T (by simp)
          (by simp) (Or.inl rfl) ⟨[], rfl⟩
    · have hlead : (TFToken.SetName (c :: q)).fLead = false := by
        simp [TFToken.SetName, hc]
      have hq : '*' ∈ q := by
        rcases List.mem_cons.1 hstar with h | h
        · exact absurd h.symm hc
        · exact h
      cases hs : strtok (c :: q) with
      | none => exact absurd (strtok_none _ hs c (List.mem_cons_self _ _)) hc
      | some kr =>
        obtain ⟨k, rest⟩ := kr
        obtain ⟨s, d, hq2, hsall, hkne, hk, hd⟩ := strtok_some _ k rest hs
        have hs0 : s = [] := by
          cases s with
          | nil => rfl
          | cons a s2 =>
            simp only [List.cons_append, List.cons.injEq] at hq2
            exact absurd (hq2.1 ▸ hsall a (List.mem_cons_self _ _)) hc
        subst hs0
        rw [List.nil_append] at hq2
        have hd2 : d = '*' :: rest := by
          rcases hd with ⟨hd1, _⟩ | hd1
          · subst hd1
            rw [List.append_nil] at hq2
            rw [hq2] at hstar
            exact absurd rfl (hk _ hstar)
          · exact hd1
        subst hd2
        have hlen : rest.length < q.length + 1 := by
          have := congrArg List.length hq2
          simp only [List.length_append, List.length_cons] at this
          have : 0 < k.length := List.length_pos.2 hkne
          omega
        have htok : (TFToken.SetName (c :: q)).fToken =
            k :: tokenLoop (q.length + 1) rest := by
          simp only [TFToken.SetName, List.length_cons, tokenLoop, hs]
        have htr : lastStar (c :: q) = lastStar ('*' :: rest) := by
          rw [hq2, lastStar_append _ _ (by simp)]
        unfold TFToken.Select
        rw [htok, hlead, setName_trail, htr]
        simp only [List.length_cons, Nat.add_one_ne_zero, if_false]
        have hor : tokenLoop (q.length + 1) rest ≠ [] ∨ lastStar ('*' :: rest) = true := by
          by_cases h : tokenLoop (q.length + 1) rest = []
          · right
            exact lastStar_all rest (tokenLoop_eq_nil _ rest hlen h)
          · left; exact h
        have hb := loop_anchored T (lastStar ('*' :: rest))
          ((tokenLoop (q.length + 1) rest).length + 1) k (tokenLoop (q.length + 1) rest)
          (by simp) hor
        rw [hb, hq2, wild_run k hk]
        constructor
        · rintro ⟨r, h1, h2⟩
          exact ⟨r, h1, (gap_of_pattern _ rest hlen r).2 h2⟩
        · rintro ⟨r, h1, h2⟩
          exact ⟨r, h1, (gap_of_pattern _ rest hlen r).1 h2⟩

/-- A non-empty pattern without `'*'` is one token, looked for at the end of the name
only: `Select` returns true for every name that ends with the pattern. -/
theorem select_literal (k T : List Char) (hkne : k ≠ []) (hk : ∀ c ∈ k, c ≠ '*') :
    (TFToken.SetName k).Select T = true ↔ k <:+ T := by
  have hlead : (TFToken.SetName k).fLead = false := by
    cases k with
    | nil => exact absurd rfl hkne
    | cons c q =>
      have := hk c (List.mem_cons_self _ _)
      simp [TFToken.SetName, this]
  have htok : (TFToken.SetName k).fToken = [k] := by
    cases hs : strtok k with
    | none =>
      cases k with
      | nil => exact absurd rfl hkne
      | cons c q =>
        exact absurd (strtok_none _ hs c (List.mem_cons_self _ _))
          (hk c (List.mem_cons_self _ _))
    | some kr =>
      obtain ⟨k2, rest⟩ := kr
      obtain ⟨s, d, hq2, hsall, _, _, hd⟩ := strtok_some _ k2 rest hs
      have hs0 : s = [] := by
        cases s with
        | nil => rfl
        | cons a s2 =>
          have h1 : a ∈ k := by rw [hq2]; simp
          exact absurd (hsall a (List.mem_cons_self _ _)) (hk a h1)
      have hd0 : d = [] ∧ rest = [] := by
        rcases hd with h | h
        · exact h
        · have h1 : '*' ∈ k := by rw [hq2, h]; simp
          exact absurd rfl (hk _ h1)
      obtain ⟨hd1, hd2⟩ := hd0
      subst hs0; subst hd1; subst hd2
      simp only [List.nil_append, List.append_nil] at hq2
      subst hq2
      simp only [TFToken.SetName, tokenLoop, hs, tokenLoop_nil]
  have htr : lastStar k = false := lastStar_literal k hkne hk
  unfold TFToken.Select
  rw [htok, hlead, setName_trail, htr]
  simp only [List.length_cons, List.length_nil, Nat.zero_add, Nat.add_one_ne_zero, if_false]
  have hc : (!false && decide (0 = 1 - 1)) = true := by decide
  by_cases hlen : k.length > T.length
  · rw [select_last_short T false false 1 0 k [] T hc hlen]
    constructor
    · intro h; exact absurd h (by simp)
    · intro h
      have := List.IsSuffix.length_le h
      omega
  · have hlenT : (T.drop (T.length - k.length)).length = k.length := by
      rw [List.length_drop]; omega
    have hss := strstr_same_length _ k hlenT
    by_cases heq : T.drop (T.length - k.length) = k
    · rw [if_pos heq] at hss
      rw [select_last_some T false false 1 0 k [] T 0 hc hlen hss]
      simp only [selectLoop]
      constructor
      · intro _
        exact (List.suffix_iff_eq_drop).2 heq.symm
      · intro _
        decide
    · rw [if_neg heq] at hss
      rw [select_last_none T false false 1 0 k [] T hc hss]
      constructor
      · intro h; exact absurd h (by simp)
      · intro h
        exact absurd ((List.suffix_iff_eq_drop).1 h).symm heq

/-- Claim C30 (amended).  For a pattern that contains at least one `'*'`, `Select` after
`SetName(pattern)` returns true exactly for the names that match the pattern, where every
`'*'` stands for any, possibly empty, sub-string and every other character stands for
itself; in particular, for `k` without `'*'`, the pattern `k*` selects exactly the names
that start with `k` and `*k` exactly the names that end with `k`.  After `SetName("")`,
`Select` returns false for every name. -/
theorem C30_wildcard_select (pattern testName k : List Char) (hstar : '*' ∈ pattern)
    (hk : ∀ c ∈ k, c ≠ '*') :
    ((TFToken.SetName pattern).Select testName = true ↔ WildMatch pattern testName) ∧
    ((TFToken.SetName (k ++ ['*'])).Select testName = true ↔ k <+: testName) ∧
    ((TFToken.SetName ('*' :: k)).Select testName = true ↔ k <:+ testName) ∧
    (TFToken.SetName []).Select testName = false := by
  refine ⟨select_iff pattern testName hstar, ?_, ?_, rfl⟩
  · rw [select_iff (k ++ ['*']) testName (by simp), wild_run k hk]
    constructor
    · rintro ⟨r, h, _⟩
      exact ⟨r, h.symm⟩
    · rintro ⟨r, h⟩
      exact ⟨r, h.symm, wild_only_star r⟩
  · rw [select_iff ('*' :: k) testName (by simp), wild_star]
    constructor
    · rintro ⟨g, r, h, hr⟩
      rw [(wild_literal k hk r).1 hr] at h
      exact ⟨g, h.symm⟩
    · rintro ⟨g, h⟩
      exact ⟨g, k, h.symm, (wild_literal k hk k).2 rfl⟩

/-- Witness of C30: the pattern `a*c` selects `abc` and not `abd`, `ab*` selects `abc`,
`*ab` does not. -/
theorem C30_wildcard_select_witness :
    '*' ∈ ['a', '*', 'c'] ∧ (∀ c ∈ ['a', 'b'], c ≠ '*') ∧
    WildMatch ['a', '*', 'c'] ['a', 'b', 'c'] ∧
    ¬ WildMatch ['a', '*', 'c'] ['a', 'b', 'd'] ∧
    ['a', 'b'] <+: ['a', 'b', 'c'] ∧
    (TFToken.SetName ['*', 'a', 'b']).Select ['a', 'b', 'c'] = false :=
  ⟨by decide, by decide,
   (C30_wildcard_select ['a', '*', 'c'] ['a', 'b', 'c'] ['a', 'b'] (by decide)
      (by decide)).1.1 (by decide),
   fun h => absurd ((C30_wildcard_select ['a', '*', 'c'] ['a', 'b', 'd'] ['a', 'b']
      (by decide) (by decide)).1.2 h) (by decide),
   (C30_wildcard_select ['a', '*', 'c'] ['a', 'b', 'c'] ['a', 'b'] (by decide)
      (by decide)).2.1.1 (by decide),
   by decide⟩

/-- Counterexample to C30 as stated: the empty name matches the empty pattern, yet `Select` returns
false; and the pattern `abc`, which has no `'*'`, selects `xabc`, which is not equal to
it. -/
theorem C30_counterexample :
    WildMatch [] [] ∧ (TFToken.SetName []).Select [] = false ∧
    (TFToken.SetName ['a', 'b', 'c']).Select ['x', 'a', 'b', 'c'] = true ∧
    ¬ WildMatch ['a', 'b', 'c'] ['x', 'a', 'b', 'c'] :=
  ⟨WildMatch.nil, by decide, by decide,
   fun h => absurd ((wild_literal ['a', 'b', 'c'] (by decide) _).1 h) (by decide)⟩

/-- Claim C37.  For a name that is not in the name table, in particular when the table is
empty, `GetNextCycle(name, V)` returns 1 for every version `V`, and not the value 0 that
stands for "no further version", although no entry of the directory can belong to the
name: every name-id of a directory in use is an index of the name table, and the name has
none. -/
theorem C37_unknown_name (name : String) (V : Int) (s : TFAsroFile)
    (hname : name ∉ s.fNames) :
    GetNextCycle name V s = 1 ∧ GetNextCycle name V s ≠ 0 ∧
    findName s.fNames name = s.fNames.length ∧
    ((∀ e ∈ s.fEntries, e.1.fElName < s.fNames.length) →
      ∀ e ∈ s.fEntries, e.1.fElName ≠ findName s.fNames name) := by
  have hf : findName s.fNames name = s.fNames.length :=
    (findName_eq_length_iff s.fNames name).2 hname
  have h1 : GetNextCycle name V s = 1 := by
    unfold GetNextCycle
    by_cases h0 : s.fNames.length = 0
    · rw [if_pos h0]
    · rw [if_neg h0, if_pos hf]
  refine ⟨h1, by rw [h1]; decide, hf, ?_⟩
  intro hid e he
  have := hid e he
  omega

/-- Witness of C37: the name `"b"` is not in the name table of the committed sample file,
and the table of a new file is empty. -/
theorem C37_unknown_name_witness :
    "b" ∉ sampleFile3.fNames ∧ GetNextCycle "b" 5 sampleFile3 = 1 ∧
    (openFile sampleStreamer []).fNames = [] ∧
    GetNextCycle "b" 0 (openFile sampleStreamer []) = 1 :=
  ⟨by decide, (C37_unknown_name "b" 5 sampleFile3 (by decide)).1, rfl,
    by decide⟩

theorem makeFreeIndex_le (a : List Slot) (pos : Nat) :
    ∀ (k index i : Nat), makeFreeIndex a pos k index = some i → index ≤ i ∧ i ≤ index + k := by
  intro k
  induction k with
  | zero =>
    intro index i h
    simp only [makeFreeIndex, Option.some.injEq] at h
    omega
  | succ k ih =>
    intro index i h
    simp only [makeFreeIndex] at h
    split at h
    · exact absurd h (by simp)
    · split_ifs at h
      · have := ih (index + 1) i h
        omega
      · simp only [Option.some.injEq] at h
        omega

theorem filterMap_id_some (l : List (Nat × Nat)) : (l.map some).filterMap id = l := by
  induction l with
  | nil => rfl
  | cons x l ih => simp [List.filterMap_cons, ih]

theorem freeList_length_le (s : TFAsroFile) : (freeList s).length ≤ s.numFree := by
  unfold freeList
  exact le_trans (List.length_filterMap_le _ _) (by simp)

/-- The two ways in which a call of `MakeFree` ends: without a new entry (the number of
entries stays or goes down by one, the array keeps its size), or with the insertion of a
new entry at an index that is at most the number of entries. -/
theorem makeFree_shape {pos size : Nat} {s s' : TFAsroFile}
    (h : MakeFree pos size s = some s') :
    (s'.fFreeReserve = s.fFreeReserve ∧ s'.fFree.length = s.fFree.length ∧
      ((s'.fDes2 = s.fDes2 ∧ s'.fDes3 = s.fDes3) ∨
        (16 ≤ s.fDes2 ∧ s'.fDes2 = (s.fDes2 + 4294967296 - 8) % 4294967296 ∧
          s'.fDes3 = (s.fDes3 + 8) % 4294967296))) ∨
    ∃ index, index ≤ s.numFree ∧ insertFree index pos size s = some s' := by
  unfold MakeFree at h
  split at h
  · exact absurd h (by simp)
  · rename_i hidx
    split at h
    · exact absurd h (by simp)
    · split_ifs at h with h1
      · simp only [Option.some.injEq] at h
        rw [← h]
        left
        exact ⟨rfl, by simp, Or.inl ⟨rfl, rfl⟩⟩
      · right
        exact ⟨0, Nat.zero_le _, h⟩
  · rename_i i hidx
    have hle := (makeFreeIndex_le _ _ _ _ _ hidx).2
    split at h
    · simp only [] at h
      split_ifs at h with h1 h2 h3 h4
      · simp only [Option.some.injEq] at h
        rw [← h]
        left
        exact ⟨rfl, by simp, Or.inl ⟨rfl, rfl⟩⟩
      · simp only [Option.some.injEq] at h
        rw [← h]
        left
        exact ⟨rfl, by simp, Or.inl ⟨rfl, rfl⟩⟩
      · split at h
        · exact absurd h (by simp)
        · rename_i a hmm
          simp only [Option.some.injEq] at h
          rw [← h]
          left
          refine ⟨rfl, ?_, Or.inr ⟨by omega, rfl, rfl⟩⟩
          unfold memmoveSlots at hmm
          split_ifs at hmm with hc
          simp only [Option.some.injEq] at hmm
          rw [← hmm]
          simp only [List.length_append, List.length_take, List.length_drop, List.length_set]
          simp only [List.length_set] at hc
          omega
      · right
        exact ⟨i + 1, by omega, h⟩
    · exact absurd h (by simp)

/-- The insertion of a new entry into a full table whose array holds exactly the ranges
`fl`: the array grows by 50 slots (400 bytes, 100 words), the ranges before and behind the
index keep their order around the new entry. -/
theorem insertFree_full {index pos size : Nat} {s s' : TFAsroFile} {fl : List (Nat × Nat)}
    (hrep : TableRep s fl) (hfull : s.fDes2 = s.fFreeReserve) (hidx : index ≤ fl.length)
    (h : insertFree index pos size s = some s') :
    s.fFreeReserve + 400 < 4294967296 ∧ s'.fFreeReserve = s.fFreeReserve + 400 ∧
    s'.fFree = (fl.take index).map some ++ some (pos, size) :: ((fl.drop index).map some ++
      List.replicate 49 none) ∧
    s'.fDes2 = s.fDes2 + 8 := by
  obtain ⟨hd2, hres, hlt, rest, hfree⟩ := hrep
  have hlen : s.fFree.length = fl.length := by
    have := congrArg List.length hfree
    simp only [List.length_append, List.length_map] at this
    omega
  have hrest : rest = [] := by
    apply List.length_eq_zero.mp
    have := congrArg List.length hfree
    simp only [List.length_append, List.length_map] at this
    omega
  subst hrest
  rw [List.append_nil] at hfree
  have hcnt : (s.fDes2 - index * 8) / 8 = fl.length - index := by omega
  unfold insertFree at h
  rw [if_neg (by omega)] at h
  simp only [if_pos hfull, hcnt] at h
  split_ifs at h with hc
  simp only [] at h
  rw [if_pos (by
    simp only [List.length_append, List.length_take, List.length_drop, List.length_cons,
      List.length_nil, List.length_replicate]
    omega)] at h
  simp only [Option.some.injEq] at h
  have hroom : s.fFreeReserve + 400 < 4294967296 := by
    by_contra hn
    have := hc.2.2
    omega
  have hcap : (s.fFreeReserve + 400) % 4294967296 / 8 - (index + 1 + (fl.length - index))
      = 49 := by omega
  have ht : s.fFree.take index = (fl.take index).map some := by
    rw [hfree, List.map_take]
  have hdr : (s.fFree.drop index).take (fl.length - index) = (fl.drop index).map some := by
    rw [hfree, ← List.map_drop, List.take_of_length_le]
    simp
  rw [← h]
  refine ⟨hroom, ?_, ?_, ?_⟩
  · show (s.fFreeReserve + 400) % 4294967296 = s.fFreeReserve + 400
    omega
  · show List.set _ _ _ = _
    rw [ht, hdr, hcap]
    have e : List.map some (List.take index fl) ++ [none] ++ List.map some (List.drop index fl)
        ++ List.replicate 49 (none : Slot)
        = List.map some (List.take index fl) ++ none ::
          (List.map some (List.drop index fl) ++ List.replicate 49 (none : Slot)) := by simp
    rw [e]
    have := set_mid (List.map some (List.take index fl))
      (List.map some (List.drop index fl) ++ List.replicate 49 (none : Slot)) none
      (some (pos, size))
    rw [List.length_map, List.length_take, min_eq_left hidx] at this
    exact this
  · show (s.fDes2 + 8) % 4294967296 = s.fDes2 + 8
    omega

/-- Claim C39 fails on the code.  When `MakeFree` inserts a new range into a table that is
at capacity (`fDes[2] = fFreeReserve`), `fFreeReserve` grows by 400 bytes, that is by 100
words of the array and so by 50 `(offset, length)` entries, not by 100 entries.  The
ranges before and behind the new one are copied unchanged around it, and the 49 new slots
behind them are not written. -/
theorem C39_capacity_growth (pos size : Nat) (s s' : TFAsroFile) (fl : List (Nat × Nat))
    (hrep : TableRep s fl) (hfull : s.fDes2 = s.fFreeReserve)
    (h : MakeFree pos size s = some s') (hins : (freeList s').length = fl.length + 1) :
    s'.fFreeReserve = s.fFreeReserve + 100 * 4 ∧
    s'.fFree.length = s.fFree.length + 50 ∧
    ∃ index, index ≤ fl.length ∧
      freeList s' = fl.take index ++ (pos, size) :: fl.drop index ∧
      s'.fFree = (fl.take index).map some ++ some (pos, size) ::
        ((fl.drop index).map some ++ List.replicate 49 none) := by
  have hnum := numFree_of_rep hrep
  have hd2 := hrep.1
  have hlt : s.fDes2 < 4294967296 := by rw [hfull]; exact hrep.2.2.1
  have hlen : s.fFree.length = fl.length := by
    obtain ⟨_, hres, _, rest, hfree⟩ := hrep
    have := congrArg List.length hfree
    simp only [List.length_append, List.length_map] at this
    omega
  rcases makeFree_shape h with ⟨_, _, hcase⟩ | ⟨index, hidx, hins2⟩
  · exfalso
    have hle := freeList_length_le s'
    unfold TFAsroFile.numFree at hle
    rcases hcase with ⟨h2, _⟩ | ⟨h16, h2, _⟩
    · rw [h2] at hle; omega
    · rw [h2] at hle; omega
  · rw [hnum] at hidx
    obtain ⟨hroom, hres', hfree', hd2'⟩ := insertFree_full hrep hfull hidx hins2
    refine ⟨hres', ?_, index, hidx, ?_, hfree'⟩
    · rw [hfree', hlen]
      simp only [List.length_append, List.length_map, List.length_cons, List.length_take,
        List.length_drop, List.length_replicate]
      omega
    · unfold freeList TFAsroFile.numFree
      rw [hd2', hd2, hfree']
      have e : (8 * fl.length + 8) / 8 = ((fl.take index).map some ++ some (pos, size) ::
          (fl.drop index).map some).length := by
        simp only [List.length_append, List.length_map, List.length_cons, List.length_take,
          List.length_drop]
        omega
      have e2 : List.map some (List.take index fl) ++ some (pos, size) ::
          (List.map some (List.drop index fl) ++ List.replicate 49 (none : Slot))
          = (List.map some (List.take index fl) ++ some (pos, size) ::
            List.map some (List.drop index fl)) ++ List.replicate 49 (none : Slot) := by simp
      rw [e, e2, List.take_left, ← List.map_cons, ← List.map_append, filterMap_id_some,]

/-- The failing input of C39: the table `[(24, 10), (100, 50)]` fills its array of two
slots; `MakeFree(50, 10)` inserts the range `(50, 10)` between the two and the array has
52 slots afterwards, 50 more than before. -/
theorem C39_capacity_growth_witness :
    ∃ s', MakeFree 50 10 twoRangeTable = some s' ∧
      twoRangeTable.fFreeReserve = 16 ∧ twoRangeTable.fFree.length = 2 ∧
      freeList s' = [(24, 10), (50, 10), (100, 50)] ∧
      s'.fFreeReserve = 16 + 100 * 4 ∧ s'.fFree.length = 2 + 50 ∧ (52 : Nat) ≠ 2 + 100 := by
  have hm : ∃ s', MakeFree 50 10 twoRangeTable = some s' ∧
      freeList s' = [(24, 10), (50, 10), (100, 50)] := by
    cases hs : MakeFree 50 10 twoRangeTable with
    | none => exact absurd hs (by decide)
    | some s' =>
      refine ⟨s', rfl, ?_⟩
      have : (MakeFree 50 10 twoRangeTable).map freeList
          = some [(24, 10), (50, 10), (100, 50)] := by decide
      rw [hs] at this
      simpa using this
  obtain ⟨s', hs, hfl⟩ := hm
  have h := C39_capacity_growth 50 10 twoRangeTable s' [(24, 10), (100, 50)]
    twoRangeTable_rep rfl hs (by rw [hfl]; rfl)
  exact ⟨s', hs, rfl, rfl, hfl, h.1, h.2.1, by decide⟩

/-- Claim C34 fails on the code.  With a file attached, `DeleteColumn(name)` tests
`Delete(...) == 0`: when the `Delete` of the engine succeeded (returned true) it records
an error and returns -1, and when the `Delete` failed (returned false) it returns 0 and
records no error.  Without a file it returns 0 and records no error. -/
theorem C34_delete_column_inverted (st : DirStreamer) (name : String) (io : TFAsroIO)
    (errors : ErrorLog) (f f1 : TFAsroFile) (ok : Bool) (hf : io.fFile = some f)
    (hd : Delete st io.fElementName name io.fCycle f = some (ok, f1)) :
    (ok = true →
      io.DeleteColumn st name errors
        = some (-1, { io with fFile := some f1 },
            errors ++ [("TFAsroIO::DeleteColumn", 10)])) ∧
    (ok = false →
      io.DeleteColumn st name errors = some (0, { io with fFile := some f1 }, errors)) ∧
    ({ io with fFile := none }.DeleteColumn st name errors
      = some (0, { io with fFile := none }, errors)) := by
  refine ⟨?_, ?_, rfl⟩
  · intro hok
    subst hok
    unfold TFAsroIO.DeleteColumn
    simp only [hf, hd]
    rfl
  · intro hok
    subst hok
    unfold TFAsroIO.DeleteColumn
    simp only [hf, hd]
    rfl

set_option maxRecDepth 100000 in
theorem table_delete_column :
    (Delete sampleStreamer "a" "x" 1 tableFile).map
        (fun r => (r.1, r.2.fEntries.map Prod.fst))
      = some (true, [⟨0, "", 1⟩, ⟨0, "", 2⟩, ⟨1, "", 1⟩]) ∧
    Delete sampleStreamer "a" "y" 1 tableFile = some (false, tableFile) := by
  refine ⟨by decide, by decide⟩

/-- The failing input of C34: the table `("a", "", 1)` of `tableFile` has the column `"x"`.
`DeleteColumn("x")` removes the column from the file, records an error and returns -1;
`DeleteColumn("y")`, for a column that does not exist, returns 0 and records nothing. -/
theorem C34_delete_column_inverted_witness :
    ∃ f1, Delete sampleStreamer "a" "x" 1 tableFile = some (true, f1) ∧
      f1.fEntries.map Prod.fst = [⟨0, "", 1⟩, ⟨0, "", 2⟩, ⟨1, "", 1⟩] ∧
      tableIO.DeleteColumn sampleStreamer "x" []
        = some (-1, { tableIO with fFile := some f1 }, [("TFAsroIO::DeleteColumn", 10)]) ∧
      tableIO.DeleteColumn sampleStreamer "y" [] = some (0, tableIO, []) := by
  cases hd : Delete sampleStreamer "a" "x" 1 tableFile with
  | none =>
    have := table_delete_column.1
    rw [hd] at this
    exact absurd this (by simp)
  | some r =>
    obtain ⟨ok, f1⟩ := r
    have h := table_delete_column.1
    rw [hd] at h
    simp only [Option.map_some', Option.some.injEq, Prod.mk.injEq] at h
    obtain ⟨hok, hent⟩ := h
    subst hok
    exact ⟨f1, rfl, hent,
      (C34_delete_column_inverted sampleStreamer "x" tableIO [] tableFile f1 true rfl hd).1 rfl,
      (C34_delete_column_inverted sampleStreamer "y" tableIO [] tableFile tableFile false rfl
        table_delete_column.2).2.1 rfl⟩

theorem mem_of_lower_bound {m : Entries} {k : TFAsroKey} {e : TFAsroKey × TFAsroValue}
    (h : e ∈ lower_bound m k) : e ∈ m :=
  (List.dropWhile_sublist _).subset h

theorem mem_of_upper_bound {m : Entries} {k : TFAsroKey} {e : TFAsroKey × TFAsroValue}
    (h : e ∈ upper_bound m k) : e ∈ m :=
  (List.dropWhile_sublist _).subset h

theorem mem_mapSet_imp {m : Entries} {k : TFAsroKey} {v : TFAsroValue}
    {e : TFAsroKey × TFAsroValue} (h : e ∈ mapSet m k v) : e = (k, v) ∨ e ∈ m := by
  unfold mapSet at h
  rcases List.mem_append.1 h with h1 | h1
  · exact Or.inr ((List.takeWhile_sublist _).subset h1)
  · cases hl : lower_bound m k with
    | nil =>
      rw [hl] at h1
      exact Or.inl (List.mem_singleton.1 h1)
    | cons x tl =>
      rw [hl] at h1
      have hsub : ∀ y, y ∈ x :: tl → y ∈ m := fun y hy =>
        mem_of_lower_bound (by rw [hl]; exact hy)
      simp only [] at h1
      split_ifs at h1
      · rcases List.mem_cons.1 h1 with h2 | h2
        · exact Or.inl h2
        · exact Or.inr (hsub e h2)
      · rcases List.mem_cons.1 h1 with h2 | h2
        · exact Or.inl h2
        · exact Or.inr (hsub e (List.mem_cons_of_mem _ h2))

theorem mem_mapErase_imp {m : Entries} {k : TFAsroKey}
    {e : TFAsroKey × TFAsroValue} (h : e ∈ mapErase m k) : e ∈ m := by
  unfold mapErase at h
  rcases List.mem_append.1 h with h1 | h1
  · exact (List.takeWhile_sublist _).subset h1
  · cases hl : lower_bound m k with
    | nil =>
      rw [hl] at h1
      exact absurd h1 (List.not_mem_nil _)
    | cons x tl =>
      rw [hl] at h1
      have hsub : ∀ y, y ∈ x :: tl → y ∈ m := fun y hy =>
        mem_of_lower_bound (by rw [hl]; exact hy)
      simp only [] at h1
      split_ifs at h1
      · exact hsub e h1
      · exact hsub e (List.mem_cons_of_mem _ h1)

theorem intern_eq (l : List String) (x : String) :
    (if findName l x = l.length then l ++ [x] else l) = (if x ∈ l then l else l ++ [x]) := by
  by_cases h : x ∈ l
  · rw [if_pos h, if_neg]
    rw [findName_eq_length_iff]
    exact fun hc => hc h
  · rw [if_neg h, if_pos ((findName_eq_length_iff l x).2 h)]

theorem intern_nodup (l : List String) (x : String) (h : l.Nodup) :
    (if x ∈ l then l else l ++ [x]).Nodup := by
  by_cases hx : x ∈ l
  · rw [if_pos hx]; exact h
  · rw [if_neg hx]
    rw [List.nodup_append]
    refine ⟨h, List.nodup_singleton _, ?_⟩
    intro a ha hb
    rw [List.mem_singleton.1 hb] at ha
    exact hx ha

theorem intern_length (l : List String) (x : String) :
    l.length ≤ (if x ∈ l then l else l ++ [x]).length ∧
    findName l x < (if x ∈ l then l else l ++ [x]).length := by
  have h := (findName_intern l x).2.1
  rw [intern_eq] at h
  refine ⟨?_, h⟩
  split_ifs
  · exact le_refl _
  · simp

theorem idsValid_of (s s' : TFAsroFile) (hv : IdsValid s) (n cn : String)
    (hn : s'.fNames = (if n ∈ s.fNames then s.fNames else s.fNames ++ [n]))
    (hc : s'.fClassNames = (if cn ∈ s.fClassNames then s.fClassNames else s.fClassNames ++ [cn]))
    (he : ∀ e ∈ s'.fEntries, e ∈ s.fEntries ∨
      (e.1.fElName = findName s.fNames n ∧ e.2.fClassName = findName s.fClassNames cn)) :
    IdsValid s' := by
  obtain ⟨h1, h2, h3, h4⟩ := hv
  refine ⟨?_, ?_, ?_, ?_⟩
  · rw [hn]; exact intern_nodup _ _ h1
  · rw [hc]; exact intern_nodup _ _ h2
  · intro e hes
    rw [hn]
    rcases he e hes with h | ⟨h, _⟩
    · exact lt_of_lt_of_le (h3 e h) (intern_length _ _).1
    · rw [h]; exact (intern_length _ _).2
  · intro e hes
    rw [hc]
    rcases he e hes with h | ⟨_, h⟩
    · exact lt_of_lt_of_le (h4 e h) (intern_length _ _).1
    · rw [h]; exact (intern_length _ _).2

theorem idsValid_sub (s s' : TFAsroFile) (hv : IdsValid s) (hn : s'.fNames = s.fNames)
    (hc : s'.fClassNames = s.fClassNames) (he : ∀ e ∈ s'.fEntries, e ∈ s.fEntries) :
    IdsValid s' := by
  obtain ⟨h1, h2, h3, h4⟩ := hv
  refine ⟨by rw [hn]; exact h1, by rw [hc]; exact h2, ?_, ?_⟩
  · intro e hes; rw [hn]; exact h3 e (he e hes)
  · intro e hes; rw [hc]; exact h4 e (he e hes)

/-- Claim C36.  When both name tables are free of duplicates, every name-id of a key is an
index of the name table and every class-id of a record is an index of the table of class
names, the same holds after every call of `Write`, `Delete` and `GetFreeCycle` that
returns.  `Write` and `GetFreeCycle` leave the name table as it is or append the name, and
they append it only when it is not in the table; `Write` does the same with the class
name; `Delete` changes neither table.  Hence no two indices of the name table hold the
same name. -/
theorem C36_ids_valid (st : DirStreamer) (c : Codec) (obj : TObject) (compLevel : Int)
    (name subName : String) (cycle : Int) (s : TFAsroFile) (hv : IdsValid s) :
    (∀ b s', Write c obj compLevel name subName cycle s = some (b, s') →
      IdsValid s' ∧
      (s'.fNames = s.fNames ∨ (name ∉ s.fNames ∧ s'.fNames = s.fNames ++ [name])) ∧
      (s'.fClassNames = s.fClassNames ∨
        (obj.className ∉ s.fClassNames ∧ s'.fClassNames = s.fClassNames ++ [obj.className])) ∧
      (b = true → name ∈ s'.fNames ∧ obj.className ∈ s'.fClassNames)) ∧
    (∀ b s', Delete st name subName cycle s = some (b, s') →
      IdsValid s' ∧ s'.fNames = s.fNames ∧ s'.fClassNames = s.fClassNames) ∧
    (IdsValid (GetFreeCycle name s).2 ∧
      ((GetFreeCycle name s).2.fNames = s.fNames ∨
        (name ∉ s.fNames ∧ (GetFreeCycle name s).2.fNames = s.fNames ++ [name])) ∧
      name ∈ (GetFreeCycle name s).2.fNames) ∧
    (∀ i j, i < s.fNames.length → j < s.fNames.length →
      s.fNames.getD i "" = s.fNames.getD j "" → i = j) := by
  have hcases : ∀ (l : List String) (x : String),
      ((if x ∈ l then l else l ++ [x]) = l ∨
        (x ∉ l ∧ (if x ∈ l then l else l ++ [x]) = l ++ [x])) ∧
      x ∈ (if x ∈ l then l else l ++ [x]) := by
    intro l x
    by_cases hx : x ∈ l
    · rw [if_pos hx]; exact ⟨Or.inl rfl, hx⟩
    · rw [if_neg hx]; exact ⟨Or.inr ⟨hx, rfl⟩, by simp⟩
  refine ⟨?_, ?_, ?_, ?_⟩
  · intro b s' h
    by_cases hf : s.fFile < 0
    · unfold Write at h
      rw [if_pos hf] at h
      simp only [Option.some.injEq, Prod.mk.injEq] at h
      obtain ⟨hb, hs⟩ := h
      subst hs
      exact ⟨hv, Or.inl rfl, Or.inl rfl, fun hbt => by rw [← hb] at hbt; exact absurd hbt (by decide)⟩
    · obtain ⟨_, s1, buf, pos, s2, _, _, _, hE, hN, hC, _⟩ := write_shape (not_lt.mp hf) h
      rw [intern_eq] at hN hC
      refine ⟨idsValid_of s s' hv name obj.className hN hC ?_, ?_, ?_, ?_⟩
      · intro e he
        rw [hE] at he
        rcases mem_mapSet_imp he with h1 | h1
        · right; rw [h1]; exact ⟨rfl, rfl⟩
        · left; exact h1
      · rw [hN]; exact (hcases _ _).1
      · rw [hC]; exact (hcases _ _).1
      · intro _
        rw [hN, hC]
        exact ⟨(hcases _ _).2, (hcases _ _).2⟩
  · intro b s' h
    cases b with
    | false =>
      rw [delete_false h]
      exact ⟨hv, rfl, rfl⟩
    | true =>
      obtain ⟨_, _, k, v, s1, s2, sX, _, _, _, hX, hN, hC, _, hcom⟩ := delete_shape h
      obtain ⟨_, hE', hC', hN', _⟩ := commit_same hcom
      have hn : s'.fNames = s.fNames := hN'.trans hN
      have hc : s'.fClassNames = s.fClassNames := hC'.trans hC
      refine ⟨idsValid_sub s s' hv hn hc ?_, hn, hc⟩
      intro e he
      rw [hE'] at he
      rcases hX with ⟨_, cols, s3, _, _, _, _, _, _, hEX⟩ | ⟨_, _, _, _, hEX⟩
      · rw [hEX] at he
        rcases List.mem_append.1 he with h1 | h1
        · exact mem_mapErase_imp ((List.take_sublist _ _).subset h1)
        · exact mem_mapErase_imp (mem_of_lower_bound h1)
      · rw [hEX] at he
        exact mem_mapErase_imp he
  · have hN : (GetFreeCycle name s).2.fNames
        = (if name ∈ s.fNames then s.fNames else s.fNames ++ [name]) := by
      rw [← intern_eq]; rfl
    refine ⟨⟨?_, hv.2.1, ?_, hv.2.2.2⟩, ?_, ?_⟩
    · rw [hN]; exact intern_nodup _ _ hv.1
    · intro e he
      rw [hN]
      exact lt_of_lt_of_le (hv.2.2.1 e he) (intern_length _ _).1
    · rw [hN]; exact (hcases _ _).1
    · rw [hN]; exact (hcases _ _).2
  · intro i j hi hj hij
    have h1 := hv.1
    rw [List.getD_eq_getElem _ _ hi, List.getD_eq_getElem _ _ hj] at hij
    exact (List.Nodup.getElem_inj_iff h1).1 hij

theorem sampleFile1_ids : IdsValid sampleFile1 := by
  unfold IdsValid
  decide

/-- Witness of C36: the first `Write` into a new file enters the name `"a"` and the class
name `"TNamed"`; the ids of the state before and of the state after are valid. -/
theorem C36_ids_valid_witness :
    IdsValid sampleFile1 ∧ sampleFile1.fNames = [] ∧
    Write sampleCodec sampleObject 0 "a" "" 1 sampleFile1 = some (true, sampleFile2) ∧
    IdsValid sampleFile2 ∧ sampleFile2.fNames = ["a"] ∧
    sampleFile2.fClassNames = ["TNamed"] :=
  ⟨sampleFile1_ids, rfl, sample_write,
    ((C36_ids_valid sampleStreamer sampleCodec sampleObject 0 "a" "" 1 sampleFile1
      sampleFile1_ids).1 true sampleFile2 sample_write).1, rfl, rfl⟩

/-- One call of `Next` that returns true: the key shown afterwards is a key of the
directory, and it is above the key shown before when the version of that key is not the
last one. -/
theorem element_next_step (m : Entries) (it it1 : TFAsroElementIter)
    (h : it.Next m = (true, it1)) :
    (∃ v, (it1.fKey, v) ∈ m) ∧
    (-2147483648 ≤ it.fKey.fCycle → it.fKey.fCycle < 2147483647 →
      it.fKey.lt it1.fKey = true) := by
  unfold TFAsroElementIter.Next at h
  simp only [] at h
  cases hl : lower_bound m { it.fKey with fCycle := wrapInt32 (it.fKey.fCycle + 1) } with
  | nil =>
    rw [hl] at h
    simp only [Prod.mk.injEq] at h
    exact absurd h.1 (by decide)
  | cons e tl =>
    rw [hl] at h
    simp only [Prod.mk.injEq, true_and] at h
    subst h
    have hmem : e ∈ m := mem_of_lower_bound (by rw [hl]; exact List.mem_cons_self _ _)
    refine ⟨⟨e.2, hmem⟩, ?_⟩
    intro h1 h2
    have hw := wrapInt32_succ _ h1 h2
    rw [hw] at hl
    have hnot : e.1.lt { it.fKey with fCycle := it.fKey.fCycle + 1 } = false := by
      have := dropWhile_head_not (fun x : TFAsroKey × TFAsroValue =>
        x.1.lt { it.fKey with fCycle := it.fKey.fCycle + 1 }) m e tl hl
      simpa using this
    have hstep : it.fKey.lt { it.fKey with fCycle := it.fKey.fCycle + 1 } = true := by
      rw [lt_iff]
      exact Or.inr ⟨rfl, Or.inl (by simp only []; omega)⟩
    rcases lt_trichotomy_key { it.fKey with fCycle := it.fKey.fCycle + 1 } e.1 with h3 | h3 | h3
    · exact lt_trans_key hstep h3
    · rw [← h3]; exact hstep
    · rw [h3] at hnot; exact absurd hnot (by decide)

/-- Claim C35 (amended).  For a directory in key order: when every version lies between
1 and `2^31 - 2` and every group of entries with the same name-id and version has its
entry with the empty sub-name, the calls of `Next` after `Reset` return exactly the keys
with the empty sub-name, each once and in strictly ascending key order, and then `Next`
returns false.  In every case a key that `Next` returns is a key of the directory, and it
is strictly above the key returned before when the version of that key is below
`2^31 - 1`. -/
theorem C35_element_iterator (m : Entries) (it : TFAsroElementIter)
    (hs : EntriesSorted m) :
    ((∀ e ∈ m, 1 ≤ e.1.fCycle ∧ e.1.fCycle < 2147483647) →
      (∀ e ∈ m, ∃ v, (⟨e.1.fElName, "", e.1.fCycle⟩, v) ∈ m) →
      elementKeys m (m.length + 1) it.Reset
        = some ((m.filter (fun e => decide (e.1.fSubName = ""))).map Prod.fst) ∧
      ((m.filter (fun e => decide (e.1.fSubName = ""))).map Prod.fst).Pairwise
        (fun a b => a.lt b = true) ∧
      ((m.filter (fun e => decide (e.1.fSubName = ""))).map Prod.fst).Nodup ∧
      ∀ k, k ∈ (m.filter (fun e => decide (e.1.fSubName = ""))).map Prod.fst ↔
        ((∃ v, (k, v) ∈ m) ∧ k.fSubName = "")) ∧
    (∀ it1, it.Next m = (true, it1) →
      (∃ v, (it1.fKey, v) ∈ m) ∧
      (-2147483648 ≤ it.fKey.fCycle → it.fKey.fCycle < 2147483647 →
        it.fKey.lt it1.fKey = true)) := by
  refine ⟨?_, fun it1 h => element_next_step m it it1 h⟩
  intro hcyc hgrp
  have hall : (m.filter (fun e => decide (e.1.fSubName = ""))).filter
      (fun e => TFAsroKey.lt ⟨0, "", 0⟩ e.1)
      = m.filter (fun e => decide (e.1.fSubName = "")) := by
    rw [List.filter_eq_self]
    intro e he
    rw [List.mem_filter] at he
    have := (hcyc e he.1).1
    rw [lt_iff]
    rcases Nat.eq_zero_or_pos e.1.fElName with h | h
    · exact Or.inr ⟨h.symm, Or.inl (by simp only []; omega)⟩
    · exact Or.inl h
  have h := elementKeys_from m hs (fun e he => ⟨by have := (hcyc e he).1; omega, (hcyc e he).2⟩)
    (fun e he _ => hgrp e he) (m.length + 1) ⟨0, "", 0⟩ rfl (by decide) (by decide)
    (by
      rw [hall]
      have := List.length_filter_le (fun e : TFAsroKey × TFAsroValue =>
        decide (e.1.fSubName = "")) m
      omega)
  rw [hall] at h
  have hpw : ((m.filter (fun e => decide (e.1.fSubName = ""))).map Prod.fst).Pairwise
      (fun a b => a.lt b = true) := by
    rw [List.pairwise_map]
    exact sorted_filter m _ hs
  refine ⟨h, hpw, ?_, ?_⟩
  · unfold List.Nodup
    refine hpw.imp ?_
    intro a b hab heq
    rw [heq, lt_irrefl_key] at hab
    exact absurd hab (by decide)
  · intro k
    constructor
    · intro hk
      obtain ⟨e, he, rfl⟩ := List.mem_map.1 hk
      rw [List.mem_filter] at he
      exact ⟨⟨e.2, he.1⟩, by simpa using he.2⟩
    · rintro ⟨⟨v, hv⟩, hsub⟩
      exact List.mem_map.2 ⟨(k, v), List.mem_filter.2 ⟨hv, by simpa using hsub⟩, rfl⟩

theorem tableFile_groups : ∀ e ∈ tableFile.fEntries,
    ∃ v, (⟨e.1.fElName, "", e.1.fCycle⟩, v) ∈ tableFile.fEntries := by
  intro e he
  by_cases hsub : e.1.fSubName = ""
  · refine ⟨e.2, ?_⟩
    have : (⟨e.1.fElName, "", e.1.fCycle⟩ : TFAsroKey) = e.1 := by
      rw [← hsub]
    rw [this]
    exact he
  · exact tableFile_tables e he hsub

theorem tableFile_first :
    TFAsroElementIter.Next tableFile.fEntries ⟨⟨0, "", 0⟩⟩ = (true, ⟨⟨0, "", 1⟩⟩) := by
  have h1 : (TFAsroElementIter.Next tableFile.fEntries ⟨⟨0, "", 0⟩⟩).1 = true := by decide
  have h2 : (TFAsroElementIter.Next tableFile.fEntries ⟨⟨0, "", 0⟩⟩).2.fKey = ⟨0, "", 1⟩ := by
    decide
  generalize TFAsroElementIter.Next tableFile.fEntries ⟨⟨0, "", 0⟩⟩ = r at h1 h2
  obtain ⟨b, ⟨k⟩⟩ := r
  simp only at h1 h2
  rw [h1, h2]

/-- Witness of C35: the file with the table `("a", "", 1)`, its column `"x"`, the version
`("a", "", 2)` and the element `("b", "", 1)`; the iterator returns the three keys with
the empty sub-name, and the first key it returns is above the key `(0, "", 0)` that
`Reset` leaves. -/
theorem C35_element_iterator_witness :
    EntriesSorted tableFile.fEntries ∧
    elementKeys tableFile.fEntries 5 (TFAsroElementIter.Reset ⟨⟨5, "x", 7⟩⟩)
      = some [⟨0, "", 1⟩, ⟨0, "", 2⟩, ⟨1, "", 1⟩] ∧
    elementKeys tableFile.fEntries (tableFile.fEntries.length + 1)
        (TFAsroElementIter.Reset ⟨⟨5, "x", 7⟩⟩)
      = some ((tableFile.fEntries.filter
          (fun e => decide (e.1.fSubName = ""))).map Prod.fst) ∧
    (TFAsroKey.lt ⟨0, "", 0⟩ ⟨0, "", 1⟩ = true) :=
  ⟨tableFile_sorted, by decide,
    ((C35_element_iterator tableFile.fEntries ⟨⟨5, "x", 7⟩⟩ tableFile_sorted).1
      (by decide) tableFile_groups).1,
    ((C35_element_iterator tableFile.fEntries ⟨⟨0, "", 0⟩⟩ tableFile_sorted).2
      ⟨⟨0, "", 1⟩⟩ tableFile_first).2 (by decide) (by decide)⟩

/-- Counterexample to C35 as stated.  The directory holds the single entry
`(0, "", 2^31 - 1)`.  The first `Next` after `Reset` returns its key; in the second `Next`
the increment of the version wraps to `-2^31`, the call returns true with the same key
again, and that key is not strictly above the key returned before. -/
theorem C35_counterexample :
    (TFAsroElementIter.Next [(⟨0, "", 2147483647⟩, ⟨24, 1, 1, 0⟩)]
      (TFAsroElementIter.Reset ⟨⟨0, "", 0⟩⟩)).1 = true ∧
    (TFAsroElementIter.Next [(⟨0, "", 2147483647⟩, ⟨24, 1, 1, 0⟩)]
      (TFAsroElementIter.Reset ⟨⟨0, "", 0⟩⟩)).2.fKey = ⟨0, "", 2147483647⟩ ∧
    (TFAsroElementIter.Next [(⟨0, "", 2147483647⟩, ⟨24, 1, 1, 0⟩)]
      ⟨⟨0, "", 2147483647⟩⟩).1 = true ∧
    (TFAsroElementIter.Next [(⟨0, "", 2147483647⟩, ⟨24, 1, 1, 0⟩)]
      ⟨⟨0, "", 2147483647⟩⟩).2.fKey = ⟨0, "", 2147483647⟩ ∧
    TFAsroKey.lt ⟨0, "", 2147483647⟩ ⟨0, "", 2147483647⟩ = false := by
  refine ⟨by decide, by decide, by decide, by decide, by decide⟩

theorem compressLoop_step (c : Codec) (lvl : Int) (fuel : Nat) (inp out : List Nat) :
    compressLoop c lvl (fuel + 1) inp out =
      if inp.length > 0 then
        if (c.zip lvl (inp.take (cutLength inp.length)) (cutLength inp.length)).length
            > cutLength inp.length then none
        else if (c.zip lvl (inp.take (cutLength inp.length)) (cutLength inp.length)).length = 0
          then some (false, out)
        else compressLoop c lvl fuel (inp.drop (cutLength inp.length))
          (out ++ c.zip lvl (inp.take (cutLength inp.length)) (cutLength inp.length))
      else some (true, out) := rfl

theorem cutLength_bounds (n : Nat) (h : 0 < n) :
    1 ≤ cutLength n ∧ cutLength n ≤ 16777215 ∧ cutLength n ≤ n := by
  unfold cutLength MAX_CUT_LENGTH
  split_ifs <;> omega

theorem chunkLengths_spec : ∀ (fuel n : Nat), n < fuel →
    (∀ x ∈ chunkLengths fuel n, 1 ≤ x ∧ x ≤ 16777215) ∧ (chunkLengths fuel n).sum = n := by
  intro fuel
  induction fuel with
  | zero => intro n h; omega
  | succ fuel ih =>
    intro n h
    unfold chunkLengths
    by_cases hn : n > 0
    · rw [if_pos hn]
      obtain ⟨h1, h2, h3⟩ := cutLength_bounds n hn
      obtain ⟨i1, i2⟩ := ih (n - cutLength n) (by omega)
      refine ⟨?_, ?_⟩
      · intro x hx
        rcases List.mem_cons.1 hx with rfl | hx
        · exact ⟨h1, h2⟩
        · exact i1 x hx
      · rw [List.sum_cons, i2]
        omega
    · rw [if_neg hn]
      exact ⟨fun x hx => absurd hx (List.not_mem_nil _), by simp; omega⟩

theorem chunkLengths_two (L : Nat) (h1 : 16777215 < L) (h2 : L < 2 * 16777215) :
    chunkLengths (L + 1) L = [L / 2, (L + 1) / 2] := by
  obtain ⟨f, hf⟩ : ∃ f, L = f + 2 := ⟨L - 2, by omega⟩
  have hc1 : cutLength L = L / 2 := by
    unfold cutLength MAX_CUT_LENGTH
    rw [if_neg (by omega), if_pos (by omega)]
  have hc2 : cutLength (L - L / 2) = L - L / 2 := by
    unfold cutLength MAX_CUT_LENGTH
    rw [if_pos (by omega)]
  have e : L + 1 = f + 1 + 1 + 1 := by omega
  rw [e]
  simp only [chunkLengths]
  rw [if_pos (by omega), hc1, if_pos (by omega), hc2]
  have e2 : L - L / 2 - (L - L / 2) = 0 := by omega
  rw [e2]
  cases f with
  | zero => simp [chunkLengths]; omega
  | succ f => simp [chunkLengths]; omega

theorem chunksOf_spec : ∀ (ls : List Nat) (inp : List Nat), ls.sum = inp.length →
    (chunksOf ls inp).flatten = inp ∧ (chunksOf ls inp).map List.length = ls := by
  intro ls
  induction ls with
  | nil =>
    intro inp h
    simp only [List.sum_nil] at h
    have : inp = [] := List.length_eq_zero.1 h.symm
    subst this
    exact ⟨rfl, rfl⟩
  | cons n ls ih =>
    intro inp h
    simp only [List.sum_cons] at h
    obtain ⟨i1, i2⟩ := ih (inp.drop n) (by rw [List.length_drop]; omega)
    unfold chunksOf
    refine ⟨?_, ?_⟩
    · rw [List.flatten_cons, i1, List.take_append_drop]
    · rw [List.map_cons, i2, List.length_take]
      congr 1
      omega

theorem compressLoop_chunks (c : Codec) (lvl : Int) :
    ∀ (fuel : Nat) (inp out : List Nat), inp.length < fuel →
      (∀ o, compressLoop c lvl fuel inp out = some (true, o) →
        o = out ++ ((chunksOf (chunkLengths fuel inp.length) inp).map
          (fun p => c.zip lvl p p.length)).flatten) ∧
      ((∀ p ∈ chunksOf (chunkLengths fuel inp.length) inp,
          (c.zip lvl p p.length).length ≠ 0 ∧ (c.zip lvl p p.length).length ≤ p.length) →
        compressLoop c lvl fuel inp out
          = some (true, out ++ ((chunksOf (chunkLengths fuel inp.length) inp).map
              (fun p => c.zip lvl p p.length)).flatten)) := by
  intro fuel
  induction fuel with
  | zero => intro inp out h; omega
  | succ fuel ih =>
    intro inp out h
    rw [compressLoop_step]
    by_cases hn : inp.length > 0
    · obtain ⟨h1, h2, h3⟩ := cutLength_bounds inp.length hn
      have hlen : (inp.take (cutLength inp.length)).length = cutLength inp.length := by
        rw [List.length_take]; omega
      have hdl : (inp.drop (cutLength inp.length)).length = inp.length - cutLength inp.length :=
        List.length_drop _ _
      have hcl : chunkLengths (fuel + 1) inp.length
          = cutLength inp.length :: chunkLengths fuel (inp.length - cutLength inp.length) := by
        simp only [chunkLengths]
        rw [if_pos hn]
      have hco : chunksOf (chunkLengths (fuel + 1) inp.length) inp
          = inp.take (cutLength inp.length) ::
            chunksOf (chunkLengths fuel (inp.drop (cutLength inp.length)).length)
              (inp.drop (cutLength inp.length)) := by
        rw [hcl, hdl]
        rfl
      obtain ⟨i1, i2⟩ := ih (inp.drop (cutLength inp.length))
        (out ++ c.zip lvl (inp.take (cutLength inp.length)) (cutLength inp.length))
        (by rw [hdl]; omega)
      rw [if_pos hn, hco]
      simp only [List.map_cons, List.flatten_cons, hlen]
      refine ⟨?_, ?_⟩
      · intro o ho
        split_ifs at ho with ha hb
        · exact absurd ho (by simp)
        · rw [i1 o ho, List.append_assoc]
      · intro hp
        have hhead := hp (inp.take (cutLength inp.length)) (List.mem_cons_self _ _)
        rw [hlen] at hhead
        rw [if_neg (by omega), if_neg hhead.1]
        rw [i2 (fun p hpm => hp p (List.mem_cons_of_mem _ hpm)), List.append_assoc]
    · have h0 : inp.length = 0 := by omega
      rw [if_neg hn, h0]
      have hcl : chunkLengths (fuel + 1) 0 = [] := by simp [chunkLengths]
      rw [hcl]
      refine ⟨?_, ?_⟩
      · intro o ho
        simp only [Option.some.injEq, Prod.mk.injEq, true_and] at ho
        rw [← ho]
        simp [chunksOf]
      · intro _
        simp [chunksOf]

/-- Claim C33.  For an input of `L` bytes the loop of `Compress` takes consecutive chunks
from the input whose lengths `chunkLengths` are each at least 1 and at most `16777215`
and sum to `L`; a length strictly between `16777215` and `2 * 16777215` gives the two
chunks `L / 2` and `(L + 1) / 2`.  With a codec that keeps to the size of its target the
loop ends.  When `Compress` returns true the output is the concatenation of the outputs
of the codec for all chunks, so the reported length is the sum of their lengths; it
returns true when the codec gives a non-empty output for every chunk. -/
theorem C33_compress_chunking (c : Codec) (compLevel : Int) (L : Nat) (inp : List Nat)
    (hlen : inp.length = L) :
    (∀ n ∈ chunkLengths (L + 1) L, 1 ≤ n ∧ n ≤ 16777215) ∧
    (chunkLengths (L + 1) L).sum = L ∧
    (0 < L → chunkLengths (L + 1) L ≠ []) ∧
    (16777215 < L → L < 2 * 16777215 → chunkLengths (L + 1) L = [L / 2, (L + 1) / 2]) ∧
    (chunksOf (chunkLengths (L + 1) L) inp).flatten = inp ∧
    (chunksOf (chunkLengths (L + 1) L) inp).map List.length = chunkLengths (L + 1) L ∧
    ((∀ src n, (c.zip compLevel src n).length ≤ n) →
      ∃ b out, Compress c compLevel inp = some (b, out)) ∧
    (∀ out, Compress c compLevel inp = some (true, out) →
      out = ((chunksOf (chunkLengths (L + 1) L) inp).map
        (fun p => c.zip compLevel p p.length)).flatten ∧
      out.length = ((chunksOf (chunkLengths (L + 1) L) inp).map
        (fun p => (c.zip compLevel p p.length).length)).sum) ∧
    ((∀ p ∈ chunksOf (chunkLengths (L + 1) L) inp,
        (c.zip compLevel p p.length).length ≠ 0 ∧
        (c.zip compLevel p p.length).length ≤ p.length) →
      Compress c compLevel inp
        = some (true, ((chunksOf (chunkLengths (L + 1) L) inp).map
            (fun p => c.zip compLevel p p.length)).flatten)) := by
  subst hlen
  obtain ⟨h1, h2⟩ := chunkLengths_spec (inp.length + 1) inp.length (by omega)
  obtain ⟨h3, h4⟩ := chunksOf_spec (chunkLengths (inp.length + 1) inp.length) inp h2
  obtain ⟨h5, h6⟩ := compressLoop_chunks c compLevel (inp.length + 1) inp [] (by omega)
  refine ⟨h1, h2, ?_, chunkLengths_two inp.length, h3, h4, ?_, ?_, ?_⟩
  · intro hpos hnil
    rw [hnil] at h2
    simp only [List.sum_nil] at h2
    omega
  · intro hzip
    obtain ⟨b, o, ho, _⟩ := compress_some c compLevel hzip inp
    exact ⟨b, o, ho⟩
  · intro out hout
    have := h5 out hout
    rw [List.nil_append] at this
    refine ⟨this, ?_⟩
    rw [this, List.length_flatten, List.map_map]
    rfl
  · intro hp
    have := h6 hp
    rw [List.nil_append] at this
    exact this

/-- Witness of C33: an input of 20000000 bytes is cut into two chunks of 10000000 bytes;
with a codec that writes one byte for every chunk the output of `Compress` has two
bytes. -/
theorem C33_compress_chunking_witness :
    (List.replicate 20000000 0).length = 20000000 ∧
    chunkLengths (20000000 + 1) 20000000 = [20000000 / 2, (20000000 + 1) / 2] ∧
    (20000000 / 2 = 10000000 ∧ (20000000 + 1) / 2 = 10000000) ∧
    Compress oneByteCodec 1 (List.replicate 20000000 0) = some (true, [5, 5]) := by
  have h := C33_compress_chunking oneByteCodec 1 20000000 (List.replicate 20000000 0)
    (List.length_replicate _ _)
  obtain ⟨h1, _, _, h4, _, h6, _, _, h9⟩ := h
  have hl := h4 (by decide) (by decide)
  refine ⟨List.length_replicate _ _, hl, ⟨by decide, by decide⟩, ?_⟩
  have hp : ∀ p ∈ chunksOf (chunkLengths (20000000 + 1) 20000000) (List.replicate 20000000 0),
      (oneByteCodec.zip 1 p p.length).length ≠ 0 ∧
      (oneByteCodec.zip 1 p p.length).length ≤ p.length := by
    intro p hp
    have hm : p.length ∈ (chunksOf (chunkLengths (20000000 + 1) 20000000)
        (List.replicate 20000000 0)).map List.length := List.mem_map_of_mem _ hp
    rw [h6] at hm
    have := (h1 _ hm).1
    exact ⟨by show (1 : Nat) ≠ 0; decide, this⟩
  rw [h9 hp, hl]
  rfl

theorem makeFreeIndex_end (pos : Nat) (t : List Slot) (l1 : List (Nat × Nat)) :
    ∀ (a : List Slot) (index : Nat), a.drop index = l1.map some ++ t →
      (∀ x ∈ l1, x.1 < pos) →
      makeFreeIndex a pos l1.length index = some (index + l1.length) := by
  induction l1 with
  | nil => intro a index _ _; rfl
  | cons x l1 ih =>
    intro a index h hl
    simp only [List.map_cons, List.cons_append] at h
    simp only [List.length_cons, makeFreeIndex, rdSlot_of_drop h]
    rw [if_pos (hl x (by simp))]
    rw [ih a (index + 1) (drop_eq_cons none h).2.1 (fun y hy => hl y (by simp [hy]))]
    congr 1
    omega

/-- The insertion of a new entry into a table whose array has room for it. -/
theorem insertFree_room (pos size : Nat) (s : TFAsroFile) (A B : List (Nat × Nat))
    (hrep : TableRep s (A ++ B)) (hroom : s.fDes2 ≠ s.fFreeReserve) :
    ∃ s', insertFree A.length pos size s = some s' ∧ SameButTable s s' ∧
      TableRep s' (A ++ (pos, size) :: B) ∧ s'.fFreeReserve = s.fFreeReserve := by
  obtain ⟨hd2, hres, hlt, rest, hfree⟩ := hrep
  have hfree' : s.fFree = A.map some ++ (B.map some ++ rest) := by rw [hfree]; simp
  have hlen : s.fFree.length = A.length + B.length + rest.length := by
    rw [hfree']; simp only [List.length_append, List.length_map]; omega
  have hn : (A ++ B).length = A.length + B.length := List.length_append _ _
  have hcnt : (s.fDes2 - A.length * 8) / 8 = B.length := by rw [hd2, hn]; omega
  have hrest : ∃ y rest', rest = y :: rest' := by
    cases rest with
    | nil => exfalso; apply hroom; rw [hd2, hn, hres, hlen]; simp
    | cons y r => exact ⟨y, r, rfl⟩
  obtain ⟨y, rest', rfl⟩ := hrest
  simp only [List.length_cons] at hlen
  have hd2' : (s.fDes2 + 8) % 4294967296 = 8 * (A ++ (pos, size) :: B).length := by
    have hL : (A ++ (pos, size) :: B).length = A.length + B.length + 1 := by
      simp only [List.length_append, List.length_cons]; omega
    rw [hL]
    omega
  unfold insertFree
  rw [if_neg (by rw [hd2, hn]; omega), hcnt]
  obtain ⟨z, hmm⟩ := memmove_up (A.map some) (B.map some) rest' y
  simp only [List.length_map] at hmm
  simp only [if_neg hroom, hfree', hmm, Option.map_some']
  have hidx : A.length < (List.map some A ++ z :: (List.map some B ++ rest')).length := by
    simp only [List.length_append, List.length_map, List.length_cons]; omega
  rw [if_pos hidx]
  have hset := set_mid (List.map some A) (List.map some B ++ rest') z (some (pos, size))
  rw [List.length_map] at hset
  refine ⟨_, rfl, ⟨rfl, rfl, rfl, rfl, rfl, rfl, rfl⟩, ⟨hd2', ?_, hlt, rest', ?_⟩, rfl⟩
  · show s.fFreeReserve = 8 * (List.set _ _ _).length
    rw [hset, hres, hlen]
    simp only [List.length_append, List.length_map, List.length_cons]
    omega
  · show List.set _ _ _ = _
    rw [hset]; simp

/-- The call `MakeFree(pos, size)` that finds no range to enlarge: the slot `y` at the
index of the first range at or above `pos` (the slot behind the table when there is no
such range) does not start at `pos + size`, and the range before it does not end at
`pos`.  The new entry is inserted at that index. -/
theorem makeFree_insert (pos size : Nat) (s : TFAsroFile) (l1 B : List (Nat × Nat))
    (y : Nat × Nat) (t : List Slot)
    (hrep : TableRep s (l1 ++ B)) (hslot : s.fFree.drop l1.length = some y :: t)
    (hl1 : ∀ x ∈ l1, x.1 < pos) (hB : B = [] ∨ pos ≤ y.1)
    (hbefore : ∀ pv, l1.getLast? = some pv → (pv.1 + pv.2) % 4294967296 ≠ pos)
    (hafter : (pos + size) % 4294967296 ≠ y.1) (hroom : s.fDes2 ≠ s.fFreeReserve) :
    ∃ s', MakeFree pos size s = some s' ∧ SameButTable s s' ∧
      TableRep s' (l1 ++ (pos, size) :: B) ∧ s'.fFreeReserve = s.fFreeReserve := by
  have hnum := numFree_of_rep hrep
  have hins := insertFree_room pos size s l1 B hrep hroom
  obtain ⟨hd2, hres, hlt, rest, hfree⟩ := hrep
  have htake : s.fFree.take l1.length = l1.map some := by
    rw [hfree, List.map_append, List.append_assoc]
    simp
  have hfree2 : s.fFree = l1.map some ++ some y :: t := by
    rw [← List.take_append_drop l1.length s.fFree, htake, hslot]
  have hidx : makeFreeIndex s.fFree pos s.numFree 0 = some l1.length := by
    rw [hnum]
    rcases hB with hB | hB
    · subst hB
      have := makeFreeIndex_end pos (some y :: t) l1 s.fFree 0 (by simpa using hfree2) hl1
      simpa using this
    · cases B with
      | nil =>
        have := makeFreeIndex_end pos (some y :: t) l1 s.fFree 0 (by simpa using hfree2) hl1
        simpa using this
      | cons b B' =>
        have := makeFreeIndex_eq pos y t l1 s.fFree 0 (l1 ++ b :: B').length
          (by simpa using hfree2) hl1 hB
          (by simp only [List.length_append, List.length_cons]; omega)
        simpa using this
  unfold MakeFree
  rw [hidx]
  rcases List.eq_nil_or_concat l1 with h0 | ⟨l0, pv, hl⟩
  · subst h0
    have hrd : rdSlot s.fFree 0 = some y := by rw [hfree2]; rfl
    simp only [List.length_nil, hrd]
    rw [if_neg hafter]
    simpa using hins
  · rw [List.concat_eq_append] at hl
    subst hl
    have hfree3 : s.fFree = l0.map some ++ some pv :: (some y :: t) := by
      rw [hfree2]; simp
    have hfree4 : s.fFree = (l0.map some ++ [some pv]) ++ some y :: t := by
      rw [hfree2]; simp
    have hrd1 : rdSlot s.fFree l0.length = some pv := by
      rw [hfree3]
      have := rdSlot_mid (l0.map some) (some y :: t) pv
      rw [List.length_map] at this
      exact this
    have hrd2 : rdSlot s.fFree (l0.length + 1) = some y := by
      rw [hfree4]
      have := rdSlot_mid (l0.map some ++ [some pv]) t y
      rw [List.length_append, List.length_map, List.length_singleton] at this
      exact this
    have hb : (pv.1 + pv.2) % 4294967296 ≠ pos := hbefore pv (by simp)
    have hbd := decide_eq_false hb
    have had := decide_eq_false hafter
    simp only [List.length_append, List.length_singleton, hrd1, hrd2, hbd, had,
      Bool.not_false, Bool.and_self, Bool.false_and, Bool.and_false, Bool.false_eq_true,
      if_false]
    simpa using hins

theorem insertFree_des {index pos size : Nat} {s s' : TFAsroFile}
    (h : insertFree index pos size s = some s') :
    s'.fDes2 = (s.fDes2 + 8) % 4294967296 ∧
    s'.fDes3 = (s.fDes3 + 4294967296 - 8) % 4294967296 := by
  unfold insertFree at h
  by_cases h1 : s.fDes2 < index * 8
  · rw [if_pos h1] at h
    exact absurd h (by simp)
  · rw [if_neg h1] at h
    simp only [] at h
    generalize (if s.fDes2 = s.fFreeReserve then _ else _ : Option (Nat × List Slot)) = moved at h
    cases moved with
    | none => exact absurd h (by simp)
    | some ra =>
      obtain ⟨reserve, a⟩ := ra
      simp only [] at h
      by_cases h2 : index < a.length
      · rw [if_pos h2] at h
        simp only [Option.some.injEq] at h
        rw [← h]
        exact ⟨rfl, rfl⟩
      · rw [if_neg h2] at h
        exact absurd h (by simp)

/-- The header words `fDes[2]` and `fDes[3]` after a call of `MakeFree`: unchanged, or one
entry more, or one entry fewer. -/
theorem makeFree_des {pos size : Nat} {s s' : TFAsroFile}
    (h : MakeFree pos size s = some s') :
    (s'.fDes2 = s.fDes2 ∧ s'.fDes3 = s.fDes3) ∨
    (s'.fDes2 = (s.fDes2 + 8) % 4294967296 ∧
      s'.fDes3 = (s.fDes3 + 4294967296 - 8) % 4294967296) ∨
    (16 ≤ s.fDes2 ∧ s'.fDes2 = (s.fDes2 + 4294967296 - 8) % 4294967296 ∧
      s'.fDes3 = (s.fDes3 + 8) % 4294967296) := by
  rcases makeFree_shape h with ⟨_, _, h1 | h1⟩ | ⟨index, _, h1⟩
  · exact Or.inl h1
  · exact Or.inr (Or.inr h1)
  · exact Or.inr (Or.inl (insertFree_des h1))

/-- The call `GetFree(size)` that takes the whole last range of the table: the array is
not changed, so the slot behind the table still holds the range. -/
theorem getFree_exact_last (size : Nat) (s : TFAsroFile) (p1 : List (Nat × Nat))
    (r : Nat × Nat) (hrep : TableRep s (p1 ++ [r]))
    (hb : (scanL size (p1 ++ [r]) 0 (0, 4294967295)).1 = p1.length) (hsz : size = r.2) :
    ∃ s', GetFree size s = some (r.1, s') ∧ s'.fFree = s.fFree := by
  have hnum := numFree_of_rep hrep
  obtain ⟨hd2, hres, hlt, rest, hfree⟩ := hrep
  have hscan := getFreeScan_eq size rest (p1 ++ [r]) s.fFree 0 (0, 4294967295)
    (by simpa using hfree)
  have hfree' : s.fFree = p1.map some ++ some r :: rest := by
    rw [hfree]; simp
  have hrd : rdSlot s.fFree p1.length = some r := by
    rw [hfree']
    have := rdSlot_mid (p1.map some) rest r
    rw [List.length_map] at this
    exact this
  have hn : (p1 ++ [r]).length = p1.length + 1 := by simp
  have hlen : s.fFree.length = p1.length + 1 + rest.length := by
    rw [hfree']; simp only [List.length_append, List.length_cons, List.length_map]; omega
  unfold GetFree
  rw [hnum, hscan]
  generalize scanL size (p1 ++ [r]) 0 (0, 4294967295) = best at hb
  obtain ⟨b, bs⟩ := best
  simp only at hb
  subst hb
  simp only [hrd]
  rw [if_pos hsz]
  have hnlt : ¬ s.fDes2 < (p1.length + 1) * 8 := by rw [hd2, hn]; omega
  rw [if_neg hnlt]
  have hcnt : (s.fDes2 - (p1.length + 1) * 8) / 8 = 0 := by rw [hd2, hn]; omega
  have hmm : memmoveSlots s.fFree p1.length (p1.length + 1) 0 = some s.fFree := by
    unfold memmoveSlots
    rw [if_pos (by rw [hlen]; omega)]
    simp
  rw [hcnt, hmm]
  exact ⟨_, rfl, rfl⟩

theorem tableRep_congr {s t : TFAsroFile} {fl : List (Nat × Nat)} (h : TableRep s fl)
    (h1 : t.fFree = s.fFree) (h2 : t.fDes2 = s.fDes2) (h3 : t.fFreeReserve = s.fFreeReserve) :
    TableRep t fl := by
  unfold TableRep at h ⊢
  rw [h1, h2, h3]
  exact h

theorem tableRep_lt {s : TFAsroFile} {fl : List (Nat × Nat)} (h : TableRep s fl) :
    8 * fl.length ≤ s.fFreeReserve ∧ s.fFreeReserve < 4294967296 := by
  obtain ⟨_, hres, hlt, rest, hfree⟩ := h
  refine ⟨?_, hlt⟩
  rw [hres, hfree]
  simp only [List.length_append, List.length_map]
  omega

/-- The call `MakeFree` between two states that hold a table: the array keeps its size
unless the table got longer, and `fDes[3]` follows the number of entries. -/
theorem makeFree_between {pos size : Nat} {s s' : TFAsroFile} {fl fl' : List (Nat × Nat)}
    (h : MakeFree pos size s = some s') (hrep : TableRep s fl) (hrep' : TableRep s' fl') :
    (fl'.length = fl.length → s'.fDes3 = s.fDes3 ∧ s'.fFreeReserve = s.fFreeReserve) ∧
    (fl'.length = fl.length + 1 → s'.fDes3 = (s.fDes3 + 4294967296 - 8) % 4294967296) := by
  have b1 := tableRep_lt hrep
  have b2 := tableRep_lt hrep'
  have d1 := hrep.1
  have d2 := hrep'.1
  refine ⟨?_, ?_⟩
  · intro hl
    rcases makeFree_shape h with ⟨hr, _, hc⟩ | ⟨index, _, hi⟩
    · rcases hc with ⟨_, h3⟩ | ⟨_, h2, _⟩
      · exact ⟨h3, hr⟩
      · omega
    · have := (insertFree_des hi).1
      omega
  · intro hl
    rcases makeFree_des h with ⟨h2, _⟩ | ⟨_, h3⟩ | ⟨_, h2, _⟩
    · omega
    · exact h3
    · omega

/-- Allocate, then release.  On a well-formed table `GetFree(size)` takes the space from
the low end of a range `r`; in every state with the same table, `MakeFree` of the returned
offset and `size` gives back the table as it was before the allocation: the range `r` is
enlarged again to its old offset and length, or, when `r` was taken as a whole, entered
again at its old index. -/
theorem alloc_release (size : Nat) (s : TFAsroFile) (fl : List (Nat × Nat))
    (hrep : TableRep s fl) (hwf : FreeWF fl) (hsat : ∃ x ∈ fl, size ≤ x.2) :
    ∃ p1 r p2 s1, fl = p1 ++ r :: p2 ∧ size ≤ r.2 ∧
      GetFree size s = some (r.1, s1) ∧ SameButTable s s1 ∧
      TableRep s1 (if size = r.2 then p1 ++ p2 else p1 ++ (r.1 + size, r.2 - size) :: p2) ∧
      s1.fFreeReserve = s.fFreeReserve ∧
      s1.fDes3 = (if size = r.2 then (s.fDes3 + 8) % 4294967296 else s.fDes3) ∧
      ∀ t : TFAsroFile, t.fFree = s1.fFree → t.fDes2 = s1.fDes2 →
        t.fFreeReserve = s1.fFreeReserve →
        ∃ t', MakeFree r.1 size t = some t' ∧ SameButTable t t' ∧ TableRep t' fl ∧
          t'.fFreeReserve = t.fFreeReserve ∧
          t'.fDes3 = (if size = r.2 then (t.fDes3 + 4294967296 - 8) % 4294967296
            else t.fDes3) := by
  obtain ⟨p1, r, p2, hfl, hidx, hbf⟩ := bestFit_of_wf size fl hwf hsat
  subst hfl
  obtain ⟨s1, h1, h2, h3, h4, h5⟩ := getFree_step size s p1 r p2 hrep hidx
  have hrv := hwf.2 r (by simp)
  obtain ⟨w1, wm, w2, w12, w1m, wm2⟩ := FreeWF_split [r] (by simpa using hwf)
  have hle := hbf.1
  have hlo : ∀ a ∈ p1, a.1 + a.2 < r.1 := fun a ha => w1m a ha r (by simp)
  have hhi : ∀ b ∈ p2, r.1 + r.2 < b.1 := fun b hb => wm2 r (by simp) b hb
  have hcap := tableRep_lt hrep
  by_cases hsz : size = r.2
  · obtain ⟨h41, h42⟩ := h4 hsz
    refine ⟨p1, r, p2, s1, rfl, hle, h1, h2, by rw [if_pos hsz]; exact h41, h3,
      by rw [if_pos hsz]; exact h42, ?_⟩
    intro t e1 e2 e3
    have hrt : TableRep t (p1 ++ p2) := tableRep_congr h41 e1 e2 e3
    have hroom : t.fDes2 ≠ t.fFreeReserve := by
      rw [hrt.1, e3, h3]
      have := hcap.1
      simp only [List.length_append, List.length_cons] at this ⊢
      omega
    have hslot : ∃ y rest, t.fFree.drop p1.length = some y :: rest ∧
        (p2 = [] ∨ r.1 ≤ y.1) ∧ (r.1 + size) % 4294967296 ≠ y.1 := by
      cases p2 with
      | nil =>
        obtain ⟨s1', g1, g2⟩ := getFree_exact_last size s p1 r hrep hidx hsz
        rw [h1] at g1
        simp only [Option.some.injEq, Prod.mk.injEq, true_and] at g1
        subst g1
        obtain ⟨_, _, _, rest, hfree⟩ := hrep
        refine ⟨r, rest, ?_, Or.inl rfl, ?_⟩
        · rw [e1, g2, hfree]
          simp only [List.map_append, List.map_cons, List.map_nil, List.append_assoc,
            List.singleton_append]
          simp
        · rw [Nat.mod_eq_of_lt (by omega)]
          omega
      | cons nx l2 =>
        obtain ⟨_, _, _, rest, hfree⟩ := hrt
        have hn := hhi nx (by simp)
        refine ⟨nx, l2.map some ++ rest, ?_, Or.inr (by omega), ?_⟩
        · rw [hfree]
          simp only [List.map_append, List.map_cons, List.append_assoc, List.cons_append]
          simp
        · rw [Nat.mod_eq_of_lt (by omega)]
          omega
    obtain ⟨y, rest, hs1, hs2, hs3⟩ := hslot
    obtain ⟨t', m1, m2, m3, m4⟩ := makeFree_insert r.1 size t p1 p2 y rest hrt hs1
      (fun x hx => by have := hlo x hx; omega) hs2
      (fun pv hpv => by
        have := hlo pv (List.mem_of_mem_getLast? hpv)
        rw [Nat.mod_eq_of_lt (by omega)]
        omega)
      hs3 hroom
    have hr : (r.1, size) = r := by rw [hsz]
    rw [hr] at m3
    refine ⟨t', m1, m2, m3, m4, ?_⟩
    rw [if_pos hsz]
    exact (makeFree_between m1 hrt m3).2
      (by simp only [List.length_append, List.length_cons]; omega)
  · obtain ⟨h51, h52⟩ := h5 hsz
    have e1 : (r.1 + size) % 4294967296 = r.1 + size := Nat.mod_eq_of_lt (by omega)
    have e2 : (r.2 + 4294967296 - size) % 4294967296 = r.2 - size := by omega
    rw [e1, e2] at h51
    refine ⟨p1, r, p2, s1, rfl, hle, h1, h2, by rw [if_neg hsz]; exact h51, h3,
      by rw [if_neg hsz]; exact h52, ?_⟩
    intro t f1 f2 f3
    have hrt : TableRep t (p1 ++ (r.1 + size, r.2 - size) :: p2) :=
      tableRep_congr h51 f1 f2 f3
    have hr : (r.1, r.2 - size + size) = r := by
      have : r.2 - size + size = r.2 := by omega
      rw [this]
    have key : ∃ t', MakeFree r.1 size t = some t' ∧ SameButTable t t' ∧
        TableRep t' (p1 ++ r :: p2) := by
      rcases List.eq_nil_or_concat p1 with h0 | ⟨l0, pv, hl⟩
      · subst h0
        obtain ⟨t', m1, m2, _, m4, _⟩ := makeFree_step_nil r.1 size t (r.1 + size, r.2 - size) p2
          (by simpa using hrt) (le_refl _) (by simp only []; omega)
          (fun h => absurd rfl h)
        refine ⟨t', m1, m2, ?_⟩
        have := m4 rfl
        simp only [] at this
        rw [hr] at this
        simpa using this
      · rw [List.concat_eq_append] at hl
        subst hl
        have hpv := hlo pv (by simp)
        obtain ⟨t', m1, m2, _, _, m5, _, _⟩ := makeFree_step_snoc r.1 size t l0 pv
          (r.1 + size, r.2 - size) p2 (by simpa using hrt)
          (fun x hx => by have := hlo x (by simp [hx]); omega) (by omega) (by omega)
          (le_refl _) (by simp only []; omega) (fun _ h => absurd rfl h)
        refine ⟨t', m1, m2, ?_⟩
        have := m5 (by omega) rfl
        simp only [] at this
        rw [hr] at this
        simpa using this
    obtain ⟨t', m1, m2, m3⟩ := key
    have hb := (makeFree_between m1 hrt m3).1
      (by simp only [List.length_append, List.length_cons])
    refine ⟨t', m1, m2, m3, hb.2, ?_⟩
    rw [if_neg hsz]
    exact hb.1

/-- Claim C32 (amended).  For a well-formed free list (sorted, non-overlapping, no touching
ranges, no empty range) and a size that some free range can hold, `GetFree(size)` followed
by `MakeFree` of the returned offset and `size` gives back the free list as it was, range
by range, and the header words `fDes[2]` and `fDes[3]` have their old values; the size of
the array and the other members are unchanged as well. -/
theorem C32_allocate_release (size : Nat) (s : TFAsroFile) (fl : List (Nat × Nat))
    (hrep : TableRep s fl) (hwf : FreeWF fl) (hsat : ∃ x ∈ fl, size ≤ x.2)
    (h3 : s.fDes3 < 4294967296) :
    ∃ pos s1 s2, GetFree size s = some (pos, s1) ∧ MakeFree pos size s1 = some s2 ∧
      freeList s2 = fl ∧ freeList s2 = freeList s ∧
      (freeList s2).length = (freeList s).length ∧
      s2.fDes2 = s.fDes2 ∧ s2.fDes3 = s.fDes3 ∧ s2.fFreeReserve = s.fFreeReserve ∧
      SameButTable s s2 := by
  obtain ⟨p1, r, p2, s1, hfl, hle, hget, hsame, hrep1, hres, hd3, hback⟩ :=
    alloc_release size s fl hrep hwf hsat
  obtain ⟨s2, m1, m2, m3, m4, m5⟩ := hback s1 rfl rfl rfl
  have hfl2 : freeList s2 = fl := freeList_of_rep m3
  have hfl0 : freeList s = fl := freeList_of_rep hrep
  refine ⟨r.1, s1, s2, hget, m1, hfl2, by rw [hfl2, hfl0], by rw [hfl2, hfl0], ?_, ?_,
    by rw [m4, hres], sameButTable_trans hsame m2⟩
  · rw [m3.1, hrep.1]
  · rw [m5, hd3]
    split_ifs <;> omega

/-- Witness of C32: in the table with the ranges `(100, 10)`, `(200, 50)`, `(300, 7)` a
request for 7 bytes takes the whole last range and a request for 8 bytes shortens the
first one; the release gives back the state as it was. -/
theorem C32_allocate_release_witness :
    TableRep exampleTable [(100, 10), (200, 50), (300, 7)] ∧
    FreeWF [(100, 10), (200, 50), (300, 7)] ∧
    (GetFree 7 exampleTable).map Prod.fst = some 300 ∧
    (GetFree 7 exampleTable).map (fun r => freeList r.2) = some [(100, 10), (200, 50)] ∧
    (GetFree 7 exampleTable).bind (fun r => MakeFree r.1 7 r.2) = some exampleTable ∧
    (GetFree 8 exampleTable).bind (fun r => MakeFree r.1 8 r.2) = some exampleTable ∧
    (∃ pos s1 s2, GetFree 7 exampleTable = some (pos, s1) ∧
      MakeFree pos 7 s1 = some s2 ∧ freeList s2 = [(100, 10), (200, 50), (300, 7)] ∧
      freeList s2 = freeList exampleTable ∧
      (freeList s2).length = (freeList exampleTable).length ∧
      s2.fDes2 = exampleTable.fDes2 ∧ s2.fDes3 = exampleTable.fDes3 ∧
      s2.fFreeReserve = exampleTable.fFreeReserve ∧ SameButTable exampleTable s2) :=
  ⟨exampleTable_rep, exampleTable_wf, by decide, by decide, by decide, by decide,
    C32_allocate_release 7 exampleTable [(100, 10), (200, 50), (300, 7)] exampleTable_rep
      exampleTable_wf ⟨(300, 7), by simp, by decide⟩ (by decide)⟩

/-- Counterexample to C32 as stated.  The free list with the single range `(10, 0)` is
sorted, without overlap and without touching ranges, and its range can hold a request
for 0 bytes.  `GetFree(0)` takes the range as a whole and returns 10; `MakeFree(10, 0)`
then compares `10 + 0` with the offset in the slot behind the table, which still holds
the range, takes the span for adjoining and enters nothing: the free list stays empty,
`fDes[2]` is 0 and `fDes[3]` is 16, where they were 8 and 8. -/
theorem C32_counterexample :
    freeList emptyLastTable = [(10, 0)] ∧
    [((10 : Nat), (0 : Nat))].Pairwise (fun a b => a.1 + a.2 < b.1) ∧
    (∃ x ∈ freeList emptyLastTable, 0 ≤ x.2) ∧
    emptyLastTable.fDes2 = 8 ∧ emptyLastTable.fDes3 = 8 ∧
    (GetFree 0 emptyLastTable).map Prod.fst = some 10 ∧
    (GetFree 0 emptyLastTable).map (fun r => freeList r.2) = some [] ∧
    ((GetFree 0 emptyLastTable).bind (fun r => MakeFree r.1 0 r.2)).map freeList = some [] ∧
    ((GetFree 0 emptyLastTable).bind (fun r => MakeFree r.1 0 r.2)).map
      (fun t => (t.fDes2, t.fDes3)) = some (0, 16) := by
  refine ⟨by decide, by decide, ⟨(10, 0), by decide, by decide⟩, rfl, rfl, by decide,
    by decide, by decide, by decide⟩

theorem tableWords_ranges (fl : List (Nat × Nat)) (rest : List Slot) :
    tableWords (fl.map some ++ rest) fl.length = some (rangeWords fl) := by
  induction fl with
  | nil => simp [tableWords, rangeWords]
  | cons r fl ih =>
    obtain ⟨p, l⟩ := r
    show (tableWords (fl.map some ++ rest) fl.length).map (fun ws => p :: l :: ws) = _
    rw [ih]
    rfl

theorem tableWords_of_rep {s : TFAsroFile} {fl : List (Nat × Nat)} (h : TableRep s fl) :
    tableWords s.fFree (s.fDes2 / 8) = some (rangeWords fl) := by
  obtain ⟨h1, _, _, rest, h4⟩ := h
  rw [h4, h1]
  have : 8 * fl.length / 8 = fl.length := by omega
  rw [this]
  exact tableWords_ranges fl rest

/-- The result of `commit` when the request for space and the read of the table have a
result; `L` is the length of the streamed descriptor. -/
theorem commit_eq (st : DirStreamer) (pad L : Nat) (s s2 : TFAsroFile) (pos : Nat)
    (ws : List Nat) (hL : (st.write s.fEntries s.fClassNames s.fNames).length = L)
    (hg : GetFree ((L + s.fDes2 + pad) % 4294967296) { s with fDes1 := L, fDes3 := pad }
      = some (pos, s2))
    (hw : tableWords s2.fFree (s2.fDes2 / 8) = some ws) :
    commit st pad s = some (true, { s2 with
      fDes0 := pos,
      disk := pwrite (pwrite (pwrite s2.disk pos (st.write s.fEntries s.fClassNames s.fNames))
        (pos + L) (encodeWords ws)) 8 (encodeWords [pos, s2.fDes1, s2.fDes2, s2.fDes3]) }) := by
  subst hL
  unfold commit
  simp only [hg, hw]

/-- Claim C31 (amended).  In an open file whose free list is well-formed and has a range
that can hold `L + fDes[2] + 8` bytes (`L` is the length of the streamed directory),
`FinishWrite` requests one span of that size from `GetFree` and stores its offset in
`fDes[0]`.  Afterwards `fDes[1]` is `L`, `fDes[2]` is 8 times the number of ranges of the
free list, which are the ranges written to the file behind the directory, and
`fDes[1] + fDes[2] + fDes[3]` is the size of the span: after an exact fit `fDes[2]` is 8
less and `fDes[3]` is 16, otherwise `fDes[2]` is unchanged and `fDes[3]` is 8.  The next
`InitWrite` calls `MakeFree` with the offset and the size of that span, and the free list
is again what it was before the request. -/
theorem C31_commit_accounting (st : DirStreamer) (s : TFAsroFile) (fl : List (Nat × Nat))
    (L : Nat) (hL : (st.write s.fEntries s.fClassNames s.fNames).length = L)
    (hf : 0 ≤ s.fFile) (hrep : TableRep s fl) (hwf : FreeWF fl)
    (hsat : ∃ x ∈ fl, L + s.fDes2 + 8 ≤ x.2) :
    ∃ p1 r p2 s1 s' t s'', fl = p1 ++ r :: p2 ∧ L + s.fDes2 + 8 ≤ r.2 ∧
      GetFree (L + s.fDes2 + 8) { s with fDes1 := L, fDes3 := 8 } = some (r.1, s1) ∧
      FinishWrite st s = some (true, s') ∧ s'.fDes0 = r.1 ∧ s'.fDes1 = L ∧
      freeList s' = freeList s1 ∧
      freeList s' = (if L + s.fDes2 + 8 = r.2 then p1 ++ p2
        else p1 ++ (r.1 + (L + s.fDes2 + 8), r.2 - (L + s.fDes2 + 8)) :: p2) ∧
      s'.fDes2 = 8 * (freeList s').length ∧
      s'.disk = pwrite (pwrite (pwrite s.disk r.1
          (st.write s.fEntries s.fClassNames s.fNames))
          (r.1 + L) (encodeWords (rangeWords (freeList s')))) 8
          (encodeWords [r.1, s'.fDes1, s'.fDes2, s'.fDes3]) ∧
      s'.fDes1 + s'.fDes2 + s'.fDes3 = L + s.fDes2 + 8 ∧
      (L + s.fDes2 + 8 = r.2 → s'.fDes2 + 8 = s.fDes2 ∧ s'.fDes3 = 16) ∧
      (L + s.fDes2 + 8 ≠ r.2 → s'.fDes2 = s.fDes2 ∧ s'.fDes3 = 8) ∧
      MakeFree s'.fDes0 (s'.fDes1 + s'.fDes2 + s'.fDes3) s' = some t ∧
      InitWrite s' = some (true, s'') ∧ s'' = { t with disk := pwrite t.disk 8 (encodeU32 0) } ∧
      freeList s'' = fl ∧ s''.fDes2 = s.fDes2 := by
  have hrep0 : TableRep { s with fDes1 := L, fDes3 := 8 } fl := tableRep_congr hrep rfl rfl rfl
  obtain ⟨p1, r, p2, s1, hfl, hle, hget, hsame, hrep1, hres, hd3, hback⟩ :=
    alloc_release (L + s.fDes2 + 8) { s with fDes1 := L, fDes3 := 8 } fl hrep0 hwf hsat
  have hrv := hwf.2 r (by rw [hfl]; simp)
  have hsize : (L + s.fDes2 + 8) % 4294967296 = L + s.fDes2 + 8 :=
    Nat.mod_eq_of_lt (by omega)
  have hw := tableWords_of_rep hrep1
  have hcom := commit_eq st 8 L s s1 r.1 _ hL (by rw [hsize]; exact hget) hw
  have hfw : FinishWrite st s = commit st 8 s := by
    unfold FinishWrite
    rw [if_neg (not_lt.mpr hf)]
  obtain ⟨a1, a2, a3, a4, a5, a6, a7⟩ := hsame
  have hd2 : s.fDes2 = 8 * fl.length := hrep.1
  have hlen : fl.length = p1.length + 1 + p2.length := by
    rw [hfl]; simp only [List.length_append, List.length_cons]; omega
  have hfl1 : freeList s1
      = (if L + s.fDes2 + 8 = r.2 then p1 ++ p2
        else p1 ++ (r.1 + (L + s.fDes2 + 8), r.2 - (L + s.fDes2 + 8)) :: p2) :=
    freeList_of_rep hrep1
  have hd21 : s1.fDes2 = 8 * (freeList s1).length := by
    rw [hfl1]; exact hrep1.1
  have hd21e : L + s.fDes2 + 8 = r.2 → s1.fDes2 + 8 = s.fDes2 ∧ s1.fDes3 = 16 := by
    intro he
    rw [hd21, hfl1, if_pos he, hd3, if_pos he, hd2, hlen]
    simp only [List.length_append]
    refine ⟨by omega, by first | rfl | trivial⟩
  have hd21n : L + s.fDes2 + 8 ≠ r.2 → s1.fDes2 = s.fDes2 ∧ s1.fDes3 = 8 := by
    intro he
    rw [hd21, hfl1, if_neg he, hd3, if_neg he, hd2, hlen]
    simp only [List.length_append, List.length_cons]
    refine ⟨by omega, by first | rfl | trivial⟩
  have hsum : s1.fDes1 + s1.fDes2 + s1.fDes3 = L + s.fDes2 + 8 := by
    have h1 : s1.fDes1 = L := a5
    by_cases he : L + s.fDes2 + 8 = r.2
    · obtain ⟨x1, x2⟩ := hd21e he
      omega
    · obtain ⟨x1, x2⟩ := hd21n he
      omega
  obtain ⟨t, m1, m2, m3, m4, m5⟩ := hback
    { s1 with
      fDes0 := r.1,
      disk := pwrite (pwrite (pwrite s1.disk r.1 (st.write s.fEntries s.fClassNames s.fNames))
        (r.1 + L) (encodeWords (rangeWords
          (if L + s.fDes2 + 8 = r.2 then p1 ++ p2
            else p1 ++ (r.1 + (L + s.fDes2 + 8), r.2 - (L + s.fDes2 + 8)) :: p2)))) 8
        (encodeWords [r.1, s1.fDes1, s1.fDes2, s1.fDes3]) } rfl rfl rfl
  have hinit : InitWrite { s1 with
      fDes0 := r.1,
      disk := pwrite (pwrite (pwrite s1.disk r.1 (st.write s.fEntries s.fClassNames s.fNames))
        (r.1 + L) (encodeWords (rangeWords
          (if L + s.fDes2 + 8 = r.2 then p1 ++ p2
            else p1 ++ (r.1 + (L + s.fDes2 + 8), r.2 - (L + s.fDes2 + 8)) :: p2)))) 8
        (encodeWords [r.1, s1.fDes1, s1.fDes2, s1.fDes3]) }
      = some (true, { t with disk := pwrite t.disk 8 (encodeU32 0) }) := by
    unfold InitWrite
    have hff : ¬ s1.fFile < 0 := by rw [a6]; exact not_lt.mpr hf
    simp only [hff, if_false, hsum, hsize, m1]
  refine ⟨p1, r, p2, s1, _, t, _, hfl, hle, hget, hfw.trans hcom, rfl, a5, rfl, hfl1, hd21, ?_, hsum,
    hd21e, hd21n, ?_, hinit, rfl, ?_, ?_⟩
  · have key : ∀ (u : TFAsroFile) (w : List Nat), freeList u = freeList s1 →
        u.disk = pwrite (pwrite (pwrite s1.disk r.1
          (st.write s.fEntries s.fClassNames s.fNames)) (r.1 + L) (encodeWords (rangeWords
            (if L + s.fDes2 + 8 = r.2 then p1 ++ p2
              else p1 ++ (r.1 + (L + s.fDes2 + 8), r.2 - (L + s.fDes2 + 8)) :: p2)))) 8 w →
        u.disk = pwrite (pwrite (pwrite s.disk r.1
          (st.write s.fEntries s.fClassNames s.fNames)) (r.1 + L) (encodeWords (rangeWords
            (freeList u)))) 8 w := by
      intro u w h1 h2
      rw [h2, h1, hfl1, a7]
    exact key _ _ rfl rfl
  · show MakeFree r.1 (s1.fDes1 + s1.fDes2 + s1.fDes3) _ = some t
    rw [hsum]
    exact m1
  · show freeList t = fl
    exact freeList_of_rep m3
  · show t.fDes2 = s.fDes2
    rw [m3.1, hd2]

theorem exactFitFile_rep : TableRep exactFitFile [(30, 25), (100, 4294967195)] :=
  ⟨rfl, rfl, by decide, [], rfl⟩

theorem exactFitFile_wf : FreeWF [((30 : Nat), (25 : Nat)), (100, 4294967195)] :=
  FreeWF_pair (by decide) (by decide) (by decide) (by decide)

/-- Witness of C31: the descriptor of 1 byte, the table of two ranges and the 8 spare
bytes need 25 bytes, the length of the first free range `(30, 25)`.  `FinishWrite` takes
that range: `fDes` is `(30, 1, 8, 16)` and the free list has one range; `InitWrite`
enters the range again. -/
theorem C31_commit_accounting_witness :
    (FinishWrite sampleStreamer exactFitFile).map
      (fun r => [r.2.fDes0, r.2.fDes1, r.2.fDes2, r.2.fDes3]) = some [30, 1, 8, 16] ∧
    (FinishWrite sampleStreamer exactFitFile).map (fun r => freeList r.2)
      = some [(100, 4294967195)] ∧
    ∃ s' s'', FinishWrite sampleStreamer exactFitFile = some (true, s') ∧
      s'.fDes2 = 8 * (freeList s').length ∧
      s'.fDes1 + s'.fDes2 + s'.fDes3 = 1 + exactFitFile.fDes2 + 8 ∧
      InitWrite s' = some (true, s'') ∧
      freeList s'' = [(30, 25), (100, 4294967195)] := by
  refine ⟨by decide, by decide, ?_⟩
  obtain ⟨p1, r, p2, s1, s', t, s'', _, _, _, h4, _, _, _, _, h9, _, h11, _, _, _, h15, _,
      h17, _⟩ :=
    C31_commit_accounting sampleStreamer exactFitFile [(30, 25), (100, 4294967195)] 1 rfl
      (by decide) exactFitFile_rep exactFitFile_wf ⟨(30, 25), by simp, by decide⟩
  exact ⟨s', s'', h4, h9, h11, h15, h17⟩

/-- Counterexample to C31 as stated.  The free list holds the ranges `(4294967280, 5)` and
`(4294967290, 5)`, and `FinishWrite` needs 25 bytes.  `GetFree` has no range for them and
takes the first one all the same: `fDes` is `(4294967280, 1, 16, 8)` and the first range
becomes `(9, 4294967276)`, its offset and length wrapped.  The next `InitWrite` releases
the span `(4294967280, 25)`, which `MakeFree` enters as a new range: the free list has
three ranges and is not the list from before the request. -/
theorem C31_counterexample :
    freeList lastBytesFile = [(4294967280, 5), (4294967290, 5)] ∧
    FreeWF (freeList lastBytesFile) ∧
    (∀ x ∈ freeList lastBytesFile, x.2 < 1 + lastBytesFile.fDes2 + 8) ∧
    (FinishWrite sampleStreamer lastBytesFile).map (fun r => (r.1, freeList r.2))
      = some (true, [(9, 4294967276), (4294967290, 5)]) ∧
    (FinishWrite sampleStreamer lastBytesFile).map
      (fun r => [r.2.fDes0, r.2.fDes1, r.2.fDes2, r.2.fDes3])
      = some [4294967280, 1, 16, 8] ∧
    ((FinishWrite sampleStreamer lastBytesFile).bind (fun r => InitWrite r.2)).map
      (fun r => (r.1, freeList r.2))
      = some (true, [(9, 4294967276), (4294967280, 25), (4294967290, 5)]) := by
  refine ⟨by decide, ?_, by decide, by decide, by decide, by decide⟩
  have h : freeList lastBytesFile = [(4294967280, 5), (4294967290, 5)] := by decide
  rw [h]
  exact FreeWF_pair (by decide) (by decide) (by decide) (by decide)

/-- The index that the loop of `MakeFree` finds when some range of the table starts at or
above `pos`: it is the index of a range of the table. -/
theorem makeFreeIndex_below (pos : Nat) (s : TFAsroFile) (fl : List (Nat × Nat))
    (hrep : TableRep s fl) (habove : ∃ r ∈ fl, pos ≤ r.1) :
    ∃ idx, makeFreeIndex s.fFree pos s.numFree 0 = some idx ∧ idx < fl.length := by
  have hnum := numFree_of_rep hrep
  obtain ⟨l1, pv, nx, l2, hfl, hl1, hnone, hsome, hnx⟩ := split_at_pos pos fl habove
  obtain ⟨_, _, _, rest, hfree⟩ := hrep
  have key : ∀ (l : List (Nat × Nat)), fl = l ++ nx :: l2 → (∀ x ∈ l, x.1 < pos) →
      ∃ idx, makeFreeIndex s.fFree pos s.numFree 0 = some idx ∧ idx < fl.length := by
    intro l hl hlt
    have h := makeFreeIndex_eq pos nx (l2.map some ++ rest) l s.fFree 0 s.numFree
      (by rw [hfree, hl]; simp) hlt hnx
      (by rw [hnum, hl]; simp only [List.length_append, List.length_cons]; omega)
    refine ⟨0 + l.length, h, ?_⟩
    rw [hl]
    simp only [List.length_append, List.length_cons]
    omega
  cases pv with
  | none =>
    exact key l1 (by rw [hfl]; simp [oldMid]) hl1
  | some p =>
    refine key (l1 ++ [p]) (by rw [hfl]; simp [oldMid]) ?_
    intro x hx
    rcases List.mem_append.1 hx with h | h
    · exact hl1 x h
    · rw [List.mem_singleton.1 h]
      exact hsome p rfl

/-- Dropping a prefix of known length and some more. -/
theorem drop_append_at {α : Type} (X Y : List α) (k j : Nat) (h : X.length = k) :
    (X ++ Y).drop (k + j) = Y.drop j := by
  subst h
  exact List.drop_append _

/-- The call `GetFree` does not touch the array from the end of the table on, when the
range it takes is a range of the table. -/
theorem getFree_tail {size pos : Nat} {s s' : TFAsroFile}
    (h : GetFree size s = some (pos, s')) (b best n : Nat)
    (hscan : getFreeScan s.fFree size s.numFree 0 (0, 4294967295) = some (b, best))
    (hd2 : s.fDes2 = 8 * n) (hb : b < n) :
    s'.fFree.length = s.fFree.length ∧ s'.fFree.drop n = s.fFree.drop n := by
  unfold GetFree at h
  rw [hscan] at h
  simp only [] at h
  split at h
  · exact absurd h (by simp)
  · rename_i p len hrd
    split_ifs at h with h4 h5
    · split at h
      · exact absurd h (by simp)
      · rename_i a hmm
        simp only [Option.some.injEq, Prod.mk.injEq] at h
        obtain ⟨_, rfl⟩ := h
        show a.length = s.fFree.length ∧ a.drop n = s.fFree.drop n
        unfold memmoveSlots at hmm
        split_ifs at hmm with hc
        simp only [Option.some.injEq] at hmm
        have hcnt : (s.fDes2 - (b + 1) * 8) / 8 = n - (b + 1) := by omega
        rw [hcnt] at hmm hc
        have hX : (s.fFree.take b ++ (s.fFree.drop (b + 1)).take (n - (b + 1))).length
            = n - 1 := by
          simp only [List.length_append, List.length_take, List.length_drop]
          omega
        have e : b + (n - (b + 1)) = n - 1 := by omega
        rw [e] at hmm
        rw [← hmm]
        refine ⟨?_, ?_⟩
        · rw [List.length_append, hX, List.length_drop]
          omega
        · have hd := drop_append_at _ (s.fFree.drop (n - 1)) (n - 1) 1 hX
          rw [show n - 1 + 1 = n by omega] at hd
          rw [hd, List.drop_drop]
          congr 1
          omega
    · simp only [Option.some.injEq, Prod.mk.injEq] at h
      obtain ⟨_, rfl⟩ := h
      show (s.fFree.set b _).length = s.fFree.length ∧ (s.fFree.set b _).drop n = s.fFree.drop n
      exact ⟨List.length_set _ _ _, List.drop_set_of_lt _ _ hb⟩

/-- The insertion of an entry into a table whose array has room: the array keeps its
size, and the slots behind the new end of the table are not touched. -/
theorem insertFree_tail {index pos size : Nat} {s s' : TFAsroFile}
    (h : insertFree index pos size s = some s') (n : Nat) (hd2 : s.fDes2 = 8 * n)
    (hidx : index ≤ n) (hroom : s.fDes2 ≠ s.fFreeReserve) :
    s'.fFree.length = s.fFree.length ∧ s'.fFree.drop (n + 1) = s.fFree.drop (n + 1) := by
  unfold insertFree at h
  rw [if_neg (by omega)] at h
  simp only [if_neg hroom] at h
  have hcnt : (s.fDes2 - index * 8) / 8 = n - index := by omega
  rw [hcnt] at h
  unfold memmoveSlots at h
  split_ifs at h with hc
  · simp only [Option.map_some'] at h
    split_ifs at h with hi
    simp only [Option.some.injEq] at h
    rw [← h]
    show (List.set _ _ _).length = _ ∧ (List.set _ _ _).drop (n + 1) = _
    have hX : (s.fFree.take (index + 1) ++ (s.fFree.drop index).take (n - index)).length
        = n + 1 := by
      simp only [List.length_append, List.length_take, List.length_drop]
      omega
    have e : index + 1 + (n - index) = n + 1 := by omega
    rw [e]
    refine ⟨?_, ?_⟩
    · rw [List.length_set, List.length_append, hX, List.length_drop]
      omega
    · rw [List.drop_set_of_lt _ _ (by omega)]
      have hd := drop_append_at _ (s.fFree.drop (n + 1)) (n + 1) 0 hX
      rw [Nat.add_zero] at hd
      rw [hd, List.drop_drop]
  · simp at h

/-- The call `MakeFree` that finds the index of a range of the table: either no entry is
inserted, and then the array is not touched from the end of the table on, or the call ends
with the insertion at that index. -/
theorem makeFree_tail {pos size : Nat} {s s' : TFAsroFile}
    (h : MakeFree pos size s = some s') (idx n : Nat)
    (hidx : makeFreeIndex s.fFree pos s.numFree 0 = some idx)
    (hd2 : s.fDes2 = 8 * n) (hlt : idx < n) :
    (s'.fFree.length = s.fFree.length ∧ s'.fFree.drop n = s.fFree.drop n ∧
      s'.fFreeReserve = s.fFreeReserve ∧ s'.fDes2 ≤ s.fDes2) ∨
    insertFree idx pos size s = some s' := by
  unfold MakeFree at h
  rw [hidx] at h
  cases idx with
  | zero =>
    simp only [] at h
    split at h
    · exact absurd h (by simp)
    · split_ifs at h with h1
      · simp only [Option.some.injEq] at h
        rw [← h]
        left
        exact ⟨List.length_set _ _ _, List.drop_set_of_lt _ _ hlt, rfl, le_refl _⟩
      · right
        exact h
  | succ i =>
    simp only [] at h
    split at h
    · split_ifs at h with h1 h2 h3 h4
      · simp only [Option.some.injEq] at h
        rw [← h]
        left
        exact ⟨List.length_set _ _ _, List.drop_set_of_lt _ _ (by omega), rfl, le_refl _⟩
      · simp only [Option.some.injEq] at h
        rw [← h]
        left
        exact ⟨List.length_set _ _ _, List.drop_set_of_lt _ _ hlt, rfl, le_refl _⟩
      · split at h
        · exact absurd h (by simp)
        · rename_i a hmm
          simp only [Option.some.injEq] at h
          rw [← h]
          left
          have hcnt : (s.fDes2 - (i + 2) * 8) / 8 = n - (i + 2) := by omega
          rw [hcnt] at hmm
          have key : ∀ a1 : List Slot, a1.length = s.fFree.length →
              a1.drop (n - 1) = s.fFree.drop (n - 1) →
              memmoveSlots a1 (i + 1) (i + 2) (n - (i + 2)) = some a →
              a.length = s.fFree.length ∧ a.drop n = s.fFree.drop n := by
            intro a1 hl1 hd1 hm
            unfold memmoveSlots at hm
            split_ifs at hm with hc
            simp only [Option.some.injEq] at hm
            have hX : (a1.take (i + 1) ++ (a1.drop (i + 2)).take (n - (i + 2))).length
                = n - 1 := by
              simp only [List.length_append, List.length_take, List.length_drop]
              omega
            have e : i + 1 + (n - (i + 2)) = n - 1 := by omega
            rw [e] at hm
            rw [← hm]
            refine ⟨?_, ?_⟩
            · rw [List.length_append, hX, List.length_drop]
              omega
            · have hd := drop_append_at _ (a1.drop (n - 1)) (n - 1) 1 hX
              rw [show n - 1 + 1 = n by omega] at hd
              rw [hd, hd1, List.drop_drop]
              congr 1
              omega
          have hk := key _ (List.length_set _ _ _) (List.drop_set_of_lt _ _ (by omega)) hmm
          exact ⟨hk.1, hk.2, rfl, by
            show (s.fDes2 + 4294967296 - 8) % 4294967296 ≤ s.fDes2
            omega⟩
      · right
        exact h
    · exact absurd h (by simp)

/-- The insertion of an entry leaves the size of the array in bytes as it is when the
array has room. -/
theorem insertFree_reserve {index pos size : Nat} {s s' : TFAsroFile}
    (h : insertFree index pos size s = some s') (hroom : s.fDes2 ≠ s.fFreeReserve) :
    s'.fFreeReserve = s.fFreeReserve := by
  unfold insertFree at h
  split_ifs at h with h1
  simp only [if_neg hroom] at h
  generalize memmoveSlots _ _ _ _ = mm at h
  cases mm with
  | none => simp at h
  | some a =>
    simp only [Option.map_some'] at h
    split_ifs at h with hi
    simp only [Option.some.injEq] at h
    rw [← h]

/-- C38 (amended).  Free-list index safety.  The state holds the free list `fl` in the
first slots of its array and arbitrary slots `rest` behind them, never written ones
included, for which a read has no result in the model; `fl` is sorted, without overlap,
touching or empty ranges, and its last range ends at `0xFFFFFFFF`.  Then `W2` is at most
the capacity in bytes, and
(i) `GetFree` with a request smaller than the last range returns, keeps the size of the
array and leaves the slots from the range count on as they were;
(ii) `MakeFree` of a non-empty span that is disjoint from all free ranges and lies below
the last range, with the table memory 400 bytes below the `UInt_t` limit, returns, and
either enters no new range and leaves the slots from the range count on as they were, or
enters a range into an array with room, writes the slot at the range count and leaves the
slots behind it as they were, or enters a range into a full array, which grows by 50
slots, the 49 slots behind the new table being unwritten.
Both calls leave a well-formed list whose last range ends at `0xFFFFFFFF`, held in the
first slots of the array, with `W2` at most the capacity. -/
theorem C38_index_safety (s : TFAsroFile) (fl : List (Nat × Nat)) (rest : List Slot)
    (hrep : TableRep s fl) (hfree : s.fFree = fl.map some ++ rest)
    (hwf : FreeWF fl) (htop : TopRange fl 0) :
    fl ≠ [] ∧ s.fDes2 ≤ s.fFreeReserve ∧
    (∀ size, (∀ t, fl.getLast? = some t → size < t.2) →
      ∃ p1 r p2 s' fl', fl = p1 ++ r :: p2 ∧ GetFree size s = some (r.1, s') ∧
        fl' = (if size = r.2 then p1 ++ p2 else p1 ++ (r.1 + size, r.2 - size) :: p2) ∧
        TableRep s' fl' ∧ FreeWF fl' ∧ TopRange fl' 0 ∧ s'.fDes2 ≤ s'.fFreeReserve ∧
        s'.fFreeReserve = s.fFreeReserve ∧
        s'.fFree.length = s.fFree.length ∧ s'.fFree.drop fl.length = rest) ∧
    (∀ pos size, 0 < size → (∀ a, pos ≤ a → a < pos + size → occ a fl = 0) →
      (∀ t, fl.getLast? = some t → pos + size ≤ t.1) →
      s.fFreeReserve + 400 < 4294967296 →
      ∃ s' fl', MakeFree pos size s = some s' ∧
        TableRep s' fl' ∧ FreeWF fl' ∧ TopRange fl' 0 ∧ s'.fDes2 ≤ s'.fFreeReserve ∧
        (∀ a, occ a fl' = occ a fl + occ a [(pos, size)]) ∧
        ((fl'.length ≤ fl.length ∧ s'.fFreeReserve = s.fFreeReserve ∧
            s'.fFree.length = s.fFree.length ∧ s'.fFree.drop fl.length = rest) ∨
          (fl'.length = fl.length + 1 ∧ rest ≠ [] ∧ s'.fFreeReserve = s.fFreeReserve ∧
            s'.fFree.length = s.fFree.length ∧
            s'.fFree.drop (fl.length + 1) = rest.drop 1) ∨
          (fl'.length = fl.length + 1 ∧ rest = [] ∧
            s'.fFreeReserve = s.fFreeReserve + 400 ∧
            s'.fFree.length = s.fFree.length + 50 ∧
            s'.fFree.drop (fl.length + 1) = List.replicate 49 none))) := by
  have hnum := numFree_of_rep hrep
  have hle : ∀ (u : TFAsroFile) (l : List (Nat × Nat)), TableRep u l →
      u.fDes2 ≤ u.fFreeReserve := by
    intro u l ⟨h1, h2, _, r, h4⟩
    have := congrArg List.length h4
    simp only [List.length_append, List.length_map] at this
    omega
  have hdrop : s.fFree.drop fl.length = rest := by
    rw [hfree]
    simp
  have hlen : s.fFree.length = fl.length + rest.length := by
    rw [hfree]
    simp
  obtain ⟨t, ht, htend, _⟩ := htop
  have hne : fl ≠ [] := by
    intro h0
    rw [h0] at ht
    exact absurd ht (by simp)
  have htmem : t ∈ fl := List.mem_of_getLast?_eq_some ht
  refine ⟨hne, hle s fl hrep, ?_, ?_⟩
  · intro size hsize
    have hlt := hsize t ht
    have hsat : ∃ x ∈ fl, size ≤ x.2 := ⟨t, htmem, by omega⟩
    obtain ⟨p1, r, p2, s', fl', hfl, _, hget, _, hres, hrep', hfl', _, hwf', _, hlast, _⟩ :=
      getFree_effect size s fl hrep hwf hsat
    obtain ⟨q1, q, q2, hq, hqi, _⟩ := bestFit_of_wf size fl hwf hsat
    have hscan := getFreeScan_eq size rest fl s.fFree 0 (0, 4294967295)
      (by rw [List.drop_zero]; exact hfree)
    rw [← hnum] at hscan
    have hb : (scanL size fl 0 (0, 4294967295)).1 < fl.length := by
      rw [hqi, hq]
      simp only [List.length_append, List.length_cons]
      omega
    have htail := getFree_tail hget _ _ fl.length hscan hrep.1 hb
    obtain ⟨t', ht', hte, _⟩ := hlast t ht (by omega)
    exact ⟨p1, r, p2, s', fl', hfl, hget, hfl', hrep', hwf',
      ⟨t', ht', by omega, Nat.zero_le _⟩, hle s' fl' hrep', hres, htail.1,
      htail.2.trans hdrop⟩
  · intro pos size hsize hdis hbelow hroom
    have habove : ∃ r ∈ fl, pos ≤ r.1 := ⟨t, htmem, by have := hbelow t ht; omega⟩
    obtain ⟨s', fl', hmk, _, hrep', hwf', hocc, hlast, _, _⟩ :=
      makeFree_effect pos size s fl hrep hwf hsize hdis habove hroom
    obtain ⟨idx, hidx, hilt⟩ := makeFreeIndex_below pos s fl hrep habove
    obtain ⟨t', ht', hte, _⟩ := hlast t ht
    refine ⟨s', fl', hmk, hrep', hwf', ⟨t', ht', by omega, Nat.zero_le _⟩, hle s' fl' hrep',
      hocc, ?_⟩
    have hd2' := hrep'.1
    have hd2 := hrep.1
    have hres := hrep.2.1
    rcases makeFree_tail hmk idx fl.length hidx hd2 hilt with ⟨h1, h2, h3, h4⟩ | hins
    · left
      exact ⟨by omega, h3, h1, h2.trans hdrop⟩
    · right
      by_cases hfull : s.fDes2 = s.fFreeReserve
      · right
        obtain ⟨_, g2, g3, g4⟩ := insertFree_full hrep hfull (Nat.le_of_lt hilt) hins
        have hr0 : rest = [] := by
          apply List.length_eq_zero.mp
          omega
        refine ⟨by omega, hr0, g2, ?_, ?_⟩
        · rw [g3, hlen, hr0]
          simp only [List.length_append, List.length_map, List.length_take, List.length_drop,
            List.length_cons, List.length_replicate, List.length_nil]
          omega
        · rw [g3]
          have hX : ((fl.take idx).map some ++ some (pos, size) :: (fl.drop idx).map some).length
              = fl.length + 1 := by
            simp only [List.length_append, List.length_map, List.length_take,
              List.length_drop, List.length_cons]
            omega
          have hd := drop_append_at _ (List.replicate 49 (none : Slot)) (fl.length + 1) 0 hX
          simpa using hd
      · left
        obtain ⟨g1, g2⟩ := insertFree_tail hins fl.length hd2 (Nat.le_of_lt hilt) hfull
        have g3 := (insertFree_des hins).1
        have g4 := insertFree_reserve hins hfull
        have hr0 : rest ≠ [] := by
          intro h0
          rw [h0] at hlen
          simp only [List.length_nil] at hlen
          omega
        have hlt := hrep.2.2.1
        have hrl : 0 < rest.length := List.length_pos.mpr hr0
        refine ⟨by omega, hr0, g4, g1, ?_⟩
        rw [g2, ← hdrop, List.drop_drop]

theorem topTable_rep : TableRep topTable [(24, 10), (100, 4294967195)] :=
  ⟨rfl, rfl, by decide, [none], rfl⟩

theorem topTable_wf : FreeWF [(24, 10), (100, 4294967195)] := by
  refine ⟨by decide, ?_⟩
  intro r hr
  simp only [List.mem_cons, List.mem_singleton, List.not_mem_nil, or_false] at hr
  rcases hr with rfl | rfl <;> exact ⟨by decide, by decide⟩

/-- Witness of C38: the table with the ranges `(24, 10)` and `(100, 4294967195)` in an
array of three slots, the third one never written.  `GetFree(10)` takes the first range,
`MakeFree(50, 10)` enters a range at slot 1 and moves the last range into slot 2. -/
theorem C38_index_safety_witness :
    TableRep topTable [(24, 10), (100, 4294967195)] ∧
    topTable.fFree = [((24 : Nat), (10 : Nat)), (100, 4294967195)].map some ++ [none] ∧
    FreeWF [(24, 10), (100, 4294967195)] ∧ TopRange [(24, 10), (100, 4294967195)] 0 ∧
    (GetFree 10 topTable).map (fun r => (r.1, r.2.fFree, r.2.fDes2))
      = some (24, [some (100, 4294967195), some (100, 4294967195), none], 8) ∧
    (MakeFree 50 10 topTable).map (fun r => (r.fFree, r.fDes2))
      = some ([some (24, 10), some (50, 10), some (100, 4294967195)], 24) ∧
    (∃ s' fl', MakeFree 50 10 topTable = some s' ∧
        TableRep s' fl' ∧ FreeWF fl' ∧ TopRange fl' 0 ∧ s'.fDes2 ≤ s'.fFreeReserve ∧
        (∀ a, occ a fl' = occ a [(24, 10), (100, 4294967195)] + occ a [(50, 10)]) ∧
        ((fl'.length ≤ 2 ∧ s'.fFreeReserve = topTable.fFreeReserve ∧
            s'.fFree.length = topTable.fFree.length ∧ s'.fFree.drop 2 = [none]) ∨
          (fl'.length = 2 + 1 ∧ [(none : Slot)] ≠ [] ∧
            s'.fFreeReserve = topTable.fFreeReserve ∧
            s'.fFree.length = topTable.fFree.length ∧
            s'.fFree.drop (2 + 1) = [(none : Slot)].drop 1) ∨
          (fl'.length = 2 + 1 ∧ [(none : Slot)] = [] ∧
            s'.fFreeReserve = topTable.fFreeReserve + 400 ∧
            s'.fFree.length = topTable.fFree.length + 50 ∧
            s'.fFree.drop (2 + 1) = List.replicate 49 none))) :=
  ⟨topTable_rep, rfl, topTable_wf, ⟨(100, 4294967195), rfl, by decide, by decide⟩,
    by decide, by decide,
    (C38_index_safety topTable [(24, 10), (100, 4294967195)] [none] topTable_rep rfl
      topTable_wf ⟨(100, 4294967195), rfl, by decide, by decide⟩).2.2.2 50 10 (by decide)
      (by
        intro a h1 h2
        simp only [occ_cons, occ_nil]
        split_ifs <;> omega)
      (by
        intro t ht
        have : t = (100, 4294967195) := by
          simpa using ht.symm
        rw [this]
        decide)
      (by decide)⟩

/-- Counterexample to C38 as stated.  First part: the free list `[(24, 10),
(100, 4294967195)]` is sorted, without overlap, touching or empty ranges, and its last
range ends at `0xFFFFFFFF`; the empty span `(50, 0)` meets no free range and lies below
the last range, and `MakeFree(50, 0)` enters it: the list `[(24, 10), (50, 0),
(100, 4294967195)]` has an empty range.  Second part: when empty ranges count as
well-formed, the list `[(30, 0), (40, 4294967255)]` is sorted, without overlap and without
touching ranges, the span `(30, 5)` is allocated and lies below the last range, and
`MakeFree(30, 5)` leaves `[(30, 5), (30, 0), (40, 4294967255)]`, in which the first range
does not end before the second starts. -/
theorem C38_counterexample :
    (TableRep topTable [(24, 10), (100, 4294967195)] ∧
      FreeWF [(24, 10), (100, 4294967195)] ∧ TopRange [(24, 10), (100, 4294967195)] 0 ∧
      topTable.fDes2 ≤ topTable.fFreeReserve ∧
      (∀ a, 50 ≤ a → a < 50 + 0 → occ a [((24 : Nat), (10 : Nat)), (100, 4294967195)] = 0) ∧
      50 + 0 ≤ 100 ∧
      (MakeFree 50 0 topTable).map freeList
        = some [(24, 10), (50, 0), (100, 4294967195)] ∧
      ¬ FreeWF [(24, 10), (50, 0), (100, 4294967195)]) ∧
    (TableRep emptyTopTable [(30, 0), (40, 4294967255)] ∧
      [((30 : Nat), (0 : Nat)), (40, 4294967255)].Pairwise (fun a b => a.1 + a.2 < b.1) ∧
      TopRange [(30, 0), (40, 4294967255)] 0 ∧
      emptyTopTable.fDes2 ≤ emptyTopTable.fFreeReserve ∧
      (∀ a, 30 ≤ a → a < 30 + 5 → occ a [((30 : Nat), (0 : Nat)), (40, 4294967255)] = 0) ∧
      30 + 5 ≤ 40 ∧
      (MakeFree 30 5 emptyTopTable).map freeList
        = some [(30, 5), (30, 0), (40, 4294967255)] ∧
      ¬ [((30 : Nat), (5 : Nat)), (30, 0), (40, 4294967255)].Pairwise
        (fun a b => a.1 + a.2 < b.1)) := by
  refine ⟨⟨topTable_rep, topTable_wf, ⟨(100, 4294967195), rfl, by decide, by decide⟩,
    by decide, ?_, by decide, by decide, ?_⟩,
    ⟨rfl, rfl, by decide, [none], rfl⟩, by decide,
    ⟨(40, 4294967255), rfl, by decide, by decide⟩, by decide, ?_, by decide, by decide,
    by decide⟩
  · intro a h1 h2
    omega
  · intro h
    have := (h.2 (50, 0) (by simp)).1
    exact absurd this (by decide)
  · intro a h1 h2
    simp only [occ_cons, occ_nil]
    split_ifs <;> omega

/-- Claim C4.  For every free list (sorted by offset, without overlap, touching or empty
ranges, every range ending at or before `0xFFFFFFFF`) and every request `size` that some
range can hold, `GetFree(size)` takes the space from a range `r` of the table such that `r`
is large enough, every large enough range before `r` in table order is strictly longer and
every large enough range behind `r` is at least as long (so `r` has the minimum length
among the ranges of length `>= size` and is the first of that length); it returns the
offset of `r`, and `r` is removed or shortened from its low end. -/
theorem C4_best_fit (size : Nat) (s : TFAsroFile) (fl : List (Nat × Nat))
    (hrep : TableRep s fl) (hwf : FreeWF fl) (hsat : ∃ x ∈ fl, size ≤ x.2) :
    ∃ p1 r p2 s', fl = p1 ++ r :: p2 ∧ BestFit size p1 r p2 ∧
      (∀ x ∈ fl, size ≤ x.2 → r.2 ≤ x.2) ∧
      GetFree size s = some (r.1, s') ∧
      freeList s' = (if size = r.2 then p1 ++ p2
        else p1 ++ (r.1 + size, r.2 - size) :: p2) := by
  obtain ⟨p1, r, p2, s', fl', hfl, hbf, hget, _, _, hrep', hfl', _⟩ :=
    getFree_effect size s fl hrep hwf hsat
  refine ⟨p1, r, p2, s', hfl, hbf, ?_, hget, ?_⟩
  · intro x hx hs
    rw [hfl] at hx
    simp only [List.mem_append, List.mem_cons] at hx
    rcases hx with h | h | h
    · exact Nat.le_of_lt (hbf.2.1 x h hs)
    · rw [h]
    · exact hbf.2.2 x h hs
  · rw [freeList_of_rep hrep', hfl']

/-- Witness of C4: free ranges of lengths 10, 50, 7 and a request for 8, which is served
from the range of length 10; and the table whose single range has the length
`0xFFFFFFFF`, from which a request for 2 bytes is served. -/
theorem C4_best_fit_witness :
    TableRep exampleTable [(100, 10), (200, 50), (300, 7)] ∧
    FreeWF [(100, 10), (200, 50), (300, 7)] ∧
    (∃ x ∈ [((100 : Nat), (10 : Nat)), (200, 50), (300, 7)], 8 ≤ x.2) ∧
    (∃ p1 r p2 s', [((100 : Nat), (10 : Nat)), (200, 50), (300, 7)] = p1 ++ r :: p2 ∧
      BestFit 8 p1 r p2 ∧
      (∀ x ∈ [((100 : Nat), (10 : Nat)), (200, 50), (300, 7)], 8 ≤ x.2 → r.2 ≤ x.2) ∧
      GetFree 8 exampleTable = some (r.1, s') ∧
      freeList s' = (if 8 = r.2 then p1 ++ p2 else p1 ++ (r.1 + 8, r.2 - 8) :: p2)) ∧
    (GetFree 8 exampleTable).map Prod.fst = some 100 ∧
    (GetFree 8 exampleTable).map (fun r => freeList r.2)
      = some [(108, 2), (200, 50), (300, 7)] ∧
    TableRep wholeSpaceTable [(0, 4294967295)] ∧ FreeWF [(0, 4294967295)] ∧
    (GetFree 2 wholeSpaceTable).map Prod.fst = some 0 ∧
    (GetFree 2 wholeSpaceTable).map (fun r => freeList r.2) = some [(2, 4294967293)] :=
  ⟨exampleTable_rep, exampleTable_wf, ⟨(100, 10), by decide, by decide⟩,
    C4_best_fit 8 exampleTable [(100, 10), (200, 50), (300, 7)] exampleTable_rep
      exampleTable_wf ⟨(100, 10), by decide, by decide⟩, rfl, by decide,
    ⟨rfl, rfl, by decide, [], rfl⟩, FreeWF_single (by decide) (by decide),
    by decide, by decide⟩

/-- On a well-formed table with at least one range `GetFree` returns for every size; when
no range is long enough it returns the offset of the first range and wraps its length. -/
theorem getFree_total (size : Nat) (s : TFAsroFile) (r : Nat × Nat)
    (rest : List (Nat × Nat)) (hrep : TableRep s (r :: rest)) (hwf : FreeWF (r :: rest)) :
    ∃ pos s' fl', GetFree size s = some (pos, s') ∧ SameButTable s s' ∧ TableRep s' fl' ∧
      ((∀ x ∈ r :: rest, x.2 < size) → pos = r.1 ∧
        fl' = ((r.1 + size) % 4294967296, (r.2 + 4294967296 - size) % 4294967296) :: rest) := by
  by_cases hsat : ∃ x ∈ r :: rest, size ≤ x.2
  · obtain ⟨p1, q, p2, s', fl', _, _, hget, hsame, _, hrep', _⟩ :=
      getFree_effect size s (r :: rest) hrep hwf hsat
    refine ⟨q.1, s', fl', hget, hsame, hrep', ?_⟩
    intro hno
    obtain ⟨x, hx, hs⟩ := hsat
    have := hno x hx
    omega
  · have hno : ∀ x ∈ r :: rest, x.2 < size := by
      intro x hx
      by_contra hc
      exact hsat ⟨x, hx, by omega⟩
    have hb : (scanL size ([] ++ r :: rest) 0 (0, 4294967295)).1
        = ([] : List (Nat × Nat)).length := by
      rw [List.nil_append, scanL_none size _ hno]
      rfl
    obtain ⟨s', h1, h2, _, _, h5⟩ := getFree_step size s [] r rest hrep hb
    have hr := hno r (List.mem_cons_self _ _)
    exact ⟨r.1, s', _, h1, h2, (h5 (by omega)).1, fun _ => ⟨rfl, rfl⟩⟩

/-- The call `Write` for a key without a record in the file returns when the codec keeps
to its target size and `GetFree` returns. -/
theorem write_returns (c : Codec) (obj : TObject) (lvl : Int) (name sub : String)
    (cycle : Int) (s : TFAsroFile) (hf : 0 ≤ s.fFile)
    (hold : (oldRecord s.fEntries ⟨findName s.fNames name, sub, cycle⟩).fPos = 0)
    (hzip : ∀ src n, (c.zip lvl src n).length ≤ n)
    (hget : ∀ n, ∃ pos s2, GetFree n { s with fDes3 := 8 } = some (pos, s2)) :
    ∃ b s', Write c obj lvl name sub cycle s = some (b, s') := by
  cases hW : Write c obj lvl name sub cycle s with
  | some r => exact ⟨r.1, r.2, rfl⟩
  | none =>
    exfalso
    unfold Write at hW
    rw [if_neg (not_lt.mpr hf)] at hW
    simp only [] at hW
    have hm : (match mapFind s.fEntries ⟨findName s.fNames name, sub, cycle⟩ with
        | none => TFAsroValue.default
        | some (_, v) => v) = oldRecord s.fEntries ⟨findName s.fNames name, sub, cycle⟩ := by
      unfold oldRecord
      cases mapFind s.fEntries ⟨findName s.fNames name, sub, cycle⟩ with
      | none => rfl
      | some e => rfl
    generalize oldRecord s.fEntries ⟨findName s.fNames name, sub, cycle⟩ = old at hm hold
    have h' : (match (if old.fPos > 0 then MakeFree old.fPos old.fFileLength s
          else some s) with
        | none => none
        | some s1 =>
          match (if lvl ≤ 0 ∨ obj.data.length < 256 then some obj.data
            else match Compress c lvl obj.data with
              | none => none
              | some (true, out) => some out
              | some (false, _) => some obj.data) with
          | none => none
          | some dataBuffer =>
            match GetFree dataBuffer.length { s1 with fDes3 := 8 } with
            | none => none
            | some (pos, s2) =>
              some (true, { s2 with
                fEntries := mapSet s.fEntries ⟨findName s.fNames name, sub, cycle⟩
                  ⟨pos, dataBuffer.length, obj.data.length,
                    findName s.fClassNames obj.className⟩,
                fNames := (if findName s.fNames name = s.fNames.length then s.fNames ++ [name]
                  else s.fNames),
                fClassNames := (if findName s.fClassNames obj.className = s.fClassNames.length
                  then s.fClassNames ++ [obj.className] else s.fClassNames),
                disk := pwrite s2.disk pos dataBuffer })) = none := by
      rw [← hm]
      exact hW
    clear hW hm
    rw [if_neg (by omega)] at h'
    simp only [] at h'
    by_cases hc : lvl ≤ 0 ∨ obj.data.length < 256
    · rw [if_pos hc] at h'
      simp only [] at h'
      obtain ⟨pos, s2, hg⟩ := hget obj.data.length
      rw [hg] at h'
      exact absurd h' (by simp)
    · rw [if_neg hc] at h'
      obtain ⟨b, o, h3, _⟩ := compress_some c lvl hzip obj.data
      rw [h3] at h'
      cases b with
      | false =>
        simp only [] at h'
        obtain ⟨pos, s2, hg⟩ := hget obj.data.length
        rw [hg] at h'
        exact absurd h' (by simp)
      | true =>
        simp only [] at h'
        obtain ⟨pos, s2, hg⟩ := hget o.length
        rw [hg] at h'
        exact absurd h' (by simp)

/-- Three calls of `Write` without compression in the first transaction of a new file: two
objects of `0x60000000` bytes under `"a"` and `"b"`, after which the free range is
`(3221225496, 1073741799)`, and an object of `n3` bytes under `"c"`. -/
theorem three_writes (o1 o3 : TObject) (n3 : Nat) (h1 : o1.data.length = 1610612736)
    (hc1 : o1.className = "TNamed") (h3 : o3.data.length = n3)
    (hc3 : o3.className = "TNamed") (hne : n3 ≠ 1073741799) :
    ∃ s2 s3 s4, Write sampleCodec o1 0 "a" "" 1 sampleFile1 = some (true, s2) ∧
      Write sampleCodec o1 0 "b" "" 1 s2 = some (true, s3) ∧
      Write sampleCodec o3 0 "c" "" 1 s3 = some (true, s4) ∧
      s3.fFree = [some (3221225496, 1073741799)] ∧ s3.fDes2 = 8 ∧
      s3.fNames = ["a", "b"] ∧
      s3.fEntries = [(⟨0, "", 1⟩, ⟨24, 1610612736, 1610612736, 0⟩),
        (⟨1, "", 1⟩, ⟨1610612760, 1610612736, 1610612736, 0⟩)] ∧
      s4.fFile = 3 ∧
      s4.fFree = [some ((3221225496 + n3) % 4294967296,
        (1073741799 + 4294967296 - n3) % 4294967296)] ∧
      s4.fDes2 = 8 ∧
      s4.fEntries = [(⟨0, "", 1⟩, ⟨24, 1610612736, 1610612736, 0⟩),
        (⟨1, "", 1⟩, ⟨1610612760, 1610612736, 1610612736, 0⟩),
        (⟨2, "", 1⟩, ⟨3221225496, n3, n3, 0⟩)] ∧
      s4.fNames = ["a", "b", "c"] ∧ s4.fClassNames = ["TNamed"] ∧
      s4.disk = pwrite (pwrite (pwrite sampleFile1.disk 24 o1.data) 1610612760 o1.data)
        3221225496 o3.data := by
  obtain ⟨s2, w1, f1, fr1, d1, en1, nm1, cn1, dk1⟩ :=
    write_single sampleCodec o1 "a" "" 1 1610612736 24 4294967271 sampleFile1 (by decide)
      rfl rfl rfl h1 (by decide)
  rw [hc1] at en1 cn1
  have en1' : s2.fEntries = [(⟨0, "", 1⟩, ⟨24, 1610612736, 1610612736, 0⟩)] := en1
  have nm1' : s2.fNames = ["a"] := nm1
  have cn1' : s2.fClassNames = ["TNamed"] := cn1
  have fr1' : s2.fFree = [some (1610612760, 2684354535)] := fr1
  obtain ⟨s3, w2, f2, fr2, d2, en2, nm2, cn2, dk2⟩ :=
    write_single sampleCodec o1 "b" "" 1 1610612736 1610612760 2684354535 s2
      (by rw [f1]; decide) fr1' d1 (by rw [en1', nm1']; rfl) h1 (by decide)
  rw [hc1, en1', nm1', cn1'] at en2
  rw [nm1'] at nm2
  rw [hc1, cn1'] at cn2
  have en2' : s3.fEntries = [(⟨0, "", 1⟩, ⟨24, 1610612736, 1610612736, 0⟩),
      (⟨1, "", 1⟩, ⟨1610612760, 1610612736, 1610612736, 0⟩)] := en2
  have nm2' : s3.fNames = ["a", "b"] := nm2
  have cn2' : s3.fClassNames = ["TNamed"] := cn2
  have fr2' : s3.fFree = [some (3221225496, 1073741799)] := fr2
  obtain ⟨s4, w3, f3, fr3, d3, en3, nm3, cn3, dk3⟩ :=
    write_single sampleCodec o3 "c" "" 1 n3 3221225496 1073741799 s3
      (by rw [f2, f1]; decide) fr2' d2 (by rw [en2', nm2']; rfl) h3 hne
  rw [hc3, en2', nm2', cn2'] at en3
  rw [nm2'] at nm3
  rw [hc3, cn2'] at cn3
  refine ⟨s2, s3, s4, w1, w2, w3, fr2', d2, nm2', en2', by rw [f3, f2, f1]; rfl, fr3, d3,
    en3, nm3, cn3, ?_⟩
  rw [dk3, dk2, dk1]

/-- Claim C28 (amended).  `GetFree` has no failure result, and `Write` and `FinishWrite`
have no test for an allocation that does not fit.  On a well-formed free table: when some
range is at least `size` bytes long, `GetFree(size)` returns the offset of such a range
`r`, so that the span `[offset, offset + size)` lies inside `r`, and `r` is removed (exact
fit) or replaced by `(offset + size, length - size)` without wrap-around.  When no range is
long enough, `GetFree(size)` returns the offset of the first range `r` all the same,
although `[offset, offset + size)` is longer than `r`, and replaces `r` by the range with
the offset `(offset + size) mod 2^32` and the wrapped length `length + 2^32 - size`.
`Write` for a key without a record in the file returns, enters the offset that `GetFree`
gave for the stored bytes into the record of the key and writes the bytes there;
`FinishWrite` returns, stores the offset that `GetFree` gave for the descriptor in
`fDes[0]` and writes the descriptor, the free table and the header words; when no range
is long enough that offset is the offset of the first range, and the free list is left
with the wrapped range. -/
theorem C28_no_exhaustion_check (st : DirStreamer) (c : Codec) (size : Nat) (s : TFAsroFile)
    (fl : List (Nat × Nat)) (hrep : TableRep s fl) (hwf : FreeWF fl)
    (hsz : size < 4294967296) :
    ((∃ x ∈ fl, size ≤ x.2) →
      ∃ p1 r p2 s', fl = p1 ++ r :: p2 ∧ GetFree size s = some (r.1, s') ∧ size ≤ r.2 ∧
        r.1 + r.2 ≤ 4294967295 ∧
        freeList s' = (if size = r.2 then p1 ++ p2 else p1 ++ (r.1 + size, r.2 - size) :: p2)) ∧
    ((∀ x ∈ fl, x.2 < size) → ∀ r rest, fl = r :: rest →
      ∃ s', GetFree size s = some (r.1, s') ∧ r.1 + r.2 < r.1 + size ∧
        freeList s' = ((r.1 + size) % 4294967296, r.2 + 4294967296 - size) :: rest ∧
        r.2 < r.2 + 4294967296 - size ∧ r.2 + 4294967296 - size < 4294967296) ∧
    (∀ (obj : TObject) (compLevel : Int) (name subName : String) (cycle : Int)
      (r : Nat × Nat) (rest : List (Nat × Nat)), 0 ≤ s.fFile → fl = r :: rest →
      (oldRecord s.fEntries ⟨findName s.fNames name, subName, cycle⟩).fPos = 0 →
      (∀ src n, (c.zip compLevel src n).length ≤ n) →
      ∃ b s' pos buf, Write c obj compLevel name subName cycle s = some (b, s') ∧
        (buf = obj.data ∨ Compress c compLevel obj.data = some (true, buf)) ∧
        s'.fEntries = mapSet s.fEntries ⟨findName s.fNames name, subName, cycle⟩
          ⟨pos, buf.length, obj.data.length, findName s.fClassNames obj.className⟩ ∧
        s'.disk = pwrite s.disk pos buf ∧
        ((∀ x ∈ fl, x.2 < buf.length) → pos = r.1 ∧
          freeList s' = ((r.1 + buf.length) % 4294967296,
            (r.2 + 4294967296 - buf.length) % 4294967296) :: rest)) ∧
    (∀ (r : Nat × Nat) (rest : List (Nat × Nat)), 0 ≤ s.fFile → fl = r :: rest →
      ∃ b s', FinishWrite st s = some (b, s') ∧
        s'.fDes1 = (st.write s.fEntries s.fClassNames s.fNames).length ∧
        s'.disk = pwrite (pwrite (pwrite s.disk s'.fDes0
            (st.write s.fEntries s.fClassNames s.fNames))
            (s'.fDes0 + (st.write s.fEntries s.fClassNames s.fNames).length)
            (encodeWords (rangeWords (freeList s')))) 8
          (encodeWords [s'.fDes0, s'.fDes1, s'.fDes2, s'.fDes3]) ∧
        ((∀ x ∈ fl, x.2 < ((st.write s.fEntries s.fClassNames s.fNames).length + s.fDes2 + 8)
            % 4294967296) →
          s'.fDes0 = r.1 ∧
          freeList s' = ((r.1 + ((st.write s.fEntries s.fClassNames s.fNames).length
              + s.fDes2 + 8) % 4294967296) % 4294967296,
            (r.2 + 4294967296 - ((st.write s.fEntries s.fClassNames s.fNames).length
              + s.fDes2 + 8) % 4294967296) % 4294967296) :: rest)) := by
  refine ⟨?_, ?_, ?_, ?_⟩
  · intro hsat
    obtain ⟨p1, r, p2, s', fl', hfl, hbf, h3, _, _, h6, h7, _⟩ :=
      getFree_effect size s fl hrep hwf hsat
    refine ⟨p1, r, p2, s', hfl, h3, hbf.1, (hwf.2 r (by rw [hfl]; simp)).2, ?_⟩
    rw [freeList_of_rep h6, h7]
  · intro hno r rest hfl
    subst hfl
    obtain ⟨s', h1, _, h3⟩ := getFree_exhausted size s r rest hrep hno
    have hr := hno r (List.mem_cons_self _ _)
    have hb := (hwf.2 r (List.mem_cons_self _ _)).2
    refine ⟨s', h1, by omega, ?_, by omega, by omega⟩
    rw [h3, Nat.mod_eq_of_lt (by omega : r.2 + 4294967296 - size < 4294967296)]
  · intro obj lvl name sub cycle r rest hf hfl hold hzip
    subst hfl
    have hrep1 : TableRep { s with fDes3 := 8 } (r :: rest) := tableRep_congr hrep rfl rfl rfl
    obtain ⟨b, s', hW⟩ := write_returns c obj lvl name sub cycle s hf hold hzip (fun n => by
      obtain ⟨pos, s2, _, hg, _⟩ := getFree_total n _ r rest hrep1 hwf
      exact ⟨pos, s2, hg⟩)
    obtain ⟨_, s1, buf, pos, s2, hA, hB, hG, hE, _, _, hD, hF, hD2, _⟩ := write_shape hf hW
    have hs1 : s1 = s := by
      rcases hA with ⟨h1, _⟩ | ⟨_, h2⟩
      · omega
      · exact h2
    subst hs1
    refine ⟨b, s', pos, buf, hW, ?_, hE, hD, ?_⟩
    · rcases hB with ⟨_, h⟩ | ⟨_, h | ⟨_, h⟩⟩
      · exact Or.inl h
      · exact Or.inr h
      · exact Or.inl h
    · intro hno
      obtain ⟨pos', s2', fl', hg, _, hrep', hex⟩ := getFree_total buf.length _ r rest hrep1 hwf
      rw [hG] at hg
      simp only [Option.some.injEq, Prod.mk.injEq] at hg
      obtain ⟨hp, hs2⟩ := hg
      subst hp
      subst hs2
      obtain ⟨e1, e2⟩ := hex hno
      refine ⟨e1, ?_⟩
      rw [freeList_congr hF hD2, freeList_of_rep hrep', e2]
  · intro r rest hf hfl
    subst hfl
    have hrep1 : TableRep { s with fDes1 := (st.write s.fEntries s.fClassNames s.fNames).length, fDes3 := 8 } (r :: rest) :=
      tableRep_congr hrep rfl rfl rfl
    obtain ⟨pos, s2, fl2, hg, hsame, hrep2, hex⟩ :=
      getFree_total (((st.write s.fEntries s.fClassNames s.fNames).length + s.fDes2 + 8)
        % 4294967296) _ r rest hrep1 hwf
    have hw := tableWords_of_rep hrep2
    have hc := commit_eq st 8 _ s s2 pos (rangeWords fl2) rfl hg hw
    have hu : ∃ u, commit st 8 s = some (true, u) ∧ u.fDes0 = pos ∧ u.fDes1 = s2.fDes1 ∧
        u.fDes2 = s2.fDes2 ∧ u.fDes3 = s2.fDes3 ∧ u.fFree = s2.fFree ∧
        u.disk = pwrite (pwrite (pwrite s2.disk pos
            (st.write s.fEntries s.fClassNames s.fNames))
            (pos + (st.write s.fEntries s.fClassNames s.fNames).length)
            (encodeWords (rangeWords fl2))) 8
          (encodeWords [pos, s2.fDes1, s2.fDes2, s2.fDes3]) :=
      ⟨_, hc, rfl, rfl, rfl, rfl, rfl, rfl⟩
    obtain ⟨u, hcu, u0, u1, u2, u3, uf, ud⟩ := hu
    have hflu : freeList u = fl2 := (freeList_congr uf u2).trans (freeList_of_rep hrep2)
    refine ⟨true, u, ?_, ?_, ?_, ?_⟩
    · unfold FinishWrite
      rw [if_neg (not_lt.mpr hf)]
      exact hcu
    · rw [u1]
      exact hsame.2.2.2.2.1
    · rw [hflu, ud, u0, u1, u2, u3, hsame.2.2.2.2.2.2]
    · intro hno
      obtain ⟨e1, e2⟩ := hex hno
      rw [hflu, u0]
      exact ⟨e1, e2⟩

/-- Counterexample to C28 as stated.  First part: the only free range is
`(2147483670, 2147483625)`; `GetFree(2147483646)` does not fail: it returns the offset
2147483670, whose span of 2147483646 bytes ends behind the range and behind `0xFFFFFFFF`,
and the range becomes `(20, 4294967275)`, a length that wrapped around.  Second part: in
the first transaction of a new file two objects of `0x60000000` bytes are written, which
leaves the free range `(3221225496, 1073741799)`; the `Write` of an object of 1073741820
bytes, which no range can hold, returns true, its record has the offset 3221225496, and
the free range is `(20, 4294967275)` afterwards.  Third part: when the third object has
1073741789 bytes the free range `(4294967285, 10)` is left; `FinishWrite` needs 17 bytes,
returns true all the same, stores the offset 4294967285 in `fDes[0]` and leaves the free
range `(6, 4294967289)`. -/
theorem C28_counterexample :
    (freeList nearlyFull = [(2147483670, 2147483625)] ∧
      (GetFree 2147483646 nearlyFull).map Prod.fst = some 2147483670 ∧
      (GetFree 2147483646 nearlyFull).map (fun r => freeList r.2)
        = some [(20, 4294967275)] ∧
      (2147483625 : Nat) < 2147483646 ∧ (4294967295 : Nat) < 2147483670 + 2147483646) ∧
    (∃ s2 s3 s4, Write sampleCodec gigObject 0 "a" "" 1 sampleFile1 = some (true, s2) ∧
      Write sampleCodec gigObject 0 "b" "" 1 s2 = some (true, s3) ∧
      freeList s3 = [(3221225496, 1073741799)] ∧
      restObject.data.length = 1073741820 ∧ (1073741799 : Nat) < 1073741820 ∧
      Write sampleCodec restObject 0 "c" "" 1 s3 = some (true, s4) ∧
      oldRecord s4.fEntries ⟨findName s4.fNames "c", "", 1⟩
        = ⟨3221225496, 1073741820, 1073741820, 0⟩ ∧
      (4294967295 : Nat) < 3221225496 + 1073741820 ∧
      freeList s4 = [(20, 4294967275)]) ∧
    (∃ s2 s3 s4 s5, Write sampleCodec gigObject 0 "a" "" 1 sampleFile1 = some (true, s2) ∧
      Write sampleCodec gigObject 0 "b" "" 1 s2 = some (true, s3) ∧
      Write sampleCodec fitObject 0 "c" "" 1 s3 = some (true, s4) ∧
      freeList s4 = [(4294967285, 10)] ∧
      (sampleStreamer.write s4.fEntries s4.fClassNames s4.fNames).length + s4.fDes2 + 8
        = 17 ∧ (10 : Nat) < 17 ∧
      FinishWrite sampleStreamer s4 = some (true, s5) ∧ desSpan s5 = (4294967285, 17) ∧
      freeList s5 = [(6, 4294967289)]) := by
  refine ⟨⟨by decide, by decide, by decide, by decide, by decide⟩, ?_, ?_⟩
  · obtain ⟨s2, s3, s4, w1, w2, w3, fr3, d3, nm3, _, _, fr4, d4, en4, nm4, _⟩ :=
      three_writes gigObject restObject 1073741820 (List.length_replicate _ _) rfl
        (List.length_replicate _ _) rfl (by decide)
    refine ⟨s2, s3, s4, w1, w2, ?_, List.length_replicate _ _, by decide, w3, ?_, by decide,
      ?_⟩
    · unfold freeList TFAsroFile.numFree
      rw [fr3, d3]; rfl
    · rw [nm4, en4]; rfl
    · unfold freeList TFAsroFile.numFree
      rw [fr4, d4]; rfl
  · obtain ⟨s2, s3, s4, w1, w2, w3, _, _, _, _, f4, fr4, d4, en4, nm4, cn4, _⟩ :=
      three_writes gigObject fitObject 1073741789 (List.length_replicate _ _) rfl
        (List.length_replicate _ _) rfl (by decide)
    have fr4' : s4.fFree = [some (4294967285, 10)] := fr4
    obtain ⟨s5, w5, _, _, _, p5, l5, d5, t5, fr5, _⟩ :=
      finish_single sampleStreamer 4294967285 10 s4 (by rw [f4]; decide) fr4' d4
        (by show (1 + 8 + 8) % 4294967296 ≠ 10; decide)
    have hw : sampleStreamer.write s4.fEntries s4.fClassNames s4.fNames = [7] := rfl
    rw [hw] at l5 fr5
    have l5' : s5.fDes1 = 1 := l5
    have fr5' : s5.fFree = [some (6, 4294967289)] := fr5
    refine ⟨s2, s3, s4, s5, w1, w2, w3, ?_, ?_, by decide, w5, ?_, ?_⟩
    · unfold freeList TFAsroFile.numFree
      rw [fr4', d4]; rfl
    · rw [hw, d4]; rfl
    · unfold desSpan
      rw [p5, l5', d5, t5]
    · unfold freeList TFAsroFile.numFree
      rw [fr5', d5]; rfl

/-- Claim C1 (amended).  In a committed state of a valid file, let the object `B` be
non-empty and let the file have room: the last free range, which ends at `0xFFFFFFFF`, is
longer than `B` plus the descriptor, where `maxDes` bounds the descriptor of the directory
that `FinishWrite` commits (the directory after the `Write`), and the free table stays
below `0xFFFFFFFF` bytes.  Let the codec never write more than its target size and,
whenever `Compress` succeeds on `B`, let its output be shorter than `B` and let
`Uncompress` expand it to `B`; let the descriptor of the committed directory be non-empty.
Then `InitWrite`, `Write(K, B, level)` and `FinishWrite` return, and if the streamer reads
back the committed directory from its descriptor, `Read(K)` on the reopened file yields
exactly `B`, for every level.  Every `write` call transfers all its bytes in the model;
the return values of the three calls are not part of the statement. -/
theorem C1_round_trip (st : DirStreamer) (c : Codec) (obj : TObject) (compLevel : Int)
    (name subName : String) (cycle : Int) (maxDes : Nat) (s : TFAsroFile)
    (hinv : CommittedInv s) (hmagic : s.disk.take 8 = magic) (hdata : obj.data ≠ [])
    (hzip : ∀ src n, (c.zip compLevel src n).length ≤ n)
    (hcodec : ∀ out, Compress c compLevel obj.data = some (true, out) →
      out.length < obj.data.length ∧ ∃ b, Uncompress c out obj.data.length = some (b, obj.data))
    (hdes : ∀ b1 b2 s1 s2, InitWrite s = some (b1, s1) →
      Write c obj compLevel name subName cycle s1 = some (b2, s2) →
      0 < (st.write s2.fEntries s2.fClassNames s2.fNames).length ∧
        (st.write s2.fEntries s2.fClassNames s2.fNames).length ≤ maxDes)
    (hroom : s.fFreeReserve + 800 < 4294967296)
    (htop : TopRange (freeList s) (obj.data.length + 1 + (maxDes + s.fDes2 + 24))) :
    ∃ b1 b2 b3 s1 s2 s3, InitWrite s = some (b1, s1) ∧
      Write c obj compLevel name subName cycle s1 = some (b2, s2) ∧
      FinishWrite st s2 = some (b3, s3) ∧
      (st.read (st.write s3.fEntries s3.fClassNames s3.fNames)
          = (s3.fEntries, s3.fClassNames, s3.fNames) →
        Read c name subName cycle (openFile st s3.disk) = some (some obj)) := by
  -- InitWrite
  obtain ⟨s1, hI, hW1, htop1, e1, n1, c1, f1, r1, d1, s1m, hm1, hs1⟩ :=
    initWrite_ok s hinv (by omega)
  have top1 := htop1 _ htop
  have hdk1 : s1.disk = pwrite s.disk 8 (encodeU32 0) := by
    obtain ⟨s1', h1, h2, _⟩ :=
      release_ok (fun a => occ a (recordSpans s.fEntries)) s.fDes0
        (s.fDes1 + s.fDes2 + s.fDes3) 0 s hinv.1.2.1 hinv.1.2.2.1 hinv.2.2.1 hinv.2.1
        (by omega)
    rw [hm1] at h1
    simp only [Option.some.injEq] at h1
    subst h1
    rw [hs1]
    show pwrite s1m.disk 8 (encodeU32 0) = _
    rw [h2.2.2.2.2.2.2]
  -- Write
  obtain ⟨pos, buf, s2, hWr, hW2, top2, hbufc, hbl0, hbl1, hpos, hpos2, en2, nm2, cn2, f2, r2,
    d2, dk2⟩ := write_ok c obj compLevel name subName cycle (maxDes + s.fDes2 + 24) s1 hW1
      hdata hzip (by omega) top1
  -- FinishWrite
  have hb := hdes true true s1 s2 hI hWr
  obtain ⟨s3, hC, hI3, _, e3, n3, c3, f3, r3, l3, sum3⟩ :=
    commit_ok st 8 0 s2 hW2 ⟨by decide, by decide⟩ (TopRange_mono top2 (by omega))
  have hF : FinishWrite st s2 = some (true, s3) := by
    unfold FinishWrite
    rw [if_neg (not_lt.mpr hW2.1.1)]
    exact hC
  obtain ⟨ws, hws, dk3⟩ := commit_disk hC
  refine ⟨true, true, true, s1, s2, s3, hI, hWr, hF, fun hst => ?_⟩
  -- the committed descriptor
  have hcov3 := hI3.2.1
  have hsum0 := hI3.2.2.1
  have hsumlt := hI3.2.2.2
  have hD : 24 ≤ s3.fDes0 := by
    have h := hcov3 s3.fDes0
    unfold desSpan at h
    rw [occ_cons, occ_nil] at h
    simp only [le_refl, true_and] at h
    rw [if_pos (by omega)] at h
    unfold inFile at h
    split_ifs at h with h1
    · exact h1.1
    · omega
  have hDtop : s3.fDes0 + (s3.fDes1 + s3.fDes2 + s3.fDes3) ≤ 4294967295 := by
    have h := hcov3 (s3.fDes0 + (s3.fDes1 + s3.fDes2 + s3.fDes3) - 1)
    unfold desSpan at h
    rw [occ_cons, occ_nil] at h
    simp only [] at h
    rw [if_pos ⟨by omega, by omega⟩] at h
    unfold inFile at h
    split_ifs at h with h1
    · omega
    · omega
  have hmem : ((⟨findName s1.fNames name, subName, cycle⟩ : TFAsroKey),
      (⟨pos, buf.length, obj.data.length, findName s1.fClassNames obj.className⟩ :
        TFAsroValue)) ∈ s3.fEntries := by
    rw [e3, en2, mem_mapSet _ _ _ hW1.1.2.2.2.1]
    exact Or.inl rfl
  have hdisj : ∀ a, pos ≤ a → a < pos + buf.length →
      ¬ (s3.fDes0 ≤ a ∧ a < s3.fDes0 + (st.write s2.fEntries s2.fClassNames s2.fNames).length
        + (encodeWords ws).length) := by
    intro a h1 h2 h3
    have h := hcov3 a
    have ho := occ_pos_of_mem (a := a) hmem h1 h2
    unfold desSpan at h
    rw [occ_cons, occ_nil] at h
    simp only [] at h
    have hlw : (encodeWords ws).length ≤ s3.fDes2 := by
      rw [length_encodeWords, hws]; omega
    rw [if_pos ⟨h3.1, by omega⟩] at h
    unfold inFile at h
    split_ifs at h <;> omega
  have htbl : encodeWords ws ≠ [] := by
    obtain ⟨t, ht, _⟩ := hI3.1.2.2.1
    have h8 : s3.fDes2 = 8 * (freeList s3).length := hI3.1.2.1.1.1
    have hne : (freeList s3).length ≠ 0 := by
      intro h0
      rw [List.length_eq_zero] at h0
      rw [h0] at ht
      exact absurd ht (by simp)
    intro h
    have := length_encodeWords ws
    rw [h, hws] at this
    simp only [List.length_nil] at this
    omega
  have htl : (encodeWords ws).length = s3.fDes2 := by
    have h8 : s3.fDes2 = 8 * (freeList s3).length := hI3.1.2.1.1.1
    rw [length_encodeWords, hws, h8]
    omega
  -- the file
  obtain ⟨k0, k1, k2, k3, k4, k5⟩ :=
    disk_layout s.disk pos s3.fDes0 buf (st.write s2.fEntries s2.fClassNames s2.fNames)
      (encodeWords ws) (encodeWords [s3.fDes0, s3.fDes1, s3.fDes2, s3.fDes3]) hmagic
      (by rw [length_encodeWords]; rfl) hpos hD (List.length_pos.mp hbl0)
      (List.length_pos.mp hb.1) htbl hdisj
  rw [← hdk1, ← dk2, ← dk3] at k0 k1 k2 k3 k4 k5
  rw [← l3] at k3 k4
  rw [htl] at k4
  rw [e3, c3, n3] at hst
  have hopen := openFile_of_layout st s3.disk (st.write s2.fEntries s2.fClassNames s2.fNames)
    (encodeWords ws) s3.fDes0 s3.fDes1 s3.fDes2 s3.fDes3 k0 k1 k2 (by omega) (by omega)
    (by omega) (by omega) (by rw [l3]; exact hb.1) k3 k4
  rw [hst] at hopen
  simp only [] at hopen
  rw [hopen]
  -- Read
  obtain ⟨i1, i2, i3⟩ := findName_intern s1.fNames name
  obtain ⟨j1, j2, j3⟩ := findName_intern s1.fClassNames obj.className
  rw [← nm2] at i1 i2 i3
  rw [← cn2] at j1 j2 j3
  have hrd := read_record c name subName cycle
    { fEntries := s2.fEntries, fClassNames := s2.fClassNames, fNames := s2.fNames,
      fDes0 := s3.fDes0, fDes1 := s3.fDes1, fDes2 := s3.fDes2, fDes3 := s3.fDes3,
      fFreeReserve := s3.fDes2, fFree := slotsOfWords (decodeWords (s3.fDes2 / 4)
        (encodeWords ws)), fFile := 3, disk := s3.disk }
    ⟨findName s1.fNames name, subName, cycle⟩
    ⟨pos, buf.length, obj.data.length, findName s1.fClassNames obj.className⟩ obj.data
    (by show (0 : Int) ≤ 3; decide)
    (by show findName s2.fNames name < s2.fNames.length; rw [i1]; exact i2)
    (by
      show mapFind s2.fEntries ⟨findName s2.fNames name, subName, cycle⟩ = _
      rw [i1, en2]
      exact mapFind_mapSet _ _ _ hW1.1.2.2.2.1)
    (by show findName s1.fClassNames obj.className < s2.fClassNames.length; exact j2)
    (by
      show (obj.data.length = buf.length ∧ pread s3.disk pos obj.data.length = some obj.data) ∨
        (obj.data.length ≠ buf.length ∧ ∃ buf' b out,
          pread s3.disk pos buf.length = some buf' ∧
          Uncompress c buf' obj.data.length = some (b, out) ∧
          (out ++ List.replicate (obj.data.length - out.length) 0).take obj.data.length
            = obj.data)
      rcases hbufc with h | ⟨_, h⟩
      · left
        rw [h] at k5
        exact ⟨by rw [h], k5⟩
      · right
        obtain ⟨h1, b, h2⟩ := hcodec buf h
        refine ⟨by omega, buf, b, obj.data, k5, h2, ?_⟩
        rw [Nat.sub_self]
        simp)
  rw [hrd]
  show some (some (TObject.mk
    (s2.fClassNames.getD (findName s1.fClassNames obj.className) "") obj.data))
    = some (some obj)
  rw [j3]

set_option maxRecDepth 100000 in
theorem grow_finish : FinishWrite growShrinkStreamer shrinkFile2 = some (true, growFile3) := by
  decide

/-- Witness of C1: a new file, the 256 bytes of `echoData`, a codec that compresses them
to 255 bytes, level 1, and a streamer whose descriptor grows with the directory (4 bytes
for the committed directory). -/
theorem C1_round_trip_witness :
    InitWrite (openFile growShrinkStreamer []) = some (true, sampleFile1) ∧
    Write shrinkCodec echoObject 1 "a" "" 1 sampleFile1 = some (true, shrinkFile2) ∧
    (growShrinkStreamer.write [] [] []).length = 1 ∧
    (growShrinkStreamer.write shrinkFile2.fEntries shrinkFile2.fClassNames
      shrinkFile2.fNames).length = 4 ∧
    FinishWrite growShrinkStreamer shrinkFile2 = some (true, growFile3) ∧
    Read shrinkCodec "a" "" 1 (openFile growShrinkStreamer growFile3.disk)
      = some (some echoObject) := by
  have i1 : InitWrite (openFile growShrinkStreamer []) = some (true, sampleFile1) := rfl
  obtain ⟨b1, b2, b3, s1, s2, s3, h1, h2, h3, h4⟩ :=
    C1_round_trip growShrinkStreamer shrinkCodec echoObject 1 "a" "" 1 4
      (openFile growShrinkStreamer []) (created_inv _) rfl (by decide) shrink_zip
      (fun out h => by
        have e : some (true, shortPacked) = some (true, out) := shrink_compress.symm.trans h
        simp only [Option.some.injEq, Prod.mk.injEq, true_and] at e
        subst e
        refine ⟨?_, true, ?_⟩
        · have h : echoObject.data.length = 256 := echoData_length
          rw [shortPacked_length, h]
          decide
        · have h : echoObject.data.length = 256 := echoData_length
          rw [h]
          exact shrink_uncompress)
      (fun c1 c2 t1 t2 g1 g2 => by
        rw [i1] at g1
        simp only [Option.some.injEq, Prod.mk.injEq] at g1
        obtain ⟨_, g1⟩ := g1
        subst g1
        rw [shrink_write] at g2
        simp only [Option.some.injEq, Prod.mk.injEq] at g2
        obtain ⟨_, g2⟩ := g2
        subst g2
        exact ⟨by decide, by decide⟩)
      (by decide)
      ⟨(32, 4294967263), rfl, by decide, by
        have h : echoObject.data.length = 256 := echoData_length
        rw [h]
        decide⟩
  have e1 : s1 = sampleFile1 := by
    rw [i1] at h1
    simp only [Option.some.injEq, Prod.mk.injEq] at h1
    exact h1.2.symm
  subst e1
  have e2 : s2 = shrinkFile2 := by
    rw [shrink_write] at h2
    simp only [Option.some.injEq, Prod.mk.injEq] at h2
    exact h2.2.symm
  subst e2
  have e3 : s3 = growFile3 := by
    rw [grow_finish] at h3
    simp only [Option.some.injEq, Prod.mk.injEq] at h3
    exact h3.2.symm
  subst e3
  exact ⟨i1, shrink_write, by decide, by decide, grow_finish, h4 rfl⟩

/-- Three objects that do not fit into the address space: after two objects of
`0x60000000` bytes the third one, of 1073741820 bytes, is placed at offset 3221225496 and
ends 20 bytes behind `0xFFFFFFFF`.  `FinishWrite` then places the descriptor at offset 20,
and the four words written at offset 8 overwrite it: the reopened file has an empty
directory. -/
theorem overflow_reopen (o1 o3 : TObject) (h1 : o1.data.length = 1610612736)
    (hc1 : o1.className = "TNamed") (h3 : o3.data.length = 1073741820)
    (hc3 : o3.className = "TNamed") :
    ∃ s2 s3 s4 s5, Write sampleCodec o1 0 "a" "" 1 sampleFile1 = some (true, s2) ∧
      Write sampleCodec o1 0 "b" "" 1 s2 = some (true, s3) ∧
      Write sampleCodec o3 0 "c" "" 1 s3 = some (true, s4) ∧
      FinishWrite (memoStreamer threeDirectory) s4 = some (true, s5) ∧
      (s5.fEntries, s5.fClassNames, s5.fNames) = threeDirectory ∧
      desSpan s5 = (20, 17) ∧ freeList s5 = [(37, 4294967258)] ∧
      Read sampleCodec "c" "" 1 (openFile (memoStreamer threeDirectory) s5.disk)
        = some none := by
  obtain ⟨s2, s3, s4, w1, w2, w3, _, _, _, _, f4, fr4, d4, en4, nm4, cn4, dk4⟩ :=
    three_writes o1 o3 1073741820 h1 hc1 h3 hc3 (by decide)
  have fr4' : s4.fFree = [some (20, 4294967275)] := fr4
  obtain ⟨s5, w5, e5, c5, n5, p5, l5, d5, t5, fr5, dk5⟩ :=
    finish_single (memoStreamer threeDirectory) 20 4294967275 s4 (by rw [f4]; decide) fr4' d4
      (by show (1 + 8 + 8) % 4294967296 ≠ 4294967275; decide)
  have hw : (memoStreamer threeDirectory).write s4.fEntries s4.fClassNames s4.fNames = [7] :=
    rfl
  rw [hw] at l5 fr5 dk5
  have l5' : s5.fDes1 = 1 := l5
  have fr5' : s5.fFree = [some (37, 4294967258)] := fr5
  have hdk : s5.disk = pwrite (pwrite (pwrite (pwrite (pwrite (pwrite sampleFile1.disk 24
      o1.data) 1610612760 o1.data) 3221225496 o3.data) 20 [7]) 21
      (encodeWords [37, 4294967258])) 8 (encodeWords [20, 1, 8, 8]) := by
    rw [dk5, dk4]
    rfl
  refine ⟨s2, s3, s4, s5, w1, w2, w3, w5, ?_, ?_, ?_, ?_⟩
  · rw [e5, c5, n5, en4, nm4, cn4]; rfl
  · unfold desSpan
    rw [p5, l5', d5, t5]
  · unfold freeList TFAsroFile.numFree
    rw [fr5', d5]; rfl
  have l5b := length_pwrite_ge (pwrite (pwrite (pwrite (pwrite (pwrite sampleFile1.disk 24
    o1.data) 1610612760 o1.data) 3221225496 o3.data) 20 [7]) 21
    (encodeWords [37, 4294967258])) 8 (encodeWords [20, 1, 8, 8])
  have l4b := length_pwrite_ge (pwrite (pwrite (pwrite (pwrite sampleFile1.disk 24
    o1.data) 1610612760 o1.data) 3221225496 o3.data) 20 [7]) 21
    (encodeWords [37, 4294967258])
  have k5 := l5b.2 (by decide)
  have k4 := l4b.2 (by decide)
  have hH : (encodeWords [20, 1, 8, 8]).length = 16 := rfl
  have hT : (encodeWords [37, 4294967258]).length = 8 := rfl
  rw [hH] at k5
  rw [hT] at k4
  rw [← hdk] at l5b k5
  have hget : ∀ a, a < 29 → s5.disk.getD a 0
      = if 8 ≤ a ∧ a < 24 then (encodeWords [20, 1, 8, 8]).getD (a - 8) 0
        else if 21 ≤ a then (encodeWords [37, 4294967258]).getD (a - 21) 0
        else sampleFile1.disk.getD a 0 := by
    intro a ha
    rw [hdk]
    simp only [getD_pwrite, hH, hT, h1, h3, List.length_singleton]
    by_cases g1 : 8 ≤ a ∧ a < 24
    · rw [if_pos (by omega), if_pos g1]
    · rw [if_neg (by omega), if_neg g1]
      by_cases g2 : 21 ≤ a
      · rw [if_pos (by omega), if_pos g2]
      · rw [if_neg (by omega), if_neg g2, if_neg (by omega), if_neg (by omega),
          if_neg (by omega), if_neg (by omega)]
  have h0 : pread s5.disk 0 8 = some magic := by
    refine pread_of_getD s5.disk magic 0 (by show 0 + 8 ≤ _; omega) ?_
    intro i hi
    have hi8 : i < 8 := hi
    rw [hget _ (by omega)]
    interval_cases i <;> rfl
  have hh1 : pread s5.disk 8 16 = some (encodeWords [20, 1, 8, 8]) := by
    refine pread_of_getD s5.disk (encodeWords [20, 1, 8, 8]) 8 (by rw [hH]; omega) ?_
    intro i hi
    have hi16 : i < 16 := hi
    rw [hget _ (by omega)]
    interval_cases i <;> rfl
  have hh2 : pread s5.disk 20 1 = some [0] := by
    refine pread_of_getD s5.disk [0] 20 (by show 20 + 1 ≤ _; omega) ?_
    intro i hi
    have hi1 : i = 0 := Nat.lt_one_iff.mp hi
    subst hi1
    rw [hget _ (by omega)]
    rfl
  have hh3 : pread s5.disk (20 + 1) 8 = some [0, 0, 8, 37, 255, 255, 255, 218] := by
    refine pread_of_getD s5.disk [0, 0, 8, 37, 255, 255, 255, 218] 21
      (by show 21 + 8 ≤ _; omega) ?_
    intro i hi
    have hi8 : i < 8 := hi
    rw [hget _ (by omega)]
    interval_cases i <;> rfl
  have hopen := openFile_of_layout (memoStreamer threeDirectory) s5.disk [0]
    [0, 0, 8, 37, 255, 255, 255, 218] 20 1 8 8 (by omega) h0 hh1 (by decide) (by decide)
    (by decide) (by decide) (by decide) hh2 hh3
  rw [hopen]
  rfl

/-- Counterexample to C1 as stated.  First part: a new file, `InitWrite`, `Write` of an
object of `0x60000000` bytes under `"a"` and again under `"b"`, `Write` of an object of
1073741820 bytes under `"c"`, for which 21 bytes are missing (`GetFree` has no test for
that), `FinishWrite`; the streamer reads back the committed directory from its descriptor,
but on the reopened file `Read("c")` yields `NULL`, because the descriptor was placed at
offset 20 and the header words overwrote it.  Each of the three objects is shorter than
`0x7ffff000` bytes.  Second part: the codec compresses the 256 bytes of `echoData` to the
256 bytes of `echoPacked` and expands them again; `Write` at level 1 stores the compressed
bytes with equal lengths in the record, and `Read` on the reopened file returns the
compressed bytes. -/
theorem C1_counterexample :
    (InitWrite (openFile (memoStreamer threeDirectory) []) = some (true, sampleFile1) ∧
      gigObject.data.length = 1610612736 ∧ restObject.data.length = 1073741820 ∧
      ∃ s2 s3 s4 s5, Write sampleCodec gigObject 0 "a" "" 1 sampleFile1 = some (true, s2) ∧
        Write sampleCodec gigObject 0 "b" "" 1 s2 = some (true, s3) ∧
        Write sampleCodec restObject 0 "c" "" 1 s3 = some (true, s4) ∧
        FinishWrite (memoStreamer threeDirectory) s4 = some (true, s5) ∧
        (memoStreamer threeDirectory).read
            ((memoStreamer threeDirectory).write s5.fEntries s5.fClassNames s5.fNames)
          = (s5.fEntries, s5.fClassNames, s5.fNames) ∧
        desSpan s5 = (20, 17) ∧
        Read sampleCodec "c" "" 1 (openFile (memoStreamer threeDirectory) s5.disk)
          = some none) ∧
    (InitWrite (openFile echoStreamer []) = some (true, sampleFile1) ∧
      Compress echoCodec 1 echoData = some (true, echoPacked) ∧
      Uncompress echoCodec echoPacked 256 = some (true, echoData) ∧
      Write echoCodec echoObject 1 "a" "" 1 sampleFile1 = some (true, echoFile2) ∧
      FinishWrite echoStreamer echoFile2 = some (true, echoFile3) ∧
      echoStreamer.read
          (echoStreamer.write echoFile3.fEntries echoFile3.fClassNames echoFile3.fNames)
        = (echoFile3.fEntries, echoFile3.fClassNames, echoFile3.fNames) ∧
      Read echoCodec "a" "" 1 (openFile echoStreamer echoFile3.disk)
        = some (some ⟨"TNamed", echoPacked⟩) ∧
      (⟨"TNamed", echoPacked⟩ : TObject) ≠ echoObject) := by
  refine ⟨⟨rfl, List.length_replicate _ _, List.length_replicate _ _, ?_⟩,
    rfl, echo_compress, echo_uncompress, echo_write, echo_finish, rfl, echo_read, by decide⟩
  obtain ⟨s2, s3, s4, s5, w1, w2, w3, w5, hd, hs, _, hr⟩ :=
    overflow_reopen gigObject restObject (List.length_replicate _ _) rfl
      (List.length_replicate _ _) rfl
  exact ⟨s2, s3, s4, s5, w1, w2, w3, w5, by rw [hd]; rfl, hs, hr⟩

theorem lastBytesFile_rep : TableRep lastBytesFile [(4294967280, 5), (4294967290, 5)] :=
  ⟨rfl, rfl, by decide, [], rfl⟩

theorem lastBytesFile_wf : FreeWF [(4294967280, 5), (4294967290, 5)] :=
  FreeWF_pair (by decide) (by decide) (by decide) (by decide)

set_option maxRecDepth 100000 in
theorem sample_compress_fails :
    ∀ out, Compress sampleCodec 0 echoObject.data ≠ some (true, out) := by
  intro out h
  have e : Compress sampleCodec 0 echoObject.data = some (false, []) := by decide
  rw [e] at h
  simp at h

/-- Witness of C28.  The table with the single range `(2147483670, 2147483625)` and a
request for `0x7FFFFFFE` bytes, which no range can hold.  The table with the ranges
`(4294967280, 5)` and `(4294967290, 5)`: the `Write` of the 256 bytes of `echoObject`
returns and leaves the first range as `(240, 4294967045)`; `FinishWrite`, which needs 25
bytes, returns, stores the offset 4294967280 in `fDes[0]` and leaves the first range as
`(9, 4294967276)`. -/
theorem C28_no_exhaustion_check_witness :
    TableRep nearlyFull [(2147483670, 2147483625)] ∧ FreeWF [(2147483670, 2147483625)] ∧
    (2147483646 : Nat) < 4294967296 ∧
    (∀ x ∈ [((2147483670 : Nat), (2147483625 : Nat))], x.2 < 2147483646) ∧
    (∃ s', GetFree 2147483646 nearlyFull = some (2147483670, s') ∧
      freeList s' = [(20, 4294967275)]) ∧
    TableRep lastBytesFile [(4294967280, 5), (4294967290, 5)] ∧
    FreeWF [(4294967280, 5), (4294967290, 5)] ∧
    (∃ b s', Write sampleCodec echoObject 0 "a" "" 1 lastBytesFile = some (b, s') ∧
      s'.fEntries = [(⟨0, "", 1⟩, ⟨4294967280, 256, 256, 0⟩)] ∧
      freeList s' = [(240, 4294967045), (4294967290, 5)]) ∧
    (∃ b s', FinishWrite sampleStreamer lastBytesFile = some (b, s') ∧
      s'.fDes0 = 4294967280 ∧ s'.fDes1 = 1 ∧
      freeList s' = [(9, 4294967276), (4294967290, 5)]) := by
  refine ⟨nearlyFull_rep, by unfold FreeWF; decide, by decide, by decide, ?_,
    lastBytesFile_rep, lastBytesFile_wf, ?_, ?_⟩
  · obtain ⟨s', h1, _, h3, _⟩ :=
      (C28_no_exhaustion_check sampleStreamer sampleCodec 2147483646 nearlyFull
        [(2147483670, 2147483625)] nearlyFull_rep (by unfold FreeWF; decide)
        (by decide)).2.1 (by decide) (2147483670, 2147483625) [] rfl
    exact ⟨s', h1, h3⟩
  · obtain ⟨b, s', pos, buf, hW, hbuf, hE, _, hex⟩ :=
      (C28_no_exhaustion_check sampleStreamer sampleCodec 0 lastBytesFile
        [(4294967280, 5), (4294967290, 5)] lastBytesFile_rep lastBytesFile_wf
        (by decide)).2.2.1 echoObject 0 "a" "" 1 (4294967280, 5) [(4294967290, 5)] (by decide)
        rfl rfl (fun _ _ => Nat.zero_le _)
    have hb : buf = echoObject.data := by
      rcases hbuf with h | h
      · exact h
      · exact absurd h (sample_compress_fails buf)
    subst hb
    have hl : echoObject.data.length = 256 := echoData_length
    rw [hl] at hex hE
    obtain ⟨hp, hf⟩ := hex (by decide)
    subst hp
    exact ⟨b, s', hW, hE, hf⟩
  · obtain ⟨b, s', hF, h1, _, hex⟩ :=
      (C28_no_exhaustion_check sampleStreamer sampleCodec 0 lastBytesFile
        [(4294967280, 5), (4294967290, 5)] lastBytesFile_rep lastBytesFile_wf
        (by decide)).2.2.2 (4294967280, 5) [(4294967290, 5)] (by decide) rfl
    obtain ⟨hp, hf⟩ := hex (by decide)
    exact ⟨b, s', hF, hp, h1, hf⟩

end TFAsro
